import Mathlib

/-!
# Block-counting carry-over tutor: step engine and paper trace

A shallow embedding of `src/blockCountingDemo` (`main.js`, `carryoverLogic.js`,
`paperAddition.js`), and of the game state of the skip-counting game
(`src/3dskipCounting/3dplatformerskipcounting.js`, namespace `SkipCounting`).

The step engine keeps its live numbers (`tempState.num1`, `tempState.num2`) by
re-reading the rendered blocks (`updateTempStateFromBlocks`), so the embedding
carries the part of the document the engine reads and writes:

* two number containers (`#num1-container`, `#num2-container`), each with its
  place-value stacks (label text and the value written on every block) and the
  items of its place-value legend;
* the engine state: the original numbers, the place table, the live numbers,
  the step cursor, the step history and the handlers installed for the
  current step.

Texts are kept as far as the code compares them: a label text is one of the
seven place labels or some other text (`none`); a legend item is recorded by
the place label its text mentions (`none` once it is blanked).  JavaScript
numbers are natural numbers here (all values stay far below `2^53`).

Asynchrony: `processNextCarryStep` is an `async` function that suspends at its
first `await` before it computes the next step; `performAutomaticRegrouping`
starts a 100 ms timer for `setupSecondPhaseRegrouping`.  A learner action is
modelled as the handler, then the continuation of `processNextCarryStep`, then
the timer callback, in that order.
-/

namespace BlockCounting

/-! ## Place labels and small JavaScript helpers -/

/-- The place labels of `refrenceValues` (`render`, main.js): "Ones", "Tens",
"Hundreds", "Thousands", "Ten Thousands", "Hundred Thousands", "Million". -/
inductive PlaceLabel where
  | Ones
  | Tens
  | Hundreds
  | Thousands
  | TenThousands
  | HundredThousands
  | Million
  deriving DecidableEq, Repr

/-- Table `refrenceValues` of `render`. -/
def refrenceValues : List PlaceLabel :=
  [.Ones, .Tens, .Hundreds, .Thousands, .TenThousands, .HundredThousands, .Million]

/-- Position of a label in `refrenceValues`. -/
def PlaceLabel.index : PlaceLabel → Nat
  | .Ones => 0
  | .Tens => 1
  | .Hundreds => 2
  | .Thousands => 3
  | .TenThousands => 4
  | .HundredThousands => 5
  | .Million => 6

/-- Substring test between label texts, `outer.includes(inner)`: a label text
contains itself, and "Ten Thousands" and "Hundred Thousands" contain
"Thousands"; no other label text occurs inside another one. -/
def PlaceLabel.includes (outer inner : PlaceLabel) : Bool :=
  match outer, inner with
  | .TenThousands, .Thousands => true
  | .HundredThousands, .Thousands => true
  | a, b => decide (a = b)

/-- Strict equality `text === label` of a label text of the document with a
value of the place table; `label = none` is `undefined`, which no text
equals, and `text = none` is a text that is no place label. -/
def textEq (text label : Option PlaceLabel) : Bool :=
  match text, label with
  | some a, some b => decide (a = b)
  | _, _ => false

/-- Test `item.textContent.includes(text)` on a legend item: every string
contains the empty text (`text = none`); a blanked item contains nothing
else; an item written for label `l` contains the label texts inside `l`. -/
def legendIncludes (item text : Option PlaceLabel) : Bool :=
  match text, item with
  | none, _ => true
  | some _, none => false
  | some t, some l => l.includes t

/-- Test `item.textContent.includes("(" + label + ")")` on a legend item. -/
def legendIncludesParen (item text : Option PlaceLabel) : Bool :=
  match text, item with
  | some t, some l => decide (l = t)
  | _, _ => false

/-- Result of `placeOrder.indexOf(x)` on the place table; `none` stands for
JavaScript's `-1`.  An `undefined` entry is found by `indexOf(undefined)`. -/
def indexOf : List (Option PlaceLabel) → Option PlaceLabel → Option Nat
  | [], _ => none
  | y :: ys, x => if y = x then some 0 else (indexOf ys x).map (· + 1)

/-- Result of `placeLabels.indexOf(text)` for a label text of the document: a
text that is no place label is not in the table. -/
def indexOfText (placeLabels : List (Option PlaceLabel)) (text : Option PlaceLabel) :
    Option Nat :=
  match text with
  | none => none
  | some l => indexOf placeLabels (some l)

/-- Value of `currentIndex + 1` where `currentIndex` comes from `indexOf`. -/
def indexPlusOne : Option Nat → Nat
  | none => 0
  | some i => i + 1

/-- Entry `placeOrder[i]`, `undefined` (`none`) outside the table. -/
def labelAt (placeOrder : List (Option PlaceLabel)) (i : Nat) : Option PlaceLabel :=
  (placeOrder.get? i).join

/-- Entry `placeOrder[currentIndex]` where `currentIndex` comes from `indexOf`. -/
def labelAtIndex (placeOrder : List (Option PlaceLabel)) : Option Nat → Option PlaceLabel
  | none => none
  | some i => labelAt placeOrder i

/-- Value of `a || b` on numbers: `0` is falsy. -/
def jsOr (a b : Nat) : Nat := if a = 0 then b else a

/-- Function `getDigit(num, index)` of main.js. -/
def getDigit (num index : Nat) : Nat := num / 10 ^ index % 10

/-- Decimal digits of a number, least significant first, by at most `fuel`
divisions (a number has at most `n + 1` digits, the fuel `toStringDigits` gives). -/
def digitsLS : Nat → Nat → List Nat
  | 0, _ => []
  | fuel + 1, n => if n < 10 then [n] else (n % 10) :: digitsLS fuel (n / 10)

/-- Digits of `n.toString()`, most significant first (`[0]` for zero). -/
def toStringDigits (n : Nat) : List Nat := (digitsLS (n + 1) n).reverse

/-- Value of `n.toString().length`. -/
def numLength (n : Nat) : Nat := (toStringDigits n).length

/-! ## The document -/

/-- One `.place-value-stack`: its node identity, the text of its
`.place-stack-label` and the number written on each `.block` of its
`.vertical-block-container`. -/
structure Stack where
  id : Nat
  label : Option PlaceLabel
  blocks : List Nat
  deriving DecidableEq, Repr

/-- One `.number-container`: the items of its `.place-value-legend` and its
place-value stacks in document order. -/
structure NumberContainer where
  legend : List (Option PlaceLabel)
  placeStacks : List Stack
  deriving DecidableEq, Repr

/-- The two operands, in document order. -/
inductive Operand where
  | first
  | second
  deriving DecidableEq, Repr

/-- Kind of interaction of a step (`interactionType`). -/
inductive InteractionType where
  | dragDrop
  | numpad
  deriving DecidableEq, Repr

/-- The numbers a step's `instruction` text states. -/
inductive Instruction where
  | drag (blocksToMove lowerDigit upperDigit carry : Nat)
  | enter (result : Nat)
  deriving DecidableEq, Repr

/-- The step object returned by `calculateCurrentStep`. -/
structure Step where
  placeIndex : Nat
  placeLabel : Option PlaceLabel
  digit1 : Nat
  digit2 : Nat
  sum : Nat
  needsCarry : Bool
  interactionType : InteractionType
  result : Nat
  carryOut : Nat
  beforeNum1 : Nat
  beforeNum2 : Nat
  instruction : Instruction
  stepIndex : Nat
  deriving DecidableEq, Repr

/-- Record `regroupingDetails` written by `trackCarriedBlocks`; `toPlace` is
`none` for the text 'None'. -/
structure RegroupingDetails where
  blocksRemoved : Nat
  blocksAdded : Nat
  fromPlace : Option PlaceLabel
  toPlace : Option PlaceLabel
  deriving DecidableEq, Repr

/-- One record of `tempState.stepDetails` (`trackStepDetails`); `draggedBlocks`
keeps the value of every dragged block. -/
structure StepDetail where
  stepIndex : Nat
  placeLabel : Option PlaceLabel
  beforeNumbers : Nat × Nat
  afterNumbers : Option (Nat × Nat)
  draggedBlocks : List Nat
  carriedBlocks : Nat
  regroupingDetails : Option RegroupingDetails
  actionType : InteractionType
  deriving DecidableEq, Repr

/-- What the page offers the learner for the current step. -/
inductive Surface where
  /-- The numpad buttons call `handleNumpadInput(state, step, i)`. -/
  | numpad (step : Step)
  /-- The blocks of row `drag` can be dragged and the drop handler
  `handleInteractiveRegroupingComplete(state, step, e)` sits on row `drop`. -/
  | dragDrop (step : Step) (drag drop : Nat)
  /-- No handler for the current step: all steps are done, or setting up the
  step threw and the session is followed no further. -/
  | idle
  deriving DecidableEq, Repr

/-- The session: `state` of main.js, `tempState` of carryoverLogic.js and the
part of the document they read. -/
structure Session where
  originalNum1 : Nat
  originalNum2 : Nat
  placeLabels : List (Option PlaceLabel)
  c1 : NumberContainer
  c2 : NumberContainer
  nextId : Nat
  num1 : Nat
  num2 : Nat
  currentStepIndex : Nat
  stepDetails : List StepDetail
  surface : Surface
  completed : Bool
  deriving DecidableEq, Repr

/-- Container of an operand. -/
def Session.container (s : Session) : Operand → NumberContainer
  | .first => s.c1
  | .second => s.c2

/-- Replace the container of an operand. -/
def Session.setContainer (s : Session) (o : Operand) (c : NumberContainer) : Session :=
  match o with
  | .first => { s with c1 := c }
  | .second => { s with c2 := c }

/-! ## Reading and updating the document -/

/-- Function `calculateNumberFromBlocks(numberContainer)`: the sum of the
numbers written on all blocks of the container. -/
def calculateNumberFromBlocks (c : NumberContainer) : Nat :=
  (c.placeStacks.map (fun stack => stack.blocks.sum)).sum

/-- Function `updateTempStateFromBlocks()`. -/
def updateTempStateFromBlocks (s : Session) : Session :=
  { s with num1 := calculateNumberFromBlocks s.c1, num2 := calculateNumberFromBlocks s.c2 }

/-- The stack with node identity `id`, when it is in the document, and the
operand whose container holds it. -/
def findStack (s : Session) (id : Nat) : Option (Operand × Stack) :=
  match s.c1.placeStacks.find? (fun st => st.id = id) with
  | some st => some (.first, st)
  | none => (s.c2.placeStacks.find? (fun st => st.id = id)).map (fun st => (Operand.second, st))

/-- Apply `f` to the first stack that satisfies `p`. -/
def modifyFirst (p : Stack → Bool) (f : Stack → Stack) : List Stack → List Stack
  | [] => []
  | st :: rest => if p st then f st :: rest else st :: modifyFirst p f rest

/-- Blank the last legend item whose text contains "(label)"
(`targetLegendItem.textContent = ''`). -/
def blankLastMatch (text : Option PlaceLabel) : List (Option PlaceLabel) → List (Option PlaceLabel)
  | [] => []
  | item :: rest =>
      if rest.any (fun i => legendIncludesParen i text) then item :: blankLastMatch text rest
      else if legendIncludesParen item text then none :: rest
      else item :: rest

/-- Function `updateLegendAfterBlockRemoval(stack, placeLabel, removed, remaining)`
on the container of the stack: with blocks remaining the item is rewritten
for the same label, with none it is blanked. -/
def updateLegendAfterBlockRemoval (c : NumberContainer) (placeLabel : Option PlaceLabel)
    (remainingCount : Nat) : NumberContainer :=
  if remainingCount > 0 then c
  else { c with legend := blankLastMatch placeLabel c.legend }

/-- Append a new place-value stack holding one block, and its legend item, to
the container of operand `o` (second half of `createBlockInPlace`). -/
def appendNewStack (s : Session) (o : Operand) (placeLabel : Option PlaceLabel)
    (blockValue : Nat) : Session :=
  let c := s.container o
  let newStack : Stack := { id := s.nextId, label := placeLabel, blocks := [blockValue] }
  let s1 := s.setContainer o
    { legend := c.legend ++ [placeLabel], placeStacks := c.placeStacks ++ [newStack] }
  { s1 with nextId := s.nextId + 1 }

/-- Append a block to the first stack of operand `o` whose label text is
`placeLabel`. -/
def appendBlock (s : Session) (o : Operand) (placeLabel : Option PlaceLabel)
    (blockValue : Nat) : Session :=
  let c := s.container o
  let rows := modifyFirst (fun st => textEq st.label placeLabel)
    (fun st => { st with blocks := st.blocks ++ [blockValue] }) c.placeStacks
  s.setContainer o { c with placeStacks := rows }

/-- Does operand `o` have a stack whose label text is `placeLabel`? -/
def hasStack (s : Session) (o : Operand) (placeLabel : Option PlaceLabel) : Bool :=
  (s.container o).placeStacks.any (fun st => textEq st.label placeLabel)

/-- Function `createBlockInPlace(placeLabel, blockValue, dropEvent)`: with a
drop event only the container of the drop target is searched, without one
both containers in document order; the block goes to the first stack with
that label, else to a new stack in the first container searched.  Returns
the operand whose container holds `addedRow`. -/
def createBlockInPlace (s : Session) (placeLabel : Option PlaceLabel) (blockValue : Nat)
    (dropEvent : Option Operand) : Session × Operand :=
  match dropEvent with
  | some o =>
      if hasStack s o placeLabel then (appendBlock s o placeLabel blockValue, o)
      else (appendNewStack s o placeLabel blockValue, o)
  | none =>
      if hasStack s .first placeLabel then (appendBlock s .first placeLabel blockValue, .first)
      else if hasStack s .second placeLabel then
        (appendBlock s .second placeLabel blockValue, .second)
      else (appendNewStack s .first placeLabel blockValue, .first)

/-- The label `nextPlaceLabel` of `updateHigherPlaceRow`: with `groupiften` the
label of `currentRow` itself as the place table has it, otherwise the table
entry after it. -/
def higherPlaceLabel (s : Session) (currentRow : Stack) (groupiften : Bool) : Option PlaceLabel :=
  let currentIndex := indexOfText s.placeLabels currentRow.label
  if groupiften then labelAtIndex s.placeLabels currentIndex
  else labelAt s.placeLabels (indexPlusOne currentIndex)

/-- Function `updateHigherPlaceRow(dropTarget, state, groupiften)`, where
`o` is the operand whose container holds `dropTarget`.  The place looked at
is the one of the first stack of that container; when no legend item
mentions the label found, an item is added and the function returns early,
otherwise `updateHigherPlaceBlockCounts` runs for the stack with that label
and refreshes the live numbers. -/
def updateHigherPlaceRow (s : Session) (o : Operand) (groupiften : Bool) : Session :=
  match (s.container o).placeStacks.head? with
  | none => s
  | some currentRow =>
      if (higherPlaceLabel s currentRow groupiften).isSome &&
          !((s.container o).legend.any
            (fun item => legendIncludes item (higherPlaceLabel s currentRow groupiften))) then
        s.setContainer o
          { (s.container o) with
            legend := (s.container o).legend ++ [higherPlaceLabel s currentRow groupiften] }
      else if (s.container o).placeStacks.any
          (fun st => textEq st.label (higherPlaceLabel s currentRow groupiften)) then
        updateTempStateFromBlocks s
      else s

/-- Remove from a container the legend items whose text contains `text`. -/
def removeLegendItems (text : Option PlaceLabel) (c : NumberContainer) : NumberContainer :=
  { c with legend := c.legend.filter (fun item => !legendIncludes item text) }

/-- Remove the stacks without blocks from a container. -/
def removeEmptyRows (c : NumberContainer) : NumberContainer :=
  { c with placeStacks := c.placeStacks.filter (fun st => !st.blocks.isEmpty) }

/-- Function `updateAllRowPlaceValues()`: every stack without blocks is removed,
together with the legend items of both containers that contain its label
text; the legend item of a stack with blocks is rewritten for the same label. -/
def updateAllRowPlaceValues (s : Session) : Session :=
  let s1 := (s.c1.placeStacks ++ s.c2.placeStacks).foldl
    (fun acc row =>
      if row.blocks.isEmpty then
        { acc with c1 := removeLegendItems row.label acc.c1, c2 := removeLegendItems row.label acc.c2 }
      else acc) s
  { s1 with c1 := removeEmptyRows s1.c1, c2 := removeEmptyRows s1.c2 }

/-- Remove the stack with node identity `id` from the container of `o`. -/
def removeRow (s : Session) (o : Operand) (id : Nat) : Session :=
  let c := s.container o
  s.setContainer o { c with placeStacks := c.placeStacks.filter (fun st => !decide (st.id = id)) }

/-- The regrouping `groupIfMoreThanTen` does for one row of operand `o` whose
place has table index `currentIndex`: one block of the next place is created
(`createBlockInPlace` without drop event), the row's legend item is blanked,
the row is removed and `updateHigherPlaceRow(addedRow, state, true)` runs. -/
def regroupRow (s : Session) (o : Operand) (rowId : Nat) (rowLabel : Option PlaceLabel)
    (currentIndex : Nat) : Session :=
  let created := createBlockInPlace s (labelAt s.placeLabels (currentIndex + 1))
    (10 ^ (currentIndex + 1)) none
  let s2 := created.1.setContainer o
    (updateLegendAfterBlockRemoval (created.1.container o) rowLabel 0)
  updateHigherPlaceRow (removeRow s2 o rowId) created.2 true

/-- Body of the loop of `groupIfMoreThanTen` for one row: a row with ten or
more blocks whose place is in the table and is not its last one is
regrouped. -/
def groupRow (s : Session) (rowId : Nat) : Session :=
  match findStack s rowId with
  | none => s
  | some (o, row) =>
      if row.blocks.length ≥ 10 then
        match indexOfText s.placeLabels row.label with
        | none => s
        | some currentIndex =>
            if currentIndex + 1 < s.placeLabels.length then
              regroupRow s o rowId row.label currentIndex
            else s
      else s

/-- Function `groupIfMoreThanTen(nextPlaceRows)`. -/
def groupIfMoreThanTen (s : Session) (nextPlaceRows : List Nat) : Session :=
  nextPlaceRows.foldl groupRow s

/-! ## The step engine (carryoverLogic.js) -/

/-- Function `calculateCurrentStep(state, stepIndex)`: the digits are read from
the live numbers, with `state.originalNum1` / `state.originalNum2` taken
where a live number is `0` (`tempState.num1 || state.originalNum1`).
`some none` is the result `null` (no more steps).  The outer `none` is the
TypeError of `generateDynamicStepExplanations`, which calls
`placeLabel.toLowerCase()` on the table entry of the step: an `undefined`
entry makes the call throw before a step object is built.  The explanation
texts themselves are not kept. -/
def calculateCurrentStep (s : Session) (stepIndex : Nat) : Option (Option Step) :=
  let currentNum1 := jsOr s.num1 s.originalNum1
  let currentNum2 := jsOr s.num2 s.originalNum2
  if stepIndex ≥ s.placeLabels.length then some none
  else if (labelAt s.placeLabels stepIndex).isNone then none
  else
    let d1 := currentNum1 / 10 ^ stepIndex % 10
    let d2 := currentNum2 / 10 ^ stepIndex % 10
    let sum := d1 + d2
    let lowerDigit := if d1 > d2 then d2 else d1
    let upperDigit := if d1 > d2 then d1 else d2
    some (some
      { placeIndex := stepIndex
        placeLabel := labelAt s.placeLabels stepIndex
        digit1 := d1
        digit2 := d2
        sum := sum
        needsCarry := decide (sum ≥ 10)
        interactionType := if sum ≥ 10 then .dragDrop else .numpad
        result := sum % 10
        carryOut := sum / 10
        beforeNum1 := currentNum1
        beforeNum2 := currentNum2
        instruction :=
          if sum ≥ 10 then .drag (10 - upperDigit) lowerDigit upperDigit (sum / 10)
          else .enter (sum % 10)
        stepIndex := stepIndex })

/-- Function `trackStepDetails(stepInfo)`: one record is appended to
`tempState.stepDetails`. -/
def trackStepDetails (s : Session) (step : Step) (actionType : InteractionType) : Session :=
  let stepDetail : StepDetail :=
    { stepIndex := s.currentStepIndex
      placeLabel := step.placeLabel
      beforeNumbers := (jsOr step.beforeNum1 s.num1, jsOr step.beforeNum2 s.num2)
      afterNumbers := none
      draggedBlocks := []
      carriedBlocks := 0
      regroupingDetails := none
      actionType := actionType }
  { s with stepDetails := s.stepDetails ++ [stepDetail] }

/-- Apply `f` to the record `tempState.stepDetails[i]`, when there is one. -/
def modifyStepDetail (details : List StepDetail) (i : Nat) (f : StepDetail → StepDetail) :
    List StepDetail :=
  match details.get? i with
  | none => details
  | some d => details.set i (f d)

/-- Function `trackDraggedBlock(blockInfo)`. -/
def trackDraggedBlock (s : Session) (value : Nat) : Session :=
  let details := modifyStepDetail s.stepDetails s.currentStepIndex
    (fun d => { d with draggedBlocks := d.draggedBlocks ++ [value] })
  { s with stepDetails := details }

/-- Function `trackCarriedBlocks(carryInfo)`. -/
def trackCarriedBlocks (s : Session) (info : RegroupingDetails) (amount : Nat) : Session :=
  let details := modifyStepDetail s.stepDetails s.currentStepIndex
    (fun d => { d with carriedBlocks := amount, regroupingDetails := some info })
  { s with stepDetails := details }

/-- The stacks of operand `o` whose label text is `label`, as pairs of node
identity and block count. -/
def rowsWithLabel (s : Session) (o : Operand) (label : Option PlaceLabel) : List (Nat × Nat) :=
  ((s.container o).placeStacks.filter (fun st => textEq st.label label)).map
    (fun st => (st.id, st.blocks.length))

/-- Insert a row into a list sorted by block count, before the first row with
at least as many blocks. -/
def insertByBlockCount (row : Nat × Nat) : List (Nat × Nat) → List (Nat × Nat)
  | [] => [row]
  | r :: rest => if row.2 ≤ r.2 then row :: r :: rest else r :: insertByBlockCount row rest

/-- Stable sort `nextPlaceRows.sort((a, b) => a.blockCount - b.blockCount)`. -/
def sortByBlockCount (rows : List (Nat × Nat)) : List (Nat × Nat) :=
  rows.foldr insertByBlockCount []

/-- The drag source container and the drop target container of
`setUpDragDropRows`: the first two stacks with the label and at least one
block are compared; the one with fewer or equally many blocks is the source. -/
def dragDropContainers (s : Session) (labelToLookFor : Option PlaceLabel) :
    Option Operand × Option Operand :=
  let info := fun (o : Operand) =>
    ((rowsWithLabel s o labelToLookFor).filter (fun r => r.2 > 0)).map (fun r => (o, r.2))
  match info .first ++ info .second with
  | a :: b :: _ => if a.2 ≤ b.2 then (some a.1, some b.1) else (some b.1, some a.1)
  | [a] => (some a.1, none)
  | [] => (none, none)

/-- The rows with the label in the drag source container. -/
def sourceRows (s : Session) (labelToLookFor : Option PlaceLabel) : List (Nat × Nat) :=
  match (dragDropContainers s labelToLookFor).1 with
  | some o => rowsWithLabel s o labelToLookFor
  | none => []

/-- The rows with the label in the drop target container. -/
def targetRows (s : Session) (labelToLookFor : Option PlaceLabel) : List (Nat × Nat) :=
  match (dragDropContainers s labelToLookFor).2 with
  | some o => rowsWithLabel s o labelToLookFor
  | none => []

/-- The list `nextPlaceRows` of `setUpDragDropRows`. -/
def nextPlaceRows (s : Session) (labelToLookFor : Option PlaceLabel) : List (Nat × Nat) :=
  sourceRows s labelToLookFor ++ targetRows s labelToLookFor

/-- The row `dragSourceRow` that `setUpDragDropRows` returns: with two rows or
more the first of the rows sorted by block count. -/
def dragSourceRow (s : Session) (labelToLookFor : Option PlaceLabel) : Option Nat :=
  if (nextPlaceRows s labelToLookFor).length ≥ 2 then
    ((sortByBlockCount (nextPlaceRows s labelToLookFor)).get? 0).map (fun r => r.1)
  else (sourceRows s labelToLookFor).getLast?.map (fun r => r.1)

/-- The row `dropTargetRow` that `setUpDragDropRows` returns: with two rows or
more the second of the rows sorted by block count. -/
def dropTargetRow (s : Session) (labelToLookFor : Option PlaceLabel) : Option Nat :=
  if (nextPlaceRows s labelToLookFor).length ≥ 2 then
    ((sortByBlockCount (nextPlaceRows s labelToLookFor)).get? 1).map (fun r => r.1)
  else (targetRows s labelToLookFor).getLast?.map (fun r => r.1)

/-- Function `setUpDragDropRows(state, labelToLookFor)`.  The rows with that
label in the drag source and drop target containers are passed to
`groupIfMoreThanTen`, then `updateAllRowPlaceValues` runs; the block counts
that order the rows are taken before grouping.  Returns the session and the
node identities of `drag` and `drop`. -/
def setUpDragDropRows (s : Session) (labelToLookFor : Option PlaceLabel) :
    Session × Option Nat × Option Nat :=
  (updateAllRowPlaceValues
      (groupIfMoreThanTen s ((nextPlaceRows s labelToLookFor).map (fun r => r.1))),
    dragSourceRow s labelToLookFor, dropTargetRow s labelToLookFor)

/-- End of `enableDragDropForCarryStep`: the drop handler is put on the drop
target row.  Without a drop target `drop.target` throws (line 576) before
`startDragDropStep` clears the question area (line 360): no handler is
installed, and the prompt and the handlers of the step before stay as they
are. -/
def installDropHandler (s : Session) (step : Step) : Option Nat → Option Nat → Session
  | some drag, some drop => { s with surface := .dragDrop step drag drop }
  | _, _ => s

/-- Function `startDragDropStep(state, step)` with `enableDragDropForCarryStep`:
the step is recorded, the rows are set up and the drop handler is installed. -/
def startDragDropStep (s : Session) (step : Step) : Session :=
  installDropHandler
    (setUpDragDropRows (trackStepDetails s step .dragDrop) step.placeLabel).1 step
    (dragSourceRow (trackStepDetails s step .dragDrop) step.placeLabel)
    (dropTargetRow (trackStepDetails s step .dragDrop) step.placeLabel)

/-- The rows `setupNumpadForStep` passes to `groupIfMoreThanTen`: every stack
of the document with ten or more blocks. -/
def fullRows (s : Session) : List Nat :=
  ((s.c1.placeStacks ++ s.c2.placeStacks).filter (fun st => st.blocks.length ≥ 10)).map
    (fun st => st.id)

/-- Function `startNumpadStep(state, step)` with `setupNumpadForStep`: the step
is recorded, every stack of the document with ten or more blocks is passed
to `groupIfMoreThanTen`, and the numpad is shown. -/
def startNumpadStep (s : Session) (step : Step) : Session :=
  { groupIfMoreThanTen (trackStepDetails s step .numpad)
      (fullRows (trackStepDetails s step .numpad)) with surface := .numpad step }

/-- Function `processNextCarryStep(state)` after its `await` (lines 189 to
215), for the index `currentIndex` it read before the `await` (line 163): the
step of that index is computed from the live numbers; without one the session
is complete.  When `calculateCurrentStep` throws, the promise is rejected,
no step is set up and the page stays as it is. -/
def resumeNextCarryStep (s : Session) (currentIndex : Nat) : Session :=
  match calculateCurrentStep s currentIndex with
  | none => s
  | some none => { s with surface := .idle, completed := true }
  | some (some step) =>
      match step.interactionType with
      | .dragDrop => startDragDropStep s step
      | .numpad => startNumpadStep s step

/-- Function `processNextCarryStep(state)` when nothing runs between its start
and its end: the index it reads is the cursor.  This is the call
`processNextCarryStep(state, true)` of `startInteractiveCarryOver`, which
has no `await`, and any other call whose `await` is over before another
handler or callback runs. -/
def processNextCarryStep (s : Session) : Session :=
  resumeNextCarryStep s s.currentStepIndex

/-- Function `handleNumpadInput(state, step, inputValue)` up to the point where
the `processNextCarryStep` it calls suspends. -/
def handleNumpadInput (s : Session) (step : Step) (inputValue : Nat) : Session :=
  let correctAnswer := step.digit1 + step.digit2
  if inputValue = correctAnswer then
    let s1 := updateAllRowPlaceValues s
    { s1 with currentStepIndex := s1.currentStepIndex + 1 }
  else s

/-- Function `moveToNextStep(state)` up to the point where the
`processNextCarryStep` it calls suspends. -/
def moveToNextStep (s : Session) : Session :=
  let details :=
    if s.stepDetails.length > 0 then
      modifyStepDetail s.stepDetails s.currentStepIndex
        (fun d => { d with afterNumbers := some (s.num1, s.num2) })
    else s.stepDetails
  { s with stepDetails := details, currentStepIndex := s.currentStepIndex + 1 }

/-- Apply `f` to the blocks of the stack with node identity `id` in the
container of `o`. -/
def modifyRow (s : Session) (o : Operand) (id : Nat) (f : List Nat → List Nat) : Session :=
  let c := s.container o
  let rows := c.placeStacks.map (fun st => if st.id = id then { st with blocks := f st.blocks } else st)
  s.setContainer o { c with placeStacks := rows }

/-- Function `removeBlocksFromPlace(placeLabel, count, dropEvent)`: in the
container of the drop target, the first stack with that label loses up to
`count` blocks from its end, and its legend item is updated. -/
def removeBlocksFromPlace (s : Session) (placeLabel : Option PlaceLabel) (count : Nat)
    (target : Operand) : Session :=
  let c := s.container target
  match c.placeStacks.find? (fun st => textEq st.label placeLabel) with
  | none => s
  | some stack =>
      let removed := min count stack.blocks.length
      let rows := modifyFirst (fun st => textEq st.label placeLabel)
        (fun st => { st with blocks := st.blocks.take (st.blocks.length - removed) }) c.placeStacks
      let c1 : NumberContainer := { c with placeStacks := rows }
      s.setContainer target
        (updateLegendAfterBlockRemoval c1 placeLabel (stack.blocks.length - removed))

/-- The entry `nextPlace` of `performAutomaticRegrouping`:
`placeOrder[placeOrder.indexOf(step.placeLabel) + 1]`. -/
def nextPlaceOf (s : Session) (step : Step) : Option PlaceLabel :=
  labelAt s.placeLabels (indexPlusOne (indexOf s.placeLabels step.placeLabel))

/-- Function `performAutomaticRegrouping(state, step, dropEvent, draggedBlock)`
without its timer: the dragged block (block `k` of row `drag` of operand
`source`) leaves the document, up to ten blocks leave the stack of the
step's place in the drop target's container, and one block of the next
place is created there when the place table has a next label. -/
def performAutomaticRegrouping (s : Session) (step : Step) (source : Operand) (drag k : Nat)
    (target : Operand) : Session :=
  let s1 := modifyRow s source drag (fun blocks => blocks.eraseIdx k)
  let s2 := trackCarriedBlocks s1
    { blocksRemoved := 10, blocksAdded := 1, fromPlace := step.placeLabel,
      toPlace := nextPlaceOf s step } 1
  let s3 := removeBlocksFromPlace s2 step.placeLabel 10 target
  if (nextPlaceOf s step).isSome then
    (createBlockInPlace s3 (nextPlaceOf s step)
      (10 ^ indexPlusOne (indexOf s.placeLabels step.placeLabel)) (some target)).1
  else s3

/-- What a drop did: it was an incomplete move (with or without advancing the
cursor) or it completed the regrouping (with the `nextPlace` handed to the
timer). -/
inductive DropOutcome where
  | incomplete (advanced : Bool)
  | regrouped (nextPlace : Option PlaceLabel)
  deriving DecidableEq, Repr

/-- Branch `actualBlocks >= 9` of `handleInteractiveRegroupingComplete`, up to
the point where `processNextCarryStep` suspends. -/
def regroupDrop (s : Session) (step : Step) (source : Operand) (drag k : Nat)
    (target : Operand) : Session :=
  moveToNextStep
    (updateAllRowPlaceValues
      (updateTempStateFromBlocks
        (updateHigherPlaceRow (performAutomaticRegrouping s step source drag k target)
          target false)))

/-- Start of the other branch of `handleInteractiveRegroupingComplete`: the
dragged block is appended to the drop target row, empty rows are removed and
the live numbers are re-read. -/
def moveBlock (s : Session) (source : Operand) (drag k : Nat) (target : Operand) (drop : Nat)
    (value : Nat) : Session :=
  updateTempStateFromBlocks
    (updateAllRowPlaceValues
      (modifyRow (modifyRow s source drag (fun blocks => blocks.eraseIdx k)) target drop
        (fun blocks => blocks ++ [value])))

/-- End of that branch: the step is recomputed, and the cursor advances when
there is none or its `stepIndex` differs from the one of the step; when
`calculateCurrentStep` throws, the handler ends there. -/
def afterMove (s : Session) (step : Step) : Session × DropOutcome :=
  match calculateCurrentStep s s.currentStepIndex with
  | none => (s, .incomplete false)
  | some none => (moveToNextStep s, .incomplete true)
  | some (some currentStepAfterDrag) =>
      if currentStepAfterDrag.stepIndex ≠ step.stepIndex then
        (moveToNextStep s, .incomplete true)
      else (s, .incomplete false)

/-- The drop handler once the dragged block (of value `value`) and the two rows
are known: the blocks of the drop target are counted before the dragged
block is appended; with nine or more the regrouping is automatic. -/
def dropOn (s : Session) (step : Step) (source : Operand) (drag k value : Nat)
    (target : Operand) (drop actualBlocks : Nat) : Session × DropOutcome :=
  if actualBlocks ≥ 9 then
    (regroupDrop (trackDraggedBlock s value) step source drag k target,
      .regrouped (nextPlaceOf s step))
  else
    afterMove (moveBlock (trackDraggedBlock s value) source drag k target drop value) step

/-- Function `handleInteractiveRegroupingComplete(state, step, dropEvent)` up to
the point where `processNextCarryStep` suspends, for block `k` of row `drag`
dropped on row `drop`; both rows have to be in the document. -/
def handleInteractiveRegroupingComplete (s : Session) (step : Step) (drag drop k : Nat) :
    Session × DropOutcome :=
  match findStack s drag, findStack s drop with
  | some (source, dragRow), some (target, dropRow) =>
      match dragRow.blocks.get? k with
      | none => (s, .incomplete false)
      | some value => dropOn s step source drag k value target drop dropRow.blocks.length
  | _, _ => (s, .incomplete false)

/-- Function `setupSecondPhaseRegrouping(state, step, nextPlace)`, the timer
callback of `performAutomaticRegrouping`: `setUpDragDropRows` runs for the
next place and the missing `.block-row` is caught. -/
def setupSecondPhaseRegrouping (s : Session) (nextPlace : Option PlaceLabel) : Session :=
  (setUpDragDropRows s nextPlace).1

/-! ## Events: learner input and scheduled callbacks -/

/-- A callback the engine has scheduled and that has not run yet. -/
inductive Callback where
  /-- The rest of `processNextCarryStep` after its `await`, with the index
  `currentIndex` it read before. -/
  | continuation (currentIndex : Nat)
  /-- The callback of the 100 ms timer of `performAutomaticRegrouping`,
  `setupSecondPhaseRegrouping(state, step, nextPlace)`. -/
  | timer (nextPlace : Option PlaceLabel)
  deriving DecidableEq, Repr

/-- Run a scheduled callback. -/
def runCallback (s : Session) : Callback → Session
  | .continuation currentIndex => resumeNextCarryStep s currentIndex
  | .timer nextPlace => setupSecondPhaseRegrouping s nextPlace

/-- The callbacks a drop leaves behind, in the order they are created, the
cursor after the handler being `cursor`: `performAutomaticRegrouping` starts
its timer when there is a next place, and `moveToNextStep` then calls
`processNextCarryStep`, which reads the index and suspends. -/
def DropOutcome.callbacks (cursor : Nat) : DropOutcome → List Callback
  | .incomplete false => []
  | .incomplete true => [.continuation cursor]
  | .regrouped nextPlace =>
      (if nextPlace.isSome then [Callback.timer nextPlace] else []) ++ [.continuation cursor]

/-- The page between two events: the session and the callbacks that are
scheduled and have not run. -/
structure World where
  session : Session
  pending : List Callback
  deriving DecidableEq, Repr

/-- What can happen next on the page. -/
inductive Event where
  /-- The learner presses numpad button `inputValue`. -/
  | press (inputValue : Nat)
  /-- The learner drags block `k` of the drag source row and drops it on the
  drop target row. -/
  | drop (k : Nat)
  /-- The learner drags block `k` of the drop target row and drops it on that
  row again: a block that an earlier drop of the step moved there keeps
  its `draggable` attribute (lines 687 and 688 only append it and remove the
  class `dragging`). -/
  | redrop (k : Nat)
  /-- The scheduled callback at position `n` runs. -/
  | resume (n : Nat)
  deriving DecidableEq, Repr

/-- The drop handler of the page runs for block `k` of row `dragged`, and the
callbacks it creates are scheduled. -/
def World.dropFrom (w : World) (step : Step) (dragged drop k : Nat) : World :=
  { session := (handleInteractiveRegroupingComplete w.session step dragged drop k).1
    pending := w.pending ++
      (handleInteractiveRegroupingComplete w.session step dragged drop k).2.callbacks
        (handleInteractiveRegroupingComplete w.session step dragged drop k).1.currentStepIndex }

/-- One event.  A handler runs to its end or to its `await`; what it leaves
for later is appended to the scheduled callbacks.  An event the page has no
handler for changes nothing. -/
def World.step (w : World) : Event → World
  | .press inputValue =>
      match w.session.surface with
      | .numpad step =>
          if inputValue = step.digit1 + step.digit2 then
            { session := handleNumpadInput w.session step inputValue
              pending := w.pending ++
                [.continuation (handleNumpadInput w.session step inputValue).currentStepIndex] }
          else { w with session := handleNumpadInput w.session step inputValue }
      | _ => w
  | .drop k =>
      match w.session.surface with
      | .dragDrop step drag drop => w.dropFrom step drag drop k
      | _ => w
  | .redrop k =>
      match w.session.surface with
      | .dragDrop step _ drop => w.dropFrom step drop drop k
      | _ => w
  | .resume n =>
      match w.pending.get? n with
      | some callback =>
          { session := runCallback w.session callback, pending := w.pending.eraseIdx n }
      | none => w

/-- The page after a list of events. -/
def World.run (w : World) (events : List Event) : World := events.foldl World.step w

/-! ## Learner actions, the continuation run before the timer callback -/

/-- The learner presses numpad button `inputValue`, and the continuation of
`processNextCarryStep` runs before anything else happens. -/
def pressNumpad (s : Session) (inputValue : Nat) : Session :=
  match s.surface with
  | .numpad step =>
      if inputValue = step.digit1 + step.digit2 then
        processNextCarryStep (handleNumpadInput s step inputValue)
      else handleNumpadInput s step inputValue
  | _ => s

/-- What follows the drop handler when the `await` of `processNextCarryStep`
is over before the 100 ms of the timer (as it is once the paper modal is in
the document): the continuation of `processNextCarryStep` when the cursor
advanced, and after it, for an automatic regrouping with a next place, the
timer callback `setupSecondPhaseRegrouping`. -/
def afterDrop (s : Session) : DropOutcome → Session
  | .incomplete false => s
  | .incomplete true => processNextCarryStep s
  | .regrouped nextPlace =>
      if nextPlace.isSome then setupSecondPhaseRegrouping (processNextCarryStep s) nextPlace
      else processNextCarryStep s

/-- The learner drags block `k` of the drag source row and drops it on the drop
target row, and the callbacks of the drop run, the continuation first.
Nothing happens unless both rows are in the document. -/
def dropBlock (s : Session) (k : Nat) : Session :=
  match s.surface with
  | .dragDrop step drag drop =>
      afterDrop (handleInteractiveRegroupingComplete s step drag drop k).1
        (handleInteractiveRegroupingComplete s step drag drop k).2
  | _ => s

/-- The learner drags block `k` of the drop target row and drops it on that row
again, and the callbacks of the drop run, the continuation first. -/
def redropBlock (s : Session) (k : Nat) : Session :=
  match s.surface with
  | .dragDrop step _ drop =>
      afterDrop (handleInteractiveRegroupingComplete s step drop drop k).1
        (handleInteractiveRegroupingComplete s step drop drop k).2
  | _ => s

/-- A learner action followed by the callbacks it leaves, run in the order
continuation, timer, before the next action. -/
inductive Action where
  | numpad (inputValue : Nat)
  | drop (k : Nat)
  | redrop (k : Nat)
  deriving DecidableEq, Repr

/-- Effect of a learner action and of the callbacks it leaves. -/
def act (s : Session) : Action → Session
  | .numpad inputValue => pressNumpad s inputValue
  | .drop k => dropBlock s k
  | .redrop k => redropBlock s k

/-- The events of a learner action and its callbacks: the input, then the
continuation (the last callback scheduled), then the timer. -/
def Action.events : Action → List Event
  | .numpad inputValue => [.press inputValue, .resume 0]
  | .drop k => [.drop k, .resume 1, .resume 0]
  | .redrop k => [.redrop k, .resume 1, .resume 0]

/-! ## Setting up a problem (main.js) -/

/-- Function `createPlaceValues(N1, N2)`: labels and values for the digits of
the larger operand (labels are only pushed for the indices 0 to 6), and
`state.extraPlaceLabelNeeded`. -/
def createPlaceValues (N1 N2 : Nat) : List (Option PlaceLabel) × List Nat × Bool :=
  let sum := N1 + N2
  let placevaluestoCalculateFrom := if N1 > N2 then N1 else N2
  let numPlaceValuesLength := numLength placevaluestoCalculateFrom
  let extraPlaceLabelNeeded := decide (numLength sum > numLength placevaluestoCalculateFrom)
  let used := (List.range numPlaceValuesLength).filter (fun i => i < 7)
  (used.map (fun i => (refrenceValues.get? i)), used.map (fun i => 10 ^ i), extraPlaceLabelNeeded)

/-- The place table after `render`: with `extraPlaceLabelNeeded`, the entry
`refrenceValues[placeLabels.length]` (possibly `undefined`) and the value
`10 ^ placeLabels.length` are pushed. -/
def renderPlaceTable (num1 num2 : Nat) : List (Option PlaceLabel) × List Nat :=
  match createPlaceValues num1 num2 with
  | (placeLabels, placeValues, true) =>
      (placeLabels ++ [refrenceValues.get? placeLabels.length],
        placeValues ++ [10 ^ placeLabels.length])
  | (placeLabels, placeValues, false) => (placeLabels, placeValues)

/-- Function `renderBlockStack(num, color, usedPlaces)`: one stack and one
legend item per used place with a non-zero digit; `none` when a label is
`undefined` (`label.toLowerCase()` throws).  The stack of place `p` gets the
node identity `idBase + p`. -/
def renderBlockStack (placeLabels : List (Option PlaceLabel)) (placeValues : List Nat)
    (num idBase : Nat) : List Nat → Option NumberContainer
  | [] => some { legend := [], placeStacks := [] }
  | placeIndex :: rest =>
      let count := getDigit num placeIndex
      if count = 0 then renderBlockStack placeLabels placeValues num idBase rest
      else
        match labelAt placeLabels placeIndex, renderBlockStack placeLabels placeValues num idBase rest with
        | some label, some c =>
            let stack : Stack :=
              { id := idBase + placeIndex
                label := some label
                blocks := List.replicate count (placeValues.getD placeIndex 0) }
            some { legend := some label :: c.legend, placeStacks := stack :: c.placeStacks }
        | _, _ => none

/-- Function `generateProblem` for the pair `(n1, n2)` with `render`: the place
table and the two rendered containers.  The live numbers start as the
operands (`tempState` is a copy of `state`). -/
def generateProblem (n1 n2 : Nat) : Option Session :=
  let maxDigits := max (numLength n1) (numLength n2)
  let usedPlaces := (List.range maxDigits).filter (fun i => decide (getDigit n1 i ≥ 0) || decide (getDigit n2 i ≥ 0))
  let table := renderPlaceTable n1 n2
  match renderBlockStack table.1 table.2 n1 0 usedPlaces,
        renderBlockStack table.1 table.2 n2 maxDigits usedPlaces with
  | some c1, some c2 =>
      some
        { originalNum1 := n1
          originalNum2 := n2
          placeLabels := table.1
          c1 := c1
          c2 := c2
          nextId := 2 * maxDigits
          num1 := n1
          num2 := n2
          currentStepIndex := 0
          stepDetails := []
          surface := .idle
          completed := false }
  | _, _ => none

/-- Function `startInteractiveCarryOver(state)`, with the `processNextCarryStep`
its welcome dialog starts: the live numbers are the operands, the cursor
is 0, the step history is empty and the first step is set up. -/
def startInteractiveCarryOver (s : Session) : Session :=
  processNextCarryStep
    { s with
      num1 := s.originalNum1
      num2 := s.originalNum2
      currentStepIndex := 0
      stepDetails := [] }

/-- A session on the problem `n1 + n2`: `generateProblem` then
`startInteractiveCarryOver`, as the demo buttons do. -/
def startProblem (n1 n2 : Nat) : Option Session :=
  (generateProblem n1 n2).map startInteractiveCarryOver

/-! ## The paper trace (paperAddition.js) -/

/-- One entry of `paperAdditionState.steps`. -/
structure PaperStep where
  placeIndex : Nat
  placeLabel : Option PlaceLabel
  digit1 : Nat
  digit2 : Nat
  previousCarry : Nat
  sum : Nat
  resultDigit : Nat
  newCarry : Nat
  deriving DecidableEq, Repr

/-- String method `padStart(maxLength, '0')` on a digit string. -/
def padStart (maxLength : Nat) (digits : List Nat) : List Nat :=
  List.replicate (maxLength - digits.length) 0 ++ digits

/-- The loop of `calculateAdditionSteps` over the digit pairs
`(paddedNum1[i], paddedNum2[i])` for `i = maxLength - 1` down to `0`, with
`placeIndex = maxLength - 1 - i`; returns the entries and the last carry. -/
def additionLoop (placeLabels : List (Option PlaceLabel)) :
    List (Nat × Nat) → Nat → Nat → List PaperStep × Nat
  | [], _, carry => ([], carry)
  | (digit1, digit2) :: rest, placeIndex, carry =>
      let sum := digit1 + digit2 + carry
      let resultDigit := sum % 10
      let newCarry := sum / 10
      let step : PaperStep :=
        { placeIndex := placeIndex
          placeLabel := labelAt placeLabels placeIndex
          digit1 := digit1
          digit2 := digit2
          previousCarry := carry
          sum := sum
          resultDigit := resultDigit
          newCarry := newCarry }
      let tail := additionLoop placeLabels rest (placeIndex + 1) newCarry
      (step :: tail.1, tail.2)

/-- Function `calculateAdditionSteps(num1, num2)`; `placeLabels` is
`paperAdditionState.placeLabels`, which `ensureSyncedTempState` copies from
`tempState`. -/
def calculateAdditionSteps (placeLabels : List (Option PlaceLabel)) (num1 num2 : Nat) :
    List PaperStep :=
  let num1Str := toStringDigits num1
  let num2Str := toStringDigits num2
  let maxLength := max num1Str.length num2Str.length
  let paddedNum1 := padStart maxLength num1Str
  let paddedNum2 := padStart maxLength num2Str
  let loop := additionLoop placeLabels (paddedNum1.reverse.zip paddedNum2.reverse) 0 0
  let carry := loop.2
  if carry > 0 then
    loop.1 ++
      [{ placeIndex := maxLength
         placeLabel := labelAt placeLabels maxLength
         digit1 := 0
         digit2 := 0
         previousCarry := carry
         sum := carry
         resultDigit := carry
         newCarry := 0 }]
  else loop.1

/-! ## Sessions played by the learner -/

/-- The session after a list of learner actions. -/
def playFrom (s : Session) (actions : List Action) : Session := actions.foldl act s

/-- The action that answers the current step as its prompt asks: the digit sum
on a numpad step, one more block dropped on a drag-drop step. -/
def correctAction (s : Session) : Action :=
  match s.surface with
  | .numpad step => .numpad (step.digit1 + step.digit2)
  | _ => .drop 0

/-- The session after `k` correct actions. -/
def playCorrect : Nat → Session → Session
  | 0, s => s
  | k + 1, s => playCorrect k (act s (correctAction s))

/-- The page shows the step of the cursor: its handlers belong to a step
computed for the index the cursor is at (after a step set-up that threw, the
handlers of the step before are still on the page), or the session is
complete. -/
def Session.showsCursorStep (s : Session) : Bool :=
  match s.surface with
  | .numpad step => decide (step.stepIndex = s.currentStepIndex)
  | .dragDrop step _ _ => decide (step.stepIndex = s.currentStepIndex)
  | .idle => true

/-- The action is a numpad entry or the drop of a block of the drag source
row. -/
def Action.fromSourceRow : Action → Bool
  | .numpad _ => true
  | .drop _ => true
  | .redrop _ => false

/-- The learner follows the page: every action of the list is taken while the
page shows the step of the cursor, and every block dropped is a block of the
drag source row. -/
def followsPage : Session → List Action → Bool
  | _, [] => true
  | s, a :: rest => s.showsCursorStep && a.fromSourceRow && followsPage (act s a) rest

/-- The page on which a session starts: nothing is scheduled. -/
def startWorld (n1 n2 : Nat) : Option World :=
  (startProblem n1 n2).map (fun s => { session := s, pending := [] })

/-- The step the page currently shows, if any. -/
def Session.shownStep (s : Session) : Option Step :=
  match s.surface with
  | .numpad step => some step
  | .dragDrop step _ _ => some step
  | .idle => none

/-! ## The paper modal's state (paperAddition.js) -/

/-- The fields of `paperAdditionState` that decide which steps the modal
uses.  Field `steps` is `none` when the property is missing (after
`resetPaperAdditionState`); an empty array is a value like any other. -/
structure PaperAdditionState where
  num1 : Nat
  num2 : Nat
  originalNum1 : Nat
  originalNum2 : Nat
  steps : Option (List PaperStep)
  placeLabels : List (Option PlaceLabel)
  deriving DecidableEq, Repr

/-- The module-level initial value of `paperAdditionState`. -/
def paperAdditionState : PaperAdditionState :=
  { num1 := 0, num2 := 0, originalNum1 := 0, originalNum2 := 0, steps := some [],
    placeLabels := [] }

/-- Function `ensureSyncedTempState()`: the labels and the four number fields
are copied from `tempState`, whose `num1` and `num2` are the live numbers. -/
def ensureSyncedTempState (t : Session) (p : PaperAdditionState) : PaperAdditionState :=
  { p with
    placeLabels := t.placeLabels
    originalNum1 := t.num1
    originalNum2 := t.num2
    num1 := t.num1
    num2 := t.num2 }

/-- Function `calculateAdditionSteps(num1, num2)` with its effect on
`paperAdditionState`: the state is synced first, the steps are computed from
the arguments and stored. -/
def PaperAdditionState.calculateAdditionSteps (t : Session) (p : PaperAdditionState)
    (num1 num2 : Nat) : PaperAdditionState × List PaperStep :=
  let p1 := ensureSyncedTempState t p
  let steps := BlockCounting.calculateAdditionSteps p1.placeLabels num1 num2
  ({ p1 with steps := some steps }, steps)

/-- Function `resetPaperAdditionState()`: a fresh object without `steps`. -/
def resetPaperAdditionState (t : Session) : PaperAdditionState :=
  { num1 := 0, num2 := 0, originalNum1 := 0, originalNum2 := 0, steps := none,
    placeLabels := t.placeLabels }

/-- Function `showPaperAdditionModal(num1, num2)`: the new state and the steps
the modal uses (`calculatedSteps`).  The steps are computed unless `steps` is
present and `paperAdditionState.num1`, `paperAdditionState.num2` equal the
arguments. -/
def showPaperAdditionModal (t : Session) (p : PaperAdditionState) (num1 num2 : Nat) :
    PaperAdditionState × List PaperStep :=
  match p.steps with
  | none => p.calculateAdditionSteps t num1 num2
  | some cached =>
      if p.num1 ≠ num1 ∨ p.num2 ≠ num2 then p.calculateAdditionSteps t num1 num2
      else (p, cached)

/-- Function `showPaperAdditionFromCarryOver(state)`: the modal is asked for
the original numbers of the session when both are non-zero. -/
def showPaperAdditionFromCarryOver (t : Session) (p : PaperAdditionState) :
    PaperAdditionState × Option (List PaperStep) :=
  if t.originalNum1 ≠ 0 ∧ t.originalNum2 ≠ 0 then
    let r := showPaperAdditionModal t p t.originalNum1 t.originalNum2
    (r.1, some r.2)
  else (p, none)

/-! ## Carry places and the carry shown in a step's explanation (carryoverLogic.js) -/

/-- Function `detectCarryPlaces(num1, num2, digits = 4)`: the place indices below
`digits` at which the two digits add up to ten or more, in the order of the
loop. -/
def detectCarryPlaces (num1 num2 : Nat) (digits : Nat) : List Nat :=
  (List.range digits).filter (fun placeIndex =>
    decide (num1 / 10 ^ placeIndex % 10 + num2 / 10 ^ placeIndex % 10 ≥ 10))

/-- The list `state.carryPlaces` that `generateProblem` stores:
`detectCarryPlaces(n1, n2)` with the default number of digits. -/
def carryPlaces (n1 n2 : Nat) : List Nat := detectCarryPlaces n1 n2 4

/-- Function `calculateActualCarry(originalNum2, currentNum2, currentStepIndex)`:
the digit of the live second number minus the digit of the original second
number, at the place of the step. -/
def calculateActualCarry (originalNum2 currentNum2 currentStepIndex : Nat) : Int :=
  let placeValue := 10 ^ currentStepIndex
  let originalDigit := originalNum2 / placeValue % 10
  let currentDigit := currentNum2 / placeValue % 10
  (currentDigit : Int) - (originalDigit : Int)

/-- The value `carryAmount` that `generateDynamicStepExplanations` computes
while `calculateCurrentStep` builds `step` (for a step index above 0): the
arguments are `tempState.originalNum2 || state.originalNum2`, the `currentNum2`
of `calculateCurrentStep`, which the step keeps as `beforeNum2`, and the step
index. -/
def explainedCarry (s : Session) (step : Step) : Int :=
  calculateActualCarry (jsOr s.originalNum2 s.originalNum2) step.beforeNum2 step.stepIndex

/-! ## The final answer (main.js) -/

/-- The number fields of the object `state` of main.js.  The engine works on
its copy `tempState` (`{ ...state }`) and never writes these fields. -/
structure ProblemState where
  num1 : Nat
  num2 : Nat
  originalNum1 : Nat
  originalNum2 : Nat
  deriving DecidableEq, Repr

/-- The number fields of `state` as `generateProblem` sets them for the pair
`(n1, n2)`. -/
def generateProblemState (n1 n2 : Nat) : ProblemState :=
  { num1 := n1, num2 := n2, originalNum1 := n1, originalNum2 := n2 }

/-- Function `showCompletion()`: the number `correctSum` of the final answer,
`(state.originalNum1 || state.num1) + (state.originalNum2 || state.num2)`. -/
def showCompletion (state : ProblemState) : Nat :=
  jsOr state.originalNum1 state.num1 + jsOr state.originalNum2 state.num2

/-! ## Syncing the paper modal to a place (paperAddition.js) -/

/-- The progress fields of `paperAdditionState` and what the modal shows:
`currentStep`, `totalSteps` (`steps.length` as `calculateAdditionSteps` stored
it, `none` when the property is missing) and the texts `showResultDigit` and
`showCarryInGrid` ask to write, as pairs of the place of the cell and the
number, latest first. -/
structure PaperProgress where
  currentStep : Nat
  totalSteps : Option Nat
  resultCells : List (PlaceLabel × Nat)
  carryCells : List (PlaceLabel × Nat)
  deriving DecidableEq, Repr

/-- The search
`steps.findIndex(step => step.placeLabel.toLowerCase() === placeLabel.toLowerCase())`.
The argument `placeLabel` is the place label its text spells, whatever the
case of its letters, or `none` for any other text.  The outer `none` is the
TypeError of `toLowerCase` on an entry without label; `some none` is `-1`. -/
def findStepIndex (placeLabel : Option PlaceLabel) : List PaperStep → Option (Option Nat)
  | [] => some none
  | step :: rest =>
      match step.placeLabel with
      | none => none
      | some label =>
          if placeLabel = some label then some (some 0)
          else (findStepIndex placeLabel rest).map (fun found => found.map (· + 1))

/-- Function `getNextPlace(paperAdditionState, currentPlace)`; `none` is `null`
or an `undefined` table entry, which the caller treats alike. -/
def getNextPlace (p : PaperAdditionState) (currentPlace : PlaceLabel) : Option PlaceLabel :=
  match indexOf p.placeLabels (some currentPlace) with
  | some currentIndex =>
      if currentIndex + 1 < p.placeLabels.length then labelAt p.placeLabels (currentIndex + 1)
      else none
  | none => none

/-- Function `showResultsUpToStep(targetStep)` with `showResultDigit` and
`showCarryInGrid`, while the modal is in the document; `none` is a TypeError
(no steps, or `toLowerCase` on a missing label). -/
def showResultsUpToStep (p : PaperAdditionState) (d : PaperProgress) (targetStep : Nat) :
    Option PaperProgress :=
  match p.steps with
  | none => none
  | some steps =>
      if targetStep > 0 ∧ targetStep ≤ steps.length then
        match steps.get? (targetStep - 1) with
        | none => some d
        | some currentStep =>
            match currentStep.placeLabel with
            | none => none
            | some label =>
                let d1 := { d with resultCells := (label, currentStep.resultDigit) :: d.resultCells }
                if currentStep.newCarry > 0 then
                  match getNextPlace p label with
                  | some targetPlace =>
                      some { d1 with
                        carryCells := (targetPlace, currentStep.newCarry) :: d1.carryCells }
                  | none => some d1
                else some d1
      else some d

/-- Function `updateStepDisplay()` while the modal is in the document: the
explanation is rewritten from `currentStep` and `steps`; once `currentStep`
reaches `totalSteps` the state is replaced by `resetPaperAdditionState()` and
synced with `tempState`. -/
def updateStepDisplay (t : Session) (p : PaperAdditionState) (d : PaperProgress) :
    PaperAdditionState × PaperProgress :=
  if d.currentStep = 0 then (p, d)
  else
    match d.totalSteps with
    | some totalSteps =>
        if d.currentStep ≥ totalSteps then
          (ensureSyncedTempState t (resetPaperAdditionState t),
            { d with currentStep := 0, totalSteps := none })
        else (p, d)
    | none => (p, d)

/-- Function `syncToPlaceLabel(placeLabel)`; `none` is a TypeError thrown on the
way.  Without steps the function warns and returns; when no entry of the
trace has the label (`stepIndex = -1`) nothing is done. -/
def syncToPlaceLabel (t : Session) (p : PaperAdditionState) (d : PaperProgress)
    (placeLabel : Option PlaceLabel) : Option (PaperAdditionState × PaperProgress) :=
  match p.steps with
  | none => some (p, d)
  | some steps =>
      match findStepIndex placeLabel steps with
      | none => none
      | some none => some (p, d)
      | some (some stepIndex) =>
          if d.currentStep ≠ stepIndex + 1 then
            (showResultsUpToStep p { d with currentStep := stepIndex + 1 } (stepIndex + 1)).map
              (fun d1 => updateStepDisplay t p d1)
          else some (p, d)

end BlockCounting

/-! # The skip-counting game (`src/3dskipCounting/3dplatformerskipcounting.js`) -/

namespace SkipCounting

/-- The fields of `car.userData` that `checkCarCollisions` reads and writes. -/
structure Car where
  number : Nat
  isCorrect : Bool
  hit : Bool
  deriving DecidableEq, Repr

/-- The module variables `checkCarCollisions` reads and writes. -/
structure Game where
  skipCount : Nat
  expectedNumber : Nat
  score : Nat
  wrongHits : Nat
  speed : Nat
  highestCaptured : Nat
  capturedNumbers : List Nat
  penaltyTimer : Nat
  gameOver : Bool
  deriving DecidableEq, Repr

/-- Constant `maxWrongHits`. -/
def maxWrongHits : Nat := 0

/-- The module variables when the script is loaded (`skipCount = 6` in the
source; the invariants hold for any value). -/
def newGame (skipCount : Nat) : Game :=
  { skipCount := skipCount
    expectedNumber := skipCount
    score := 0
    wrongHits := 0
    speed := 50
    highestCaptured := 0
    capturedNumbers := []
    penaltyTimer := 0
    gameOver := false }

/-- What `checkCarCollisions` does to the module variables for a car it finds
colliding and not hit before. -/
def handleHit (g : Game) (car : Car) : Game :=
  if car.isCorrect ∧ car.number = g.expectedNumber then
    { g with
      highestCaptured := g.expectedNumber
      expectedNumber := g.expectedNumber + g.skipCount
      capturedNumbers := g.capturedNumbers ++ [car.number]
      speed := g.speed + 10
      score := g.score + 10 }
  else
    { g with
      wrongHits := g.wrongHits + 1
      penaltyTimer := 2
      gameOver := if g.wrongHits + 1 ≥ maxWrongHits then true else g.gameOver }

/-- Body of the loop of `checkCarCollisions` for one car of `targetCars`;
`colliding` is the outcome of the distance test `distSquared <= 200` of the
physics bodies. -/
def checkCar (g : Game) (car : Car) (colliding : Bool) : Game × Car :=
  if !car.hit && colliding then (handleHit g car, { car with hit := true })
  else (g, car)

/-- Function `checkCarCollisions()` for one frame: the loop over `targetCars`,
each car with the outcome of its distance test. -/
def checkCarCollisions (g : Game) : List (Car × Bool) → Game × List Car
  | [] => (g, [])
  | (car, colliding) :: rest =>
      let r := checkCar g car colliding
      let tail := checkCarCollisions r.1 rest
      (tail.1, r.2 :: tail.2)

/-- The module variables after a sequence of frames.  Between two frames the
cars move, are spawned and are removed, so each frame comes with its own
list of target cars. -/
def runFrames (g : Game) (frames : List (List (Car × Bool))) : Game :=
  frames.foldl (fun acc frame => (checkCarCollisions acc frame).1) g

end SkipCounting

namespace BlockCounting

/-! ## Specification-side definitions -/

/-- The parts of a session no document update touches: the place table, the
original numbers and the step cursor. -/
def SameCursor (s s' : Session) : Prop :=
  s'.placeLabels = s.placeLabels ∧ s'.originalNum1 = s.originalNum1 ∧
    s'.originalNum2 = s.originalNum2 ∧ s'.currentStepIndex = s.currentStepIndex

/-- The session on the problem `n1 + n2` after a list of learner actions. -/
def playOn (n1 n2 : Nat) (actions : List Action) : Option Session :=
  (startProblem n1 n2).map (fun s => playFrom s actions)

/-- The demo problem `47 + 18` ('ones-only') right after it is started. -/
def session47 : Session := (startProblem 47 18).get rfl

/-- The demo problem `19923 + 145` ('no-carry') right after it is started. -/
def session19923 : Session := (startProblem 19923 145).get rfl

/-- Number of places of the table `render` builds for `n1 + n2` according to
Invariant P1: the digits of the larger operand, plus one when the sum has
more digits. -/
def tableLength (n1 n2 : Nat) : Nat :=
  numLength (max n1 n2) + (if numLength (n1 + n2) > numLength (max n1 n2) then 1 else 0)

/-- The carry of column addition into place `q`: the sum of the two operands
below place `q`, divided by `10 ^ q`. -/
def carryInto (n1 n2 q : Nat) : Nat := (n1 % 10 ^ q + n2 % 10 ^ q) / 10 ^ q

/-- The digit pairs `calculateAdditionSteps` walks through, from the ones
place up. -/
def digitPairs (num1 num2 : Nat) : List (Nat × Nat) :=
  let maxLength := max (toStringDigits num1).length (toStringDigits num2).length
  (padStart maxLength (toStringDigits num1)).reverse.zip
    (padStart maxLength (toStringDigits num2)).reverse

/-- The entry of the paper trace grade-school addition writes at place `q`. -/
def columnEntry (placeLabels : List (Option PlaceLabel)) (n1 n2 q : Nat) : PaperStep :=
  { placeIndex := q
    placeLabel := labelAt placeLabels q
    digit1 := n1 / 10 ^ q % 10
    digit2 := n2 / 10 ^ q % 10
    previousCarry := carryInto n1 n2 q
    sum := n1 / 10 ^ q % 10 + n2 / 10 ^ q % 10 + carryInto n1 n2 q
    resultDigit := (n1 + n2) / 10 ^ q % 10
    newCarry := carryInto n1 n2 (q + 1) }

/-- The synthetic last entry of the paper trace for a final carry. -/
def carryEntry (placeLabels : List (Option PlaceLabel)) (maxLength carry : Nat) : PaperStep :=
  { placeIndex := maxLength
    placeLabel := labelAt placeLabels maxLength
    digit1 := 0
    digit2 := 0
    previousCarry := carry
    sum := carry
    resultDigit := carry
    newCarry := 0 }

/-- The problem `45 + 20` right after it is started. -/
def session45 : Session := (startProblem 45 20).get rfl

/-- The problem `5000000 + 5000000` right after it is started. -/
def session5M : Session := (startProblem 5000000 5000000).get rfl

/-- Stack `st'` is stack `st` with some blocks taken away. -/
def StackShrinks (st' st : Stack) : Prop :=
  st'.id = st.id ∧ st'.label = st.label ∧ st'.blocks.Sublist st.blocks

/-- Container `c'` has the stacks of `c`, in order, each with some blocks
taken away: nothing was added to the document. -/
def Shrinks (c' c : NumberContainer) : Prop :=
  List.Forall₂ StackShrinks c'.placeStacks c.placeStacks

/-- The problem `96 + 905` right after it is started. -/
def session96 : Session := (startProblem 96 905).get rfl

/-- The problem `102 + 899` right after it is started. -/
def session102 : Session := (startProblem 102 899).get rfl

/-- Number of blocks in the stack with node identity `id`. -/
def blockCountOf (s : Session) (id : Nat) : Option Nat :=
  (findStack s id).map (fun r => r.2.blocks.length)

/-- The problem `5 + 95` right after it is started. -/
def session5 : Session := (startProblem 5 95).get rfl

/-- The problem `48 + 17` right after it is started. -/
def session48 : Session := (startProblem 48 17).get rfl

/-- The problem `1809 + 8999` right after it is started. -/
def session1809 : Session := (startProblem 1809 8999).get rfl

/-- The places at which column addition of `n1` and `n2` produces a carry into
the next place, among the places below `digits`, in increasing order. -/
def columnCarryPlaces (n1 n2 digits : Nat) : List Nat :=
  (List.range digits).filter (fun p => decide (carryInto n1 n2 (p + 1) = 1))

/-- The state of the paper modal after it was shown for `47 + 18`. -/
def paper47 : PaperAdditionState := (showPaperAdditionModal session47 paperAdditionState 47 18).1

/-- The progress of the paper modal right after its steps were computed: no
step revealed, nothing written. -/
def freshProgress (p : PaperAdditionState) : PaperProgress :=
  { currentStep := 0, totalSteps := p.steps.map List.length, resultCells := [], carryCells := [] }

end BlockCounting

namespace SkipCounting

/-! ## The skip-counting game -/

/-- The hits of a frame that capture a number: the cars that collide, were not
hit before and are the correct car with the expected number at that moment. -/
def capturesInFrame (g : Game) : List (Car × Bool) → Nat
  | [] => 0
  | (car, colliding) :: rest =>
      (if (!car.hit && colliding) = true ∧ car.isCorrect = true ∧ car.number = g.expectedNumber
        then 1 else 0) + capturesInFrame (checkCar g car colliding).1 rest

/-- The other hits of a frame: the cars that collide and were not hit before,
but are a decoy or do not carry the expected number. -/
def missesInFrame (g : Game) : List (Car × Bool) → Nat
  | [] => 0
  | (car, colliding) :: rest =>
      (if (!car.hit && colliding) = true ∧ ¬ (car.isCorrect = true ∧ car.number = g.expectedNumber)
        then 1 else 0) + missesInFrame (checkCar g car colliding).1 rest

/-- Number of capturing hits over a sequence of frames. -/
def captures (g : Game) : List (List (Car × Bool)) → Nat
  | [] => 0
  | frame :: rest => capturesInFrame g frame + captures (checkCarCollisions g frame).1 rest

/-- Number of other hits over a sequence of frames. -/
def misses (g : Game) : List (List (Car × Bool)) → Nat
  | [] => 0
  | frame :: rest => missesInFrame g frame + misses (checkCarCollisions g frame).1 rest

/-- The game state after `k` captures and `w` other hits, as the invariant of
the game describes it. -/
def Counted (g : Game) (skipCount k w : Nat) : Prop :=
  g.skipCount = skipCount ∧
    g.capturedNumbers = (List.range k).map (fun i => skipCount * (i + 1)) ∧
    g.expectedNumber = skipCount * (k + 1) ∧ g.score = 10 * k ∧ g.wrongHits = w

end SkipCounting

namespace BlockCounting

/-- Record `d'` is record `d` with nothing changed but the fields filled in
while its step is played: `draggedBlocks`, `carriedBlocks`,
`regroupingDetails` and `afterNumbers`. -/
def KeepsHead (d d' : StepDetail) : Prop :=
  d'.stepIndex = d.stepIndex ∧ d'.placeLabel = d.placeLabel ∧
    d'.beforeNumbers = d.beforeNumbers ∧ d'.actionType = d.actionType

/-- Step history `new` has the records of `old` at the same positions, the
record at position `j` possibly filled in further, all others untouched;
records may have been appended. -/
def Extends (j : Nat) (old new : List StepDetail) : Prop :=
  ∀ k d, old.get? k = some d →
    ∃ d', new.get? k = some d' ∧ KeepsHead d d' ∧ (k ≠ j → d' = d)

/-- The step history of a session is in step order: record `k` is the record of
step `k` with the label of place `k`, there is a record for every completed
step and at most one more, the record of the step the page shows. -/
structure Logged (s : Session) : Prop where
  indexed : ∀ k d, s.stepDetails.get? k = some d →
    d.stepIndex = k ∧ d.placeLabel = labelAt s.placeLabels k
  lower : s.currentStepIndex ≤ s.stepDetails.length
  upper : s.stepDetails.length ≤ s.currentStepIndex + 1
  shown : s.shownStep.isSome = true → s.stepDetails.length = s.currentStepIndex + 1

/-- Session `s'` has the step history and the handlers of `s`: what the
updates of the document leave alone. -/
structure SameLog (s s' : Session) : Prop where
  stepDetails : s'.stepDetails = s.stepDetails
  surface : s'.surface = s.surface

/-! ## The invariant of the session -/

/-! ## Counting the blocks of a place -/

/-- Number of blocks in the stacks of a list whose label is the place label of
index `p`. -/
def countAt (p : Nat) : List Stack → Nat
  | [] => 0
  | st :: rest =>
      (if st.label.map PlaceLabel.index = some p then st.blocks.length else 0) + countAt p rest

/-- Number of blocks operand `o` has on the page at place index `p`. -/
def Session.cnt (s : Session) (o : Operand) (p : Nat) : Nat :=
  countAt p (s.container o).placeStacks

/-- Number of blocks both operands have on the page at place index `p`. -/
def Session.total (s : Session) (p : Nat) : Nat := s.cnt .first p + s.cnt .second p

/-- Original number of an operand. -/
def Session.original (s : Session) : Operand → Nat
  | .first => s.originalNum1
  | .second => s.originalNum2

/-- Live number of an operand. -/
def Session.live (s : Session) : Operand → Nat
  | .first => s.num1
  | .second => s.num2

/-- Sum of the digits of the two original numbers at place index `p`. -/
def Session.digitSum (s : Session) (p : Nat) : Nat :=
  getDigit s.originalNum1 p + getDigit s.originalNum2 p

/-- Value `f 0 * 10 ^ 0 + ... + f (n - 1) * 10 ^ (n - 1)` of `f p` units at
each place `p` below `n`. -/
def placeSum (f : Nat → Nat) : Nat → Nat
  | 0 => 0
  | n + 1 => placeSum f n + f n * 10 ^ n

/-- Value of the blocks on the page below place index `q`. -/
def lowDom (s : Session) (q : Nat) : Nat := placeSum s.total q

/-- The page is well formed for the place table: the table holds the first
labels of `refrenceValues`, the sum fits the table, every stack carries a label
of the table and blocks of that place value, a container has one stack per
label at most, and node identities are distinct and below `nextId`. -/
structure WellFormed (s : Session) : Prop where
  table : s.placeLabels =
    (List.range s.placeLabels.length).map (fun i => refrenceValues.get? i)
  tableLen : s.placeLabels.length ≤ 7
  inRange : s.originalNum1 + s.originalNum2 < 10 ^ s.placeLabels.length
  rows : ∀ o, ∀ st ∈ (s.container o).placeStacks,
    ∃ l, st.label = some l ∧ l.index < s.placeLabels.length ∧ ∀ b ∈ st.blocks, b = 10 ^ l.index
  labels : ∀ o, ((s.container o).placeStacks.map (fun st => st.label)).Nodup
  ids : ((s.c1.placeStacks ++ s.c2.placeStacks).map (fun st => st.id)).Nodup
  fresh : ∀ o, ∀ st ∈ (s.container o).placeStacks, st.id < s.nextId

/-- No stack of the page is without blocks. -/
def NoEmptyRows (s : Session) : Prop :=
  ∀ o, ∀ st ∈ (s.container o).placeStacks, st.blocks ≠ []

/-- Session `s'` has the stacks, the place table and the original numbers of
session `s`. -/
structure SameRows (s s' : Session) : Prop where
  c1 : s'.c1.placeStacks = s.c1.placeStacks
  c2 : s'.c2.placeStacks = s.c2.placeStacks
  nextId : s'.nextId = s.nextId
  placeLabels : s'.placeLabels = s.placeLabels
  originalNum1 : s'.originalNum1 = s.originalNum1
  originalNum2 : s'.originalNum2 = s.originalNum2

/-- Session `s'` comes from session `s` by updates of the page: the place table
and the original numbers are the same, and every stack of `s'` is a stack of
`s` with the same identity and label in the same container, or is new with an
identity that was not given out in `s`. -/
structure Evolves (s s' : Session) : Prop where
  placeLabels : s'.placeLabels = s.placeLabels
  originalNum1 : s'.originalNum1 = s.originalNum1
  originalNum2 : s'.originalNum2 = s.originalNum2
  nextId : s.nextId ≤ s'.nextId
  rows : ∀ o, ∀ st' ∈ (s'.container o).placeStacks,
    (∃ st ∈ (s.container o).placeStacks, st.id = st'.id ∧ st.label = st'.label) ∨
      s.nextId ≤ st'.id

/-- The stack `a` of operand `o` is replaced by `b`, which has the identity
and label of `a` and blocks of the same place value. -/
structure Replaces (s s' : Session) (o : Operand) (a b : Stack) : Prop where
  here : (s'.container o).placeStacks =
    (s.container o).placeStacks.map (fun st => if st = a then b else st)
  other : ∀ o', o' ≠ o → (s'.container o').placeStacks = (s.container o').placeStacks
  nextId : s'.nextId = s.nextId
  placeLabels : s'.placeLabels = s.placeLabels
  originalNum1 : s'.originalNum1 = s.originalNum1
  originalNum2 : s'.originalNum2 = s.originalNum2
  mem : a ∈ (s.container o).placeStacks
  sameId : b.id = a.id
  sameLabel : b.label = a.label
  blocks : ∀ lab, a.label = some lab → ∀ v ∈ b.blocks, v = 10 ^ lab.index

/-- Session `s'` keeps the stacks of `s` that satisfy `keep`. -/
structure Filters (s s' : Session) (keep : Operand → Stack → Bool) : Prop where
  rows : ∀ o, (s'.container o).placeStacks = (s.container o).placeStacks.filter (keep o)
  nextId : s'.nextId = s.nextId
  placeLabels : s'.placeLabels = s.placeLabels
  originalNum1 : s'.originalNum1 = s.originalNum1
  originalNum2 : s'.originalNum2 = s.originalNum2

/-- Session `s'` has the live numbers, the cursor and the handlers of `s`. -/
structure SameControl (s s' : Session) : Prop where
  num1 : s'.num1 = s.num1
  num2 : s'.num2 = s.num2
  currentStepIndex : s'.currentStepIndex = s.currentStepIndex
  surface : s'.surface = s.surface

/-- Operand `o` gets the new stack `b`. -/
structure Appends (s s' : Session) (o : Operand) (b : Stack) : Prop where
  here : (s'.container o).placeStacks = (s.container o).placeStacks ++ [b]
  other : ∀ o', o' ≠ o → (s'.container o').placeStacks = (s.container o').placeStacks
  nextId : s'.nextId = s.nextId + 1
  placeLabels : s'.placeLabels = s.placeLabels
  originalNum1 : s'.originalNum1 = s.originalNum1
  originalNum2 : s'.originalNum2 = s.originalNum2
  newId : b.id = s.nextId

/-- Session `s'` is session `s` with one more block of the place of `lab` for
operand `o`. -/
structure AddsBlock (s s' : Session) (o : Operand) (lab : PlaceLabel) : Prop where
  wf : WellFormed s'
  evolves : Evolves s s'
  control : SameControl s s'
  cnt : ∀ o' p, s'.cnt o' p = s.cnt o' p + (if o' = o ∧ p = lab.index then 1 else 0)
  noEmpty : NoEmptyRows s → NoEmptyRows s'
  persist : ∀ o' st, st ∈ (s.container o').placeStacks → st.label ≠ some lab →
    st ∈ (s'.container o').placeStacks

/-- Shape of the page while the step of place index `j` is current or is being
set up: the value on the page is the original sum; places above `j + 1` hold
the original digits; place `j + 1` holds them and at most one carried block,
and when it holds the carried block one operand has nothing left at place `j`,
the places up to `j` hold less than `10 ^ (j + 1)` and the places below `j`
less than `10 ^ j`; places below `j` hold
at most 9 blocks per stack; place `j` holds at most 10 per stack, 19
together, and below a stack of 10 the page holds less than `10 ^ j`. -/
structure Shape (s : Session) (j : Nat) : Prop where
  conserved : lowDom s s.placeLabels.length = s.originalNum1 + s.originalNum2
  above : ∀ o p, j + 2 ≤ p → s.cnt o p = getDigit (s.original o) p
  nextGe : ∀ o, getDigit (s.original o) (j + 1) ≤ s.cnt o (j + 1)
  nextLe : s.total (j + 1) ≤ s.digitSum (j + 1) + 1
  nextCarried : s.total (j + 1) = s.digitSum (j + 1) + 1 →
    (s.cnt .first j = 0 ∨ s.cnt .second j = 0) ∧ lowDom s (j + 1) < 10 ^ (j + 1) ∧
      ∀ o, s.cnt o j ≤ 9
  nextLow : s.total (j + 1) = s.digitSum (j + 1) + 1 → lowDom s j < 10 ^ j
  below : ∀ o p, p < j → s.cnt o p ≤ 9
  here : ∀ o, s.cnt o j ≤ 10
  hereBoth : s.total j ≤ 19
  hereLow : (∃ o, s.cnt o j = 10) → lowDom s j < 10 ^ j

/-- The session `s` while `groupIfMoreThanTen` runs for the step of place index
`j` on a session that started as `s0`: either no stack was regrouped yet
(place `j + 1` holds the original digits and the live numbers are those of
`s0`), or the stacks of place `j` hold at most 9 blocks and the live numbers
are those of `s0` or were re-read from the page after a regrouping. -/
structure Grouped (s0 s : Session) (j : Nat) : Prop where
  wf : WellFormed s
  noEmpty : NoEmptyRows s
  shape : Shape s j
  evolves : Evolves s0 s
  cursor : s.currentStepIndex = s0.currentStepIndex
  surface : s.surface = s0.surface
  phase : (s.total (j + 1) = s.digitSum (j + 1) ∧ s.num1 = s0.num1 ∧ s.num2 = s0.num2) ∨
    ((∀ o, s.cnt o j ≤ 9) ∧
      ((s.num1 = s0.num1 ∧ s.num2 = s0.num2) ∨
        (s.total (j + 1) = s.digitSum (j + 1) + 1 ∧
          s.num1 = calculateNumberFromBlocks s.c1 ∧ s.num2 = calculateNumberFromBlocks s.c2)))

/-- The live numbers are fit for computing the step of place index `j`: they
add up to the original sum, carry nothing below place `j`, and hold at least
the original digits from place `j` up. -/
structure LiveReady (s : Session) (j : Nat) : Prop where
  sum : s.num1 + s.num2 = s.originalNum1 + s.originalNum2
  low : s.num1 % 10 ^ j + s.num2 % 10 ^ j < 10 ^ j
  high : ∀ o, s.original o / 10 ^ j ≤ s.live o / 10 ^ j

/-- What a step shown for place index `j` has in common with the paper trace of
the original numbers. -/
structure StepAgrees (s : Session) (step : Step) (j : Nat) : Prop where
  placeIndex : step.placeIndex = j
  stepIndex : step.stepIndex = j
  placeLabel : step.placeLabel = labelAt s.placeLabels j
  inTable : j < s.placeLabels.length
  result : step.result = (s.originalNum1 + s.originalNum2) / 10 ^ j % 10
  carry : step.carryOut + (step.beforeNum1 / 10 ^ (j + 1) + step.beforeNum2 / 10 ^ (j + 1)) =
    carryInto s.originalNum1 s.originalNum2 (j + 1) +
      (s.originalNum1 / 10 ^ (j + 1) + s.originalNum2 / 10 ^ (j + 1))
  carryLe : step.carryOut ≤ carryInto s.originalNum1 s.originalNum2 (j + 1)
  carryOut_eq : step.carryOut = (step.digit1 + step.digit2) / 10
  result_eq : step.result = (step.digit1 + step.digit2) % 10
  kind : step.interactionType = (if step.digit1 + step.digit2 ≥ 10 then .dragDrop else .numpad)

/-- What the handlers on the page need from the session when they are the
handlers of the step of the cursor `j`.  Handlers of an earlier step, left on
the page by a step set-up that threw, are not constrained. -/
def SurfaceOk (s : Session) (j : Nat) : Surface → Prop
  | .numpad step => step.stepIndex = j → StepAgrees s step j ∧
      s.num1 % 10 ^ (j + 1) + s.num2 % 10 ^ (j + 1) < 10 ^ (j + 1)
  | .dragDrop step drag drop => step.stepIndex = j → StepAgrees s step j ∧ drag ≠ drop ∧
      drag < s.nextId ∧ drop < s.nextId ∧
      ∀ id, id = drag ∨ id = drop → ∀ r, findStack s id = some r →
        r.2.label = labelAt s.placeLabels j
  | .idle => True

/-- The invariant of a session between two learner actions, `j` being the step
cursor. -/
structure Steady (s : Session) (j : Nat) : Prop where
  cursor : s.currentStepIndex = j
  wf : WellFormed s
  noEmpty : NoEmptyRows s
  shape : Shape s j
  settled : ∀ o, s.cnt o j ≤ 9
  sum : s.num1 + s.num2 = s.originalNum1 + s.originalNum2
  high : ∀ o, s.original o / 10 ^ (j + 1) ≤ s.live o / 10 ^ (j + 1)
  surface : SurfaceOk s j s.surface

/-- The invariant of a session whose cursor has just reached `j`, before the
step of place index `j` is computed and set up; the handlers on the page are
those of an earlier step. -/
structure Entering (s : Session) (j : Nat) : Prop where
  cursor : s.currentStepIndex = j
  wf : WellFormed s
  noEmpty : NoEmptyRows s
  shape : Shape s j
  fresh : s.total (j + 1) = s.digitSum (j + 1)
  live : LiveReady s j
  earlier : ∀ step, s.shownStep = some step → step.stepIndex < j

/-- What a step shown for place index `j` has in common with the paper trace
of the original numbers; its result digit is the one of the paper trace when
the numbers the step was computed from add up to the original sum, which they
do unless `calculateCurrentStep` took an original number for a live number
`0`. -/
structure StepFits (s : Session) (step : Step) (j : Nat) : Prop where
  placeIndex : step.placeIndex = j
  stepIndex : step.stepIndex = j
  placeLabel : step.placeLabel = labelAt s.placeLabels j
  inTable : j < s.placeLabels.length
  carry : step.carryOut + (step.beforeNum1 / 10 ^ (j + 1) + step.beforeNum2 / 10 ^ (j + 1)) =
    carryInto s.originalNum1 s.originalNum2 (j + 1) +
      (s.originalNum1 / 10 ^ (j + 1) + s.originalNum2 / 10 ^ (j + 1))
  carryLe : step.carryOut ≤ carryInto s.originalNum1 s.originalNum2 (j + 1)
  carryOut_eq : step.carryOut = (step.digit1 + step.digit2) / 10
  result_eq : step.result = (step.digit1 + step.digit2) % 10
  kind : step.interactionType = (if step.digit1 + step.digit2 ≥ 10 then .dragDrop else .numpad)
  result : step.beforeNum1 + step.beforeNum2 = s.originalNum1 + s.originalNum2 →
    step.result = (s.originalNum1 + s.originalNum2) / 10 ^ j % 10

/-- The session when the continuation of `processNextCarryStep` resumes for the
index `c`: the cursor reached `c` in a session `r` whose live numbers were fit
for the step, and since then only `groupIfMoreThanTen` has run for the stacks
of place `c` (in the timer callback). -/
def Entered (s : Session) (c : Nat) : Prop :=
  ∃ r, r.currentStepIndex = c ∧ LiveReady r c ∧
    (∀ step, r.shownStep = some step → step.stepIndex < c) ∧ Grouped r s c

/-- The session shows a numpad step for the cursor `c` and the page is one
place ahead: the stacks of place `c` were regrouped before the step was
computed, and `setupNumpadForStep` has regrouped the stacks of place `c + 1`
that held ten blocks. -/
structure Ahead (s : Session) (c : Nat) : Prop where
  cursor : s.currentStepIndex = c
  shown : ∃ step, s.surface = .numpad step ∧ StepFits s step c
  base : ∃ r, LiveReady r (c + 1) ∧ Grouped r s (c + 1)

/-- Does the event follow the page?  The learner makes an input only when
nothing is scheduled and the page shows the step of the cursor, and drops only
blocks of the drag source row; a scheduled callback may run at any time. -/
def World.accepts (w : World) : Event → Bool
  | .press _ => w.pending.isEmpty && w.session.showsCursorStep
  | .drop _ => w.pending.isEmpty && w.session.showsCursorStep
  | .redrop _ => false
  | .resume _ => true

/-- Every event of the list follows the page it meets. -/
def World.followsPage : World → List Event → Bool
  | _, [] => true
  | w, e :: rest => w.accepts e && World.followsPage (w.step e) rest

/-- The invariant of the page between two events, for each state of the
schedule: nothing scheduled; the continuation of `processNextCarryStep`
scheduled (after a numpad entry, or after the timer callback of a
regrouping); the timer callback and the continuation scheduled (after a
regrouping); the timer callback scheduled (the continuation ran first). -/
inductive WorldOk : World → Prop where
  | idle (s : Session) (j : Nat) :
      Steady s j ∨ Ahead s j → WorldOk { session := s, pending := [] }
  | resuming (s : Session) (i : Nat) :
      Entered s i → WorldOk { session := s, pending := [.continuation i] }
  | regrouped (s : Session) (i : Nat) (lab : PlaceLabel) :
      Entering s i → lab.index = i →
        WorldOk { session := s, pending := [.timer (some lab), .continuation i] }
  | timed (s : Session) (j : Nat) (lab : PlaceLabel) :
      Steady s j → lab.index = j → WorldOk { session := s, pending := [.timer (some lab)] }

/-- The step history while the continuation of `processNextCarryStep` is
scheduled: it is in step order and has the records of the steps below the
cursor and no more. -/
structure Awaiting (s : Session) : Prop where
  indexed : ∀ k d, s.stepDetails.get? k = some d →
    d.stepIndex = k ∧ d.placeLabel = labelAt s.placeLabels k
  length : s.stepDetails.length = s.currentStepIndex

/-- Does the learner wait for the page?  An input (a numpad entry, the drop of
any block on the drop target row) is made only when nothing is scheduled; a
scheduled callback may run at any time. -/
def World.waitsFor (w : World) : Event → Bool
  | .resume _ => true
  | _ => w.pending.isEmpty

/-- At every input of the list the learner has waited for the page. -/
def World.waits : World → List Event → Bool
  | _, [] => true
  | w, e :: rest => w.waitsFor e && World.waits (w.step e) rest

/-- The step history of the page between two events, for each state of the
schedule. -/
inductive WorldLogged : World → Prop where
  | idle (s : Session) : Logged s → WorldLogged { session := s, pending := [] }
  | resuming (s : Session) :
      Awaiting s → WorldLogged { session := s, pending := [.continuation s.currentStepIndex] }
  | regrouped (s : Session) (l : Option PlaceLabel) :
      Awaiting s →
        WorldLogged { session := s, pending := [.timer l, .continuation s.currentStepIndex] }
  | timed (s : Session) (l : Option PlaceLabel) :
      Logged s → WorldLogged { session := s, pending := [.timer l] }

/-- The page on which the session on `519940 + 985999` starts. -/
def world519940 : World := (startWorld 519940 985999).get rfl

/-- On `519940 + 985999`: the entry 9 on the ones step, pressed twice before the
first continuation of `processNextCarryStep` has resumed; the continuation
of index 2, then the one of index 1; one drop on the tens step, which the
page shows; the continuation of that drop and the timer callback. -/
def play519940 : List Event :=
  [.press 9, .press 9, .resume 1, .resume 0, .drop 0, .resume 1, .resume 0]

/-- The page on which the session on `47 + 18` starts. -/
def world47 : World := (startWorld 47 18).get rfl

/-- The page on which the session on `5 + 95` starts. -/
def world5 : World := (startWorld 5 95).get rfl

/-- The page on which the session on `15 + 95` starts. -/
def world15 : World := (startWorld 15 95).get rfl

/-- The page on which the session on `19923 + 145` starts. -/
def world19923 : World := (startWorld 19923 145).get rfl

/-- The page on which the session on `9080 + 1980` starts. -/
def world9080 : World := (startWorld 9080 1980).get rfl

/-- Correct play of `9080 + 1980` up to the thousands step: the entry 0 on the
ones step, two drops on the tens step, the entry 0 on the hundreds step, the
callbacks of each input run before the next input, the continuation of
`processNextCarryStep` before the timer callback. -/
def play9080 : List Event :=
  [.press 0, .resume 0, .drop 0, .drop 0, .resume 1, .resume 0, .press 0, .resume 0]

/-- The five drops that complete the ones step of `5 + 95` and of `15 + 95`. -/
def fiveDrops : List Event := [.drop 0, .drop 0, .drop 0, .drop 0, .drop 0]

/-- The stack `renderBlockStack` creates for place `i` of `num`. -/
def renderedStack (num idBase i : Nat) : Stack :=
  { id := idBase + i
    label := refrenceValues.get? i
    blocks := List.replicate (getDigit num i) (10 ^ i) }

/-- The stacks `renderBlockStack` creates for `num`: one per used place with a
non-zero digit. -/
def renderedStacks (num idBase : Nat) (usedPlaces : List Nat) : List Stack :=
  (usedPlaces.filter (fun i => decide (getDigit num i ≠ 0))).map (renderedStack num idBase)

/-! # Theorems -/

/-! ## Frame lemmas: what the document updates leave alone -/

theorem SameCursor.refl (s : Session) : SameCursor s s := ⟨rfl, rfl, rfl, rfl⟩

theorem SameCursor.trans {a b c : Session} (h₁ : SameCursor a b) (h₂ : SameCursor b c) :
    SameCursor a c :=
  ⟨h₂.1.trans h₁.1, h₂.2.1.trans h₁.2.1, h₂.2.2.1.trans h₁.2.2.1, h₂.2.2.2.trans h₁.2.2.2⟩

theorem sameCursor_setContainer (s : Session) (o : Operand) (c : NumberContainer) :
    SameCursor s (s.setContainer o c) := by
  cases o <;> exact ⟨rfl, rfl, rfl, rfl⟩

theorem sameCursor_updateTempStateFromBlocks (s : Session) :
    SameCursor s (updateTempStateFromBlocks s) := ⟨rfl, rfl, rfl, rfl⟩

theorem sameCursor_appendNewStack (s : Session) (o : Operand) (l : Option PlaceLabel) (v : Nat) :
    SameCursor s (appendNewStack s o l v) := by
  cases o <;> exact ⟨rfl, rfl, rfl, rfl⟩

theorem sameCursor_appendBlock (s : Session) (o : Operand) (l : Option PlaceLabel) (v : Nat) :
    SameCursor s (appendBlock s o l v) := sameCursor_setContainer _ _ _

theorem sameCursor_createBlockInPlace (s : Session) (l : Option PlaceLabel) (v : Nat)
    (e : Option Operand) : SameCursor s (createBlockInPlace s l v e).1 := by
  unfold createBlockInPlace
  cases e with
  | none =>
    simp only
    split
    · exact sameCursor_appendBlock _ _ _ _
    · split
      · exact sameCursor_appendBlock _ _ _ _
      · exact sameCursor_appendNewStack _ _ _ _
  | some o =>
    simp only
    split
    · exact sameCursor_appendBlock _ _ _ _
    · exact sameCursor_appendNewStack _ _ _ _

theorem sameCursor_updateHigherPlaceRow (s : Session) (o : Operand) (g : Bool) :
    SameCursor s (updateHigherPlaceRow s o g) := by
  unfold updateHigherPlaceRow
  split
  · exact SameCursor.refl s
  · split
    · exact sameCursor_setContainer _ _ _
    · split
      · exact sameCursor_updateTempStateFromBlocks s
      · exact SameCursor.refl s

theorem sameCursor_foldl {α : Type} (f : Session → α → Session)
    (hf : ∀ s a, SameCursor s (f s a)) (l : List α) (s : Session) :
    SameCursor s (l.foldl f s) := by
  induction l generalizing s with
  | nil => exact SameCursor.refl s
  | cons a l ih => exact (hf s a).trans (ih (f s a))

theorem sameCursor_updateAllRowPlaceValues (s : Session) :
    SameCursor s (updateAllRowPlaceValues s) := by
  unfold updateAllRowPlaceValues
  have h := sameCursor_foldl
    (fun acc (row : Stack) =>
      if row.blocks.isEmpty then
        { acc with c1 := removeLegendItems row.label acc.c1, c2 := removeLegendItems row.label acc.c2 }
      else acc)
    (fun s a => by
      simp only
      split
      · exact ⟨rfl, rfl, rfl, rfl⟩
      · exact SameCursor.refl s) (s.c1.placeStacks ++ s.c2.placeStacks) s
  exact ⟨h.1, h.2.1, h.2.2.1, h.2.2.2⟩

theorem sameCursor_removeRow (s : Session) (o : Operand) (id : Nat) :
    SameCursor s (removeRow s o id) := sameCursor_setContainer _ _ _

theorem sameCursor_regroupRow (s : Session) (o : Operand) (rowId : Nat)
    (l : Option PlaceLabel) (i : Nat) : SameCursor s (regroupRow s o rowId l i) := by
  unfold regroupRow
  have h1 := sameCursor_createBlockInPlace s (labelAt s.placeLabels (i + 1)) (10 ^ (i + 1)) none
  exact h1.trans ((sameCursor_setContainer _ o _).trans
    ((sameCursor_removeRow _ o rowId).trans (sameCursor_updateHigherPlaceRow _ _ true)))

theorem sameCursor_groupRow (s : Session) (rowId : Nat) : SameCursor s (groupRow s rowId) := by
  unfold groupRow
  split
  · exact SameCursor.refl s
  · split
    · split
      · exact SameCursor.refl s
      · split
        · exact sameCursor_regroupRow _ _ _ _ _
        · exact SameCursor.refl s
    · exact SameCursor.refl s

theorem sameCursor_groupIfMoreThanTen (s : Session) (rows : List Nat) :
    SameCursor s (groupIfMoreThanTen s rows) :=
  sameCursor_foldl groupRow sameCursor_groupRow rows s

theorem sameCursor_setUpDragDropRows (s : Session) (l : Option PlaceLabel) :
    SameCursor s (setUpDragDropRows s l).1 := by
  show SameCursor s (updateAllRowPlaceValues (groupIfMoreThanTen s _))
  exact SameCursor.trans (sameCursor_groupIfMoreThanTen s _) (sameCursor_updateAllRowPlaceValues _)

theorem sameCursor_trackStepDetails (s : Session) (step : Step) (a : InteractionType) :
    SameCursor s (trackStepDetails s step a) := ⟨rfl, rfl, rfl, rfl⟩

theorem sameCursor_installDropHandler (s : Session) (step : Step) (a b : Option Nat) :
    SameCursor s (installDropHandler s step a b) := by
  cases a <;> cases b <;> exact ⟨rfl, rfl, rfl, rfl⟩

theorem sameCursor_startDragDropStep (s : Session) (step : Step) :
    SameCursor s (startDragDropStep s step) :=
  ((sameCursor_trackStepDetails s step .dragDrop).trans
    (sameCursor_setUpDragDropRows (trackStepDetails s step .dragDrop) step.placeLabel)).trans
    (sameCursor_installDropHandler _ step _ _)

theorem sameCursor_startNumpadStep (s : Session) (step : Step) :
    SameCursor s (startNumpadStep s step) := by
  have h := (sameCursor_trackStepDetails s step .numpad).trans
    (sameCursor_groupIfMoreThanTen (trackStepDetails s step .numpad)
      (fullRows (trackStepDetails s step .numpad)))
  exact ⟨h.1, h.2.1, h.2.2.1, h.2.2.2⟩

theorem sameCursor_resumeNextCarryStep (s : Session) (currentIndex : Nat) :
    SameCursor s (resumeNextCarryStep s currentIndex) := by
  unfold resumeNextCarryStep
  split
  · exact ⟨rfl, rfl, rfl, rfl⟩
  · exact ⟨rfl, rfl, rfl, rfl⟩
  · split
    · exact sameCursor_startDragDropStep _ _
    · exact sameCursor_startNumpadStep _ _

theorem sameCursor_processNextCarryStep (s : Session) :
    SameCursor s (processNextCarryStep s) :=
  sameCursor_resumeNextCarryStep s s.currentStepIndex

theorem sameCursor_modifyRow (s : Session) (o : Operand) (id : Nat) (f : List Nat → List Nat) :
    SameCursor s (modifyRow s o id f) := sameCursor_setContainer _ _ _

theorem sameCursor_trackDraggedBlock (s : Session) (v : Nat) :
    SameCursor s (trackDraggedBlock s v) := ⟨rfl, rfl, rfl, rfl⟩

theorem sameCursor_trackCarriedBlocks (s : Session) (info : RegroupingDetails) (n : Nat) :
    SameCursor s (trackCarriedBlocks s info n) := ⟨rfl, rfl, rfl, rfl⟩

theorem sameCursor_removeBlocksFromPlace (s : Session) (l : Option PlaceLabel) (n : Nat)
    (o : Operand) : SameCursor s (removeBlocksFromPlace s l n o) := by
  unfold removeBlocksFromPlace
  dsimp only
  split
  · exact SameCursor.refl s
  · exact sameCursor_setContainer _ _ _

theorem sameCursor_performAutomaticRegrouping (s : Session) (step : Step) (source : Operand)
    (drag k : Nat) (target : Operand) :
    SameCursor s (performAutomaticRegrouping s step source drag k target) := by
  unfold performAutomaticRegrouping
  have h := ((sameCursor_modifyRow s source drag (fun blocks => blocks.eraseIdx k)).trans
    (sameCursor_trackCarriedBlocks _
      { blocksRemoved := 10, blocksAdded := 1, fromPlace := step.placeLabel,
        toPlace := nextPlaceOf s step } 1)).trans
    (sameCursor_removeBlocksFromPlace _ step.placeLabel 10 target)
  dsimp only
  split
  · exact h.trans (sameCursor_createBlockInPlace _ _ _ _)
  · exact h

theorem sameCursor_moveBlock (s : Session) (source : Operand) (drag k : Nat) (target : Operand)
    (drop value : Nat) : SameCursor s (moveBlock s source drag k target drop value) := by
  unfold moveBlock
  exact ((sameCursor_modifyRow s source drag _).trans (sameCursor_modifyRow _ target drop _)).trans
    ((sameCursor_updateAllRowPlaceValues _).trans (sameCursor_updateTempStateFromBlocks _))

/-- A cursor that stayed or advanced by one place, on the same problem. -/
theorem cursorStep_of_sameCursor {s s' : Session} (h : SameCursor s s') :
    s'.placeLabels = s.placeLabels ∧
      (s'.currentStepIndex = s.currentStepIndex ∨
        s'.currentStepIndex = s.currentStepIndex + 1) :=
  ⟨h.1, Or.inl h.2.2.2⟩

theorem moveToNextStep_currentStepIndex (s : Session) :
    (moveToNextStep s).currentStepIndex = s.currentStepIndex + 1 := rfl

theorem moveToNextStep_placeLabels (s : Session) :
    (moveToNextStep s).placeLabels = s.placeLabels := rfl

theorem regroupDrop_currentStepIndex (s : Session) (step : Step) (source : Operand)
    (drag k : Nat) (target : Operand) :
    (regroupDrop s step source drag k target).currentStepIndex = s.currentStepIndex + 1 := by
  unfold regroupDrop
  rw [moveToNextStep_currentStepIndex]
  have h := ((sameCursor_performAutomaticRegrouping s step source drag k target).trans
    (sameCursor_updateHigherPlaceRow _ target false)).trans
    ((sameCursor_updateTempStateFromBlocks _).trans (sameCursor_updateAllRowPlaceValues _))
  rw [h.2.2.2]

theorem regroupDrop_placeLabels (s : Session) (step : Step) (source : Operand)
    (drag k : Nat) (target : Operand) :
    (regroupDrop s step source drag k target).placeLabels = s.placeLabels := by
  unfold regroupDrop
  rw [moveToNextStep_placeLabels]
  exact (((sameCursor_performAutomaticRegrouping s step source drag k target).trans
    (sameCursor_updateHigherPlaceRow _ target false)).trans
    ((sameCursor_updateTempStateFromBlocks _).trans (sameCursor_updateAllRowPlaceValues _))).1

theorem sameCursor_setupSecondPhaseRegrouping (s : Session) (l : Option PlaceLabel) :
    SameCursor s (setupSecondPhaseRegrouping s l) := sameCursor_setUpDragDropRows s l

theorem sameCursor_afterDrop (s : Session) (o : DropOutcome) : SameCursor s (afterDrop s o) := by
  cases o with
  | incomplete advanced =>
    cases advanced
    · exact SameCursor.refl s
    · exact sameCursor_processNextCarryStep s
  | regrouped nextPlace =>
    show SameCursor s (if nextPlace.isSome then
      setupSecondPhaseRegrouping (processNextCarryStep s) nextPlace else processNextCarryStep s)
    split
    · exact (sameCursor_processNextCarryStep s).trans (sameCursor_setupSecondPhaseRegrouping _ _)
    · exact sameCursor_processNextCarryStep s

theorem afterMove_cursor (s : Session) (step : Step) :
    (afterMove s step).1.placeLabels = s.placeLabels ∧
      ((afterMove s step).1.currentStepIndex = s.currentStepIndex ∨
        (afterMove s step).1.currentStepIndex = s.currentStepIndex + 1) := by
  unfold afterMove
  split
  · exact ⟨rfl, Or.inl rfl⟩
  · exact ⟨rfl, Or.inr rfl⟩
  · split
    · exact ⟨rfl, Or.inr rfl⟩
    · exact ⟨rfl, Or.inl rfl⟩

theorem dropOn_cursor (s : Session) (step : Step) (source : Operand) (drag k value : Nat)
    (target : Operand) (drop actualBlocks : Nat) :
    (dropOn s step source drag k value target drop actualBlocks).1.placeLabels = s.placeLabels ∧
      ((dropOn s step source drag k value target drop actualBlocks).1.currentStepIndex =
          s.currentStepIndex ∨
        (dropOn s step source drag k value target drop actualBlocks).1.currentStepIndex =
          s.currentStepIndex + 1) := by
  unfold dropOn
  split
  · refine ⟨?_, Or.inr ?_⟩
    · rw [regroupDrop_placeLabels]; rfl
    · rw [regroupDrop_currentStepIndex]; rfl
  · have h := (sameCursor_trackDraggedBlock s value).trans
      (sameCursor_moveBlock (trackDraggedBlock s value) source drag k target drop value)
    have h2 := afterMove_cursor
      (moveBlock (trackDraggedBlock s value) source drag k target drop value) step
    rw [h.1, h.2.2.2] at h2
    exact h2

theorem handleInteractiveRegroupingComplete_cursor (s : Session) (step : Step)
    (drag drop k : Nat) :
    (handleInteractiveRegroupingComplete s step drag drop k).1.placeLabels = s.placeLabels ∧
      ((handleInteractiveRegroupingComplete s step drag drop k).1.currentStepIndex =
          s.currentStepIndex ∨
        (handleInteractiveRegroupingComplete s step drag drop k).1.currentStepIndex =
          s.currentStepIndex + 1) := by
  unfold handleInteractiveRegroupingComplete
  split
  · split
    · exact ⟨rfl, Or.inl rfl⟩
    · exact dropOn_cursor _ _ _ _ _ _ _ _ _
  · exact ⟨rfl, Or.inl rfl⟩

theorem dropBlock_cursor (s : Session) (k : Nat) :
    (dropBlock s k).placeLabels = s.placeLabels ∧
      ((dropBlock s k).currentStepIndex = s.currentStepIndex ∨
        (dropBlock s k).currentStepIndex = s.currentStepIndex + 1) := by
  unfold dropBlock
  split
  · next step drag drop _ =>
    have h := handleInteractiveRegroupingComplete_cursor s step drag drop k
    have h2 := sameCursor_afterDrop (handleInteractiveRegroupingComplete s step drag drop k).1
      (handleInteractiveRegroupingComplete s step drag drop k).2
    rw [h2.1, h2.2.2.2]
    exact h
  · exact ⟨rfl, Or.inl rfl⟩

theorem redropBlock_cursor (s : Session) (k : Nat) :
    (redropBlock s k).placeLabels = s.placeLabels ∧
      ((redropBlock s k).currentStepIndex = s.currentStepIndex ∨
        (redropBlock s k).currentStepIndex = s.currentStepIndex + 1) := by
  unfold redropBlock
  split
  · next step drag drop _ =>
    have h := handleInteractiveRegroupingComplete_cursor s step drop drop k
    have h2 := sameCursor_afterDrop (handleInteractiveRegroupingComplete s step drop drop k).1
      (handleInteractiveRegroupingComplete s step drop drop k).2
    rw [h2.1, h2.2.2.2]
    exact h
  · exact ⟨rfl, Or.inl rfl⟩

theorem handleNumpadInput_placeLabels (s : Session) (step : Step) (v : Nat) :
    (handleNumpadInput s step v).placeLabels = s.placeLabels := by
  unfold handleNumpadInput
  dsimp only
  split
  · exact (sameCursor_updateAllRowPlaceValues s).1
  · rfl

theorem handleNumpadInput_wrong (s : Session) (step : Step) (v : Nat)
    (h : v ≠ step.digit1 + step.digit2) : handleNumpadInput s step v = s := by
  unfold handleNumpadInput
  simp [h]

theorem handleNumpadInput_correct_index (s : Session) (step : Step) :
    (handleNumpadInput s step (step.digit1 + step.digit2)).currentStepIndex =
      s.currentStepIndex + 1 := by
  unfold handleNumpadInput
  simp only [if_true]
  rw [(sameCursor_updateAllRowPlaceValues s).2.2.2]

theorem pressNumpad_cursor (s : Session) (v : Nat) :
    (pressNumpad s v).placeLabels = s.placeLabels ∧
      ((pressNumpad s v).currentStepIndex = s.currentStepIndex ∨
        (pressNumpad s v).currentStepIndex = s.currentStepIndex + 1) := by
  unfold pressNumpad
  split
  · next step _ =>
    split
    · next h =>
      have h2 := sameCursor_processNextCarryStep (handleNumpadInput s step v)
      rw [h2.1, h2.2.2.2, handleNumpadInput_placeLabels]
      subst h
      exact ⟨rfl, Or.inr (handleNumpadInput_correct_index s step)⟩
    · next h => rw [handleNumpadInput_wrong s step v h]; exact ⟨rfl, Or.inl rfl⟩
  · exact ⟨rfl, Or.inl rfl⟩

theorem act_cursor (s : Session) (a : Action) :
    (act s a).placeLabels = s.placeLabels ∧
      ((act s a).currentStepIndex = s.currentStepIndex ∨
        (act s a).currentStepIndex = s.currentStepIndex + 1) := by
  cases a with
  | numpad v => exact pressNumpad_cursor s v
  | drop k => exact dropBlock_cursor s k
  | redrop k => exact redropBlock_cursor s k

theorem playFrom_placeLabels (actions : List Action) (s : Session) :
    (playFrom s actions).placeLabels = s.placeLabels := by
  induction actions generalizing s with
  | nil => rfl
  | cons a rest ih =>
    show (playFrom (act s a) rest).placeLabels = s.placeLabels
    rw [ih, (act_cursor s a).1]

theorem playFrom_cursor_le (actions : List Action) (s : Session) :
    s.currentStepIndex ≤ (playFrom s actions).currentStepIndex := by
  induction actions generalizing s with
  | nil => exact Nat.le_refl _
  | cons a rest ih =>
    show s.currentStepIndex ≤ (playFrom (act s a) rest).currentStepIndex
    have h := ih (act s a)
    rcases (act_cursor s a).2 with h2 | h2 <;> omega

/-! ## Frame lemmas: the live numbers -/

theorem foldl_num {α : Type} (f : Session → α → Session)
    (hf : ∀ s a, (f s a).num1 = s.num1 ∧ (f s a).num2 = s.num2) (l : List α) (s : Session) :
    (l.foldl f s).num1 = s.num1 ∧ (l.foldl f s).num2 = s.num2 := by
  induction l generalizing s with
  | nil => exact ⟨rfl, rfl⟩
  | cons a l ih => exact ⟨(ih (f s a)).1.trans (hf s a).1, (ih (f s a)).2.trans (hf s a).2⟩

theorem updateAllRowPlaceValues_nums (s : Session) :
    (updateAllRowPlaceValues s).num1 = s.num1 ∧ (updateAllRowPlaceValues s).num2 = s.num2 := by
  unfold updateAllRowPlaceValues
  have h := foldl_num
    (fun acc (row : Stack) =>
      if row.blocks.isEmpty then
        { acc with c1 := removeLegendItems row.label acc.c1, c2 := removeLegendItems row.label acc.c2 }
      else acc)
    (fun s a => by
      dsimp only
      split
      · exact ⟨rfl, rfl⟩
      · exact ⟨rfl, rfl⟩) (s.c1.placeStacks ++ s.c2.placeStacks) s
  exact h

theorem updateAllRowPlaceValues_num1 (s : Session) :
    (updateAllRowPlaceValues s).num1 = s.num1 := (updateAllRowPlaceValues_nums s).1

theorem updateAllRowPlaceValues_num2 (s : Session) :
    (updateAllRowPlaceValues s).num2 = s.num2 := (updateAllRowPlaceValues_nums s).2

/-! ## The step computed by `calculateCurrentStep` -/

theorem calculateCurrentStep_eq (s : Session) (i : Nat) (h : i < s.placeLabels.length)
    (hl : labelAt s.placeLabels i ≠ none) :
    ∃ step, calculateCurrentStep s i = some (some step) ∧
      step.digit1 = jsOr s.num1 s.originalNum1 / 10 ^ i % 10 ∧
      step.digit2 = jsOr s.num2 s.originalNum2 / 10 ^ i % 10 ∧
      step.sum = step.digit1 + step.digit2 ∧
      step.result = step.sum % 10 ∧ step.carryOut = step.sum / 10 ∧
      step.interactionType = (if step.sum ≥ 10 then .dragDrop else .numpad) ∧
      step.stepIndex = i ∧ step.placeIndex = i ∧ step.placeLabel = labelAt s.placeLabels i := by
  unfold calculateCurrentStep
  have hl2 : (labelAt s.placeLabels i).isNone = false := by
    cases hlab : labelAt s.placeLabels i with
    | none => exact absurd hlab hl
    | some l => rfl
  simp only [ge_iff_le, Nat.not_le.mpr h, if_false, hl2, Bool.false_eq_true]
  exact ⟨_, rfl, rfl, rfl, rfl, rfl, rfl, rfl, rfl, rfl, rfl⟩

theorem calculateCurrentStep_none (s : Session) (i : Nat) :
    calculateCurrentStep s i = some none ↔ s.placeLabels.length ≤ i := by
  unfold calculateCurrentStep
  by_cases h : i ≥ s.placeLabels.length
  · simp [h]
  · rw [if_neg h]
    constructor
    · intro h2
      split at h2
      · cases h2
      · cases h2
    · intro h2; exact absurd h2 h

theorem calculateCurrentStep_threw (s : Session) (i : Nat) :
    calculateCurrentStep s i = none ↔
      i < s.placeLabels.length ∧ labelAt s.placeLabels i = none := by
  unfold calculateCurrentStep
  by_cases h : i ≥ s.placeLabels.length
  · rw [if_pos h]
    constructor
    · intro h2; cases h2
    · intro h2; omega
  · rw [if_neg h]
    cases hlab : labelAt s.placeLabels i with
    | none => simp; omega
    | some l => simp

theorem calculateCurrentStep_some (s : Session) (i : Nat) (step : Step)
    (h : calculateCurrentStep s i = some (some step)) :
    i < s.placeLabels.length ∧ labelAt s.placeLabels i ≠ none := by
  have h1 : i < s.placeLabels.length := by
    by_contra hc
    rw [(calculateCurrentStep_none s i).mpr (by omega)] at h
    cases h
  refine ⟨h1, fun hc => ?_⟩
  rw [(calculateCurrentStep_threw s i).mpr ⟨h1, hc⟩] at h
  cases h

/-- C10: for all live numbers and every step index within the place table,
the step of `calculateCurrentStep` has digits between 0 and 9,
`sum = digit1 + digit2`, `result = sum mod 10`, `carryOut = floor(sum / 10)`;
it is a drag-drop step exactly when `sum >= 10` and a numpad step otherwise,
and `carryOut` is 1 exactly on drag-drop steps, 0 otherwise, never more.  A
step is computed whenever the table entry at the index is a label. -/
theorem calculateCurrentStep_numeric (s : Session) (i : Nat) (h : i < s.placeLabels.length) :
    (∀ step, calculateCurrentStep s i = some (some step) →
      0 ≤ step.digit1 ∧ step.digit1 ≤ 9 ∧ 0 ≤ step.digit2 ∧ step.digit2 ≤ 9 ∧
      step.sum = step.digit1 + step.digit2 ∧
      step.result = step.sum % 10 ∧ step.carryOut = step.sum / 10 ∧
      (step.interactionType = .dragDrop ↔ step.sum ≥ 10) ∧
      (step.interactionType = .numpad ↔ step.sum < 10) ∧
      (step.carryOut = 1 ↔ step.interactionType = .dragDrop) ∧
      (step.carryOut = 0 ↔ step.interactionType = .numpad) ∧ step.carryOut ≤ 1) ∧
    (labelAt s.placeLabels i ≠ none → ∃ step, calculateCurrentStep s i = some (some step)) := by
  refine ⟨fun step0 h0 => ?_, fun hl => ?_⟩
  · obtain ⟨step, hstep, hd1, hd2, hsum, hres, hcarry, htype, -, -, -⟩ :=
      calculateCurrentStep_eq s i h (calculateCurrentStep_some s i step0 h0).2
    rw [h0] at hstep
    cases hstep
    have b1 : step0.digit1 ≤ 9 := by rw [hd1]; omega
    have b2 : step0.digit2 ≤ 9 := by rw [hd2]; omega
    refine ⟨Nat.zero_le _, b1, Nat.zero_le _, b2, hsum, hres, hcarry, ?_, ?_, ?_, ?_, ?_⟩
    · rw [htype]; split <;> simp_all
    · rw [htype]; split <;> simp_all
    · rw [htype, hcarry]; split <;> simp <;> omega
    · rw [htype, hcarry]; split <;> simp <;> omega
    · rw [hcarry]; omega
  · obtain ⟨step, hstep, -⟩ := calculateCurrentStep_eq s i h hl
    exact ⟨step, hstep⟩

theorem calculateCurrentStep_numeric_witness :
    0 < session47.placeLabels.length ∧
      (∀ step, calculateCurrentStep session47 0 = some (some step) →
        0 ≤ step.digit1 ∧ step.digit1 ≤ 9 ∧ 0 ≤ step.digit2 ∧ step.digit2 ≤ 9 ∧
        step.sum = step.digit1 + step.digit2 ∧
        step.result = step.sum % 10 ∧ step.carryOut = step.sum / 10 ∧
        (step.interactionType = .dragDrop ↔ step.sum ≥ 10) ∧
        (step.interactionType = .numpad ↔ step.sum < 10) ∧
        (step.carryOut = 1 ↔ step.interactionType = .dragDrop) ∧
        (step.carryOut = 0 ↔ step.interactionType = .numpad) ∧ step.carryOut ≤ 1) ∧
      (labelAt session47.placeLabels 0 ≠ none →
        ∃ step, calculateCurrentStep session47 0 = some (some step)) :=
  ⟨by decide, calculateCurrentStep_numeric session47 0 (by decide)⟩

/-- C11 (code evaluated at the failing input): on `5 + 95` the fifth drop of
the ones step leaves the timer callback and the continuation of
`processNextCarryStep` scheduled.  When the timer callback runs first, the
ten tens are regrouped and the live numbers are (100, 0).  The continuation
then calls `calculateCurrentStep(state, 1)`: the live tens digits are 0 and
0, but the step it returns has `digit2 = 9`, the tens digit of the original
95, because `tempState.num2 || state.originalNum2` takes the original number
when the live number is 0.  The page then asks for `0 + 9`, with the result
9, where the paper trace has the result digit 0. -/
theorem calculateCurrentStep_reads_original :
    (world5.run fiveDrops).pending = [.timer (some .Tens), .continuation 1] ∧
      (((world5.run fiveDrops).step (.resume 0)).session.num1,
        ((world5.run fiveDrops).step (.resume 0)).session.num2,
        ((world5.run fiveDrops).step (.resume 0)).session.originalNum1,
        ((world5.run fiveDrops).step (.resume 0)).session.originalNum2) = (100, 0, 5, 95) ∧
      ((world5.run fiveDrops).step (.resume 0)).pending = [.continuation 1] ∧
      1 < ((world5.run fiveDrops).step (.resume 0)).session.placeLabels.length ∧
      (getDigit ((world5.run fiveDrops).step (.resume 0)).session.num1 1,
        getDigit ((world5.run fiveDrops).step (.resume 0)).session.num2 1) = (0, 0) ∧
      (calculateCurrentStep ((world5.run fiveDrops).step (.resume 0)).session 1).join.map
        (fun step => (step.digit1, step.digit2)) = some (0, 9) ∧
      (world5.run (fiveDrops ++ [.resume 0, .resume 0])).session.shownStep.map
        (fun step => (step.stepIndex, step.digit1, step.digit2, step.result,
          step.interactionType)) = some (1, 0, 9, 9, .numpad) ∧
      ((calculateAdditionSteps world5.session.placeLabels 5 95).get? 1).map
        (fun e => e.resultDigit) = some 0 :=
  ⟨by decide, by decide, by decide, by decide, by decide, by decide, by decide, by decide⟩

/-! ## Numpad entries -/

/-- C5: `handleNumpadInput` advances `currentStepIndex`, by exactly 1, if
and only if the value entered is `digit1 + digit2`; any other value leaves
the cursor where it is; and on success `tempState.num1` and `tempState.num2`
are what they were. -/
theorem handleNumpadInput_advances_iff (s : Session) (step : Step) (inputValue : Nat) :
    ((handleNumpadInput s step inputValue).currentStepIndex = s.currentStepIndex + 1 ↔
        inputValue = step.digit1 + step.digit2) ∧
      (inputValue ≠ step.digit1 + step.digit2 →
        (handleNumpadInput s step inputValue).currentStepIndex = s.currentStepIndex) ∧
      (inputValue = step.digit1 + step.digit2 →
        (handleNumpadInput s step inputValue).num1 = s.num1 ∧
          (handleNumpadInput s step inputValue).num2 = s.num2) := by
  refine ⟨⟨?_, ?_⟩, ?_, ?_⟩
  · intro h
    by_contra hne
    rw [handleNumpadInput_wrong s step inputValue hne] at h
    omega
  · intro h; subst h; exact handleNumpadInput_correct_index s step
  · intro hne; rw [handleNumpadInput_wrong s step inputValue hne]
  · intro h
    subst h
    unfold handleNumpadInput
    simp only [if_true]
    exact ⟨updateAllRowPlaceValues_num1 s, updateAllRowPlaceValues_num2 s⟩

theorem pressNumpad_wrong (s : Session) (step : Step) (v : Nat) (hs : s.surface = .numpad step)
    (h : v ≠ step.digit1 + step.digit2) : pressNumpad s v = s := by
  unfold pressNumpad
  rw [hs]
  simp only [h, if_false]
  exact handleNumpadInput_wrong s step v h

theorem pressNumpad_correct_index (s : Session) (step : Step) (hs : s.surface = .numpad step) :
    (pressNumpad s (step.digit1 + step.digit2)).currentStepIndex = s.currentStepIndex + 1 := by
  unfold pressNumpad
  rw [hs]
  simp only [if_true]
  rw [(sameCursor_processNextCarryStep _).2.2.2]
  exact handleNumpadInput_correct_index s step

theorem foldl_pressNumpad_wrong (s : Session) (step : Step) (hs : s.surface = .numpad step)
    (wrong : List Nat) (hw : ∀ v ∈ wrong, v ≠ step.digit1 + step.digit2) :
    wrong.foldl pressNumpad s = s := by
  induction wrong with
  | nil => rfl
  | cons v rest ih =>
    rw [List.foldl_cons, pressNumpad_wrong s step v hs (hw v (List.mem_cons_self v rest))]
    exact ih (fun w hw' => hw w (List.mem_cons_of_mem v hw'))

/-- C6: on a numpad step, entering values different from `digit1 + digit2`,
any number of times, leaves the session (cursor and live numbers included)
unchanged, and the correct value entered afterwards advances the cursor by
exactly one. -/
theorem wrong_entries_change_nothing (s : Session) (step : Step)
    (hs : s.surface = .numpad step) (wrong : List Nat)
    (hw : ∀ v ∈ wrong, v ≠ step.digit1 + step.digit2) :
    (wrong.foldl pressNumpad s).currentStepIndex = s.currentStepIndex ∧
      (wrong.foldl pressNumpad s).num1 = s.num1 ∧
      (wrong.foldl pressNumpad s).num2 = s.num2 ∧
      wrong.foldl pressNumpad s = s ∧
      (pressNumpad (wrong.foldl pressNumpad s) (step.digit1 + step.digit2)).currentStepIndex =
        s.currentStepIndex + 1 := by
  rw [foldl_pressNumpad_wrong s step hs wrong hw]
  exact ⟨rfl, rfl, rfl, rfl, pressNumpad_correct_index s step hs⟩

/-- Witness of C6: on `19923 + 145` the first step asks for `3 + 5 = 8`; the
wrong entries 1, 9 and 0 change nothing and the entry 8 advances the
cursor. -/
theorem wrong_entries_change_nothing_witness :
    ∃ step, session19923.surface = .numpad step ∧
      (∀ v ∈ [1, 9, 0], v ≠ step.digit1 + step.digit2) ∧
      ([1, 9, 0].foldl pressNumpad session19923).currentStepIndex =
        session19923.currentStepIndex ∧
      ([1, 9, 0].foldl pressNumpad session19923).num1 = session19923.num1 ∧
      ([1, 9, 0].foldl pressNumpad session19923).num2 = session19923.num2 ∧
      [1, 9, 0].foldl pressNumpad session19923 = session19923 ∧
      (pressNumpad ([1, 9, 0].foldl pressNumpad session19923)
          (step.digit1 + step.digit2)).currentStepIndex =
        session19923.currentStepIndex + 1 :=
  ⟨(calculateCurrentStep session19923 0).join.get rfl, by decide, by decide,
    wrong_entries_change_nothing session19923
      ((calculateCurrentStep session19923 0).join.get rfl) (by decide) [1, 9, 0] (by decide)⟩

/-! ## The cursor -/

/-- C12: within a session every learner action leaves `currentStepIndex`
where it is or advances it by exactly one, so along any sequence of actions
the cursor never decreases and never skips an index. -/
theorem cursor_monotonic (s : Session) :
    (∀ a : Action, (act s a).currentStepIndex = s.currentStepIndex ∨
        (act s a).currentStepIndex = s.currentStepIndex + 1) ∧
      (∀ actions : List Action,
        s.currentStepIndex ≤ (playFrom s actions).currentStepIndex) ∧
      (∀ (actions : List Action) (i : Nat), s.currentStepIndex ≤ i →
        i ≤ (playFrom s actions).currentStepIndex →
        ∃ k, k ≤ actions.length ∧ (playFrom s (actions.take k)).currentStepIndex = i) := by
  refine ⟨fun a => (act_cursor s a).2, fun actions => playFrom_cursor_le actions s, ?_⟩
  intro actions
  induction actions using List.reverseRecOn with
  | nil =>
    intro i h1 h2
    have h3 : (playFrom s []).currentStepIndex = s.currentStepIndex := rfl
    refine ⟨0, Nat.le_refl _, ?_⟩
    show s.currentStepIndex = i
    omega
  | append_singleton rest a ih =>
    intro i h1 h2
    have hplay : playFrom s (rest ++ [a]) = act (playFrom s rest) a := by
      unfold playFrom; rw [List.foldl_append]; rfl
    rw [hplay] at h2
    by_cases hle : i ≤ (playFrom s rest).currentStepIndex
    · obtain ⟨k, hk, hk2⟩ := ih i h1 hle
      refine ⟨k, by rw [List.length_append]; omega, ?_⟩
      rw [List.take_append_of_le_length hk]
      exact hk2
    · refine ⟨(rest ++ [a]).length, Nat.le_refl _, ?_⟩
      rw [List.take_length, hplay]
      rcases (act_cursor (playFrom s rest) a).2 with h3 | h3 <;> omega

/-! ## Decimal digits -/

theorem digitsLS_spec (fuel n : Nat) (h : n < 10 ^ (fuel + 1)) :
    1 ≤ (digitsLS (fuel + 1) n).length ∧ n < 10 ^ (digitsLS (fuel + 1) n).length ∧
      ((digitsLS (fuel + 1) n).length = 1 ∨ 10 ^ ((digitsLS (fuel + 1) n).length - 1) ≤ n) ∧
      ∀ k, (digitsLS (fuel + 1) n).getD k 0 = n / 10 ^ k % 10 := by
  induction fuel generalizing n with
  | zero =>
    have h10 : n < 10 := by simpa using h
    have hunf : digitsLS (0 + 1) n = [n] := by
      conv_lhs => unfold digitsLS
      simp only [h10, if_true]
    rw [hunf]
    refine ⟨by simp, by simpa using h10, Or.inl (by simp), ?_⟩
    intro k
    cases k with
    | zero => simp; omega
    | succ k =>
      have : n / 10 ^ (k + 1) = 0 := by
        apply Nat.div_eq_of_lt
        calc n < 10 := h10
          _ = 10 ^ 1 := by norm_num
          _ ≤ 10 ^ (k + 1) := Nat.pow_le_pow_right (by norm_num) (by omega)
      simp [this]
  | succ fuel ih =>
    by_cases h10 : n < 10
    · have hunf : digitsLS (fuel + 1 + 1) n = [n] := by
        conv_lhs => unfold digitsLS
        simp only [h10, if_true]
      rw [hunf]
      refine ⟨by simp, by simpa using h10, Or.inl (by simp), ?_⟩
      intro k
      cases k with
      | zero => simp; omega
      | succ k =>
        have : n / 10 ^ (k + 1) = 0 := by
          apply Nat.div_eq_of_lt
          calc n < 10 := h10
            _ = 10 ^ 1 := by norm_num
            _ ≤ 10 ^ (k + 1) := Nat.pow_le_pow_right (by norm_num) (by omega)
        simp [this]
    · have hdiv : n / 10 < 10 ^ (fuel + 1) := by
        rw [Nat.div_lt_iff_lt_mul (by norm_num)]
        calc n < 10 ^ (fuel + 1 + 1) := h
          _ = 10 ^ (fuel + 1) * 10 := by rw [pow_succ]
      obtain ⟨h1, h2, h3, h4⟩ := ih (n / 10) hdiv
      have hunf : digitsLS (fuel + 1 + 1) n = (n % 10) :: digitsLS (fuel + 1) (n / 10) := by
        conv_lhs => unfold digitsLS
        simp only [h10, if_false]
      rw [hunf]
      simp only [List.length_cons, Nat.add_sub_cancel]
      refine ⟨by omega, ?_, Or.inr ?_, ?_⟩
      · rw [pow_succ]
        have := Nat.div_add_mod n 10
        have hm : n % 10 < 10 := Nat.mod_lt _ (by norm_num)
        omega
      · rcases h3 with h3 | h3
        · rw [h3]; simp; omega
        · have : (digitsLS (fuel + 1) (n / 10)).length =
              ((digitsLS (fuel + 1) (n / 10)).length - 1) + 1 := by omega
          rw [this, pow_succ]
          have := Nat.div_add_mod n 10
          omega
      · intro k
        cases k with
        | zero => simp
        | succ k =>
          simp only [List.getD_cons_succ]
          rw [h4 k, pow_succ, Nat.mul_comm, ← Nat.div_div_eq_div_mul]

theorem lt_ten_pow_succ_self (n : Nat) : n < 10 ^ (n + 1) :=
  calc n < 2 ^ n := Nat.lt_two_pow n
    _ ≤ 10 ^ n := Nat.pow_le_pow_left (by norm_num) n
    _ ≤ 10 ^ (n + 1) := Nat.pow_le_pow_right (by norm_num) (by omega)

theorem numLength_eq (n : Nat) : numLength n = (digitsLS (n + 1) n).length := by
  unfold numLength toStringDigits
  rw [List.length_reverse]

theorem numLength_spec (n : Nat) :
    1 ≤ numLength n ∧ n < 10 ^ numLength n ∧
      (numLength n = 1 ∨ 10 ^ (numLength n - 1) ≤ n) := by
  rw [numLength_eq]
  obtain ⟨h1, h2, h3, -⟩ := digitsLS_spec n n (lt_ten_pow_succ_self n)
  exact ⟨h1, h2, h3⟩

theorem numLength_le_iff (n k : Nat) (hk : 1 ≤ k) : numLength n ≤ k ↔ n < 10 ^ k := by
  obtain ⟨h1, h2, h3⟩ := numLength_spec n
  constructor
  · intro h
    exact lt_of_lt_of_le h2 (Nat.pow_le_pow_right (by norm_num) h)
  · intro h
    by_contra hc
    rcases h3 with h3 | h3
    · omega
    · have : 10 ^ k ≤ 10 ^ (numLength n - 1) := Nat.pow_le_pow_right (by norm_num) (by omega)
      omega

theorem numLength_mono {a b : Nat} (h : a ≤ b) : numLength a ≤ numLength b := by
  rw [numLength_le_iff a _ (numLength_spec b).1]
  exact lt_of_le_of_lt h (numLength_spec b).2.1

theorem numLength_max (a b : Nat) :
    numLength (if a > b then a else b) = max (numLength a) (numLength b) := by
  split
  · next h => rw [max_eq_left (numLength_mono (Nat.le_of_lt h))]
  · next h => rw [max_eq_right (numLength_mono (Nat.le_of_not_lt h))]

theorem toStringDigits_getD (n k : Nat) :
    (toStringDigits n).reverse.getD k 0 = n / 10 ^ k % 10 := by
  unfold toStringDigits
  rw [List.reverse_reverse]
  exact (digitsLS_spec n n (lt_ten_pow_succ_self n)).2.2.2 k

/-! ## The place table -/

theorem ite_gt_eq_max (a b : Nat) : (if a > b then a else b) = max a b := by
  split
  · next h => exact (max_eq_left (Nat.le_of_lt h)).symm
  · next h => exact (max_eq_right (Nat.le_of_not_lt h)).symm

theorem filter_lt_range (len : Nat) (h : len ≤ 7) :
    (List.range len).filter (fun i => decide (i < 7)) = List.range len := by
  rw [List.filter_eq_self]
  intro a ha
  rw [List.mem_range] at ha
  simp only [decide_eq_true_eq]
  omega

theorem tableLength_bounds (n1 n2 : Nat) (h : n1 + n2 < 10 ^ 7) :
    1 ≤ tableLength n1 n2 ∧ tableLength n1 n2 ≤ 7 ∧ n1 + n2 < 10 ^ tableLength n1 n2 ∧
      numLength (max n1 n2) ≤ tableLength n1 n2 := by
  have hmax : max n1 n2 ≤ n1 + n2 := max_le (Nat.le_add_right _ _) (Nat.le_add_left _ _)
  have hs7 : numLength (n1 + n2) ≤ 7 := (numLength_le_iff _ 7 (by norm_num)).mpr h
  have hm := numLength_spec (max n1 n2)
  have hmono := numLength_mono hmax
  unfold tableLength
  split
  · next hgt =>
    refine ⟨by omega, by omega, ?_, by omega⟩
    have h2 : n1 + n2 ≤ 2 * max n1 n2 := by
      have := le_max_left n1 n2
      have := le_max_right n1 n2
      omega
    rw [pow_succ]
    omega
  · next hgt =>
    refine ⟨by omega, by omega, ?_, by omega⟩
    simp only [Nat.add_zero]
    exact (numLength_le_iff _ _ hm.1).mp (by omega)

theorem renderPlaceTable_inRange (n1 n2 : Nat) (h : n1 + n2 < 10 ^ 7) :
    renderPlaceTable n1 n2 =
      ((List.range (tableLength n1 n2)).map (fun i => refrenceValues.get? i),
        (List.range (tableLength n1 n2)).map (fun i => 10 ^ i)) := by
  have hmax : max n1 n2 ≤ n1 + n2 := max_le (Nat.le_add_right _ _) (Nat.le_add_left _ _)
  have hs7 : numLength (n1 + n2) ≤ 7 := (numLength_le_iff _ 7 (by norm_num)).mpr h
  have hmono := numLength_mono hmax
  have hlen : numLength (max n1 n2) ≤ 7 := by omega
  unfold renderPlaceTable createPlaceValues tableLength
  simp only [ite_gt_eq_max, filter_lt_range _ hlen]
  by_cases hgt : numLength (n1 + n2) > numLength (max n1 n2)
  · simp only [hgt, decide_True, if_true, List.length_map, List.length_range]
    rw [List.range_succ, List.map_append, List.map_append]
    rfl
  · simp only [hgt, decide_False, if_false, Nat.add_zero]

/-- C13 (Invariant P1): for operands whose sum has at most 7 decimal digits,
the place table built by `createPlaceValues` and `render` has as many entries
as the larger operand has digits, plus one exactly when the sum has more
digits; entry `i` is the `i`-th label of (Ones, Tens, Hundreds, Thousands,
Ten Thousands, Hundred Thousands, Million) and its place value is `10 ^ i`. -/
theorem place_table_invariant (n1 n2 : Nat) (h : n1 + n2 < 10 ^ 7) :
    (renderPlaceTable n1 n2).1.length =
        numLength (max n1 n2) + (if numLength (n1 + n2) > numLength (max n1 n2) then 1 else 0) ∧
      (renderPlaceTable n1 n2).2.length = (renderPlaceTable n1 n2).1.length ∧
      (renderPlaceTable n1 n2).1.length ≤ 7 ∧
      ∀ i, i < (renderPlaceTable n1 n2).1.length →
        (renderPlaceTable n1 n2).1.get? i = some (refrenceValues.get? i) ∧
          (refrenceValues.get? i).isSome ∧
          (renderPlaceTable n1 n2).2.get? i = some (10 ^ i) := by
  rw [renderPlaceTable_inRange n1 n2 h]
  have hb := tableLength_bounds n1 n2 h
  simp only [List.length_map, List.length_range]
  refine ⟨rfl, trivial, hb.2.1, ?_⟩
  intro i hi
  refine ⟨?_, ?_, ?_⟩
  · rw [List.get?_eq_getElem?, List.getElem?_map, List.getElem?_range hi]; rfl
  · have : i < refrenceValues.length := by
      show i < 7
      omega
    rw [List.get?_eq_get this]
    rfl
  · rw [List.get?_eq_getElem?, List.getElem?_map, List.getElem?_range hi]; rfl

/-- Witness of C13 on `47 + 18`. -/
theorem place_table_invariant_witness :
    47 + 18 < 10 ^ 7 ∧
      (renderPlaceTable 47 18).1.length =
        numLength (max 47 18) + (if numLength (47 + 18) > numLength (max 47 18) then 1 else 0) ∧
      (renderPlaceTable 47 18).2.length = (renderPlaceTable 47 18).1.length ∧
      (renderPlaceTable 47 18).1.length ≤ 7 ∧
      ∀ i, i < (renderPlaceTable 47 18).1.length →
        (renderPlaceTable 47 18).1.get? i = some (refrenceValues.get? i) ∧
          (refrenceValues.get? i).isSome ∧
          (renderPlaceTable 47 18).2.get? i = some (10 ^ i) :=
  ⟨by norm_num, place_table_invariant 47 18 (by norm_num)⟩

/-! ## Column addition -/

theorem carryInto_zero (n1 n2 : Nat) : carryInto n1 n2 0 = 0 := by
  simp [carryInto, Nat.mod_one]

theorem carryInto_le_one (n1 n2 q : Nat) : carryInto n1 n2 q ≤ 1 := by
  unfold carryInto
  have hp : 0 < 10 ^ q := Nat.pow_pos (by norm_num)
  have h1 := Nat.mod_lt n1 hp
  have h2 := Nat.mod_lt n2 hp
  have : (n1 % 10 ^ q + n2 % 10 ^ q) / 10 ^ q < 2 := by
    rw [Nat.div_lt_iff_lt_mul hp]
    omega
  omega

theorem column_sum (n1 n2 q : Nat) :
    (n1 / 10 ^ q % 10 + n2 / 10 ^ q % 10 + carryInto n1 n2 q) % 10 = (n1 + n2) / 10 ^ q % 10 ∧
      (n1 / 10 ^ q % 10 + n2 / 10 ^ q % 10 + carryInto n1 n2 q) / 10 = carryInto n1 n2 (q + 1) := by
  have hp : 0 < 10 ^ q := Nat.pow_pos (by norm_num)
  have e1 := Nat.div_add_mod n1 (10 ^ q)
  have e2 := Nat.div_add_mod n2 (10 ^ q)
  have hsum : (n1 + n2) / 10 ^ q = n1 / 10 ^ q + n2 / 10 ^ q + carryInto n1 n2 q := by
    unfold carryInto
    have : n1 + n2 = (n1 % 10 ^ q + n2 % 10 ^ q) + 10 ^ q * (n1 / 10 ^ q + n2 / 10 ^ q) := by
      rw [Nat.mul_add]; omega
    rw [this, Nat.add_mul_div_left _ _ hp]
    omega
  constructor
  · rw [hsum]
    omega
  · have hc : carryInto n1 n2 (q + 1) =
        (10 ^ q * (n1 / 10 ^ q % 10 + n2 / 10 ^ q % 10) + (n1 % 10 ^ q + n2 % 10 ^ q)) /
          (10 ^ q * 10) := by
      unfold carryInto
      rw [Nat.mod_pow_succ, Nat.mod_pow_succ, pow_succ, Nat.mul_add]
      congr 1
      omega
    rw [hc, ← Nat.div_div_eq_div_mul, Nat.add_comm (10 ^ q * _), Nat.add_mul_div_left _ _ hp]
    unfold carryInto
    congr 1
    omega

theorem padStart_reverse_getD (n m k : Nat) :
    (padStart m (toStringDigits n)).reverse.getD k 0 = n / 10 ^ k % 10 := by
  unfold padStart
  rw [List.reverse_append, List.reverse_replicate]
  by_cases hk : k < (toStringDigits n).reverse.length
  · rw [List.getD_append _ _ _ _ hk]
    exact toStringDigits_getD n k
  · have hk' : (toStringDigits n).reverse.length ≤ k := Nat.le_of_not_lt hk
    rw [List.getD_append_right _ _ _ _ hk']
    have h0 : n / 10 ^ k % 10 = 0 := by
      have hlen : n < 10 ^ k := by
        have h := (numLength_spec n).2.1
        have hl : numLength n ≤ k := by
          unfold numLength
          rw [List.length_reverse] at hk'
          exact hk'
        exact lt_of_lt_of_le h (Nat.pow_le_pow_right (by norm_num) hl)
      rw [Nat.div_eq_of_lt hlen]
    rw [h0]
    rw [List.getD_eq_getElem?_getD]
    cases hget : (List.replicate (m - (toStringDigits n).length) 0)[k - (toStringDigits n).reverse.length]? with
    | none => rfl
    | some v =>
      have := List.getElem?_mem hget
      rw [List.mem_replicate] at this
      simp [this.2]

theorem padStart_length (n m : Nat) (h : (toStringDigits n).length ≤ m) :
    (padStart m (toStringDigits n)).length = m := by
  unfold padStart
  rw [List.length_append, List.length_replicate]
  omega

theorem digitPairs_length (n1 n2 : Nat) :
    (digitPairs n1 n2).length = max (numLength n1) (numLength n2) := by
  unfold digitPairs
  simp only [List.length_zip, List.length_reverse]
  rw [padStart_length _ _ (le_max_left _ _), padStart_length _ _ (le_max_right _ _)]
  simp [numLength]

theorem digitPairs_get (n1 n2 k : Nat) (h : k < (digitPairs n1 n2).length) :
    (digitPairs n1 n2)[k] = (n1 / 10 ^ k % 10, n2 / 10 ^ k % 10) := by
  have h1 := padStart_reverse_getD n1 (max (toStringDigits n1).length (toStringDigits n2).length) k
  have h2 := padStart_reverse_getD n2 (max (toStringDigits n1).length (toStringDigits n2).length) k
  unfold digitPairs at h ⊢
  simp only [List.length_zip, List.length_reverse, lt_min_iff] at h
  rw [List.getElem_zip]
  rw [List.getD_eq_getElem _ _ (by rw [List.length_reverse]; exact h.1)] at h1
  rw [List.getD_eq_getElem _ _ (by rw [List.length_reverse]; exact h.2)] at h2
  rw [h1, h2]

theorem additionLoop_spec (placeLabels : List (Option PlaceLabel)) (n1 n2 : Nat) :
    ∀ (pairs : List (Nat × Nat)) (p : Nat),
      (∀ j (h : j < pairs.length), pairs[j] = (n1 / 10 ^ (p + j) % 10, n2 / 10 ^ (p + j) % 10)) →
      additionLoop placeLabels pairs p (carryInto n1 n2 p) =
        ((List.range' p pairs.length).map (columnEntry placeLabels n1 n2),
          carryInto n1 n2 (p + pairs.length)) := by
  intro pairs
  induction pairs with
  | nil => intro p _; rfl
  | cons pair rest ih =>
    intro p h
    have h0 := h 0 (by simp)
    simp only [List.getElem_cons_zero, Nat.add_zero] at h0
    have hrest : ∀ j (hj : j < rest.length),
        rest[j] = (n1 / 10 ^ (p + 1 + j) % 10, n2 / 10 ^ (p + 1 + j) % 10) := by
      intro j hj
      have := h (j + 1) (by simp; omega)
      simp only [List.getElem_cons_succ] at this
      rw [this, Nat.add_assoc, Nat.add_comm 1 j]
    have hc := column_sum n1 n2 p
    obtain ⟨d1, d2⟩ := pair
    simp only [Prod.mk.injEq] at h0
    obtain ⟨hd1, hd2⟩ := h0
    subst hd1 hd2
    unfold additionLoop
    simp only [hc.2, ih (p + 1) hrest, List.length_cons, List.range'_succ, List.map_cons]
    refine Prod.ext ?_ ?_
    · simp only
      congr 1
      unfold columnEntry
      simp only [hc.1]
    · simp only
      congr 1
      omega

theorem calculateAdditionSteps_eq (placeLabels : List (Option PlaceLabel)) (n1 n2 : Nat) :
    calculateAdditionSteps placeLabels n1 n2 =
      (List.range (max (numLength n1) (numLength n2))).map (columnEntry placeLabels n1 n2) ++
        (if carryInto n1 n2 (max (numLength n1) (numLength n2)) > 0 then
          [carryEntry placeLabels (max (numLength n1) (numLength n2))
            (carryInto n1 n2 (max (numLength n1) (numLength n2)))]
        else []) := by
  have hloop := additionLoop_spec placeLabels n1 n2 (digitPairs n1 n2) 0
    (by intro j hj; rw [digitPairs_get n1 n2 j hj]; simp)
  rw [carryInto_zero, digitPairs_length] at hloop
  simp only [Nat.zero_add] at hloop
  unfold calculateAdditionSteps
  simp only
  have hd : (padStart (max (toStringDigits n1).length (toStringDigits n2).length)
      (toStringDigits n1)).reverse.zip
      (padStart (max (toStringDigits n1).length (toStringDigits n2).length)
        (toStringDigits n2)).reverse = digitPairs n1 n2 := rfl
  rw [hd, hloop]
  simp only [List.range_eq_range']
  have hm : max (toStringDigits n1).length (toStringDigits n2).length =
      max (numLength n1) (numLength n2) := rfl
  rw [hm]
  split
  · rfl
  · simp

theorem carryInto_of_lt (n1 n2 m : Nat) (h1 : n1 < 10 ^ m) (h2 : n2 < 10 ^ m) :
    carryInto n1 n2 m = (n1 + n2) / 10 ^ m := by
  unfold carryInto
  rw [Nat.mod_eq_of_lt h1, Nat.mod_eq_of_lt h2]

theorem operands_lt_maxLength (n1 n2 : Nat) :
    n1 < 10 ^ max (numLength n1) (numLength n2) ∧ n2 < 10 ^ max (numLength n1) (numLength n2) :=
  ⟨lt_of_lt_of_le (numLength_spec n1).2.1 (Nat.pow_le_pow_right (by norm_num) (le_max_left _ _)),
    lt_of_lt_of_le (numLength_spec n2).2.1 (Nat.pow_le_pow_right (by norm_num) (le_max_right _ _))⟩

theorem final_carry_pos_iff (n1 n2 : Nat) :
    carryInto n1 n2 (max (numLength n1) (numLength n2)) > 0 ↔
      numLength (n1 + n2) > max (numLength n1) (numLength n2) := by
  have hlt := operands_lt_maxLength n1 n2
  have hm : 1 ≤ max (numLength n1) (numLength n2) :=
    le_trans (numLength_spec n1).1 (le_max_left _ _)
  have hp : 0 < 10 ^ max (numLength n1) (numLength n2) := Nat.pow_pos (by norm_num)
  have hiff := numLength_le_iff (n1 + n2) _ hm
  rw [carryInto_of_lt _ _ _ hlt.1 hlt.2]
  constructor
  · intro h
    by_contra hle
    have hlt2 := hiff.mp (Nat.le_of_not_lt hle)
    rw [Nat.div_eq_of_lt hlt2] at h
    exact Nat.lt_irrefl 0 h
  · intro h
    have hge : ¬ n1 + n2 < 10 ^ max (numLength n1) (numLength n2) := fun hlt2 =>
      Nat.lt_irrefl _ (Nat.lt_of_lt_of_le h (hiff.mpr hlt2))
    exact Nat.div_pos (Nat.le_of_not_lt hge) hp

theorem trace_length (placeLabels : List (Option PlaceLabel)) (n1 n2 : Nat) :
    (calculateAdditionSteps placeLabels n1 n2).length =
      max (numLength n1) (numLength n2) +
        (if carryInto n1 n2 (max (numLength n1) (numLength n2)) > 0 then 1 else 0) := by
  rw [calculateAdditionSteps_eq]
  split <;> simp

theorem trace_get_column (placeLabels : List (Option PlaceLabel)) (n1 n2 i : Nat)
    (h : i < max (numLength n1) (numLength n2)) :
    (calculateAdditionSteps placeLabels n1 n2).get? i = some (columnEntry placeLabels n1 n2 i) := by
  rw [calculateAdditionSteps_eq, List.get?_eq_getElem?,
    List.getElem?_append_left (by simpa using h), List.getElem?_map, List.getElem?_range h]
  rfl

theorem trace_get_carry (placeLabels : List (Option PlaceLabel)) (n1 n2 : Nat) :
    (calculateAdditionSteps placeLabels n1 n2).get? (max (numLength n1) (numLength n2)) =
      if carryInto n1 n2 (max (numLength n1) (numLength n2)) > 0 then
        some (carryEntry placeLabels (max (numLength n1) (numLength n2))
          (carryInto n1 n2 (max (numLength n1) (numLength n2))))
      else none := by
  rw [calculateAdditionSteps_eq, List.get?_eq_getElem?,
    List.getElem?_append_right (by simp)]
  simp only [List.length_map, List.length_range, Nat.sub_self]
  split <;> rfl

/-- C14: `calculateAdditionSteps(n1, n2)` is right-to-left column addition on
the operands padded to the common length `max(len(n1), len(n2))`: entry 0 has
`previousCarry` 0; entry `i` below that length has the decimal digits of `n1`
and `n2` at place `i`, `sum = digit1 + digit2 + previousCarry`,
`resultDigit = sum mod 10`, `newCarry = floor(sum / 10)`, which is 0 or 1;
and the `previousCarry` of entry `i + 1` is the `newCarry` of entry `i`. -/
theorem paper_trace_columns (placeLabels : List (Option PlaceLabel)) (n1 n2 i : Nat)
    (h : i < max (numLength n1) (numLength n2)) :
    ∃ e, (calculateAdditionSteps placeLabels n1 n2).get? i = some e ∧
      e.placeIndex = i ∧ e.digit1 = n1 / 10 ^ i % 10 ∧ e.digit2 = n2 / 10 ^ i % 10 ∧
      e.sum = e.digit1 + e.digit2 + e.previousCarry ∧
      e.resultDigit = e.sum % 10 ∧ e.newCarry = e.sum / 10 ∧ e.newCarry ≤ 1 ∧
      (i = 0 → e.previousCarry = 0) ∧
      ∀ e', (calculateAdditionSteps placeLabels n1 n2).get? (i + 1) = some e' →
        e'.previousCarry = e.newCarry := by
  refine ⟨columnEntry placeLabels n1 n2 i, trace_get_column placeLabels n1 n2 i h, rfl, rfl, rfl,
    rfl, (column_sum n1 n2 i).1.symm, (column_sum n1 n2 i).2.symm, carryInto_le_one _ _ _, ?_, ?_⟩
  · intro h0; subst h0; exact carryInto_zero n1 n2
  · intro e' he'
    by_cases hi : i + 1 < max (numLength n1) (numLength n2)
    · rw [trace_get_column placeLabels n1 n2 (i + 1) hi] at he'
      cases he'
      rfl
    · have hi' : i + 1 = max (numLength n1) (numLength n2) := by omega
      rw [hi', trace_get_carry] at he'
      split at he'
      · cases he'
        show carryInto n1 n2 _ = carryInto n1 n2 (i + 1)
        rw [hi']
      · cases he'

/-- Witness of C14 on `47 + 18`, ones place. -/
theorem paper_trace_columns_witness :
    0 < max (numLength 47) (numLength 18) ∧
      ∃ e, (calculateAdditionSteps [] 47 18).get? 0 = some e ∧
        e.placeIndex = 0 ∧ e.digit1 = 47 / 10 ^ 0 % 10 ∧ e.digit2 = 18 / 10 ^ 0 % 10 ∧
        e.sum = e.digit1 + e.digit2 + e.previousCarry ∧
        e.resultDigit = e.sum % 10 ∧ e.newCarry = e.sum / 10 ∧ e.newCarry ≤ 1 ∧
        (0 = 0 → e.previousCarry = 0) ∧
        ∀ e', (calculateAdditionSteps [] 47 18).get? (0 + 1) = some e' →
          e'.previousCarry = e.newCarry :=
  ⟨by decide, paper_trace_columns [] 47 18 0 (by decide)⟩

theorem trace_get_resultDigit (placeLabels : List (Option PlaceLabel)) (n1 n2 i : Nat)
    (e : PaperStep) (h : (calculateAdditionSteps placeLabels n1 n2).get? i = some e) :
    e.resultDigit = (n1 + n2) / 10 ^ i % 10 ∧ e.placeIndex = i ∧
      e.placeLabel = labelAt placeLabels i := by
  have hlen : i < (calculateAdditionSteps placeLabels n1 n2).length := by
    rw [List.get?_eq_getElem?] at h
    exact (List.getElem?_eq_some.mp h).1
  rw [trace_length] at hlen
  by_cases hi : i < max (numLength n1) (numLength n2)
  · rw [trace_get_column placeLabels n1 n2 i hi] at h
    cases h
    exact ⟨rfl, rfl, rfl⟩
  · have hc : carryInto n1 n2 (max (numLength n1) (numLength n2)) > 0 := by
      by_contra hc
      simp only [hc, if_false] at hlen
      omega
    simp only [hc, if_true] at hlen
    have hi' : i = max (numLength n1) (numLength n2) := by omega
    subst hi'
    rw [trace_get_carry, if_pos hc] at h
    cases h
    refine ⟨?_, rfl, rfl⟩
    have hlt := operands_lt_maxLength n1 n2
    show carryInto n1 n2 _ = _
    have h1 := carryInto_le_one n1 n2 (max (numLength n1) (numLength n2))
    rw [carryInto_of_lt _ _ _ hlt.1 hlt.2] at h1 ⊢
    generalize (n1 + n2) / 10 ^ max (numLength n1) (numLength n2) = q at h1 ⊢
    omega

theorem digit_expansion (N : Nat) :
    ∀ k, ((List.range k).map (fun i => N / 10 ^ i % 10 * 10 ^ i)).sum = N % 10 ^ k := by
  intro k
  induction k with
  | zero => simp [Nat.mod_one]
  | succ k ih =>
    rw [List.range_succ, List.map_append, List.sum_append, ih, Nat.mod_pow_succ]
    simp only [List.map_cons, List.map_nil, List.sum_cons, List.sum_nil, Nat.add_zero]
    rw [Nat.mul_comm]

theorem trace_weighted_sum (placeLabels : List (Option PlaceLabel)) (n1 n2 : Nat) :
    ((calculateAdditionSteps placeLabels n1 n2).map
      (fun e => e.resultDigit * 10 ^ e.placeIndex)).sum = n1 + n2 := by
  have hlt := operands_lt_maxLength n1 n2
  have hc := carryInto_of_lt _ _ _ hlt.1 hlt.2
  have hp : 0 < 10 ^ max (numLength n1) (numLength n2) := Nat.pow_pos (by norm_num)
  have hcols : (List.map (fun e => e.resultDigit * 10 ^ e.placeIndex)
      (List.map (columnEntry placeLabels n1 n2) (List.range (max (numLength n1) (numLength n2))))).sum
        = (n1 + n2) % 10 ^ max (numLength n1) (numLength n2) := by
    rw [List.map_map, ← digit_expansion]
    rfl
  rw [calculateAdditionSteps_eq, List.map_append, List.sum_append, hcols]
  have hdm := Nat.mod_add_div (n1 + n2) (10 ^ max (numLength n1) (numLength n2))
  split
  · simp only [List.map_cons, List.map_nil, List.sum_cons, List.sum_nil, Nat.add_zero]
    show _ + carryInto n1 n2 _ * 10 ^ max (numLength n1) (numLength n2) = _
    rw [hc, Nat.mul_comm]
    exact hdm
  · rename_i h0
    rw [hc] at h0
    have hz : (n1 + n2) / 10 ^ max (numLength n1) (numLength n2) = 0 := by omega
    rw [hz] at hdm
    simp only [List.map_nil, List.sum_nil]
    omega

theorem sum_lt_trace_length (placeLabels : List (Option PlaceLabel)) (n1 n2 : Nat) :
    n1 + n2 < 10 ^ (calculateAdditionSteps placeLabels n1 n2).length := by
  have hlt := operands_lt_maxLength n1 n2
  have hc := carryInto_of_lt _ _ _ hlt.1 hlt.2
  have hp : 0 < 10 ^ max (numLength n1) (numLength n2) := Nat.pow_pos (by norm_num)
  rw [trace_length]
  split
  · rw [Nat.pow_succ]
    omega
  · rename_i h0
    rw [hc] at h0
    have hz : (n1 + n2) / 10 ^ max (numLength n1) (numLength n2) = 0 := by omega
    rcases (Nat.div_eq_zero_iff hp).mp hz with h
    simpa using h

/-- C15: trace agreement. Every entry `i` of `calculateAdditionSteps(n1, n2)`
has `resultDigit` equal to the decimal digit of `n1 + n2` at place `i`; the
entries cover every digit of the sum (`n1 + n2 < 10 ^ length`), so the sum of
`resultDigit_i * 10 ^ i` over the trace is `n1 + n2`; and the entry after the
digit entries, when there is one, carries the overflow digit of the sum, which
is then its most significant digit. -/
theorem paper_trace_agreement (placeLabels : List (Option PlaceLabel)) (n1 n2 : Nat) :
    (∀ i e, (calculateAdditionSteps placeLabels n1 n2).get? i = some e →
        e.resultDigit = (n1 + n2) / 10 ^ i % 10 ∧ e.placeIndex = i) ∧
      n1 + n2 < 10 ^ (calculateAdditionSteps placeLabels n1 n2).length ∧
      ((calculateAdditionSteps placeLabels n1 n2).map
        (fun e => e.resultDigit * 10 ^ e.placeIndex)).sum = n1 + n2 ∧
      ∀ e, (calculateAdditionSteps placeLabels n1 n2).get? (max (numLength n1) (numLength n2)) =
          some e →
        e.resultDigit = e.previousCarry ∧
          e.resultDigit = (n1 + n2) / 10 ^ max (numLength n1) (numLength n2) ∧
          numLength (n1 + n2) = max (numLength n1) (numLength n2) + 1 := by
  refine ⟨fun i e h => ⟨(trace_get_resultDigit placeLabels n1 n2 i e h).1,
    (trace_get_resultDigit placeLabels n1 n2 i e h).2.1⟩,
    sum_lt_trace_length placeLabels n1 n2, trace_weighted_sum placeLabels n1 n2, ?_⟩
  intro e he
  have hlt := operands_lt_maxLength n1 n2
  have hc := carryInto_of_lt _ _ _ hlt.1 hlt.2
  have hlen := sum_lt_trace_length placeLabels n1 n2
  rw [trace_length] at hlen
  rw [trace_get_carry] at he
  split at he
  · rename_i hpos
    rw [if_pos hpos] at hlen
    cases he
    refine ⟨rfl, hc, ?_⟩
    have h1 := (final_carry_pos_iff n1 n2).mp hpos
    have h2 := (numLength_le_iff (n1 + n2) _ (Nat.succ_le_succ (Nat.zero_le _))).mpr hlen
    omega
  · cases he

/-- C16: `calculateAdditionSteps(n1, n2)` has `max(len(n1), len(n2))` digit
entries; when the last digit entry leaves a carry, one more entry follows with
`digit1 = digit2 = 0`, `resultDigit` equal to that carry and `newCarry` 0, and
the trace has `max(len(n1), len(n2)) + 1` entries; when the last digit entry
leaves no carry, the trace has exactly `max(len(n1), len(n2))` entries. -/
theorem paper_trace_final_carry (placeLabels : List (Option PlaceLabel)) (n1 n2 : Nat) :
    ∃ last, (calculateAdditionSteps placeLabels n1 n2).get?
        (max (numLength n1) (numLength n2) - 1) = some last ∧
      (last.newCarry > 0 →
        (calculateAdditionSteps placeLabels n1 n2).length =
            max (numLength n1) (numLength n2) + 1 ∧
          ∃ e, (calculateAdditionSteps placeLabels n1 n2).get?
              (max (numLength n1) (numLength n2)) = some e ∧
            e.placeIndex = max (numLength n1) (numLength n2) ∧
            e.digit1 = 0 ∧ e.digit2 = 0 ∧ e.previousCarry = last.newCarry ∧
            e.sum = last.newCarry ∧ e.resultDigit = last.newCarry ∧ e.newCarry = 0) ∧
      (last.newCarry = 0 →
        (calculateAdditionSteps placeLabels n1 n2).length =
          max (numLength n1) (numLength n2)) := by
  have hm : 1 ≤ max (numLength n1) (numLength n2) :=
    le_trans (numLength_spec n1).1 (le_max_left _ _)
  have hlast : (columnEntry placeLabels n1 n2 (max (numLength n1) (numLength n2) - 1)).newCarry =
      carryInto n1 n2 (max (numLength n1) (numLength n2)) := by
    show carryInto n1 n2 (max (numLength n1) (numLength n2) - 1 + 1) = _
    rw [Nat.sub_add_cancel hm]
  refine ⟨columnEntry placeLabels n1 n2 (max (numLength n1) (numLength n2) - 1),
    trace_get_column placeLabels n1 n2 _ (by omega), ?_, ?_⟩
  · intro hpos
    rw [hlast] at hpos ⊢
    refine ⟨?_, ?_⟩
    · rw [trace_length, if_pos hpos]
    · refine ⟨carryEntry placeLabels (max (numLength n1) (numLength n2))
        (carryInto n1 n2 (max (numLength n1) (numLength n2))), ?_, rfl, rfl, rfl, rfl, rfl, rfl,
        rfl⟩
      rw [trace_get_carry, if_pos hpos]
  · intro h0
    rw [hlast] at h0
    rw [trace_length, if_neg (by omega), Nat.add_zero]

theorem place_table_entries (n1 n2 : Nat) (h : n1 + n2 < 10 ^ 7) (i : Nat)
    (hi : i < (renderPlaceTable n1 n2).1.length) :
    (renderPlaceTable n1 n2).1.get? i = some (refrenceValues.get? i) ∧
      (refrenceValues.get? i).isSome := by
  have hb := tableLength_bounds n1 n2 h
  rw [renderPlaceTable_inRange n1 n2 h] at hi ⊢
  simp only [List.length_map, List.length_range] at hi
  refine ⟨?_, ?_⟩
  · rw [List.get?_eq_getElem?, List.getElem?_map, List.getElem?_range hi]; rfl
  · have : i < refrenceValues.length := by
      show i < 7
      omega
    rw [List.get?_eq_get this]
    rfl

theorem table_length_eq_trace_length (placeLabels : List (Option PlaceLabel)) (n1 n2 : Nat) :
    (calculateAdditionSteps placeLabels n1 n2).length = tableLength n1 n2 := by
  have hmax : numLength (max n1 n2) = max (numLength n1) (numLength n2) := by
    rw [← ite_gt_eq_max, numLength_max]
  rw [trace_length]
  unfold tableLength
  rw [hmax]
  by_cases h : carryInto n1 n2 (max (numLength n1) (numLength n2)) > 0
  · rw [if_pos h, if_pos ((final_carry_pos_iff n1 n2).mp h)]
  · rw [if_neg h, if_neg (fun h2 => h ((final_carry_pos_iff n1 n2).mpr h2))]

/-- C17 (invariant T1): for a problem whose sum has at most 7 decimal digits,
the paper trace computed with the place table of the same problem has exactly
as many entries as the table; entry `i` has `placeIndex = i` and its
`placeLabel` is the table's label at index `i`; and the trace has the entry
for a final carry exactly when the table has the extra highest place. -/
theorem paper_trace_lines_up_with_table (n1 n2 : Nat) (h : n1 + n2 < 10 ^ 7) :
    (calculateAdditionSteps (renderPlaceTable n1 n2).1 n1 n2).length =
        (renderPlaceTable n1 n2).1.length ∧
      (∀ i, i < (renderPlaceTable n1 n2).1.length →
        ∃ e, (calculateAdditionSteps (renderPlaceTable n1 n2).1 n1 n2).get? i = some e ∧
          e.placeIndex = i ∧ (renderPlaceTable n1 n2).1.get? i = some e.placeLabel ∧
          e.placeLabel = refrenceValues.get? i ∧ e.placeLabel.isSome) ∧
      ((calculateAdditionSteps (renderPlaceTable n1 n2).1 n1 n2).length =
          max (numLength n1) (numLength n2) + 1 ↔
        (renderPlaceTable n1 n2).1.length = numLength (max n1 n2) + 1) := by
  have hlen : (calculateAdditionSteps (renderPlaceTable n1 n2).1 n1 n2).length =
      (renderPlaceTable n1 n2).1.length := by
    rw [table_length_eq_trace_length, renderPlaceTable_inRange n1 n2 h]
    simp
  refine ⟨hlen, ?_, ?_⟩
  · intro i hi
    have hi' : i < (calculateAdditionSteps (renderPlaceTable n1 n2).1 n1 n2).length := by
      rw [hlen]; exact hi
    have hget : (calculateAdditionSteps (renderPlaceTable n1 n2).1 n1 n2).get? i =
        some ((calculateAdditionSteps (renderPlaceTable n1 n2).1 n1 n2).get ⟨i, hi'⟩) :=
      List.get?_eq_get hi'
    obtain ⟨_, hidx, hlab⟩ := trace_get_resultDigit _ n1 n2 i _ hget
    have htab := place_table_entries n1 n2 h i hi
    have hl : labelAt (renderPlaceTable n1 n2).1 i = refrenceValues.get? i := by
      unfold labelAt
      rw [htab.1]
      rfl
    rw [hl] at hlab
    refine ⟨_, hget, hidx, ?_, hlab, ?_⟩
    · rw [hlab]; exact htab.1
    · rw [hlab]; exact htab.2
  · have hmax : numLength (max n1 n2) = max (numLength n1) (numLength n2) := by
      rw [← ite_gt_eq_max, numLength_max]
    rw [hlen, hmax]

/-- Witness of C17 on `47 + 18`. -/
theorem paper_trace_lines_up_with_table_witness :
    47 + 18 < 10 ^ 7 ∧
      ((calculateAdditionSteps (renderPlaceTable 47 18).1 47 18).length =
          (renderPlaceTable 47 18).1.length ∧
        (∀ i, i < (renderPlaceTable 47 18).1.length →
          ∃ e, (calculateAdditionSteps (renderPlaceTable 47 18).1 47 18).get? i = some e ∧
            e.placeIndex = i ∧ (renderPlaceTable 47 18).1.get? i = some e.placeLabel ∧
            e.placeLabel = refrenceValues.get? i ∧ e.placeLabel.isSome) ∧
        ((calculateAdditionSteps (renderPlaceTable 47 18).1 47 18).length =
            max (numLength 47) (numLength 18) + 1 ↔
          (renderPlaceTable 47 18).1.length = numLength (max 47 18) + 1)) :=
  ⟨by decide, paper_trace_lines_up_with_table 47 18 (by decide)⟩

/-! ## Beyond the seventh place -/

theorem filter_lt_range_ge (len : Nat) (h : 7 ≤ len) :
    (List.range len).filter (fun i => decide (i < 7)) = List.range 7 := by
  obtain ⟨d, rfl⟩ := Nat.exists_eq_add_of_le h
  induction d with
  | zero => exact filter_lt_range 7 (Nat.le_refl 7)
  | succ d ih =>
    rw [← Nat.add_assoc, List.range_succ, List.filter_append, ih (Nat.le_add_right 7 d)]
    have hnot : decide (7 + d < 7) = false := by
      rw [decide_eq_false_iff_not]
      omega
    simp only [List.filter_cons, hnot, List.filter_nil, List.append_nil]
    rfl

/-- C19 (as stated, refuted): the problem `5000000 + 5000000` needs the place
index 7; `render` builds a table of eight entries whose last label is
`undefined`, `generateProblem` completes without an exception, and for the
8-digit operand of `12345678 + 1` the table has only seven entries. -/
theorem place_table_overflow_is_silent :
    (renderPlaceTable 5000000 5000000).1.length = 8 ∧
      (renderPlaceTable 5000000 5000000).1.get? 7 = some none ∧
      (generateProblem 5000000 5000000).isSome = true ∧
      numLength 12345678 = 8 ∧ (renderPlaceTable 12345678 1).1.length = 7 := by
  decide

/-- C19 (amended): for a problem whose sum needs a place index beyond 6,
building the place table does not fail: `createPlaceValues` and `render`
return the seven labels Ones to Million with the values `10 ^ 0` to
`10 ^ 6`, followed, exactly when the sum has more digits than the larger
operand, by one `undefined` label with the value `10 ^ 7`. -/
theorem place_table_beyond_million (n1 n2 : Nat) (h : 10 ^ 7 ≤ n1 + n2) :
    renderPlaceTable n1 n2 =
      ((List.range 7).map (fun i => refrenceValues.get? i) ++
          (if numLength (n1 + n2) > numLength (max n1 n2) then [none] else []),
        (List.range 7).map (fun i => 10 ^ i) ++
          (if numLength (n1 + n2) > numLength (max n1 n2) then [10 ^ 7] else [])) := by
  have hlen : 7 ≤ numLength (max n1 n2) := by
    by_contra hlt
    have h6 : max n1 n2 < 10 ^ 6 :=
      (numLength_le_iff (max n1 n2) 6 (by norm_num)).mp (by omega)
    have h1 : n1 ≤ max n1 n2 := le_max_left _ _
    have h2 : n2 ≤ max n1 n2 := le_max_right _ _
    norm_num at h h6
    omega
  unfold renderPlaceTable createPlaceValues
  simp only [ite_gt_eq_max, filter_lt_range_ge _ hlen]
  by_cases hgt : numLength (n1 + n2) > numLength (max n1 n2)
  · simp only [hgt, decide_True, if_true, List.length_map, List.length_range]
    rfl
  · simp only [hgt, decide_False, if_false, List.append_nil]

/-- Witness of C19 (amended) on `5000000 + 5000000`. -/
theorem place_table_beyond_million_witness :
    10 ^ 7 ≤ 5000000 + 5000000 ∧
      renderPlaceTable 5000000 5000000 =
        ((List.range 7).map (fun i => refrenceValues.get? i) ++
            (if numLength (5000000 + 5000000) > numLength (max 5000000 5000000) then [none]
              else []),
          (List.range 7).map (fun i => 10 ^ i) ++
            (if numLength (5000000 + 5000000) > numLength (max 5000000 5000000) then [10 ^ 7]
              else [])) :=
  ⟨by decide, place_table_beyond_million 5000000 5000000 (by decide)⟩

/-! ## The steps the paper modal uses -/

/-- C18 (code evaluated at the failing input): the modal is first asked for
`47 + 18` while the live numbers are `45` and `20` (after the ones place was
regrouped), which stores the steps of `47 + 18` next to
`paperAdditionState.num1 = 45`, `num2 = 20`; asked then for the problem
`45 + 20`, `showPaperAdditionModal` reuses those steps, which are not the
steps of `45 + 20`. -/
theorem showPaperAdditionModal_reuses_other_problem :
    (playCorrect 2 session47).num1 = 45 ∧ (playCorrect 2 session47).num2 = 20 ∧
      (showPaperAdditionFromCarryOver (playCorrect 2 session47) paperAdditionState).2 =
        some (calculateAdditionSteps session47.placeLabels 47 18) ∧
      (showPaperAdditionModal session45
          (showPaperAdditionFromCarryOver (playCorrect 2 session47) paperAdditionState).1
          45 20).2 = calculateAdditionSteps session47.placeLabels 47 18 ∧
      calculateAdditionSteps session47.placeLabels 47 18 ≠
        calculateAdditionSteps session45.placeLabels 45 20 := by
  decide

/-! ## Automatic regrouping without a next place -/

theorem stackShrinks_refl (st : Stack) : StackShrinks st st :=
  ⟨rfl, rfl, List.Sublist.refl _⟩

theorem stackShrinks_trans {a b c : Stack} (h1 : StackShrinks a b) (h2 : StackShrinks b c) :
    StackShrinks a c :=
  ⟨h1.1.trans h2.1, h1.2.1.trans h2.2.1, h1.2.2.trans h2.2.2⟩

theorem shrinks_refl (c : NumberContainer) : Shrinks c c := by
  unfold Shrinks
  induction c.placeStacks with
  | nil => exact List.Forall₂.nil
  | cons st rest ih => exact List.Forall₂.cons (stackShrinks_refl st) ih

theorem forall₂_stackShrinks_trans :
    ∀ {l1 l2 l3 : List Stack}, List.Forall₂ StackShrinks l1 l2 →
      List.Forall₂ StackShrinks l2 l3 → List.Forall₂ StackShrinks l1 l3
  | _, _, _, List.Forall₂.nil, List.Forall₂.nil => List.Forall₂.nil
  | _, _, _, List.Forall₂.cons h1 t1, List.Forall₂.cons h2 t2 =>
      List.Forall₂.cons (stackShrinks_trans h1 h2) (forall₂_stackShrinks_trans t1 t2)

theorem shrinks_trans {a b c : NumberContainer} (h1 : Shrinks a b) (h2 : Shrinks b c) :
    Shrinks a c :=
  forall₂_stackShrinks_trans h1 h2

theorem forall₂_stackShrinks_map (f : Stack → Stack) (hf : ∀ st, StackShrinks (f st) st) :
    ∀ l : List Stack, List.Forall₂ StackShrinks (l.map f) l
  | [] => List.Forall₂.nil
  | st :: rest => List.Forall₂.cons (hf st) (forall₂_stackShrinks_map f hf rest)

theorem forall₂_stackShrinks_modifyFirst (p : Stack → Bool) (f : Stack → Stack)
    (hf : ∀ st, StackShrinks (f st) st) :
    ∀ l : List Stack, List.Forall₂ StackShrinks (modifyFirst p f l) l
  | [] => List.Forall₂.nil
  | st :: rest => by
      unfold modifyFirst
      split
      · exact List.Forall₂.cons (hf st) (shrinks_refl ⟨[], rest⟩)
      · exact List.Forall₂.cons (stackShrinks_refl st)
          (forall₂_stackShrinks_modifyFirst p f hf rest)

theorem forall₂_stackShrinks_sum_le :
    ∀ {l1 l2 : List Stack}, List.Forall₂ StackShrinks l1 l2 →
      (l1.map (fun stack => stack.blocks.sum)).sum ≤ (l2.map (fun stack => stack.blocks.sum)).sum
  | _, _, List.Forall₂.nil => Nat.le_refl _
  | _, _, List.Forall₂.cons h t => by
      simp only [List.map_cons, List.sum_cons]
      exact Nat.add_le_add (List.Sublist.sum_le_sum h.2.2 (fun _ _ => Nat.zero_le _))
        (forall₂_stackShrinks_sum_le t)

theorem shrinks_calculateNumberFromBlocks {c' c : NumberContainer} (h : Shrinks c' c) :
    calculateNumberFromBlocks c' ≤ calculateNumberFromBlocks c :=
  forall₂_stackShrinks_sum_le h

theorem modifyRow_eraseIdx_shrinks (s : Session) (o : Operand) (id k : Nat) (op : Operand) :
    Shrinks ((modifyRow s o id (fun blocks => blocks.eraseIdx k)).container op)
      (s.container op) := by
  have hrow : Shrinks
      { s.container o with
        placeStacks := (s.container o).placeStacks.map
          (fun st => if st.id = id then { st with blocks := st.blocks.eraseIdx k } else st) }
      (s.container o) := by
    apply forall₂_stackShrinks_map
    intro st
    split
    · exact ⟨rfl, rfl, List.eraseIdx_sublist _ _⟩
    · exact stackShrinks_refl st
  cases o <;> cases op
  · exact hrow
  · exact shrinks_refl _
  · exact shrinks_refl _
  · exact hrow

theorem removeBlocksFromPlace_shrinks (s : Session) (l : Option PlaceLabel) (n : Nat)
    (o op : Operand) :
    Shrinks ((removeBlocksFromPlace s l n o).container op) (s.container op) := by
  unfold removeBlocksFromPlace
  dsimp only
  split
  · exact shrinks_refl _
  · rename_i stack _
    have hrow : List.Forall₂ StackShrinks
        (modifyFirst (fun st => textEq st.label l)
          (fun st => { st with
            blocks := st.blocks.take (st.blocks.length - min n stack.blocks.length) })
          (s.container o).placeStacks)
        (s.container o).placeStacks :=
      forall₂_stackShrinks_modifyFirst (fun st => textEq st.label l)
        (fun st => { st with
          blocks := st.blocks.take (st.blocks.length - min n stack.blocks.length) })
        (fun st => ⟨rfl, rfl, List.take_sublist _ _⟩) _
    have hleg : ∀ (c : NumberContainer) (r : Nat),
        (updateLegendAfterBlockRemoval c l r).placeStacks = c.placeStacks := by
      intro c r
      unfold updateLegendAfterBlockRemoval
      split <;> rfl
    cases o <;> cases op
    · show List.Forall₂ StackShrinks (updateLegendAfterBlockRemoval _ l _).placeStacks _
      rw [hleg]
      exact hrow
    · exact shrinks_refl _
    · exact shrinks_refl _
    · show List.Forall₂ StackShrinks (updateLegendAfterBlockRemoval _ l _).placeStacks _
      rw [hleg]
      exact hrow

theorem removeBlocksFromPlace_frame (s : Session) (l : Option PlaceLabel) (n : Nat)
    (o : Operand) :
    (removeBlocksFromPlace s l n o).nextId = s.nextId ∧
      (removeBlocksFromPlace s l n o).num1 = s.num1 ∧
      (removeBlocksFromPlace s l n o).num2 = s.num2 := by
  unfold removeBlocksFromPlace
  dsimp only
  split
  · exact ⟨rfl, rfl, rfl⟩
  · cases o <;> exact ⟨rfl, rfl, rfl⟩

theorem modifyRow_frame (s : Session) (o : Operand) (id : Nat) (f : List Nat → List Nat) :
    (modifyRow s o id f).nextId = s.nextId ∧ (modifyRow s o id f).num1 = s.num1 ∧
      (modifyRow s o id f).num2 = s.num2 := by
  cases o <;> exact ⟨rfl, rfl, rfl⟩

/-- C20 (as stated, refuted): in the session on `5000000 + 5000000`, after six
numpad steps and four drops the blocks on the page are worth 10000000 and the
place table has no label after Million; the fifth drop performs the automatic
regrouping, which removes every Million block and creates no block; no error
reaches the drop handler: it goes on, the live numbers become 0 and 0 and the
cursor moves to index 7. -/
theorem carry_beyond_table_is_dropped :
    calculateNumberFromBlocks (playCorrect 10 session5M).c1 +
        calculateNumberFromBlocks (playCorrect 10 session5M).c2 = 10000000 ∧
      (playCorrect 10 session5M).shownStep.map (nextPlaceOf (playCorrect 10 session5M)) =
        some none ∧
      (playCorrect 10 session5M).shownStep.map (fun step =>
        calculateNumberFromBlocks
            (performAutomaticRegrouping (playCorrect 10 session5M) step .first 6 0 .second).c1 +
          calculateNumberFromBlocks
            (performAutomaticRegrouping (playCorrect 10 session5M) step .first 6 0 .second).c2) =
        some 0 ∧
      (playCorrect 11 session5M).num1 = 0 ∧ (playCorrect 11 session5M).num2 = 0 ∧
      (playCorrect 11 session5M).currentStepIndex = 7 := by
  decide

/-- C20 (amended): if automatic regrouping is performed for a step whose place
has no next label in the place table, the operation returns normally and
creates nothing: no node is added, each stack of both containers keeps its
identity and label and only loses blocks (so the value on the page does not
grow: the carry is dropped), and the cursor and the live numbers are not
touched by the operation itself. -/
theorem performAutomaticRegrouping_without_next_place (s : Session) (step : Step)
    (source : Operand) (drag k : Nat) (target : Operand) (h : nextPlaceOf s step = none) :
    (performAutomaticRegrouping s step source drag k target).nextId = s.nextId ∧
      (∀ op, Shrinks ((performAutomaticRegrouping s step source drag k target).container op)
        (s.container op)) ∧
      (∀ op, calculateNumberFromBlocks
          ((performAutomaticRegrouping s step source drag k target).container op) ≤
        calculateNumberFromBlocks (s.container op)) ∧
      (performAutomaticRegrouping s step source drag k target).currentStepIndex =
        s.currentStepIndex ∧
      (performAutomaticRegrouping s step source drag k target).num1 = s.num1 ∧
      (performAutomaticRegrouping s step source drag k target).num2 = s.num2 := by
  have hdef : performAutomaticRegrouping s step source drag k target =
      removeBlocksFromPlace
        (trackCarriedBlocks (modifyRow s source drag (fun blocks => blocks.eraseIdx k))
          { blocksRemoved := 10, blocksAdded := 1, fromPlace := step.placeLabel,
            toPlace := nextPlaceOf s step } 1)
        step.placeLabel 10 target := by
    unfold performAutomaticRegrouping
    dsimp only
    rw [h]
    rfl
  rw [hdef]
  have hf1 := modifyRow_frame s source drag (fun blocks => blocks.eraseIdx k)
  have hf2 := removeBlocksFromPlace_frame
    (trackCarriedBlocks (modifyRow s source drag (fun blocks => blocks.eraseIdx k))
      { blocksRemoved := 10, blocksAdded := 1, fromPlace := step.placeLabel,
        toPlace := nextPlaceOf s step } 1) step.placeLabel 10 target
  have hsh : ∀ op, Shrinks
      ((removeBlocksFromPlace
        (trackCarriedBlocks (modifyRow s source drag (fun blocks => blocks.eraseIdx k))
          { blocksRemoved := 10, blocksAdded := 1, fromPlace := step.placeLabel,
            toPlace := nextPlaceOf s step } 1) step.placeLabel 10 target).container op)
      (s.container op) := fun op =>
    shrinks_trans (removeBlocksFromPlace_shrinks _ step.placeLabel 10 target op)
      (modifyRow_eraseIdx_shrinks s source drag k op)
  refine ⟨hf2.1.trans hf1.1, hsh, fun op => shrinks_calculateNumberFromBlocks (hsh op), ?_,
    hf2.2.1.trans hf1.2.1, hf2.2.2.trans hf1.2.2⟩
  exact ((sameCursor_removeBlocksFromPlace _ step.placeLabel 10 target).2.2.2).trans
    (sameCursor_modifyRow s source drag _).2.2.2

/-- Witness of C20 (amended): the Million step of `5000000 + 5000000`. -/
theorem performAutomaticRegrouping_without_next_place_witness :
    ∃ step, (playCorrect 10 session5M).shownStep = some step ∧
      nextPlaceOf (playCorrect 10 session5M) step = none ∧
      (performAutomaticRegrouping (playCorrect 10 session5M) step .first 6 0 .second).nextId =
        (playCorrect 10 session5M).nextId ∧
      (∀ op, Shrinks
        ((performAutomaticRegrouping (playCorrect 10 session5M) step .first 6 0 .second).container
          op)
        ((playCorrect 10 session5M).container op)) ∧
      (∀ op, calculateNumberFromBlocks
          ((performAutomaticRegrouping (playCorrect 10 session5M) step .first 6 0
            .second).container op) ≤
        calculateNumberFromBlocks ((playCorrect 10 session5M).container op)) ∧
      (performAutomaticRegrouping (playCorrect 10 session5M) step .first 6 0
          .second).currentStepIndex = (playCorrect 10 session5M).currentStepIndex ∧
      (performAutomaticRegrouping (playCorrect 10 session5M) step .first 6 0 .second).num1 =
        (playCorrect 10 session5M).num1 ∧
      (performAutomaticRegrouping (playCorrect 10 session5M) step .first 6 0 .second).num2 =
        (playCorrect 10 session5M).num2 :=
  ⟨((playCorrect 10 session5M).shownStep).get (by decide), by decide, by decide,
    performAutomaticRegrouping_without_next_place (playCorrect 10 session5M)
      (((playCorrect 10 session5M).shownStep).get (by decide)) .first 6 0 .second (by decide)⟩

/-! ## Sessions on which the live numbers fall behind the page -/

theorem handler_without_drop_row (s : Session) (step : Step) (dragged drop k : Nat)
    (h : findStack s drop = none) :
    handleInteractiveRegroupingComplete s step dragged drop k = (s, .incomplete false) := by
  unfold handleInteractiveRegroupingComplete
  rw [h]
  cases findStack s dragged <;> rfl

/-- A page whose only handler is a drop handler on a row that has left the
document, and on which nothing is scheduled, is changed by no event. -/
theorem World.step_without_drop_row (w : World) (step : Step) (drag drop : Nat)
    (hs : w.session.surface = .dragDrop step drag drop) (hd : findStack w.session drop = none)
    (hp : w.pending = []) (e : Event) : w.step e = w := by
  obtain ⟨s, p⟩ := w
  dsimp only at hs hd hp
  subst hp
  cases e with
  | press v => unfold World.step; dsimp only; rw [hs]
  | drop k =>
    unfold World.step World.dropFrom
    dsimp only
    rw [hs]
    dsimp only
    rw [handler_without_drop_row s step drag drop k hd]
    rfl
  | redrop k =>
    unfold World.step World.dropFrom
    dsimp only
    rw [hs]
    dsimp only
    rw [handler_without_drop_row s step drop drop k hd]
    rfl
  | resume n => rfl

theorem World.run_without_drop_row (w : World) (step : Step) (drag drop : Nat)
    (hs : w.session.surface = .dragDrop step drag drop) (hd : findStack w.session drop = none)
    (hp : w.pending = []) (events : List Event) : w.run events = w := by
  induction events with
  | nil => rfl
  | cons e rest ih =>
    show World.run (w.step e) rest = w
    rw [World.step_without_drop_row w step drag drop hs hd hp e]
    exact ih

/-- C4 (code evaluated at the failing input): on `9080 + 1980` the place table
has five entries.  The learner answers every step correctly and makes an
input only when nothing is scheduled.  The ones step is the entry `0 + 0`;
its continuation waits for the paper modal, which is in the document from
then on, so that later continuations run before the 100 ms timer.  The tens
step is the regrouping `8 + 8`: the second drop finds 9 blocks, and the ten
tens become a tenth Hundreds block of the second number, live numbers
(9060, 2000).  The continuation sets up the hundreds step `0 + 0`:
`setupNumpadForStep` regroups the ten hundreds into a tenth Thousands block
of the first number, but `updateHigherPlaceRow` returns early and the live
numbers stay (9060, 2000) while the page holds (10060, 1000).  After the
entry 0 the thousands step is computed from the stale numbers as the
regrouping `9 + 2`; `setUpDragDropRows` picks the Thousands row of the first
number (10 blocks) as the drop target and then regroups it, which removes
it from the document.  The drop handler sits on a row that is no longer
there: nothing is scheduled, no numpad entry, drop or callback changes the
page, the cursor stays at index 3 of 5 and the session is never complete. -/
theorem session_9080_1980_halts :
    world9080.session.placeLabels.length = 5 ∧
      world9080.session.shownStep.map (fun step => (step.digit1, step.digit2, step.interactionType))
        = some (0, 0, .numpad) ∧
      (world9080.run (play9080.take 2)).session.shownStep.map
        (fun step => (step.stepIndex, step.digit1, step.digit2, step.interactionType))
        = some (1, 8, 8, .dragDrop) ∧
      (world9080.run (play9080.take 4)).pending = [.timer (some .Hundreds), .continuation 2] ∧
      ((world9080.run (play9080.take 4)).session.num1,
        (world9080.run (play9080.take 4)).session.num2) = (9060, 2000) ∧
      (world9080.run (play9080.take 6)).pending = [] ∧
      (world9080.run (play9080.take 6)).session.shownStep.map
        (fun step => (step.stepIndex, step.digit1, step.digit2, step.interactionType))
        = some (2, 0, 0, .numpad) ∧
      ((world9080.run (play9080.take 6)).session.num1,
        (world9080.run (play9080.take 6)).session.num2) = (9060, 2000) ∧
      (calculateNumberFromBlocks (world9080.run (play9080.take 6)).session.c1,
        calculateNumberFromBlocks (world9080.run (play9080.take 6)).session.c2) = (10060, 1000) ∧
      (calculateCurrentStep (world9080.run (play9080.take 7)).session 3).join.map
        (fun step => (step.digit1, step.digit2, step.interactionType)) = some (9, 2, .dragDrop) ∧
      (blockCountOf (world9080.run (play9080.take 7)).session 3,
        blockCountOf (world9080.run (play9080.take 7)).session 7) = (some 10, some 1) ∧
      world9080.followsPage play9080 = true ∧
      (world9080.run play9080).pending = [] ∧
      (world9080.run play9080).session.surface =
        .dragDrop ((calculateCurrentStep (world9080.run (play9080.take 7)).session 3).join.get
          (by decide)) 7 3 ∧
      findStack (world9080.run play9080).session 3 = none ∧
      (world9080.run play9080).session.currentStepIndex = 3 ∧
      (world9080.run play9080).session.completed = false ∧
      ∀ events, (world9080.run play9080).run events = world9080.run play9080 := by
  refine ⟨by decide, by decide, by decide, by decide, by decide, by decide, ?_⟩
  refine ⟨by decide, by decide, by decide, by decide, by decide, by decide, ?_⟩
  refine ⟨by decide, by decide, by decide, by decide, by decide, ?_⟩
  exact World.run_without_drop_row _
    ((calculateCurrentStep (world9080.run (play9080.take 7)).session 3).join.get (by decide)) 7 3
    (by decide) (by decide) (by decide)

/-- A second way to a halt, through the fallback of `calculateCurrentStep`: on
`15 + 95` the place table has
three entries.  The learner answers the ones step correctly: five drops, the
fifth of which is regrouped.  That drop leaves two callbacks scheduled, the
100 ms timer of `performAutomaticRegrouping` and the continuation of
`processNextCarryStep`, which waits for the paper modal.  When the timer
callback runs first, `setUpDragDropRows` regroups the ten tens of the second
number into a hundred of the first and the live numbers become (110, 0).  The
continuation then computes the step of index 1 from 110 and, the live second
number being 0, from the original 95 (`tempState.num2 || state.originalNum2`):
a drag-drop step `1 + 9`, though the live tens digits are 1 and 0.  Only one
container has a Tens row, so no drop target is found and the set-up throws.
Nothing is scheduled any more, the page still has the handler of the ones
step, whose rows have left the document, and no learner input changes
anything: the cursor stays at index 1 of 3 and the session is never
complete. -/
theorem session_15_95_halts :
    world15.session.placeLabels.length = 3 ∧
      (world15.run fiveDrops).pending = [.timer (some .Tens), .continuation 1] ∧
      ((world15.run fiveDrops).session.currentStepIndex, (world15.run fiveDrops).session.num1,
        (world15.run fiveDrops).session.num2) = (1, 10, 100) ∧
      (((world15.run fiveDrops).step (.resume 0)).session.num1,
        ((world15.run fiveDrops).step (.resume 0)).session.num2) = (110, 0) ∧
      ((world15.run fiveDrops).step (.resume 0)).pending = [.continuation 1] ∧
      (calculateCurrentStep ((world15.run fiveDrops).step (.resume 0)).session 1).join.map
        (fun step => (step.digit1, step.digit2, step.interactionType)) =
        some (1, 9, .dragDrop) ∧
      (getDigit ((world15.run fiveDrops).step (.resume 0)).session.num1 1,
        getDigit ((world15.run fiveDrops).step (.resume 0)).session.num2 1) = (1, 0) ∧
      (world15.run (fiveDrops ++ [.resume 0, .resume 0])).pending = [] ∧
      (world15.run (fiveDrops ++ [.resume 0, .resume 0])).session.currentStepIndex = 1 ∧
      (world15.run (fiveDrops ++ [.resume 0, .resume 0])).session.completed = false ∧
      (world15.run (fiveDrops ++ [.resume 0, .resume 0])).session.showsCursorStep = false ∧
      ∀ events, ((world15.run (fiveDrops ++ [.resume 0, .resume 0])).run events) =
        world15.run (fiveDrops ++ [.resume 0, .resume 0]) :=
  ⟨by decide, by decide, by decide, by decide, by decide, by decide, by decide, by decide,
    by decide, by decide, by decide,
    World.run_without_drop_row _ ((calculateCurrentStep world15.session 0).join.get rfl) 0 2
      (by decide) (by decide) (by decide)⟩

/-- C7 (code evaluated at the failing input): on `102 + 899`, when the hundreds
step (index 2) is shown the live numbers are (101, 900) while the blocks on
the page are worth (201, 800); the drop target holds 8 blocks, so the drop is
partial and the cursor stays at 2, but the live numbers after the drop are
still (101, 900): neither number changed by `10 ^ 2`. -/
theorem partial_drop_102_899_keeps_live_numbers :
    (playCorrect 2 session102).currentStepIndex = 2 ∧
      (playCorrect 2 session102).shownStep.map (fun step => (step.placeIndex, step.interactionType))
        = some (2, .dragDrop) ∧
      (playCorrect 2 session102).surface =
        .dragDrop ((calculateCurrentStep (playCorrect 2 session102) 2).join.get (by decide)) 2 5 ∧
      blockCountOf (playCorrect 2 session102) 5 = some 8 ∧
      ((playCorrect 2 session102).num1, (playCorrect 2 session102).num2) = (101, 900) ∧
      (calculateNumberFromBlocks (playCorrect 2 session102).c1,
        calculateNumberFromBlocks (playCorrect 2 session102).c2) = (201, 800) ∧
      (act (playCorrect 2 session102) (.drop 0)).currentStepIndex = 2 ∧
      ((act (playCorrect 2 session102) (.drop 0)).num1,
        (act (playCorrect 2 session102) (.drop 0)).num2) = (101, 900) := by
  decide

/-- C9 (code evaluated at the failing input): on `102 + 899` the hundreds step
has the live digits 1 and 9 and its instruction asks for `10 - 9 = 1` block;
the drop target is the operand with more blocks (8 against 2), yet the first
drop is partial (the cursor stays at 2) and only the second drop triggers the
automatic regrouping. -/
theorem first_drop_102_899_is_partial :
    (playCorrect 2 session102).shownStep.map
        (fun step => (step.digit1, step.digit2, step.instruction)) =
        some (1, 9, .drag 1 1 9 1) ∧
      blockCountOf (playCorrect 2 session102) 2 = some 2 ∧
      blockCountOf (playCorrect 2 session102) 5 = some 8 ∧
      (handleInteractiveRegroupingComplete (playCorrect 2 session102)
          ((calculateCurrentStep (playCorrect 2 session102) 2).join.get (by decide)) 2 5 0).2 =
        .incomplete false ∧
      (act (playCorrect 2 session102) (.drop 0)).currentStepIndex = 2 ∧
      (act (act (playCorrect 2 session102) (.drop 0)) (.drop 0)).currentStepIndex = 3 := by
  decide

/-! ## Learner actions as runs of the page -/

theorem afterDrop_eq_run (r : Session) (o : DropOutcome) :
    World.run { session := r, pending := o.callbacks r.currentStepIndex } [.resume 1, .resume 0] =
      { session := afterDrop r o, pending := [] } := by
  cases o with
  | incomplete advanced => cases advanced <;> rfl
  | regrouped np => cases np <;> rfl

theorem dropFrom_eq_run (s : Session) (step : Step) (dragged drop k : Nat) :
    World.run (World.dropFrom { session := s, pending := [] } step dragged drop k)
        [.resume 1, .resume 0] =
      { session := afterDrop (handleInteractiveRegroupingComplete s step dragged drop k).1
          (handleInteractiveRegroupingComplete s step dragged drop k).2, pending := [] } :=
  afterDrop_eq_run _ _

/-- A learner action followed by its callbacks is a run of the page: the
input, then the continuation, then the timer. -/
theorem act_eq_run (s : Session) (a : Action) :
    World.run { session := s, pending := [] } a.events = { session := act s a, pending := [] } := by
  cases a with
  | numpad v =>
    show World.run (World.step { session := s, pending := [] } (.press v)) [.resume 0] =
      { session := pressNumpad s v, pending := [] }
    unfold World.step pressNumpad
    dsimp only
    cases hs : s.surface with
    | numpad step =>
      dsimp only
      by_cases hv : v = step.digit1 + step.digit2
      · rw [if_pos hv, if_pos hv]
        rfl
      · rw [if_neg hv, if_neg hv]
        rfl
    | dragDrop step drag drop => rfl
    | idle => rfl
  | drop k =>
    show World.run (World.step { session := s, pending := [] } (.drop k)) [.resume 1, .resume 0] =
      { session := dropBlock s k, pending := [] }
    unfold World.step dropBlock
    dsimp only
    cases hs : s.surface with
    | numpad step => rfl
    | dragDrop step drag drop => exact dropFrom_eq_run s step drag drop k
    | idle => rfl
  | redrop k =>
    show World.run (World.step { session := s, pending := [] } (.redrop k)) [.resume 1, .resume 0] =
      { session := redropBlock s k, pending := [] }
    unfold World.step redropBlock
    dsimp only
    cases hs : s.surface with
    | numpad step => rfl
    | dragDrop step drag drop => exact dropFrom_eq_run s step drop drop k
    | idle => rfl

theorem run_append (w : World) (a b : List Event) : w.run (a ++ b) = (w.run a).run b := by
  unfold World.run
  exact List.foldl_append _ _ _ _

/-- A list of learner actions is a run of the page. -/
theorem playFrom_eq_run (actions : List Action) (s : Session) :
    World.run { session := s, pending := [] } (actions.flatMap Action.events) =
      { session := playFrom s actions, pending := [] } := by
  induction actions generalizing s with
  | nil => rfl
  | cons a rest ih =>
    show World.run _ (a.events ++ rest.flatMap Action.events) = _
    rw [run_append, act_eq_run, ih]
    rfl

/-! ## Sessions in which the page is not followed -/

/-- On `47 + 18` the first drop of the ones step is partial: the drop target row
then holds 9 blocks, the live numbers are 46 and 19.  The block that was
moved is still draggable; when the learner drops it on the row it is in, the
handler finds 9 blocks in the target, regroups them into a ten and advances
the cursor: the drag source row keeps its 6 blocks, the live numbers are 46
and 20 and add up to 66. -/
theorem second_drop_of_moved_block :
    (session47.num1, session47.num2) = (47, 18) ∧
      ((act session47 (.drop 0)).num1, (act session47 (.drop 0)).num2,
        (act session47 (.drop 0)).currentStepIndex) = (46, 19, 0) ∧
      (act session47 (.drop 0)).shownStep.map (fun step => (step.stepIndex, step.interactionType)) =
        some (0, .dragDrop) ∧
      blockCountOf (act session47 (.drop 0)) 0 = some 6 ∧
      blockCountOf (act session47 (.drop 0)) 2 = some 9 ∧
      ((world47.run [.drop 0, .redrop 8]).session.num1,
        (world47.run [.drop 0, .redrop 8]).session.num2,
        (world47.run [.drop 0, .redrop 8]).session.currentStepIndex) = (46, 20, 1) ∧
      (world47.run [.drop 0, .redrop 8]).session.c1.placeStacks.map
        (fun st => (st.label, st.blocks.length)) = [(some .Ones, 6), (some .Tens, 4)] ∧
      (world47.run [.drop 0, .redrop 8]).session.c2.placeStacks.map
        (fun st => (st.label, st.blocks.length)) = [(some .Tens, 2)] ∧
      ((playFrom session47 [.drop 0, .redrop 8]).num1,
        (playFrom session47 [.drop 0, .redrop 8]).num2) = (46, 20) :=
  ⟨by decide, by decide, by decide, by decide, by decide, by decide, by decide, by decide,
    by decide⟩

/-- On `19923 + 145` the ones step asks for `3 + 5`.  The learner presses 8, and
presses 8 again before the continuation of `processNextCarryStep` has resumed
(the numpad of the ones step is still on the page): the cursor is at 2 when
the first continuation, which read the index 1 before it was suspended,
appends the record of the tens step, and `trackStepDetails` stamps it with
the cursor: record 1 has `stepIndex` 2 and the label Tens. -/
theorem second_press_before_resume :
    world19923.session.shownStep.map (fun step => (step.stepIndex, step.digit1, step.digit2)) =
        some (0, 3, 5) ∧
      (world19923.run [.press 8]).pending = [.continuation 1] ∧
      (world19923.run [.press 8, .press 8]).session.currentStepIndex = 2 ∧
      (world19923.run [.press 8, .press 8]).pending = [.continuation 1, .continuation 2] ∧
      (world19923.run [.press 8, .press 8, .resume 0]).session.stepDetails.map
        (fun d => (d.stepIndex, d.placeLabel)) = [(0, some .Ones), (2, some .Tens)] :=
  ⟨by decide, by decide, by decide, by decide, by decide⟩

/-- On `519940 + 985999` the ones step asks for `0 + 9`, and its completion is the
first of the session: the continuation of `processNextCarryStep` waits for
the fetch of the paper modal.  The learner presses 9, and presses 9 again
before the continuation has resumed: the cursor is at 2 and two continuations
wait.  The continuation of index 2 resumes first and sets up the hundreds
step, then the continuation of index 1 sets up the tens step `4 + 9`, which
the page now shows.  From here on the learner makes every input when nothing
is scheduled.  The drop on the tens step finds nine blocks and is regrouped:
the second number holds ten Hundreds blocks and the cursor is at 3.  The
continuation sets up the thousands step `9 + 6`, the step of the cursor, with
nine blocks in the drop target; the timer callback then runs
`setUpDragDropRows` for the Hundreds and regroups the ten hundreds into a
tenth Thousands block of the drop target.  The next drop finds ten blocks in
the drop target, and the handler removes them all and the dragged block for
one block of ten thousand: the live numbers change from (519930, 986009) to
(520930, 984009), and the original sum is 1505939. -/
theorem input_before_callbacks_loses_blocks :
    world519940.session.shownStep.map
        (fun step => (step.stepIndex, step.digit1, step.digit2, step.interactionType)) =
        some (0, 0, 9, .numpad) ∧
      ((world519940.run (play519940.take 2)).session.currentStepIndex,
        (world519940.run (play519940.take 2)).pending) =
        (2, [.continuation 1, .continuation 2]) ∧
      ((world519940.run (play519940.take 4)).session.currentStepIndex,
        (world519940.run (play519940.take 4)).pending,
        (world519940.run (play519940.take 4)).session.shownStep.map
          (fun step => (step.stepIndex, step.digit1, step.digit2, step.interactionType))) =
        (2, [], some (1, 4, 9, .dragDrop)) ∧
      ((world519940.run (play519940.take 5)).session.currentStepIndex,
        (world519940.run (play519940.take 5)).pending) =
        (3, [.timer (some .Hundreds), .continuation 3]) ∧
      ((world519940.run (play519940.take 6)).session.shownStep.map
          (fun step => (step.stepIndex, step.digit1, step.digit2, step.interactionType)),
        blockCountOf (world519940.run (play519940.take 6)).session 3) =
        (some (3, 9, 6, .dragDrop), some 9) ∧
      (world519940.run play519940).pending = [] ∧
      (world519940.run play519940).session.showsCursorStep = true ∧
      (world519940.run play519940).session.surface =
        .dragDrop ((calculateCurrentStep
          (world519940.run (play519940.take 5)).session 3).join.get (by decide)) 9 3 ∧
      blockCountOf (world519940.run play519940).session 3 = some 10 ∧
      ((world519940.run play519940).session.num1,
        (world519940.run play519940).session.num2) = (519930, 986009) ∧
      (((world519940.run play519940).step (.drop 0)).session.num1,
        ((world519940.run play519940).step (.drop 0)).session.num2) = (520930, 984009) := by
  refine ⟨by decide, by decide, by decide, by decide, by decide, by decide, ?_⟩
  exact ⟨by decide, by decide, by decide, by decide, by decide⟩

/-! ## Where the engine and the paper trace part -/

/-- C1 (as stated, refuted): on `5000000 + 5000000` the live numbers after the
fifth drop of the Million step are 0 and 0, while the original numbers add up
to 10000000. -/
theorem conservation_fails_beyond_table :
    (playCorrect 11 session5M).originalNum1 + (playCorrect 11 session5M).originalNum2 =
        10000000 ∧
      (playCorrect 10 session5M).num1 + (playCorrect 10 session5M).num2 = 10000000 ∧
      (playCorrect 11 session5M).num1 + (playCorrect 11 session5M).num2 = 0 ∧
      (playCorrect 11 session5M).num1 + (playCorrect 11 session5M).num2 ≠
        (playCorrect 11 session5M).originalNum1 + (playCorrect 11 session5M).originalNum2 := by
  decide

/-- C2 (as stated, refuted): on `5000000 + 5000000` the place table has the
index 7 and entry 7 of the paper trace has `resultDigit` 1; after the lower
places were completed correctly the cursor is at index 7, where the table
entry is `undefined`: `calculateCurrentStep` throws, no step is set up for
index 7 (there is no result to compare; the page keeps the step of index 6)
and the session is not complete. -/
theorem result_digit_differs_beyond_table :
    session5M.placeLabels.length = 8 ∧
      (playCorrect 11 session5M).currentStepIndex = 7 ∧
      calculateCurrentStep (playCorrect 11 session5M) 7 = none ∧
      (playCorrect 11 session5M).shownStep.map (fun step => step.stepIndex) = some 6 ∧
      (playCorrect 11 session5M).showsCursorStep = false ∧
      (playCorrect 11 session5M).completed = false ∧
      ((calculateAdditionSteps session5M.placeLabels 5000000 5000000).get? 7).map
        (fun e => e.resultDigit) = some 1 :=
  ⟨by decide, by decide, by decide, by decide, by decide, by decide, by decide⟩

/-- C3 (as stated, refuted): on `5 + 95`, after the ones place is completed
the ten blocks of the tens place are regrouped while the tens step is set up,
and the step at index 1 has the digits 0 and 0 and `carryOut` 0, while entry 1
of the paper trace (`0 + 9 + 1 = 10`) has `newCarry` 1. -/
theorem carry_out_differs_5_95 :
    (playCorrect 5 session5).currentStepIndex = 1 ∧
      (playCorrect 5 session5).shownStep.map
        (fun step => (step.placeIndex, step.digit1, step.digit2, step.carryOut)) =
        some (1, 0, 0, 0) ∧
      ((calculateAdditionSteps session5.placeLabels 5 95).get? 1).map
        (fun e => (e.digit1, e.digit2, e.previousCarry, e.newCarry)) = some (0, 9, 1, 1) := by
  decide

/-- C8 (as stated, refuted): on `5000000 + 5000000` the fifth drop of the
Million step finds 9 blocks in the target stack and the regrouping is
automatic, but no block of value `10 ^ 7` is added: no block is left on the
page. -/
theorem automatic_regrouping_adds_no_unit :
    (playCorrect 10 session5M).shownStep.map
        (fun step => (step.placeIndex, step.interactionType,
          (handleInteractiveRegroupingComplete (playCorrect 10 session5M) step 6 13 0).2)) =
        some (6, .dragDrop, .regrouped none) ∧
      blockCountOf (playCorrect 10 session5M) 13 = some 9 ∧
      (playCorrect 11 session5M).c1.placeStacks = [] ∧
      (playCorrect 11 session5M).c2.placeStacks = [] ∧
      (playCorrect 11 session5M).currentStepIndex = 7 :=
  ⟨by decide, by decide, by decide, by decide, by decide⟩

/-! ## Syncing the paper modal to a place -/

theorem findStepIndex_no_match (placeLabel : Option PlaceLabel) (steps : List PaperStep)
    (h : ∀ e ∈ steps, e.placeLabel ≠ none ∧ e.placeLabel ≠ placeLabel) :
    findStepIndex placeLabel steps = some none := by
  induction steps with
  | nil => rfl
  | cons e rest ih =>
    have he := h e (List.mem_cons_self _ _)
    unfold findStepIndex
    cases hl : e.placeLabel with
    | none => exact absurd hl he.1
    | some label =>
      dsimp only
      have hne : ¬ placeLabel = some label := fun hc => he.2 (hl.trans hc.symm)
      rw [if_neg hne, ih (fun e' he' => h e' (List.mem_cons_of_mem _ he'))]
      rfl

/-- C21 (as stated, refuted): the paper trace of `47 + 18` has the entries Ones
and Tens; asked to reveal "Million", or a text that is no place label,
`syncToPlaceLabel` returns normally and leaves `paperAdditionState` and what
the modal shows exactly as they were. -/
theorem syncToPlaceLabel_unknown_label_is_silent :
    paper47.steps.map (fun steps => steps.map (fun e => e.placeLabel)) =
        some [some .Ones, some .Tens] ∧
      syncToPlaceLabel session47 paper47 (freshProgress paper47) (some .Million) =
        some (paper47, freshProgress paper47) ∧
      syncToPlaceLabel session47 paper47 (freshProgress paper47) none =
        some (paper47, freshProgress paper47) := by
  decide

/-- C21 (amended): when no entry of the trace has the label asked for (every
entry having a label), or when there are no steps, `syncToPlaceLabel` reports
no error: it returns normally and leaves `currentStep` and everything the
modal shows unchanged. -/
theorem syncToPlaceLabel_no_match (t : Session) (p : PaperAdditionState) (d : PaperProgress)
    (placeLabel : Option PlaceLabel)
    (h : ∀ steps, p.steps = some steps →
      ∀ e ∈ steps, e.placeLabel ≠ none ∧ e.placeLabel ≠ placeLabel) :
    syncToPlaceLabel t p d placeLabel = some (p, d) := by
  unfold syncToPlaceLabel
  cases hs : p.steps with
  | none => rfl
  | some steps =>
    dsimp only
    rw [findStepIndex_no_match placeLabel steps (h steps hs)]

theorem syncToPlaceLabel_no_match_witness :
    (∀ steps, paper47.steps = some steps →
        ∀ e ∈ steps, e.placeLabel ≠ none ∧ e.placeLabel ≠ some PlaceLabel.Million) ∧
      syncToPlaceLabel session47 paper47 (freshProgress paper47) (some .Million) =
        some (paper47, freshProgress paper47) :=
  ⟨by decide, syncToPlaceLabel_no_match session47 paper47 (freshProgress paper47)
    (some .Million) (by decide)⟩

/-! ## The fixture of the 'no-carry' button -/

/-- C23 (code evaluated at the failing input): for the only problem of the
'no-carry' category, `19923 + 145`, the hundreds digits add up to `9 + 1 = 10`:
`detectCarryPlaces` returns `[2]`, after the two numpad steps of the ones and
the tens the step at index 2 is a drag-drop step, and its first drop takes
the automatic regrouping path, which carries a block into the Thousands. -/
theorem no_carry_fixture_needs_regrouping :
    getDigit 19923 2 + getDigit 145 2 = 10 ∧
      detectCarryPlaces 19923 145 4 = [2] ∧
      carryPlaces 19923 145 = [2] ∧
      (playCorrect 2 session19923).shownStep.map
        (fun step => (step.placeIndex, step.digit1, step.digit2, step.interactionType)) =
        some (2, 9, 1, .dragDrop) ∧
      (playCorrect 2 session19923).shownStep.map
        (fun step => (handleInteractiveRegroupingComplete (playCorrect 2 session19923) step 7 2 0).2) =
        some (.regrouped (some .Thousands)) ∧
      ((playCorrect 3 session19923).stepDetails.get? 2).map
        (fun d => (d.actionType, d.carriedBlocks)) = some (.dragDrop, 1) := by
  decide

/-! ## Carry places -/

theorem mem_detectCarryPlaces (n1 n2 digits p : Nat) :
    p ∈ detectCarryPlaces n1 n2 digits ↔ p < digits ∧ getDigit n1 p + getDigit n2 p ≥ 10 := by
  unfold detectCarryPlaces getDigit
  simp [List.mem_filter]

theorem detectCarryPlaces_sorted (n1 n2 digits : Nat) :
    (detectCarryPlaces n1 n2 digits).Pairwise (· < ·) :=
  List.Pairwise.filter _ (List.pairwise_lt_range digits)

/-- C25 (code evaluated at the failing input): for `95 + 5` column addition
carries out of the ones place (`5 + 5 = 10`) and out of the tens place
(`9 + 0 + 1 = 10`), as the paper trace shows, but `detectCarryPlaces` returns
only the place 0: it adds the two digits of a place without the carry coming
in. -/
theorem detectCarryPlaces_misses_carry_chain :
    detectCarryPlaces 95 5 4 = [0] ∧
      columnCarryPlaces 95 5 4 = [0, 1] ∧
      (calculateAdditionSteps [some .Ones, some .Tens, some .Hundreds] 95 5).map
        (fun e => (e.placeIndex, e.digit1, e.digit2, e.previousCarry, e.newCarry)) =
        [(0, 5, 5, 0, 1), (1, 9, 0, 1, 1), (2, 0, 0, 1, 0)] ∧
      detectCarryPlaces 95 5 4 ≠ columnCarryPlaces 95 5 4 := by
  decide

/-! ## The carry named in a step's explanation -/

/-- C26 (code evaluated at the failing inputs): on `48 + 17` the ones step ends
with an automatic regrouping that carries one block into the tens of the
first number (48 becomes 50, 17 becomes 15), yet for the step at index 1
`calculateActualCarry` returns 0, because it only compares the tens digits of
the second number; on `5 + 95` the carried ten makes the second number 100
and `calculateActualCarry` returns `0 - 9 = -9` for the step at index 1. -/
theorem calculateActualCarry_misses_the_carry :
    ((playCorrect 2 session48).stepDetails.get? 0).map
        (fun d => (d.carriedBlocks, d.beforeNumbers, d.afterNumbers)) =
        some (1, (48, 17), some (50, 15)) ∧
      (playCorrect 2 session48).shownStep.map
        (fun step => (step.stepIndex, step.beforeNum1, step.beforeNum2,
          explainedCarry (playCorrect 2 session48) step)) = some (1, 50, 15, 0) ∧
      calculateActualCarry 17 15 1 = 0 ∧
      ((playCorrect 5 session5).stepDetails.get? 0).map (fun d => d.carriedBlocks) = some 1 ∧
      (playCorrect 5 session5).shownStep.map
        (fun step => (step.stepIndex, step.beforeNum2,
          explainedCarry (playCorrect 5 session5) step)) = some (1, 100, -9) ∧
      calculateActualCarry 95 100 1 = -9 :=
  ⟨by decide, by decide, by decide, by decide, by decide, by decide⟩

/-! ## Completed places -/

/-- C27 (code evaluated at the failing input): on `1809 + 8999` the tens step
is set up with live numbers (1808, 9000) that are behind the page
(1908, 8900); the hundreds step is computed from them as the digit entry
`8 + 0` and completed by the entry 8, although the page holds nine Hundreds
blocks in each number.  After the first drop of the thousands step the live
numbers are re-read as (908, 9900): the cursor is at index 3 and the live
digits of the completed hundreds place are 9 and 9. -/
theorem completed_place_carries_1809_8999 :
    ((playCorrect 1 session1809).num1, (playCorrect 1 session1809).num2) = (1808, 9000) ∧
      (calculateNumberFromBlocks (playCorrect 1 session1809).c1,
        calculateNumberFromBlocks (playCorrect 1 session1809).c2) = (1908, 8900) ∧
      (playCorrect 2 session1809).shownStep.map
        (fun step => (step.placeIndex, step.digit1, step.digit2, step.interactionType)) =
        some (2, 8, 0, .numpad) ∧
      (playCorrect 4 session1809).currentStepIndex = 3 ∧
      ((playCorrect 4 session1809).num1, (playCorrect 4 session1809).num2) = (908, 9900) ∧
      getDigit (playCorrect 4 session1809).num1 2 + getDigit (playCorrect 4 session1809).num2 2 =
        18 :=
  ⟨by decide, by decide, by decide, by decide, by decide, by decide⟩

/-! ## The final answer -/

theorem regroupDrop_originals (s : Session) (step : Step) (source : Operand)
    (drag k : Nat) (target : Operand) :
    (regroupDrop s step source drag k target).originalNum1 = s.originalNum1 ∧
      (regroupDrop s step source drag k target).originalNum2 = s.originalNum2 := by
  unfold regroupDrop
  have h := ((sameCursor_performAutomaticRegrouping s step source drag k target).trans
    (sameCursor_updateHigherPlaceRow _ target false)).trans
    ((sameCursor_updateTempStateFromBlocks _).trans (sameCursor_updateAllRowPlaceValues _))
  exact ⟨h.2.1, h.2.2.1⟩

theorem afterMove_originals (s : Session) (step : Step) :
    (afterMove s step).1.originalNum1 = s.originalNum1 ∧
      (afterMove s step).1.originalNum2 = s.originalNum2 := by
  unfold afterMove
  split
  · exact ⟨rfl, rfl⟩
  · exact ⟨rfl, rfl⟩
  · split <;> exact ⟨rfl, rfl⟩

theorem dropOn_originals (s : Session) (step : Step) (source : Operand) (drag k value : Nat)
    (target : Operand) (drop actualBlocks : Nat) :
    (dropOn s step source drag k value target drop actualBlocks).1.originalNum1 =
        s.originalNum1 ∧
      (dropOn s step source drag k value target drop actualBlocks).1.originalNum2 =
        s.originalNum2 := by
  unfold dropOn
  split
  · exact regroupDrop_originals _ _ _ _ _ _
  · have h := (sameCursor_trackDraggedBlock s value).trans
      (sameCursor_moveBlock (trackDraggedBlock s value) source drag k target drop value)
    have h2 := afterMove_originals
      (moveBlock (trackDraggedBlock s value) source drag k target drop value) step
    rw [h.2.1, h.2.2.1] at h2
    exact h2

theorem handleInteractiveRegroupingComplete_originals (s : Session) (step : Step)
    (drag drop k : Nat) :
    (handleInteractiveRegroupingComplete s step drag drop k).1.originalNum1 = s.originalNum1 ∧
      (handleInteractiveRegroupingComplete s step drag drop k).1.originalNum2 =
        s.originalNum2 := by
  unfold handleInteractiveRegroupingComplete
  split
  · split
    · exact ⟨rfl, rfl⟩
    · exact dropOn_originals _ _ _ _ _ _ _ _ _
  · exact ⟨rfl, rfl⟩

theorem act_originals (s : Session) (a : Action) :
    (act s a).originalNum1 = s.originalNum1 ∧ (act s a).originalNum2 = s.originalNum2 := by
  cases a with
  | numpad v =>
    show (pressNumpad s v).originalNum1 = s.originalNum1 ∧
      (pressNumpad s v).originalNum2 = s.originalNum2
    unfold pressNumpad
    split
    · next step _ =>
      have hn : (handleNumpadInput s step v).originalNum1 = s.originalNum1 ∧
          (handleNumpadInput s step v).originalNum2 = s.originalNum2 := by
        unfold handleNumpadInput
        dsimp only
        split
        · exact ⟨(sameCursor_updateAllRowPlaceValues s).2.1,
            (sameCursor_updateAllRowPlaceValues s).2.2.1⟩
        · exact ⟨rfl, rfl⟩
      split
      · have h2 := sameCursor_processNextCarryStep (handleNumpadInput s step v)
        rw [h2.2.1, h2.2.2.1]
        exact hn
      · exact hn
    · exact ⟨rfl, rfl⟩
  | drop k =>
    show (dropBlock s k).originalNum1 = s.originalNum1 ∧
      (dropBlock s k).originalNum2 = s.originalNum2
    unfold dropBlock
    split
    · next step drag drop _ =>
      have h := handleInteractiveRegroupingComplete_originals s step drag drop k
      have h2 := sameCursor_afterDrop (handleInteractiveRegroupingComplete s step drag drop k).1
        (handleInteractiveRegroupingComplete s step drag drop k).2
      rw [h2.2.1, h2.2.2.1]
      exact h
    · exact ⟨rfl, rfl⟩
  | redrop k =>
    show (redropBlock s k).originalNum1 = s.originalNum1 ∧
      (redropBlock s k).originalNum2 = s.originalNum2
    unfold redropBlock
    split
    · next step drag drop _ =>
      have h := handleInteractiveRegroupingComplete_originals s step drop drop k
      have h2 := sameCursor_afterDrop (handleInteractiveRegroupingComplete s step drop drop k).1
        (handleInteractiveRegroupingComplete s step drop drop k).2
      rw [h2.2.1, h2.2.2.1]
      exact h
    · exact ⟨rfl, rfl⟩

theorem playFrom_originals (actions : List Action) (s : Session) :
    (playFrom s actions).originalNum1 = s.originalNum1 ∧
      (playFrom s actions).originalNum2 = s.originalNum2 := by
  induction actions generalizing s with
  | nil => exact ⟨rfl, rfl⟩
  | cons a rest ih =>
    show (playFrom (act s a) rest).originalNum1 = s.originalNum1 ∧
      (playFrom (act s a) rest).originalNum2 = s.originalNum2
    rw [(ih (act s a)).1, (ih (act s a)).2]
    exact act_originals s a

theorem generateProblem_originals (n1 n2 : Nat) (g : Session)
    (h : generateProblem n1 n2 = some g) : g.originalNum1 = n1 ∧ g.originalNum2 = n2 := by
  unfold generateProblem at h
  dsimp only at h
  split at h
  · cases h
    exact ⟨rfl, rfl⟩
  · cases h

theorem generateProblem_surface (n1 n2 : Nat) (g : Session)
    (h : generateProblem n1 n2 = some g) : g.surface = .idle := by
  unfold generateProblem at h
  dsimp only at h
  split at h
  · cases h
    rfl
  · cases h

theorem startProblem_originals (n1 n2 : Nat) (s : Session)
    (h : startProblem n1 n2 = some s) : s.originalNum1 = n1 ∧ s.originalNum2 = n2 := by
  unfold startProblem at h
  cases hg : generateProblem n1 n2 with
  | none => rw [hg] at h; cases h
  | some g =>
    rw [hg] at h
    cases h
    obtain ⟨h1, h2⟩ := generateProblem_originals n1 n2 g hg
    unfold startInteractiveCarryOver
    have h3 := sameCursor_processNextCarryStep
      { g with num1 := g.originalNum1, num2 := g.originalNum2, currentStepIndex := 0,
               stepDetails := [] }
    rw [h3.2.1, h3.2.2.1]
    exact ⟨h1, h2⟩

theorem playOn_originals (n1 n2 : Nat) (actions : List Action) (s : Session)
    (h : playOn n1 n2 actions = some s) : s.originalNum1 = n1 ∧ s.originalNum2 = n2 := by
  unfold playOn at h
  cases hs : startProblem n1 n2 with
  | none => rw [hs] at h; cases h
  | some s0 =>
    rw [hs] at h
    cases h
    rw [(playFrom_originals actions s0).1, (playFrom_originals actions s0).2]
    exact startProblem_originals n1 n2 s0 hs

theorem jsOr_self (a : Nat) : jsOr a a = a := by
  unfold jsOr
  split <;> rfl

/-- C22: for every problem and every session played on it, whatever its live
numbers are, the final answer `showCompletion` displays is computed from the
fields of `state` that `generateProblem` set and equals
`originalNum1 + originalNum2` of the problem. -/
theorem showCompletion_displays_original_sum (n1 n2 : Nat) (actions : List Action)
    (s : Session) (h : playOn n1 n2 actions = some s) :
    showCompletion (generateProblemState n1 n2) = s.originalNum1 + s.originalNum2 ∧
      showCompletion (generateProblemState n1 n2) = n1 + n2 := by
  obtain ⟨h1, h2⟩ := playOn_originals n1 n2 actions s h
  rw [h1, h2]
  unfold showCompletion generateProblemState
  dsimp only
  rw [jsOr_self, jsOr_self]
  exact ⟨rfl, rfl⟩

theorem showCompletion_displays_original_sum_witness :
    playOn 47 18 [.drop 0, .drop 0] = some (playCorrect 2 session47) ∧
      (playCorrect 2 session47).num1 ≠ 47 ∧
      showCompletion (generateProblemState 47 18) =
        (playCorrect 2 session47).originalNum1 + (playCorrect 2 session47).originalNum2 ∧
      showCompletion (generateProblemState 47 18) = 47 + 18 :=
  ⟨by decide, by decide,
    showCompletion_displays_original_sum 47 18 [.drop 0, .drop 0] (playCorrect 2 session47)
      (by decide)⟩

/-! ## The step history -/

theorem sameLog_refl (s : Session) : SameLog s s := ⟨rfl, rfl⟩

theorem sameLog_trans {a b c : Session} (h1 : SameLog a b) (h2 : SameLog b c) : SameLog a c :=
  ⟨h2.stepDetails.trans h1.stepDetails, h2.surface.trans h1.surface⟩

theorem sameLog_setContainer (s : Session) (o : Operand) (c : NumberContainer) :
    SameLog s (s.setContainer o c) := by
  cases o <;> exact ⟨rfl, rfl⟩

theorem sameLog_appendNewStack (s : Session) (o : Operand) (l : Option PlaceLabel) (v : Nat) :
    SameLog s (appendNewStack s o l v) := by
  cases o <;> exact ⟨rfl, rfl⟩

theorem sameLog_appendBlock (s : Session) (o : Operand) (l : Option PlaceLabel) (v : Nat) :
    SameLog s (appendBlock s o l v) := sameLog_setContainer _ _ _

theorem sameLog_createBlockInPlace (s : Session) (l : Option PlaceLabel) (v : Nat)
    (e : Option Operand) : SameLog s (createBlockInPlace s l v e).1 := by
  unfold createBlockInPlace
  cases e with
  | none =>
    simp only
    split
    · exact (sameLog_appendBlock s .first l v : SameLog s (appendBlock s .first l v))
    · split
      · exact (sameLog_appendBlock s .second l v : SameLog s (appendBlock s .second l v))
      · exact (sameLog_appendNewStack s .first l v : SameLog s (appendNewStack s .first l v))
  | some o =>
    simp only
    split
    · exact (sameLog_appendBlock s o l v : SameLog s (appendBlock s o l v))
    · exact (sameLog_appendNewStack s o l v : SameLog s (appendNewStack s o l v))

theorem sameLog_updateHigherPlaceRow (s : Session) (o : Operand) (g : Bool) :
    SameLog s (updateHigherPlaceRow s o g) := by
  unfold updateHigherPlaceRow
  split
  · exact sameLog_refl s
  · split
    · exact sameLog_setContainer _ _ _
    · split
      · exact ⟨rfl, rfl⟩
      · exact sameLog_refl s

theorem sameLog_foldl {α : Type} (f : Session → α → Session)
    (hf : ∀ s a, SameLog s (f s a)) (l : List α) (s : Session) :
    SameLog s (l.foldl f s) := by
  induction l generalizing s with
  | nil => exact sameLog_refl s
  | cons a l ih => exact sameLog_trans (hf s a) (ih (f s a))

theorem sameLog_updateAllRowPlaceValues (s : Session) :
    SameLog s (updateAllRowPlaceValues s) := by
  unfold updateAllRowPlaceValues
  have h := sameLog_foldl
    (fun acc (row : Stack) =>
      if row.blocks.isEmpty then
        { acc with c1 := removeLegendItems row.label acc.c1, c2 := removeLegendItems row.label acc.c2 }
      else acc)
    (fun s a => by
      simp only
      split
      · exact ⟨rfl, rfl⟩
      · exact sameLog_refl s) (s.c1.placeStacks ++ s.c2.placeStacks) s
  exact ⟨h.stepDetails, h.surface⟩

theorem sameLog_regroupRow (s : Session) (o : Operand) (rowId : Nat)
    (l : Option PlaceLabel) (i : Nat) : SameLog s (regroupRow s o rowId l i) := by
  unfold regroupRow
  exact sameLog_trans
    (sameLog_createBlockInPlace s (labelAt s.placeLabels (i + 1)) (10 ^ (i + 1)) none)
    (sameLog_trans (sameLog_setContainer _ o _)
      (sameLog_trans (sameLog_setContainer _ o _) (sameLog_updateHigherPlaceRow _ _ true)))

theorem sameLog_groupRow (s : Session) (rowId : Nat) : SameLog s (groupRow s rowId) := by
  unfold groupRow
  split
  · exact sameLog_refl s
  · split
    · split
      · exact sameLog_refl s
      · split
        · exact sameLog_regroupRow _ _ _ _ _
        · exact sameLog_refl s
    · exact sameLog_refl s

theorem sameLog_groupIfMoreThanTen (s : Session) (rows : List Nat) :
    SameLog s (groupIfMoreThanTen s rows) :=
  sameLog_foldl groupRow sameLog_groupRow rows s

theorem sameLog_setUpDragDropRows (s : Session) (l : Option PlaceLabel) :
    SameLog s (setUpDragDropRows s l).1 := by
  show SameLog s (updateAllRowPlaceValues (groupIfMoreThanTen s _))
  exact sameLog_trans (sameLog_groupIfMoreThanTen s _) (sameLog_updateAllRowPlaceValues _)

theorem sameLog_removeBlocksFromPlace (s : Session) (l : Option PlaceLabel) (n : Nat)
    (o : Operand) : SameLog s (removeBlocksFromPlace s l n o) := by
  unfold removeBlocksFromPlace
  dsimp only
  split
  · exact sameLog_refl s
  · exact sameLog_setContainer _ _ _

theorem sameLog_modifyRow (s : Session) (o : Operand) (id : Nat) (f : List Nat → List Nat) :
    SameLog s (modifyRow s o id f) := sameLog_setContainer _ _ _

theorem sameLog_moveBlock (s : Session) (source : Operand) (drag k : Nat) (target : Operand)
    (drop value : Nat) : SameLog s (moveBlock s source drag k target drop value) := by
  unfold moveBlock
  exact sameLog_trans
    (sameLog_trans (sameLog_modifyRow s source drag _) (sameLog_modifyRow _ target drop _))
    (sameLog_trans (sameLog_updateAllRowPlaceValues _) ⟨rfl, rfl⟩)

theorem log_installDropHandler (s : Session) (step : Step) (a b : Option Nat) :
    (installDropHandler s step a b).stepDetails = s.stepDetails := by
  cases a <;> cases b <;> rfl

theorem keepsHead_refl (d : StepDetail) : KeepsHead d d := ⟨rfl, rfl, rfl, rfl⟩

theorem keepsHead_trans {a b c : StepDetail} (h1 : KeepsHead a b) (h2 : KeepsHead b c) :
    KeepsHead a c :=
  ⟨h2.1.trans h1.1, h2.2.1.trans h1.2.1, h2.2.2.1.trans h1.2.2.1, h2.2.2.2.trans h1.2.2.2⟩

theorem extends_refl (j : Nat) (l : List StepDetail) : Extends j l l :=
  fun _ d h => ⟨d, h, keepsHead_refl d, fun _ => rfl⟩

theorem extends_trans {j : Nat} {a b c : List StepDetail} (h1 : Extends j a b)
    (h2 : Extends j b c) : Extends j a c := by
  intro k d hd
  obtain ⟨d1, hd1, hk1, he1⟩ := h1 k d hd
  obtain ⟨d2, hd2, hk2, he2⟩ := h2 k d1 hd1
  exact ⟨d2, hd2, keepsHead_trans hk1 hk2, fun hne => (he2 hne).trans (he1 hne)⟩

theorem extends_of_eq {j : Nat} {a b : List StepDetail} (h : b = a) : Extends j a b :=
  h ▸ extends_refl j a

theorem extends_append (j : Nat) (l : List StepDetail) (d : StepDetail) :
    Extends j l (l ++ [d]) := by
  intro k d0 h
  refine ⟨d0, ?_, keepsHead_refl d0, fun _ => rfl⟩
  rw [List.get?_eq_getElem?] at h ⊢
  have hk : k < l.length := by
    by_contra hc
    rw [List.getElem?_eq_none (Nat.le_of_not_lt hc)] at h
    cases h
  rw [List.getElem?_append_left hk]
  exact h

/-- A later position: what holds for the records below `j` holds when only
the record at a position from `j` on was touched. -/
theorem extends_mono {j : Nat} {a b : List StepDetail} (h : Extends j a b)
    (k : Nat) (d : StepDetail) (hd : a.get? k = some d) (hk : k ≠ j) : b.get? k = some d := by
  obtain ⟨d', hd', -, he⟩ := h k d hd
  rw [hd', he hk]

theorem modifyStepDetail_length (l : List StepDetail) (j : Nat) (f : StepDetail → StepDetail) :
    (modifyStepDetail l j f).length = l.length := by
  unfold modifyStepDetail
  split
  · rfl
  · exact List.length_set _ _ _

theorem modifyStepDetail_get_self (l : List StepDetail) (j : Nat) (f : StepDetail → StepDetail)
    (d : StepDetail) (h : l.get? j = some d) : (modifyStepDetail l j f).get? j = some (f d) := by
  unfold modifyStepDetail
  rw [h]
  dsimp only
  rw [List.get?_eq_getElem?] at h ⊢
  have hj : j < l.length := by
    by_contra hc
    rw [List.getElem?_eq_none (Nat.le_of_not_lt hc)] at h
    cases h
  rw [List.getElem?_set_self hj]

theorem modifyStepDetail_get_other (l : List StepDetail) (j k : Nat)
    (f : StepDetail → StepDetail) (h : k ≠ j) :
    (modifyStepDetail l j f).get? k = l.get? k := by
  unfold modifyStepDetail
  split
  · rfl
  · rw [List.get?_eq_getElem?, List.get?_eq_getElem?, List.getElem?_set_ne (Ne.symm h)]

theorem modifyStepDetail_extends (l : List StepDetail) (j : Nat) (f : StepDetail → StepDetail)
    (hf : ∀ d, KeepsHead d (f d)) : Extends j l (modifyStepDetail l j f) := by
  intro k d hd
  by_cases hk : k = j
  · subst hk
    exact ⟨f d, modifyStepDetail_get_self l k f d hd, hf d, fun hne => absurd rfl hne⟩
  · refine ⟨d, ?_, keepsHead_refl d, fun _ => rfl⟩
    rw [modifyStepDetail_get_other l j k f hk]
    exact hd
theorem trackDraggedBlock_extends (s : Session) (v : Nat) :
    Extends s.currentStepIndex s.stepDetails (trackDraggedBlock s v).stepDetails ∧
      (trackDraggedBlock s v).stepDetails.length = s.stepDetails.length :=
  ⟨modifyStepDetail_extends _ _ _ (fun _ => ⟨rfl, rfl, rfl, rfl⟩),
    modifyStepDetail_length _ _ _⟩

theorem trackCarriedBlocks_extends (s : Session) (info : RegroupingDetails) (n : Nat) :
    Extends s.currentStepIndex s.stepDetails (trackCarriedBlocks s info n).stepDetails ∧
      (trackCarriedBlocks s info n).stepDetails.length = s.stepDetails.length :=
  ⟨modifyStepDetail_extends _ _ _ (fun _ => ⟨rfl, rfl, rfl, rfl⟩),
    modifyStepDetail_length _ _ _⟩

theorem moveToNextStep_extends (s : Session) :
    Extends s.currentStepIndex s.stepDetails (moveToNextStep s).stepDetails ∧
      (moveToNextStep s).stepDetails.length = s.stepDetails.length := by
  unfold moveToNextStep
  dsimp only
  split
  · exact ⟨modifyStepDetail_extends _ _ _ (fun _ => ⟨rfl, rfl, rfl, rfl⟩),
      modifyStepDetail_length _ _ _⟩
  · exact ⟨extends_refl _ _, rfl⟩

/-- The record of the current step after `moveToNextStep`: its `afterNumbers`
are the live numbers. -/
theorem moveToNextStep_afterNumbers (s : Session) (d : StepDetail)
    (h : s.stepDetails.get? s.currentStepIndex = some d) :
    ((moveToNextStep s).stepDetails.get? s.currentStepIndex).map (fun r => r.afterNumbers) =
      some (some ((moveToNextStep s).num1, (moveToNextStep s).num2)) := by
  have hpos : s.stepDetails.length > 0 := by
    cases hl : s.stepDetails with
    | nil => rw [hl] at h; cases h
    | cons a l => exact Nat.succ_pos _
  unfold moveToNextStep
  dsimp only
  rw [if_pos hpos, modifyStepDetail_get_self _ _ _ d h]
  rfl

theorem performAutomaticRegrouping_extends (s : Session) (step : Step) (source : Operand)
    (drag k : Nat) (target : Operand) :
    Extends s.currentStepIndex s.stepDetails
        (performAutomaticRegrouping s step source drag k target).stepDetails ∧
      (performAutomaticRegrouping s step source drag k target).stepDetails.length =
        s.stepDetails.length := by
  have h := trackCarriedBlocks_extends (modifyRow s source drag (fun blocks => blocks.eraseIdx k))
    { blocksRemoved := 10, blocksAdded := 1, fromPlace := step.placeLabel,
      toPlace := nextPlaceOf s step } 1
  rw [(sameLog_modifyRow s source drag _).stepDetails,
    (sameCursor_modifyRow s source drag _).2.2.2] at h
  unfold performAutomaticRegrouping
  dsimp only
  split
  · rw [(sameLog_createBlockInPlace _ _ _ _).stepDetails,
      (sameLog_removeBlocksFromPlace _ _ _ _).stepDetails]
    exact h
  · rw [(sameLog_removeBlocksFromPlace _ _ _ _).stepDetails]
    exact h

theorem regroupDrop_extends (s : Session) (step : Step) (source : Operand)
    (drag k : Nat) (target : Operand) :
    Extends s.currentStepIndex s.stepDetails
        (regroupDrop s step source drag k target).stepDetails ∧
      (regroupDrop s step source drag k target).stepDetails.length = s.stepDetails.length := by
  unfold regroupDrop
  have hc := ((sameCursor_performAutomaticRegrouping s step source drag k target).trans
    (sameCursor_updateHigherPlaceRow _ target false)).trans
    ((sameCursor_updateTempStateFromBlocks _).trans (sameCursor_updateAllRowPlaceValues _))
  have hm := moveToNextStep_extends (updateAllRowPlaceValues (updateTempStateFromBlocks
    (updateHigherPlaceRow (performAutomaticRegrouping s step source drag k target) target false)))
  have hl : (updateAllRowPlaceValues (updateTempStateFromBlocks
      (updateHigherPlaceRow (performAutomaticRegrouping s step source drag k target)
        target false))).stepDetails =
      (performAutomaticRegrouping s step source drag k target).stepDetails := by
    rw [(sameLog_updateAllRowPlaceValues _).stepDetails]
    show (updateHigherPlaceRow _ target false).stepDetails = _
    rw [(sameLog_updateHigherPlaceRow _ _ _).stepDetails]
  rw [hc.2.2.2, hl] at hm
  have hp := performAutomaticRegrouping_extends s step source drag k target
  exact ⟨extends_trans hp.1 hm.1, hm.2.trans hp.2⟩

theorem performAutomaticRegrouping_surface (s : Session) (step : Step) (source : Operand)
    (drag k : Nat) (target : Operand) :
    (performAutomaticRegrouping s step source drag k target).surface = s.surface := by
  have h : (trackCarriedBlocks (modifyRow s source drag (fun blocks => blocks.eraseIdx k))
      { blocksRemoved := 10, blocksAdded := 1, fromPlace := step.placeLabel,
        toPlace := nextPlaceOf s step } 1).surface = s.surface :=
    (sameLog_modifyRow s source drag _).surface
  unfold performAutomaticRegrouping
  dsimp only
  split
  · rw [(sameLog_createBlockInPlace _ _ _ _).surface,
      (sameLog_removeBlocksFromPlace _ _ _ _).surface]
    exact h
  · rw [(sameLog_removeBlocksFromPlace _ _ _ _).surface]
    exact h

theorem regroupDrop_surface (s : Session) (step : Step) (source : Operand)
    (drag k : Nat) (target : Operand) :
    (regroupDrop s step source drag k target).surface = s.surface := by
  unfold regroupDrop
  show (updateAllRowPlaceValues (updateTempStateFromBlocks
    (updateHigherPlaceRow (performAutomaticRegrouping s step source drag k target)
      target false))).surface = _
  rw [(sameLog_updateAllRowPlaceValues _).surface]
  show (updateHigherPlaceRow _ target false).surface = _
  rw [(sameLog_updateHigherPlaceRow _ _ _).surface]
  exact performAutomaticRegrouping_surface s step source drag k target

theorem afterMove_extends (s : Session) (step : Step) :
    Extends s.currentStepIndex s.stepDetails (afterMove s step).1.stepDetails ∧
      (afterMove s step).1.stepDetails.length = s.stepDetails.length := by
  unfold afterMove
  split
  · exact ⟨extends_refl _ _, rfl⟩
  · exact moveToNextStep_extends s
  · split
    · exact moveToNextStep_extends s
    · exact ⟨extends_refl _ _, rfl⟩

theorem dropOn_extends (s : Session) (step : Step) (source : Operand) (drag k value : Nat)
    (target : Operand) (drop actualBlocks : Nat) :
    Extends s.currentStepIndex s.stepDetails
        (dropOn s step source drag k value target drop actualBlocks).1.stepDetails ∧
      (dropOn s step source drag k value target drop actualBlocks).1.stepDetails.length =
        s.stepDetails.length := by
  have ht := trackDraggedBlock_extends s value
  unfold dropOn
  split
  · have hr := regroupDrop_extends (trackDraggedBlock s value) step source drag k target
    exact ⟨extends_trans ht.1 hr.1, hr.2.trans ht.2⟩
  · have hm := afterMove_extends
      (moveBlock (trackDraggedBlock s value) source drag k target drop value) step
    rw [(sameLog_moveBlock _ _ _ _ _ _ _).stepDetails,
      (sameCursor_moveBlock (trackDraggedBlock s value) source drag k target
        drop value).2.2.2] at hm
    exact ⟨extends_trans ht.1 hm.1, hm.2.trans ht.2⟩

theorem handleInteractiveRegroupingComplete_extends (s : Session) (step : Step)
    (drag drop k : Nat) :
    Extends s.currentStepIndex s.stepDetails
        (handleInteractiveRegroupingComplete s step drag drop k).1.stepDetails ∧
      (handleInteractiveRegroupingComplete s step drag drop k).1.stepDetails.length =
        s.stepDetails.length := by
  unfold handleInteractiveRegroupingComplete
  split
  · split
    · exact ⟨extends_refl _ _, rfl⟩
    · exact dropOn_extends _ _ _ _ _ _ _ _ _
  · exact ⟨extends_refl _ _, rfl⟩

theorem trackStepDetails_log (s : Session) (step : Step) (a : InteractionType) :
    ∃ d, (trackStepDetails s step a).stepDetails = s.stepDetails ++ [d] ∧
      d.stepIndex = s.currentStepIndex ∧ d.placeLabel = step.placeLabel :=
  ⟨_, rfl, rfl, rfl⟩

/-- What the rest of `processNextCarryStep` does to the step history, the index
read before the `await` being `i`: nothing when the session is complete or
`calculateCurrentStep` throws (the label of index `i` is `undefined`),
otherwise one record is appended, stamped with the cursor of that moment and
the label of index `i`. -/
theorem resumeNextCarryStep_log (s : Session) (i : Nat) :
    ((resumeNextCarryStep s i).stepDetails = s.stepDetails ∧
        ((resumeNextCarryStep s i).shownStep = none ∨
          (i < s.placeLabels.length ∧ labelAt s.placeLabels i = none))) ∨
      ∃ d, (resumeNextCarryStep s i).stepDetails = s.stepDetails ++ [d] ∧
        d.stepIndex = s.currentStepIndex ∧
        d.placeLabel = labelAt s.placeLabels i := by
  unfold resumeNextCarryStep
  cases hc : calculateCurrentStep s i with
  | none =>
    refine Or.inl ⟨rfl, Or.inr ?_⟩
    unfold calculateCurrentStep at hc
    dsimp only at hc
    split at hc
    · cases hc
    · next hlt =>
      split at hc
      · next hnone =>
        refine ⟨Nat.lt_of_not_le hlt, ?_⟩
        cases hl : labelAt s.placeLabels i with
        | none => rfl
        | some l => rw [hl] at hnone; cases hnone
      · cases hc
  | some r =>
    cases r with
    | none => exact Or.inl ⟨rfl, Or.inl rfl⟩
    | some step =>
      right
      obtain ⟨hlt, hlab⟩ := calculateCurrentStep_some s _ step hc
      obtain ⟨step', hs', -, -, -, -, -, -, -, -, hpl⟩ :=
        calculateCurrentStep_eq s i hlt hlab
      rw [hc] at hs'
      cases hs'
      dsimp only
      split
      · obtain ⟨d, hd, hi, hp⟩ := trackStepDetails_log s step .dragDrop
        refine ⟨d, ?_, hi, hp.trans hpl⟩
        unfold startDragDropStep
        rw [log_installDropHandler, (sameLog_setUpDragDropRows _ _).stepDetails]
        exact hd
      · obtain ⟨d, hd, hi, hp⟩ := trackStepDetails_log s step .numpad
        refine ⟨d, ?_, hi, hp.trans hpl⟩
        unfold startNumpadStep
        show (groupIfMoreThanTen _ _).stepDetails = _
        rw [(sameLog_groupIfMoreThanTen _ _).stepDetails]
        exact hd

theorem sameLog_setupSecondPhaseRegrouping (s : Session) (l : Option PlaceLabel) :
    SameLog s (setupSecondPhaseRegrouping s l) :=
  sameLog_setUpDragDropRows s l

theorem logged_of_sameLog {s s' : Session} (h : Logged s) (hl : SameLog s s')
    (hc : SameCursor s s') : Logged s' where
  indexed := by
    rw [hl.stepDetails, hc.1]
    exact h.indexed
  lower := by rw [hl.stepDetails, hc.2.2.2]; exact h.lower
  upper := by rw [hl.stepDetails, hc.2.2.2]; exact h.upper
  shown := by
    unfold Session.shownStep
    rw [hl.stepDetails, hc.2.2.2, hl.surface]
    exact h.shown

/-- Setting up the step at the cursor, when the history has the records of the
steps below the cursor and no more and no label of the table is `undefined`,
keeps the history in step order. -/
theorem processNextCarryStep_logged (s : Session)
    (hdef : ∀ i, i < s.placeLabels.length → labelAt s.placeLabels i ≠ none)
    (hi : ∀ k d, s.stepDetails.get? k = some d →
      d.stepIndex = k ∧ d.placeLabel = labelAt s.placeLabels k)
    (hlen : s.stepDetails.length = s.currentStepIndex) : Logged (processNextCarryStep s) := by
  have hc := sameCursor_processNextCarryStep s
  unfold processNextCarryStep at hc ⊢
  rcases resumeNextCarryStep_log s s.currentStepIndex with
    ⟨hd, hs | ⟨hlt, hnone⟩⟩ | ⟨d, hd, hdi, hdl⟩
  · refine ⟨?_, ?_, ?_, ?_⟩
    · rw [hd, hc.1]; exact hi
    · rw [hd, hc.2.2.2, hlen]
    · rw [hd, hc.2.2.2, hlen]; exact Nat.le_succ _
    · rw [hs]; intro h; cases h
  · exact absurd hnone (hdef _ hlt)
  · refine ⟨?_, ?_, ?_, ?_⟩
    · rw [hd, hc.1]
      intro k d0 h0
      rw [List.get?_eq_getElem?] at h0
      by_cases hk : k < s.stepDetails.length
      · rw [List.getElem?_append_left hk] at h0
        exact hi k d0 (by rw [List.get?_eq_getElem?]; exact h0)
      · rw [List.getElem?_append_right (Nat.le_of_not_lt hk)] at h0
        have hk0 : k - s.stepDetails.length = 0 := by
          by_contra hne
          rw [List.getElem?_eq_none (by simp; omega)] at h0
          cases h0
        rw [hk0] at h0
        simp only [List.getElem?_cons_zero, Option.some.injEq] at h0
        subst h0
        have hk2 : k = s.currentStepIndex := by omega
        rw [hk2]
        exact ⟨hdi, hdl⟩
    · rw [hd, hc.2.2.2, List.length_append, hlen]; exact Nat.le_succ _
    · rw [hd, hc.2.2.2, List.length_append, hlen]; rfl
    · intro _
      rw [hd, hc.2.2.2, List.length_append, hlen]; rfl

theorem extends_indexed {j : Nat} {a b : List StepDetail} {labels : List (Option PlaceLabel)}
    (h : Extends j a b) (hlen : b.length = a.length)
    (hi : ∀ k d, a.get? k = some d → d.stepIndex = k ∧ d.placeLabel = labelAt labels k) :
    ∀ k d, b.get? k = some d → d.stepIndex = k ∧ d.placeLabel = labelAt labels k := by
  intro k d hd
  have hk : k < a.length := by
    rw [← hlen]
    by_contra hc
    rw [List.get?_eq_getElem?, List.getElem?_eq_none (Nat.le_of_not_lt hc)] at hd
    cases hd
  obtain ⟨d', hd', hkeep, -⟩ := h k (a.get ⟨k, hk⟩) (List.get?_eq_get hk)
  rw [hd] at hd'
  cases hd'
  obtain ⟨h1, h2⟩ := hi k (a.get ⟨k, hk⟩) (List.get?_eq_get hk)
  exact ⟨hkeep.1.trans h1, hkeep.2.1.trans h2⟩

theorem pressNumpad_logged (s : Session) (v : Nat)
    (hdef : ∀ i, i < s.placeLabels.length → labelAt s.placeLabels i ≠ none) (h : Logged s) :
    Logged (pressNumpad s v) := by
  unfold pressNumpad
  split
  · next step hsurf =>
    split
    · next hv =>
      apply processNextCarryStep_logged
      · rw [handleNumpadInput_placeLabels]
        exact hdef
      · unfold handleNumpadInput
        dsimp only
        rw [if_pos hv]
        show ∀ k d, (updateAllRowPlaceValues s).stepDetails.get? k = some d →
          d.stepIndex = k ∧ d.placeLabel = labelAt (updateAllRowPlaceValues s).placeLabels k
        rw [(sameLog_updateAllRowPlaceValues s).stepDetails,
          (sameCursor_updateAllRowPlaceValues s).1]
        exact h.indexed
      · unfold handleNumpadInput
        dsimp only
        rw [if_pos hv]
        show (updateAllRowPlaceValues s).stepDetails.length =
          (updateAllRowPlaceValues s).currentStepIndex + 1
        rw [(sameLog_updateAllRowPlaceValues s).stepDetails,
          (sameCursor_updateAllRowPlaceValues s).2.2.2]
        apply h.shown
        unfold Session.shownStep
        rw [hsurf]
        rfl
    · next hv => rw [handleNumpadInput_wrong s step v hv]; exact h
  · exact h

theorem dropOn_cursor_of_outcome (s : Session) (step : Step) (source : Operand)
    (drag k value : Nat) (target : Operand) (drop actualBlocks : Nat) :
    ((dropOn s step source drag k value target drop actualBlocks).2 = .incomplete false ∧
        (dropOn s step source drag k value target drop actualBlocks).1.currentStepIndex =
          s.currentStepIndex) ∨
      ((dropOn s step source drag k value target drop actualBlocks).2 ≠ .incomplete false ∧
        (dropOn s step source drag k value target drop actualBlocks).1.currentStepIndex =
          s.currentStepIndex + 1) := by
  have hm := (sameCursor_trackDraggedBlock s value).trans
    (sameCursor_moveBlock (trackDraggedBlock s value) source drag k target drop value)
  unfold dropOn
  split
  · right
    refine ⟨(by intro hc; cases hc), ?_⟩
    rw [regroupDrop_currentStepIndex]
    rfl
  · unfold afterMove
    split
    · exact Or.inl ⟨rfl, hm.2.2.2⟩
    · right
      refine ⟨(by intro hc; cases hc), ?_⟩
      rw [moveToNextStep_currentStepIndex, hm.2.2.2]
    · split
      · right
        refine ⟨(by intro hc; cases hc), ?_⟩
        rw [moveToNextStep_currentStepIndex, hm.2.2.2]
      · exact Or.inl ⟨rfl, hm.2.2.2⟩

theorem handler_cursor_of_outcome (s : Session) (step : Step) (drag drop k : Nat) :
    ((handleInteractiveRegroupingComplete s step drag drop k).2 = .incomplete false ∧
        (handleInteractiveRegroupingComplete s step drag drop k).1.currentStepIndex =
          s.currentStepIndex) ∨
      ((handleInteractiveRegroupingComplete s step drag drop k).2 ≠ .incomplete false ∧
        (handleInteractiveRegroupingComplete s step drag drop k).1.currentStepIndex =
          s.currentStepIndex + 1) := by
  unfold handleInteractiveRegroupingComplete
  split
  · split
    · exact Or.inl ⟨rfl, rfl⟩
    · exact dropOn_cursor_of_outcome _ _ _ _ _ _ _ _ _
  · exact Or.inl ⟨rfl, rfl⟩

theorem afterDrop_logged (r : Session) (o : DropOutcome) (ho : o ≠ .incomplete false)
    (hdef : ∀ i, i < r.placeLabels.length → labelAt r.placeLabels i ≠ none)
    (hi : ∀ k d, r.stepDetails.get? k = some d →
      d.stepIndex = k ∧ d.placeLabel = labelAt r.placeLabels k)
    (hlen : r.stepDetails.length = r.currentStepIndex) : Logged (afterDrop r o) := by
  cases o with
  | incomplete advanced =>
    cases advanced
    · exact absurd rfl ho
    · exact processNextCarryStep_logged r hdef hi hlen
  | regrouped nextPlace =>
    show Logged (if nextPlace.isSome then
      setupSecondPhaseRegrouping (processNextCarryStep r) nextPlace else processNextCarryStep r)
    split
    · exact logged_of_sameLog (processNextCarryStep_logged r hdef hi hlen)
        (sameLog_setupSecondPhaseRegrouping _ _) (sameCursor_setupSecondPhaseRegrouping _ _)
    · exact processNextCarryStep_logged r hdef hi hlen

/-- The drop handler for a block of any row, followed by its callbacks, keeps
the history in step order. -/
theorem dropFrom_logged (s : Session) (step : Step) (dragged drop k : Nat)
    (hdef : ∀ i, i < s.placeLabels.length → labelAt s.placeLabels i ≠ none) (h : Logged s)
    (hshown : s.stepDetails.length = s.currentStepIndex + 1) :
    Logged (afterDrop (handleInteractiveRegroupingComplete s step dragged drop k).1
      (handleInteractiveRegroupingComplete s step dragged drop k).2) := by
  obtain ⟨hext, hlen⟩ := handleInteractiveRegroupingComplete_extends s step dragged drop k
  have hpl := (handleInteractiveRegroupingComplete_cursor s step dragged drop k).1
  have hidx := extends_indexed hext hlen h.indexed
  rw [← hpl] at hidx
  rcases handler_cursor_of_outcome s step dragged drop k with ⟨ho, hc⟩ | ⟨ho, hc⟩
  · rw [ho]
    show Logged (handleInteractiveRegroupingComplete s step dragged drop k).1
    refine ⟨hidx, by rw [hlen, hc]; exact h.lower, by rw [hlen, hc]; exact h.upper,
      fun _ => by rw [hlen, hc]; exact hshown⟩
  · exact afterDrop_logged _ _ ho (by rw [hpl]; exact hdef) hidx (by rw [hlen, hc]; exact hshown)

theorem dropBlock_logged (s : Session) (k : Nat)
    (hdef : ∀ i, i < s.placeLabels.length → labelAt s.placeLabels i ≠ none) (h : Logged s) :
    Logged (dropBlock s k) := by
  unfold dropBlock
  split
  · next step drag drop hsurf =>
    apply dropFrom_logged s step drag drop k hdef h
    apply h.shown
    unfold Session.shownStep
    rw [hsurf]
    rfl
  · exact h

theorem redropBlock_logged (s : Session) (k : Nat)
    (hdef : ∀ i, i < s.placeLabels.length → labelAt s.placeLabels i ≠ none) (h : Logged s) :
    Logged (redropBlock s k) := by
  unfold redropBlock
  split
  · next step drag drop hsurf =>
    apply dropFrom_logged s step drop drop k hdef h
    apply h.shown
    unfold Session.shownStep
    rw [hsurf]
    rfl
  · exact h

theorem act_logged (s : Session) (a : Action)
    (hdef : ∀ i, i < s.placeLabels.length → labelAt s.placeLabels i ≠ none) (h : Logged s) :
    Logged (act s a) := by
  cases a with
  | numpad v => exact pressNumpad_logged s v hdef h
  | drop k => exact dropBlock_logged s k hdef h
  | redrop k => exact redropBlock_logged s k hdef h

theorem playFrom_logged (actions : List Action) (s : Session)
    (hdef : ∀ i, i < s.placeLabels.length → labelAt s.placeLabels i ≠ none) (h : Logged s) :
    Logged (playFrom s actions) := by
  induction actions generalizing s with
  | nil => exact h
  | cons a rest ih =>
    exact ih (act s a) (by rw [(act_cursor s a).1]; exact hdef) (act_logged s a hdef h)

theorem startInteractiveCarryOver_logged (g : Session)
    (hdef : ∀ i, i < g.placeLabels.length → labelAt g.placeLabels i ≠ none) :
    Logged (startInteractiveCarryOver g) := by
  unfold startInteractiveCarryOver
  apply processNextCarryStep_logged
  · exact hdef
  · intro k d hd
    cases hd
  · rfl

theorem resumeNextCarryStep_extends (j : Nat) (s : Session) (i : Nat) :
    Extends j s.stepDetails (resumeNextCarryStep s i).stepDetails := by
  rcases resumeNextCarryStep_log s i with ⟨hd, -⟩ | ⟨d, hd, -, -⟩
  · exact extends_of_eq hd
  · rw [hd]; exact extends_append j _ d

theorem processNextCarryStep_extends (j : Nat) (s : Session) :
    Extends j s.stepDetails (processNextCarryStep s).stepDetails :=
  resumeNextCarryStep_extends j s s.currentStepIndex

theorem afterDrop_extends (j : Nat) (r : Session) (o : DropOutcome) :
    Extends j r.stepDetails (afterDrop r o).stepDetails := by
  cases o with
  | incomplete advanced =>
    cases advanced
    · exact extends_refl _ _
    · exact processNextCarryStep_extends j r
  | regrouped nextPlace =>
    show Extends j r.stepDetails (if nextPlace.isSome then
      setupSecondPhaseRegrouping (processNextCarryStep r) nextPlace
      else processNextCarryStep r).stepDetails
    split
    · rw [(sameLog_setupSecondPhaseRegrouping _ _).stepDetails]
      exact processNextCarryStep_extends j r
    · exact processNextCarryStep_extends j r

theorem act_extends (s : Session) (a : Action) :
    Extends s.currentStepIndex s.stepDetails (act s a).stepDetails := by
  cases a with
  | numpad v =>
    show Extends s.currentStepIndex s.stepDetails (pressNumpad s v).stepDetails
    unfold pressNumpad
    split
    · next step _ =>
      split
      · next hv =>
        have hx : (handleNumpadInput s step v).stepDetails = s.stepDetails := by
          unfold handleNumpadInput
          dsimp only
          rw [if_pos hv]
          exact (sameLog_updateAllRowPlaceValues s).stepDetails
        have := processNextCarryStep_extends s.currentStepIndex (handleNumpadInput s step v)
        rw [hx] at this
        exact this
      · next hv => rw [handleNumpadInput_wrong s step v hv]; exact extends_refl _ _
    · exact extends_refl _ _
  | drop k =>
    show Extends s.currentStepIndex s.stepDetails (dropBlock s k).stepDetails
    unfold dropBlock
    split
    · next step drag drop _ =>
      exact extends_trans (handleInteractiveRegroupingComplete_extends s step drag drop k).1
        (afterDrop_extends _ _ _)
    · exact extends_refl _ _
  | redrop k =>
    show Extends s.currentStepIndex s.stepDetails (redropBlock s k).stepDetails
    unfold redropBlock
    split
    · next step drag drop _ =>
      exact extends_trans (handleInteractiveRegroupingComplete_extends s step drop drop k).1
        (afterDrop_extends _ _ _)
    · exact extends_refl _ _

/-- Every event - a learner input or a scheduled callback, whatever the order -
keeps the records of the step history at their positions. -/
theorem World.step_extends (w : World) (e : Event) :
    Extends w.session.currentStepIndex w.session.stepDetails (w.step e).session.stepDetails := by
  cases e with
  | press v =>
    unfold World.step
    dsimp only
    split
    · next step _ =>
      split
      · next hv =>
        apply extends_of_eq
        show (handleNumpadInput w.session step v).stepDetails = _
        unfold handleNumpadInput
        dsimp only
        rw [if_pos hv]
        exact (sameLog_updateAllRowPlaceValues w.session).stepDetails
      · next hv =>
        show Extends _ _ (handleNumpadInput w.session step v).stepDetails
        rw [handleNumpadInput_wrong w.session step v hv]
        exact extends_refl _ _
    · exact extends_refl _ _
  | drop k =>
    unfold World.step
    dsimp only
    split
    · next step drag drop _ =>
      exact (handleInteractiveRegroupingComplete_extends w.session step drag drop k).1
    · exact extends_refl _ _
  | redrop k =>
    unfold World.step
    dsimp only
    split
    · next step drag drop _ =>
      exact (handleInteractiveRegroupingComplete_extends w.session step drop drop k).1
    · exact extends_refl _ _
  | resume n =>
    unfold World.step
    dsimp only
    split
    · next callback _ =>
      cases callback with
      | continuation i => exact resumeNextCarryStep_extends _ _ i
      | timer nextPlace =>
        apply extends_of_eq
        exact (sameLog_setupSecondPhaseRegrouping _ _).stepDetails
    · exact extends_refl _ _

theorem regroupDrop_afterNumbers (s : Session) (step : Step) (source : Operand)
    (drag k : Nat) (target : Operand) (d : StepDetail)
    (hd : s.stepDetails.get? s.currentStepIndex = some d) :
    ((regroupDrop s step source drag k target).stepDetails.get? s.currentStepIndex).map
        (fun r => r.afterNumbers) =
      some (some ((regroupDrop s step source drag k target).num1,
        (regroupDrop s step source drag k target).num2)) := by
  have hc := ((sameCursor_performAutomaticRegrouping s step source drag k target).trans
    (sameCursor_updateHigherPlaceRow _ target false)).trans
    ((sameCursor_updateTempStateFromBlocks _).trans (sameCursor_updateAllRowPlaceValues _))
  have hl : (updateAllRowPlaceValues (updateTempStateFromBlocks
      (updateHigherPlaceRow (performAutomaticRegrouping s step source drag k target)
        target false))).stepDetails =
      (performAutomaticRegrouping s step source drag k target).stepDetails := by
    rw [(sameLog_updateAllRowPlaceValues _).stepDetails]
    show (updateHigherPlaceRow _ target false).stepDetails = _
    rw [(sameLog_updateHigherPlaceRow _ _ _).stepDetails]
  obtain ⟨d', hd', -, -⟩ :=
    (performAutomaticRegrouping_extends s step source drag k target).1 _ d hd
  have := moveToNextStep_afterNumbers (updateAllRowPlaceValues (updateTempStateFromBlocks
    (updateHigherPlaceRow (performAutomaticRegrouping s step source drag k target) target false)))
    d' (by rw [hc.2.2.2, hl]; exact hd')
  rw [hc.2.2.2] at this
  exact this

theorem dropOn_afterNumbers (s : Session) (step : Step) (source : Operand)
    (drag k value : Nat) (target : Operand) (drop actualBlocks : Nat) (d : StepDetail)
    (hd : s.stepDetails.get? s.currentStepIndex = some d)
    (hadv : (dropOn s step source drag k value target drop actualBlocks).1.currentStepIndex =
      s.currentStepIndex + 1) :
    ((dropOn s step source drag k value target drop actualBlocks).1.stepDetails.get?
        s.currentStepIndex).map (fun r => r.afterNumbers) =
      some (some ((dropOn s step source drag k value target drop actualBlocks).1.num1,
        (dropOn s step source drag k value target drop actualBlocks).1.num2)) := by
  obtain ⟨d1, hd1, -, -⟩ := (trackDraggedBlock_extends s value).1 _ d hd
  have hm := (sameCursor_trackDraggedBlock s value).trans
    (sameCursor_moveBlock (trackDraggedBlock s value) source drag k target drop value)
  have hmove := moveToNextStep_afterNumbers
    (moveBlock (trackDraggedBlock s value) source drag k target drop value) d1
    (by rw [(sameLog_moveBlock _ _ _ _ _ _ _).stepDetails, hm.2.2.2]; exact hd1)
  rw [hm.2.2.2] at hmove
  unfold dropOn at hadv ⊢
  split
  · exact regroupDrop_afterNumbers (trackDraggedBlock s value) step source drag k target d1 hd1
  · next hlt =>
    rw [if_neg hlt] at hadv
    unfold afterMove at hadv ⊢
    split
    · next hcalc =>
      rw [hcalc] at hadv
      dsimp only at hadv
      rw [hm.2.2.2] at hadv
      omega
    · exact hmove
    · next cur hcalc =>
      rw [hcalc] at hadv
      dsimp only at hadv
      split
      · exact hmove
      · next hne =>
        rw [if_neg hne] at hadv
        dsimp only at hadv
        rw [hm.2.2.2] at hadv
        omega

theorem handler_afterNumbers (s : Session) (step : Step) (drag drop k : Nat) (d : StepDetail)
    (hd : s.stepDetails.get? s.currentStepIndex = some d)
    (hadv : (handleInteractiveRegroupingComplete s step drag drop k).1.currentStepIndex =
      s.currentStepIndex + 1) :
    ((handleInteractiveRegroupingComplete s step drag drop k).1.stepDetails.get?
        s.currentStepIndex).map (fun r => r.afterNumbers) =
      some (some ((handleInteractiveRegroupingComplete s step drag drop k).1.num1,
        (handleInteractiveRegroupingComplete s step drag drop k).1.num2)) := by
  unfold handleInteractiveRegroupingComplete at hadv ⊢
  split
  · next heq1 heq2 =>
    rw [heq1, heq2] at hadv
    dsimp only at hadv
    split
    · next hk =>
      rw [hk] at hadv
      dsimp only at hadv
      omega
    · next value hk =>
      rw [hk] at hadv
      dsimp only at hadv
      exact dropOn_afterNumbers _ _ _ _ _ _ _ _ _ d hd hadv
  · next hne =>
    exfalso
    revert hadv
    split
    · next a b c e heq1 heq2 => exact (hne _ _ _ _ heq1 heq2).elim
    · intro hadv
      dsimp only at hadv
      omega

/-- C24 (as stated, refuted): on `47 + 18` the record of the ones step is
created with no dragged block; the first drop of the step, which leaves the
cursor at index 0, changes the record's `draggedBlocks` to `[1]`, and the
drop that completes the step sets `carriedBlocks` and `regroupingDetails`
next to `afterNumbers`: fields other than `afterNumbers` change after
creation. -/
theorem step_record_changes_during_step :
    (session47.stepDetails.get? 0).map
        (fun d => (d.draggedBlocks, d.carriedBlocks, d.regroupingDetails.isSome, d.afterNumbers)) =
        some ([], 0, false, none) ∧
      (act session47 (.drop 0)).currentStepIndex = 0 ∧
      ((act session47 (.drop 0)).stepDetails.get? 0).map
        (fun d => (d.draggedBlocks, d.carriedBlocks, d.regroupingDetails.isSome, d.afterNumbers)) =
        some ([1], 0, false, none) ∧
      ((playCorrect 2 session47).stepDetails.get? 0).map
        (fun d => (d.draggedBlocks, d.carriedBlocks, d.regroupingDetails.isSome, d.afterNumbers)) =
        some ([1, 1], 1, true, some (45, 20)) :=
  ⟨by decide, by decide, by decide, by decide⟩

/-! # The invariant of the session

For problems whose sum the place table covers, every session the learner can
reach keeps the value of the page, and the steps it shows agree with the
paper trace. -/

/-! ## Lists of stacks -/

theorem PlaceLabel.index_inj {a b : PlaceLabel} (h : a.index = b.index) : a = b := by
  cases a <;> cases b <;> first | rfl | (exact absurd h (by decide))

theorem PlaceLabel.index_lt (a : PlaceLabel) : a.index < 7 := by
  cases a <;> decide

theorem refrenceValues_get_index (a : PlaceLabel) : refrenceValues.get? a.index = some a := by
  cases a <;> rfl

theorem refrenceValues_get_some {i : Nat} {a : PlaceLabel} (h : refrenceValues.get? i = some a) :
    a.index = i := by
  have hi : i < 7 := by
    by_contra hge
    have : refrenceValues.get? i = none := List.get?_eq_none.mpr (by
      show refrenceValues.length ≤ i
      have : refrenceValues.length = 7 := rfl
      omega)
    rw [this] at h
    cases h
  have h7 : i = 0 ∨ i = 1 ∨ i = 2 ∨ i = 3 ∨ i = 4 ∨ i = 5 ∨ i = 6 := by omega
  rcases h7 with rfl | rfl | rfl | rfl | rfl | rfl | rfl <;>
    (simp only [refrenceValues, List.get?] at h; cases h; rfl)

theorem countAt_cons (p : Nat) (st : Stack) (l : List Stack) :
    countAt p (st :: l) =
      (if st.label.map PlaceLabel.index = some p then st.blocks.length else 0) + countAt p l :=
  rfl

theorem countAt_append (p : Nat) (l1 l2 : List Stack) :
    countAt p (l1 ++ l2) = countAt p l1 + countAt p l2 := by
  induction l1 with
  | nil => simp [countAt]
  | cons st l1 ih => simp only [List.cons_append, countAt_cons, ih, Nat.add_assoc]

theorem countAt_eq_zero (p : Nat) (l : List Stack)
    (h : ∀ st ∈ l, st.label.map PlaceLabel.index ≠ some p) : countAt p l = 0 := by
  induction l with
  | nil => rfl
  | cons st l ih =>
    rw [countAt_cons, if_neg (h st (List.mem_cons_self _ _)),
      ih (fun x hx => h x (List.mem_cons_of_mem _ hx))]

theorem place_eq_label_eq {a b : Stack} {p : Nat}
    (ha : a.label.map PlaceLabel.index = some p) (hb : b.label.map PlaceLabel.index = some p) :
    a.label = b.label := by
  cases hla : a.label with
  | none => rw [hla] at ha; cases ha
  | some x =>
    cases hlb : b.label with
    | none => rw [hlb] at hb; cases hb
    | some y =>
      rw [hla] at ha; rw [hlb] at hb
      simp only [Option.map_some', Option.some.injEq] at ha hb
      rw [PlaceLabel.index_inj (ha.trans hb.symm)]

theorem countAt_of_mem (p : Nat) (l : List Stack) (st : Stack)
    (hnd : (l.map (fun x => x.label)).Nodup) (hm : st ∈ l)
    (hp : st.label.map PlaceLabel.index = some p) : countAt p l = st.blocks.length := by
  induction l with
  | nil => cases hm
  | cons x l ih =>
    rw [List.map_cons, List.nodup_cons] at hnd
    rw [countAt_cons]
    rcases List.mem_cons.mp hm with rfl | hm'
    · rw [if_pos hp, countAt_eq_zero, Nat.add_zero]
      intro y hy hyp
      exact hnd.1 (by rw [place_eq_label_eq hp hyp]; exact List.mem_map_of_mem _ hy)
    · have hx : ¬ x.label.map PlaceLabel.index = some p := by
        intro hxp
        exact hnd.1 (by rw [place_eq_label_eq hxp hp]; exact List.mem_map_of_mem _ hm')
      rw [if_neg hx, Nat.zero_add, ih hnd.2 hm']

theorem length_le_countAt (p : Nat) (l : List Stack) (st : Stack) (hm : st ∈ l)
    (hp : st.label.map PlaceLabel.index = some p) : st.blocks.length ≤ countAt p l := by
  induction l with
  | nil => cases hm
  | cons x l ih =>
    rw [countAt_cons]
    rcases List.mem_cons.mp hm with rfl | hm'
    · rw [if_pos hp]; exact Nat.le_add_right _ _
    · exact le_trans (ih hm') (Nat.le_add_left _ _)

theorem countAt_pos_mem (p : Nat) (l : List Stack) (h : 0 < countAt p l) :
    ∃ st ∈ l, st.label.map PlaceLabel.index = some p ∧ 0 < st.blocks.length := by
  induction l with
  | nil => exact absurd h (by simp [countAt])
  | cons x l ih =>
    rw [countAt_cons] at h
    by_cases hx : x.label.map PlaceLabel.index = some p
    · rw [if_pos hx] at h
      by_cases hlen : 0 < x.blocks.length
      · exact ⟨x, List.mem_cons_self _ _, hx, hlen⟩
      · have h0 : 0 < countAt p l := by omega
        obtain ⟨st, hm, hp, hl⟩ := ih h0
        exact ⟨st, List.mem_cons_of_mem _ hm, hp, hl⟩
    · rw [if_neg hx, Nat.zero_add] at h
      obtain ⟨st, hm, hp, hl⟩ := ih h
      exact ⟨st, List.mem_cons_of_mem _ hm, hp, hl⟩

/-- Replace the stack `a` of a list by `b`. -/
theorem map_replace_labels (l : List Stack) (a b : Stack) (h : b.label = a.label) :
    (l.map (fun st => if st = a then b else st)).map (fun x => x.label) =
      l.map (fun x => x.label) := by
  rw [List.map_map]
  apply List.map_congr_left
  intro st _
  show (if st = a then b else st).label = st.label
  split
  · next heq => rw [h, heq]
  · rfl

theorem map_replace_ids (l : List Stack) (a b : Stack) (h : b.id = a.id) :
    (l.map (fun st => if st = a then b else st)).map (fun x => x.id) =
      l.map (fun x => x.id) := by
  rw [List.map_map]
  apply List.map_congr_left
  intro st _
  show (if st = a then b else st).id = st.id
  split
  · next heq => rw [h, heq]
  · rfl

theorem map_replace_not_mem (l : List Stack) (a b : Stack) (h : a ∉ l) :
    l.map (fun st => if st = a then b else st) = l := by
  conv_rhs => rw [← List.map_id l]
  apply List.map_congr_left
  intro st hst
  show (if st = a then b else st) = st
  rw [if_neg (fun (heq : st = a) => h (heq ▸ hst))]

theorem countAt_replace (p : Nat) (l : List Stack) (a b : Stack) (hnd : l.Nodup) (hm : a ∈ l)
    (hl : b.label = a.label) :
    countAt p (l.map (fun st => if st = a then b else st)) +
        (if a.label.map PlaceLabel.index = some p then a.blocks.length else 0) =
      countAt p l + (if a.label.map PlaceLabel.index = some p then b.blocks.length else 0) := by
  induction l with
  | nil => cases hm
  | cons x l ih =>
    rw [List.nodup_cons] at hnd
    rw [List.map_cons, countAt_cons, countAt_cons]
    by_cases hx : x = a
    · subst hx
      rw [if_pos rfl, map_replace_not_mem l x b hnd.1, hl]
      omega
    · rw [if_neg hx]
      have hm' : a ∈ l := by
        rcases List.mem_cons.mp hm with h | h
        · exact absurd h.symm hx
        · exact h
      have := ih hnd.2 hm'
      omega

theorem sum_replace (l : List Stack) (a b : Stack) (hnd : l.Nodup) (hm : a ∈ l) :
    ((l.map (fun st => if st = a then b else st)).map (fun stack => stack.blocks.sum)).sum +
        a.blocks.sum =
      (l.map (fun stack => stack.blocks.sum)).sum + b.blocks.sum := by
  induction l with
  | nil => cases hm
  | cons x l ih =>
    rw [List.nodup_cons] at hnd
    simp only [List.map_cons, List.sum_cons]
    by_cases hx : x = a
    · subst hx
      rw [if_pos rfl, map_replace_not_mem l x b hnd.1]
      omega
    · rw [if_neg hx]
      have hm' : a ∈ l := by
        rcases List.mem_cons.mp hm with h | h
        · exact absurd h.symm hx
        · exact h
      have := ih hnd.2 hm'
      omega

theorem mem_replace {l : List Stack} {a b st : Stack}
    (h : st ∈ l.map (fun st => if st = a then b else st)) : (st = b ∧ a ∈ l) ∨ (st ∈ l ∧ st ≠ a) := by
  obtain ⟨x, hx, rfl⟩ := List.mem_map.mp h
  by_cases hxa : x = a
  · left; rw [if_pos hxa]; exact ⟨rfl, hxa ▸ hx⟩
  · right; rw [if_neg hxa]; exact ⟨hx, hxa⟩

theorem nodup_of_ids {l : List Stack} (h : (l.map (fun x => x.id)).Nodup) : l.Nodup :=
  List.Nodup.of_map _ h

theorem eq_of_id_eq {l : List Stack} (h : (l.map (fun x => x.id)).Nodup) {a b : Stack}
    (ha : a ∈ l) (hb : b ∈ l) (hid : a.id = b.id) : a = b :=
  List.inj_on_of_nodup_map h ha hb hid

theorem eq_of_label_eq {l : List Stack} (h : (l.map (fun x => x.label)).Nodup) {a b : Stack}
    (ha : a ∈ l) (hb : b ∈ l) (hid : a.label = b.label) : a = b :=
  List.inj_on_of_nodup_map h ha hb hid

/-- Mapping over the stack with a given identity is replacing that stack. -/
theorem map_id_eq_replace (l : List Stack) (id : Nat) (g : Stack → Stack) (a : Stack)
    (hids : (l.map (fun x => x.id)).Nodup) (ha : a ∈ l) (haid : a.id = id) :
    l.map (fun st => if st.id = id then g st else st) =
      l.map (fun st => if st = a then g a else st) := by
  apply List.map_congr_left
  intro st hst
  by_cases h : st.id = id
  · have : st = a := eq_of_id_eq hids hst ha (h.trans haid.symm)
    rw [if_pos h, if_pos this, this]
  · have : st ≠ a := fun (heq : st = a) => h (heq ▸ haid)
    rw [if_neg h, if_neg this]

theorem map_id_absent (l : List Stack) (id : Nat) (g : Stack → Stack)
    (h : ∀ st ∈ l, st.id ≠ id) : l.map (fun st => if st.id = id then g st else st) = l := by
  conv_rhs => rw [← List.map_id l]
  apply List.map_congr_left
  intro st hst
  show (if st.id = id then g st else st) = st
  rw [if_neg (h st hst)]

/-- Function `modifyFirst` on the stack with a given label is replacing that
stack. -/
theorem modifyFirst_eq_replace (l : List Stack) (lab : PlaceLabel) (g : Stack → Stack) (a : Stack)
    (hl : (l.map (fun x => x.label)).Nodup) (ha : a ∈ l) (halab : a.label = some lab) :
    modifyFirst (fun st => textEq st.label (some lab)) g l =
      l.map (fun st => if st = a then g a else st) := by
  induction l with
  | nil => cases ha
  | cons x l ih =>
    rw [List.map_cons, List.nodup_cons] at hl
    unfold modifyFirst
    rw [List.map_cons]
    by_cases hx : x = a
    · subst hx
      have : textEq x.label (some lab) = true := by rw [halab]; simp [textEq]
      rw [if_pos this, if_pos rfl, map_replace_not_mem]
      intro hmem
      exact hl.1 (List.mem_map_of_mem _ hmem)
    · have ha' : a ∈ l := by
        rcases List.mem_cons.mp ha with h | h
        · exact absurd h.symm hx
        · exact h
      have : ¬ textEq x.label (some lab) = true := by
        intro ht
        have hxl : x.label = some lab := by
          cases hxl : x.label with
          | none => rw [hxl] at ht; simp [textEq] at ht
          | some y => rw [hxl] at ht; simp [textEq] at ht; rw [ht]
        exact hl.1 (by rw [hxl, ← halab]; exact List.mem_map_of_mem _ ha')
      rw [if_neg this, if_neg hx, ih hl.2 ha']

theorem modifyFirst_absent (l : List Stack) (lab : Option PlaceLabel) (g : Stack → Stack)
    (h : ∀ st ∈ l, textEq st.label lab = false) :
    modifyFirst (fun st => textEq st.label lab) g l = l := by
  induction l with
  | nil => rfl
  | cons x l ih =>
    unfold modifyFirst
    rw [if_neg (by rw [h x (List.mem_cons_self _ _)]; exact Bool.false_ne_true),
      ih (fun st hst => h st (List.mem_cons_of_mem _ hst))]

theorem textEq_some_iff (a : Option PlaceLabel) (lab : PlaceLabel) :
    textEq a (some lab) = true ↔ a = some lab := by
  cases a with
  | none => simp [textEq]
  | some x => simp [textEq]

theorem find_label_of_mem (l : List Stack) (lab : PlaceLabel) (a : Stack)
    (hl : (l.map (fun x => x.label)).Nodup) (ha : a ∈ l) (halab : a.label = some lab) :
    l.find? (fun st => textEq st.label (some lab)) = some a := by
  induction l with
  | nil => cases ha
  | cons x l ih =>
    rw [List.map_cons, List.nodup_cons] at hl
    by_cases hx : x = a
    · subst hx
      rw [List.find?_cons_of_pos]
      exact (textEq_some_iff _ _).mpr halab
    · have ha' : a ∈ l := by
        rcases List.mem_cons.mp ha with h | h
        · exact absurd h.symm hx
        · exact h
      rw [List.find?_cons_of_neg, ih hl.2 ha']
      intro ht
      have hxl := (textEq_some_iff _ _).mp ht
      exact hl.1 (by rw [hxl, ← halab]; exact List.mem_map_of_mem _ ha')

theorem find_id_of_mem (l : List Stack) (id : Nat) (a : Stack)
    (hids : (l.map (fun x => x.id)).Nodup) (ha : a ∈ l) (haid : a.id = id) :
    l.find? (fun st => st.id = id) = some a := by
  induction l with
  | nil => cases ha
  | cons x l ih =>
    rw [List.map_cons, List.nodup_cons] at hids
    by_cases hx : x = a
    · subst hx
      rw [List.find?_cons_of_pos]
      simpa using haid
    · have ha' : a ∈ l := by
        rcases List.mem_cons.mp ha with h | h
        · exact absurd h.symm hx
        · exact h
      rw [List.find?_cons_of_neg, ih hids.2 ha']
      intro ht
      have hxid : x.id = id := by simpa using ht
      exact hids.1 (by rw [hxid, ← haid]; exact List.mem_map_of_mem _ ha')

theorem countAt_filter_nonempty (p : Nat) (l : List Stack) :
    countAt p (l.filter (fun st => !st.blocks.isEmpty)) = countAt p l := by
  induction l with
  | nil => rfl
  | cons x l ih =>
    rw [List.filter_cons]
    cases hx : x.blocks with
    | nil =>
      simp only [hx, List.isEmpty_nil, Bool.not_true, Bool.false_eq_true, if_false, countAt_cons,
        List.length_nil, ite_self, Nat.zero_add, ih]
    | cons b bs =>
      simp only [hx, List.isEmpty_cons, Bool.not_false, if_true, countAt_cons, ih]

theorem sum_filter_nonempty (l : List Stack) :
    ((l.filter (fun st => !st.blocks.isEmpty)).map (fun stack => stack.blocks.sum)).sum =
      (l.map (fun stack => stack.blocks.sum)).sum := by
  induction l with
  | nil => rfl
  | cons x l ih =>
    rw [List.filter_cons]
    cases hx : x.blocks with
    | nil =>
      simp only [hx, List.isEmpty_nil, Bool.not_true, Bool.false_eq_true, if_false, List.map_cons,
        List.sum_cons, List.sum_nil, Nat.zero_add, ih]
    | cons b bs =>
      simp only [hx, List.isEmpty_cons, Bool.not_false, if_true, List.map_cons, List.sum_cons, ih]

theorem countAt_filter_id (p : Nat) (l : List Stack) (a : Stack)
    (hids : (l.map (fun x => x.id)).Nodup) (ha : a ∈ l) :
    countAt p (l.filter (fun st => !decide (st.id = a.id))) +
        (if a.label.map PlaceLabel.index = some p then a.blocks.length else 0) =
      countAt p l := by
  induction l with
  | nil => cases ha
  | cons x l ih =>
    rw [List.map_cons, List.nodup_cons] at hids
    rw [List.filter_cons]
    by_cases hx : x = a
    · subst hx
      have hrest : l.filter (fun st => !decide (st.id = x.id)) = l := by
        rw [List.filter_eq_self]
        intro y hy
        have : y.id ≠ x.id := fun h => hids.1 (by rw [← h]; exact List.mem_map_of_mem _ hy)
        simp [this]
      simp only [decide_True, Bool.not_true, Bool.false_eq_true, if_false, hrest, countAt_cons]
      omega
    · have ha' : a ∈ l := by
        rcases List.mem_cons.mp ha with h | h
        · exact absurd h.symm hx
        · exact h
      have hne : x.id ≠ a.id := fun h => hids.1 (by rw [h]; exact List.mem_map_of_mem _ ha')
      have := ih hids.2 ha'
      simp only [hne, decide_False, Bool.not_false, if_true, countAt_cons]
      omega

theorem sum_filter_id (l : List Stack) (a : Stack)
    (hids : (l.map (fun x => x.id)).Nodup) (ha : a ∈ l) :
    ((l.filter (fun st => !decide (st.id = a.id))).map (fun stack => stack.blocks.sum)).sum +
        a.blocks.sum = (l.map (fun stack => stack.blocks.sum)).sum := by
  induction l with
  | nil => cases ha
  | cons x l ih =>
    rw [List.map_cons, List.nodup_cons] at hids
    rw [List.filter_cons]
    by_cases hx : x = a
    · subst hx
      have hrest : l.filter (fun st => !decide (st.id = x.id)) = l := by
        rw [List.filter_eq_self]
        intro y hy
        have : y.id ≠ x.id := fun h => hids.1 (by rw [← h]; exact List.mem_map_of_mem _ hy)
        simp [this]
      simp only [decide_True, Bool.not_true, Bool.false_eq_true, if_false, hrest, List.map_cons,
        List.sum_cons]
      omega
    · have ha' : a ∈ l := by
        rcases List.mem_cons.mp ha with h | h
        · exact absurd h.symm hx
        · exact h
      have hne : x.id ≠ a.id := fun h => hids.1 (by rw [h]; exact List.mem_map_of_mem _ ha')
      have := ih hids.2 ha'
      simp only [hne, decide_False, Bool.not_false, if_true, List.map_cons, List.sum_cons]
      omega

/-! ## Place values -/

theorem placeSum_succ (f : Nat → Nat) (n : Nat) :
    placeSum f (n + 1) = placeSum f n + f n * 10 ^ n := rfl

theorem placeSum_congr {f g : Nat → Nat} (n : Nat) (h : ∀ p, p < n → f p = g p) :
    placeSum f n = placeSum g n := by
  induction n with
  | zero => rfl
  | succ n ih =>
    rw [placeSum_succ, placeSum_succ, ih (fun p hp => h p (Nat.lt_succ_of_lt hp)),
      h n (Nat.lt_succ_self n)]

theorem placeSum_mono {f g : Nat → Nat} (n : Nat) (h : ∀ p, p < n → f p ≤ g p) :
    placeSum f n ≤ placeSum g n := by
  induction n with
  | zero => exact Nat.le_refl _
  | succ n ih =>
    rw [placeSum_succ, placeSum_succ]
    exact Nat.add_le_add (ih (fun p hp => h p (Nat.lt_succ_of_lt hp)))
      (Nat.mul_le_mul_right _ (h n (Nat.lt_succ_self n)))

theorem placeSum_add (f g : Nat → Nat) (n : Nat) :
    placeSum (fun p => f p + g p) n = placeSum f n + placeSum g n := by
  induction n with
  | zero => rfl
  | succ n ih =>
    rw [placeSum_succ, placeSum_succ, placeSum_succ, ih, Nat.add_mul]
    omega

theorem placeSum_zero (n : Nat) : placeSum (fun _ => 0) n = 0 := by
  induction n with
  | zero => rfl
  | succ n ih => rw [placeSum_succ, ih, Nat.zero_mul]

theorem placeSum_single (q v n : Nat) :
    placeSum (fun p => if q = p then v else 0) n = if q < n then v * 10 ^ q else 0 := by
  induction n with
  | zero => rfl
  | succ n ih =>
    rw [placeSum_succ, ih]
    by_cases h1 : q < n
    · have h2 : q ≠ n := Nat.ne_of_lt h1
      rw [if_pos h1, if_neg h2, if_pos (Nat.lt_succ_of_lt h1), Nat.zero_mul, Nat.add_zero]
    · by_cases h2 : q = n
      · subst h2
        rw [if_neg h1, if_pos rfl, if_pos (Nat.lt_succ_self q), Nat.zero_add]
      · rw [if_neg h1, if_neg h2, if_neg (by omega), Nat.zero_mul]

theorem term_le_placeSum (f : Nat → Nat) (n p : Nat) (h : p < n) :
    f p * 10 ^ p ≤ placeSum f n := by
  induction n with
  | zero => exact absurd h (Nat.not_lt_zero _)
  | succ n ih =>
    rw [placeSum_succ]
    by_cases hp : p = n
    · subst hp; exact Nat.le_add_left _ _
    · exact le_trans (ih (by omega)) (Nat.le_add_right _ _)

theorem placeSum_digits (N k : Nat) : placeSum (fun p => N / 10 ^ p % 10) k = N % 10 ^ k := by
  induction k with
  | zero => simp [placeSum, Nat.mod_one]
  | succ k ih => rw [placeSum_succ, ih, Nat.mod_pow_succ, Nat.mul_comm]

theorem placeSum_lt_of_le_nine (f : Nat → Nat) (n : Nat) (h : ∀ p, p < n → f p ≤ 9) :
    placeSum f n < 10 ^ n := by
  induction n with
  | zero => simp [placeSum]
  | succ n ih =>
    rw [placeSum_succ, Nat.pow_succ]
    have h1 := ih (fun p hp => h p (Nat.lt_succ_of_lt hp))
    have h2 : f n * 10 ^ n ≤ 9 * 10 ^ n := Nat.mul_le_mul_right _ (h n (Nat.lt_succ_self n))
    omega

theorem placeSum_lt_of_le_eighteen (f : Nat → Nat) (n : Nat) (h : ∀ p, p < n → f p ≤ 18) :
    placeSum f n < 2 * 10 ^ n := by
  induction n with
  | zero => simp [placeSum]
  | succ n ih =>
    rw [placeSum_succ, Nat.pow_succ]
    have h1 := ih (fun p hp => h p (Nat.lt_succ_of_lt hp))
    have h2 : f n * 10 ^ n ≤ 18 * 10 ^ n := Nat.mul_le_mul_right _ (h n (Nat.lt_succ_self n))
    omega

/-- Splitting a place sum at place `q`. -/
theorem placeSum_split (f : Nat → Nat) (q m : Nat) :
    placeSum f (q + m) = placeSum f q + 10 ^ q * placeSum (fun p => f (q + p)) m := by
  induction m with
  | zero => simp [placeSum]
  | succ m ih =>
    rw [← Nat.add_assoc, placeSum_succ, placeSum_succ, ih, Nat.mul_add, Nat.pow_add]
    have : 10 ^ q * (f (q + m) * 10 ^ m) = f (q + m) * (10 ^ q * 10 ^ m) := by
      rw [Nat.mul_left_comm]
    omega

theorem placeSum_mod_le (f : Nat → Nat) (q m : Nat) :
    placeSum f (q + m) % 10 ^ q ≤ placeSum f q := by
  rw [placeSum_split, Nat.add_mul_mod_self_left]
  exact Nat.mod_le _ _

theorem placeSum_div_ge (f : Nat → Nat) (q m : Nat) :
    placeSum (fun p => f (q + p)) m ≤ placeSum f (q + m) / 10 ^ q := by
  rw [placeSum_split]
  have hp : 0 < 10 ^ q := Nat.pow_pos (by norm_num)
  rw [Nat.le_div_iff_mul_le hp, Nat.mul_comm]
  exact Nat.le_add_left _ _

theorem div_eq_placeSum_digits (n q m : Nat) (h : n < 10 ^ (q + m)) :
    n / 10 ^ q = placeSum (fun p => n / 10 ^ (q + p) % 10) m := by
  have h1 := placeSum_digits n (q + m)
  rw [Nat.mod_eq_of_lt h, placeSum_split, placeSum_digits] at h1
  have hp : 0 < 10 ^ q := Nat.pow_pos (by norm_num)
  have h2 := Nat.mod_add_div n (10 ^ q)
  have h3 : 10 ^ q * placeSum (fun p => n / 10 ^ (q + p) % 10) m = 10 ^ q * (n / 10 ^ q) := by
    omega
  exact (Nat.eq_of_mul_eq_mul_left hp h3).symm

/-- A number that holds at least the digits of `n` from place `q` up is at
least `n` from place `q` up. -/
theorem div_le_div_of_digits_le (f : Nat → Nat) (n q m : Nat) (h : n < 10 ^ (q + m))
    (hd : ∀ p, q ≤ p → n / 10 ^ p % 10 ≤ f p) :
    n / 10 ^ q ≤ placeSum f (q + m) / 10 ^ q := by
  rw [div_eq_placeSum_digits n q m h]
  exact le_trans (placeSum_mono m (fun p _ => hd (q + p) (Nat.le_add_right _ _)))
    (placeSum_div_ge f q m)

/-! ## The value of a list of stacks -/

theorem sum_of_uniform (blocks : List Nat) (v : Nat) (h : ∀ b ∈ blocks, b = v) :
    blocks.sum = blocks.length * v := by
  induction blocks with
  | nil => simp
  | cons b bs ih =>
    rw [List.sum_cons, List.length_cons, ih (fun x hx => h x (List.mem_cons_of_mem _ hx)),
      h b (List.mem_cons_self _ _), Nat.succ_mul, Nat.add_comm]

/-- The value of well-formed stacks, place by place. -/
theorem value_eq_placeSum (l : List Stack) (n : Nat)
    (h : ∀ st ∈ l, ∃ lab, st.label = some lab ∧ lab.index < n ∧
      ∀ b ∈ st.blocks, b = 10 ^ lab.index) :
    (l.map (fun stack => stack.blocks.sum)).sum = placeSum (fun p => countAt p l) n := by
  induction l with
  | nil => rw [List.map_nil, List.sum_nil]; exact (placeSum_zero n).symm
  | cons st l ih =>
    obtain ⟨lab, hlab, hlt, hb⟩ := h st (List.mem_cons_self _ _)
    rw [List.map_cons, List.sum_cons, ih (fun x hx => h x (List.mem_cons_of_mem _ hx)),
      sum_of_uniform _ _ hb]
    have hfun : (fun p => countAt p (st :: l)) =
        fun p => (if lab.index = p then st.blocks.length else 0) + countAt p l := by
      funext p
      rw [countAt_cons, hlab]
      simp only [Option.map_some', Option.some.injEq]
    rw [hfun, placeSum_add, placeSum_single, if_pos hlt]

theorem countAt_zero_of_index_lt (l : List Stack) (n p : Nat) (hp : n ≤ p)
    (h : ∀ st ∈ l, ∃ lab, st.label = some lab ∧ lab.index < n ∧
      ∀ b ∈ st.blocks, b = 10 ^ lab.index) : countAt p l = 0 := by
  apply countAt_eq_zero
  intro st hst heq
  obtain ⟨lab, hlab, hlt, _⟩ := h st hst
  rw [hlab] at heq
  simp only [Option.map_some', Option.some.injEq] at heq
  omega

/-! ## Sessions with the same stacks -/

theorem SameRows.refl_rows (s : Session) : SameRows s s := ⟨rfl, rfl, rfl, rfl, rfl, rfl⟩

theorem SameRows.trans_rows {a b c : Session} (h1 : SameRows a b) (h2 : SameRows b c) :
    SameRows a c :=
  ⟨h2.c1.trans h1.c1, h2.c2.trans h1.c2, h2.nextId.trans h1.nextId,
    h2.placeLabels.trans h1.placeLabels, h2.originalNum1.trans h1.originalNum1,
    h2.originalNum2.trans h1.originalNum2⟩

theorem SameRows.container_eq {s s' : Session} (h : SameRows s s') (o : Operand) :
    (s'.container o).placeStacks = (s.container o).placeStacks := by
  cases o
  · exact h.c1
  · exact h.c2

theorem SameRows.cnt_same {s s' : Session} (h : SameRows s s') (o : Operand) (p : Nat) :
    s'.cnt o p = s.cnt o p := by
  unfold Session.cnt
  rw [h.container_eq]

theorem SameRows.total_eq {s s' : Session} (h : SameRows s s') (p : Nat) :
    s'.total p = s.total p := by
  unfold Session.total
  rw [h.cnt_same, h.cnt_same]

theorem SameRows.lowDom_same {s s' : Session} (h : SameRows s s') (q : Nat) :
    lowDom s' q = lowDom s q :=
  placeSum_congr q (fun p _ => h.total_eq p)

theorem SameRows.original_same {s s' : Session} (h : SameRows s s') (o : Operand) :
    s'.original o = s.original o := by
  cases o
  · exact h.originalNum1
  · exact h.originalNum2

theorem SameRows.digitSum_same {s s' : Session} (h : SameRows s s') (p : Nat) :
    s'.digitSum p = s.digitSum p := by
  unfold Session.digitSum
  rw [h.originalNum1, h.originalNum2]

theorem SameRows.findStack_eq {s s' : Session} (h : SameRows s s') (id : Nat) :
    findStack s' id = findStack s id := by
  unfold BlockCounting.findStack
  rw [h.c1, h.c2]

theorem SameRows.wellFormed_rows {s s' : Session} (h : SameRows s s') (hw : WellFormed s) :
    WellFormed s' where
  table := by rw [h.placeLabels]; exact hw.table
  tableLen := by rw [h.placeLabels]; exact hw.tableLen
  inRange := by rw [h.placeLabels, h.originalNum1, h.originalNum2]; exact hw.inRange
  rows := by
    intro o st hst
    rw [h.container_eq] at hst
    rw [h.placeLabels]
    exact hw.rows o st hst
  labels := by intro o; rw [h.container_eq]; exact hw.labels o
  ids := by rw [h.c1, h.c2]; exact hw.ids
  fresh := by
    intro o st hst
    rw [h.container_eq] at hst
    rw [h.nextId]
    exact hw.fresh o st hst

theorem SameRows.noEmptyRows_rows {s s' : Session} (h : SameRows s s') (hn : NoEmptyRows s) :
    NoEmptyRows s' := by
  intro o st hst
  rw [h.container_eq] at hst
  exact hn o st hst

theorem SameRows.shape {s s' : Session} (h : SameRows s s') {j : Nat} (hs : Shape s j) :
    Shape s' j where
  conserved := by
    rw [h.placeLabels, h.lowDom_same, h.originalNum1, h.originalNum2]; exact hs.conserved
  above := by intro o p hp; rw [h.cnt_same, h.original_same]; exact hs.above o p hp
  nextGe := by intro o; rw [h.cnt_same, h.original_same]; exact hs.nextGe o
  nextLe := by rw [h.total_eq, h.digitSum_same]; exact hs.nextLe
  nextCarried := by
    rw [h.total_eq, h.digitSum_same, h.cnt_same, h.cnt_same, h.lowDom_same]
    intro hc
    obtain ⟨h1, h2, h3⟩ := hs.nextCarried hc
    exact ⟨h1, h2, fun o => by rw [h.cnt_same]; exact h3 o⟩
  nextLow := by rw [h.total_eq, h.digitSum_same, h.lowDom_same]; exact hs.nextLow
  below := by intro o p hp; rw [h.cnt_same]; exact hs.below o p hp
  here := by intro o; rw [h.cnt_same]; exact hs.here o
  hereBoth := by rw [h.total_eq]; exact hs.hereBoth
  hereLow := by
    rw [h.lowDom_same]
    intro ⟨o, ho⟩
    exact hs.hereLow ⟨o, by rw [← h.cnt_same]; exact ho⟩

theorem SameRows.evolves_rows {s s' : Session} (h : SameRows s s') : Evolves s s' where
  placeLabels := h.placeLabels
  originalNum1 := h.originalNum1
  originalNum2 := h.originalNum2
  nextId := Nat.le_of_eq h.nextId.symm
  rows := by
    intro o st hst
    rw [h.container_eq] at hst
    exact Or.inl ⟨st, hst, rfl, rfl⟩

theorem Evolves.refl_ev (s : Session) : Evolves s s := (SameRows.refl_rows s).evolves_rows

theorem Evolves.trans_ev {a b c : Session} (h1 : Evolves a b) (h2 : Evolves b c) : Evolves a c where
  placeLabels := h2.placeLabels.trans h1.placeLabels
  originalNum1 := h2.originalNum1.trans h1.originalNum1
  originalNum2 := h2.originalNum2.trans h1.originalNum2
  nextId := le_trans h1.nextId h2.nextId
  rows := by
    intro o st'' hst''
    rcases h2.rows o st'' hst'' with ⟨st', hst', hid', hlab'⟩ | hnew
    · rcases h1.rows o st' hst' with ⟨st, hst, hid, hlab⟩ | hnew
      · exact Or.inl ⟨st, hst, hid.trans hid', hlab.trans hlab'⟩
      · exact Or.inr (by rw [← hid']; exact hnew)
    · exact Or.inr (le_trans h1.nextId hnew)

/-! ## Finding stacks on a well-formed page -/

theorem WellFormed.ids_of {s : Session} (hw : WellFormed s) (o : Operand) :
    ((s.container o).placeStacks.map (fun st => st.id)).Nodup := by
  have h := hw.ids
  rw [List.map_append] at h
  cases o
  · exact (List.nodup_append.mp h).1
  · exact (List.nodup_append.mp h).2.1

theorem WellFormed.ids_disjoint {s : Session} (hw : WellFormed s) {a b : Stack}
    (ha : a ∈ s.c1.placeStacks) (hb : b ∈ s.c2.placeStacks) : a.id ≠ b.id := by
  have h := hw.ids
  rw [List.map_append] at h
  intro heq
  exact (List.nodup_append.mp h).2.2 (List.mem_map_of_mem _ ha)
    (by rw [heq]; exact List.mem_map_of_mem _ hb)

theorem findStack_mem {s : Session} {id : Nat} {o : Operand} {st : Stack}
    (h : findStack s id = some (o, st)) : st ∈ (s.container o).placeStacks ∧ st.id = id := by
  unfold findStack at h
  split at h
  · next st1 h1 =>
    cases h
    exact ⟨List.mem_of_find?_eq_some h1, by simpa using List.find?_some h1⟩
  · next h1 =>
    cases h2 : s.c2.placeStacks.find? (fun st => st.id = id) with
    | none => rw [h2] at h; cases h
    | some st2 =>
      rw [h2] at h
      cases h
      exact ⟨List.mem_of_find?_eq_some h2, by simpa using List.find?_some h2⟩

theorem WellFormed.findStack_of_mem {s : Session} (hw : WellFormed s) {o : Operand} {st : Stack}
    (hm : st ∈ (s.container o).placeStacks) : findStack s st.id = some (o, st) := by
  unfold findStack
  cases o
  · have hm1 : st ∈ s.c1.placeStacks := hm
    have h1 : ((s.c1.placeStacks).map (fun st => st.id)).Nodup := hw.ids_of .first
    rw [find_id_of_mem _ _ st h1 hm1 rfl]
  · have hm2 : st ∈ s.c2.placeStacks := hm
    have h2 : ((s.c2.placeStacks).map (fun st => st.id)).Nodup := hw.ids_of .second
    have hnone : s.c1.placeStacks.find? (fun x => x.id = st.id) = none := by
      rw [List.find?_eq_none]
      intro x hx
      have := hw.ids_disjoint hx hm2
      simpa using this
    rw [hnone]
    show Option.map _ (List.find? _ s.c2.placeStacks) = _
    rw [find_id_of_mem _ _ st h2 hm2 rfl]
    rfl

theorem findStack_none_of_lt {s : Session} (hw : WellFormed s) {id : Nat} (h : s.nextId ≤ id) :
    findStack s id = none := by
  cases hf : findStack s id with
  | none => rfl
  | some r =>
    obtain ⟨o, st⟩ := r
    have hm := findStack_mem hf
    have := hw.fresh o st hm.1
    omega

/-- Along updates of the page, a stack found by an identity given out before
is a stack that was there before, in the same container and with the same
label. -/
theorem Evolves.findStack_of {s s' : Session} (he : Evolves s s') (hw : WellFormed s) {id : Nat}
    (hid : id < s.nextId) {r' : Operand × Stack} (h : findStack s' id = some r') :
    ∃ st, findStack s id = some (r'.1, st) ∧ st.label = r'.2.label := by
  obtain ⟨o, st'⟩ := r'
  have hm := findStack_mem h
  rcases he.rows o st' hm.1 with ⟨st, hst, hid', hlab⟩ | hnew
  · refine ⟨st, ?_, hlab⟩
    have := hw.findStack_of_mem hst
    rw [hid', hm.2] at this
    exact this
  · omega

/-! ## Labels of the place table -/

theorem WellFormed.labelAt_eq {s : Session} (hw : WellFormed s) {i : Nat}
    (hi : i < s.placeLabels.length) : labelAt s.placeLabels i = refrenceValues.get? i := by
  unfold BlockCounting.labelAt
  rw [hw.table, List.get?_eq_getElem?, List.getElem?_map, List.getElem?_range (by simpa using hi)]
  rfl

theorem WellFormed.labelAt_none {s : Session} {i : Nat} (hi : s.placeLabels.length ≤ i) :
    labelAt s.placeLabels i = none := by
  unfold BlockCounting.labelAt
  rw [List.get?_eq_none.mpr hi]
  rfl

theorem WellFormed.labelAt_some {s : Session} (hw : WellFormed s) {i : Nat}
    (hi : i < s.placeLabels.length) : ∃ lab, labelAt s.placeLabels i = some lab ∧ lab.index = i := by
  rw [hw.labelAt_eq hi]
  have h7 : i < refrenceValues.length := by
    show i < 7
    exact lt_of_lt_of_le hi hw.tableLen
  refine ⟨refrenceValues.get ⟨i, h7⟩, List.get?_eq_get h7, ?_⟩
  exact refrenceValues_get_some (List.get?_eq_get h7)

theorem WellFormed.labelAt_index {s : Session} (hw : WellFormed s) (lab : PlaceLabel)
    (h : lab.index < s.placeLabels.length) : labelAt s.placeLabels lab.index = some lab := by
  rw [hw.labelAt_eq h, refrenceValues_get_index]

theorem indexOf_map_get (lab : PlaceLabel) :
    ∀ (n k : Nat), k ≤ lab.index → lab.index < k + n →
      indexOf ((List.range' k n).map (fun i => refrenceValues.get? i)) (some lab) =
        some (lab.index - k)
  | 0, k, h1, h2 => by omega
  | n + 1, k, h1, h2 => by
    rw [List.range'_succ, List.map_cons]
    unfold indexOf
    by_cases hk : k = lab.index
    · subst hk
      rw [if_pos (refrenceValues_get_index lab), Nat.sub_self]
    · have hne : refrenceValues.get? k ≠ some lab := by
        intro heq
        exact hk (refrenceValues_get_some heq).symm
      rw [if_neg hne, indexOf_map_get lab n (k + 1) (by omega) (by omega)]
      simp only [Option.map_some', Option.some.injEq]
      omega

theorem WellFormed.indexOf_eq {s : Session} (hw : WellFormed s) (lab : PlaceLabel)
    (h : lab.index < s.placeLabels.length) :
    indexOf s.placeLabels (some lab) = some lab.index := by
  rw [hw.table, List.range_eq_range', indexOf_map_get lab _ 0 (Nat.zero_le _) (by simpa using h)]
  rfl

theorem WellFormed.cnt_of_mem {s : Session} (hw : WellFormed s) {o : Operand} {st : Stack}
    (hm : st ∈ (s.container o).placeStacks) {lab : PlaceLabel} (hl : st.label = some lab) :
    s.cnt o lab.index = st.blocks.length :=
  countAt_of_mem _ _ st (hw.labels o) hm (by rw [hl]; rfl)

theorem WellFormed.cnt_beyond {s : Session} (hw : WellFormed s) (o : Operand) {p : Nat}
    (hp : s.placeLabels.length ≤ p) : s.cnt o p = 0 :=
  countAt_zero_of_index_lt _ _ p hp (hw.rows o)

theorem WellFormed.value_eq {s : Session} (hw : WellFormed s) (o : Operand) {n : Nat}
    (hn : s.placeLabels.length ≤ n) :
    calculateNumberFromBlocks (s.container o) = placeSum (s.cnt o) n := by
  unfold calculateNumberFromBlocks
  apply value_eq_placeSum
  intro st hst
  obtain ⟨lab, h1, h2, h3⟩ := hw.rows o st hst
  exact ⟨lab, h1, lt_of_lt_of_le h2 hn, h3⟩

theorem lowDom_eq (s : Session) (n : Nat) :
    lowDom s n = placeSum (s.cnt .first) n + placeSum (s.cnt .second) n := by
  unfold lowDom
  rw [← placeSum_add]
  rfl

theorem WellFormed.value_sum {s : Session} (hw : WellFormed s) :
    calculateNumberFromBlocks s.c1 + calculateNumberFromBlocks s.c2 =
      lowDom s s.placeLabels.length := by
  rw [lowDom_eq, ← hw.value_eq .first (Nat.le_refl _), ← hw.value_eq .second (Nat.le_refl _)]
  rfl

/-! ## Generic updates of one container -/

theorem container_setContainer_same (s : Session) (o : Operand) (c : NumberContainer) :
    (s.setContainer o c).container o = c := by
  cases o <;> rfl

theorem container_setContainer_other (s : Session) {o o' : Operand} (c : NumberContainer)
    (h : o' ≠ o) : (s.setContainer o c).container o' = s.container o' := by
  cases o <;> cases o' <;> first | rfl | exact absurd rfl h

theorem ids_append_of (s s' : Session)
    (h : ∀ o, (s'.container o).placeStacks.map (fun st => st.id) =
      (s.container o).placeStacks.map (fun st => st.id)) :
    (s'.c1.placeStacks ++ s'.c2.placeStacks).map (fun st => st.id) =
      (s.c1.placeStacks ++ s.c2.placeStacks).map (fun st => st.id) := by
  rw [List.map_append, List.map_append]
  have h1 := h .first
  have h2 := h .second
  change s'.c1.placeStacks.map _ = s.c1.placeStacks.map _ at h1
  change s'.c2.placeStacks.map _ = s.c2.placeStacks.map _ at h2
  rw [h1, h2]

theorem Replaces.labels_eq {s s' : Session} {o : Operand} {a b : Stack}
    (h : Replaces s s' o a b) (o' : Operand) :
    (s'.container o').placeStacks.map (fun st => st.label) =
      (s.container o').placeStacks.map (fun st => st.label) := by
  by_cases ho : o' = o
  · subst ho; rw [h.here, map_replace_labels _ _ _ h.sameLabel]
  · rw [h.other o' ho]

theorem Replaces.ids_eq {s s' : Session} {o : Operand} {a b : Stack}
    (h : Replaces s s' o a b) (o' : Operand) :
    (s'.container o').placeStacks.map (fun st => st.id) =
      (s.container o').placeStacks.map (fun st => st.id) := by
  by_cases ho : o' = o
  · subst ho; rw [h.here, map_replace_ids _ _ _ h.sameId]
  · rw [h.other o' ho]

theorem Replaces.mem_of_rep {s s' : Session} {o : Operand} {a b : Stack}
    (h : Replaces s s' o a b) {o' : Operand} {st : Stack}
    (hst : st ∈ (s'.container o').placeStacks) :
    (o' = o ∧ st = b) ∨ st ∈ (s.container o').placeStacks := by
  by_cases ho : o' = o
  · subst ho
    rw [h.here] at hst
    rcases mem_replace hst with ⟨h1, _⟩ | ⟨h1, _⟩
    · exact Or.inl ⟨rfl, h1⟩
    · exact Or.inr h1
  · rw [h.other o' ho] at hst
    exact Or.inr hst

theorem Replaces.wellFormed_rep {s s' : Session} {o : Operand} {a b : Stack}
    (h : Replaces s s' o a b) (hw : WellFormed s) : WellFormed s' where
  table := by rw [h.placeLabels]; exact hw.table
  tableLen := by rw [h.placeLabels]; exact hw.tableLen
  inRange := by rw [h.placeLabels, h.originalNum1, h.originalNum2]; exact hw.inRange
  rows := by
    intro o' st hst
    rw [h.placeLabels]
    rcases h.mem_of_rep hst with ⟨ho, hb⟩ | hold
    · subst ho; subst hb
      obtain ⟨lab, h1, h2, _⟩ := hw.rows o' a h.mem
      exact ⟨lab, h.sameLabel.trans h1, h2, h.blocks lab h1⟩
    · exact hw.rows o' st hold
  labels := by intro o'; rw [h.labels_eq]; exact hw.labels o'
  ids := by rw [ids_append_of s s' h.ids_eq]; exact hw.ids
  fresh := by
    intro o' st hst
    rw [h.nextId]
    rcases h.mem_of_rep hst with ⟨ho, hb⟩ | hold
    · subst ho; subst hb
      rw [h.sameId]
      exact hw.fresh o' a h.mem
    · exact hw.fresh o' st hold

theorem Replaces.evolves_rep {s s' : Session} {o : Operand} {a b : Stack}
    (h : Replaces s s' o a b) : Evolves s s' where
  placeLabels := h.placeLabels
  originalNum1 := h.originalNum1
  originalNum2 := h.originalNum2
  nextId := Nat.le_of_eq h.nextId.symm
  rows := by
    intro o' st hst
    rcases h.mem_of_rep hst with ⟨ho, hb⟩ | hold
    · subst ho; subst hb
      exact Or.inl ⟨a, h.mem, h.sameId.symm, h.sameLabel.symm⟩
    · exact Or.inl ⟨st, hold, rfl, rfl⟩

theorem Replaces.cnt_here {s s' : Session} {o : Operand} {a b : Stack}
    (h : Replaces s s' o a b) (hw : WellFormed s) {lab : PlaceLabel} (hl : a.label = some lab) :
    s'.cnt o lab.index = b.blocks.length ∧ s.cnt o lab.index = a.blocks.length := by
  have hcount := countAt_replace lab.index (s.container o).placeStacks a b
    (nodup_of_ids (hw.ids_of o)) h.mem h.sameLabel
  have hold := hw.cnt_of_mem h.mem hl
  have hp : a.label.map PlaceLabel.index = some lab.index := by rw [hl]; rfl
  rw [if_pos hp, if_pos hp, ← h.here] at hcount
  unfold Session.cnt at hold ⊢
  exact ⟨by omega, hold⟩

theorem Replaces.cnt_other_place {s s' : Session} {o : Operand} {a b : Stack}
    (h : Replaces s s' o a b) (hw : WellFormed s) {lab : PlaceLabel} (hl : a.label = some lab)
    (o' : Operand) {p : Nat} (hp : p ≠ lab.index) : s'.cnt o' p = s.cnt o' p := by
  by_cases ho : o' = o
  · subst ho
    have hcount := countAt_replace p (s.container o').placeStacks a b
      (nodup_of_ids (hw.ids_of o')) h.mem h.sameLabel
    have hne : ¬ a.label.map PlaceLabel.index = some p := by
      rw [hl]
      simp only [Option.map_some', Option.some.injEq]
      exact fun heq => hp heq.symm
    rw [if_neg hne, if_neg hne, ← h.here] at hcount
    unfold Session.cnt
    omega
  · unfold Session.cnt
    rw [h.other o' ho]

theorem Replaces.cnt_other_operand {s s' : Session} {o : Operand} {a b : Stack}
    (h : Replaces s s' o a b) {o' : Operand} (ho : o' ≠ o) (p : Nat) :
    s'.cnt o' p = s.cnt o' p := by
  unfold Session.cnt
  rw [h.other o' ho]

/-! ## Removing stacks -/

theorem Filters.mem_of_fil {s s' : Session} {keep : Operand → Stack → Bool} (h : Filters s s' keep)
    {o : Operand} {st : Stack} (hst : st ∈ (s'.container o).placeStacks) :
    st ∈ (s.container o).placeStacks ∧ keep o st = true := by
  rw [h.rows] at hst
  exact List.mem_filter.mp hst

theorem Filters.wellFormed_fil {s s' : Session} {keep : Operand → Stack → Bool}
    (h : Filters s s' keep) (hw : WellFormed s) : WellFormed s' where
  table := by rw [h.placeLabels]; exact hw.table
  tableLen := by rw [h.placeLabels]; exact hw.tableLen
  inRange := by rw [h.placeLabels, h.originalNum1, h.originalNum2]; exact hw.inRange
  rows := by
    intro o st hst
    rw [h.placeLabels]
    exact hw.rows o st (h.mem_of_fil hst).1
  labels := by
    intro o
    rw [h.rows]
    exact (hw.labels o).sublist ((List.filter_sublist _).map _)
  ids := by
    have h1 := h.rows .first
    have h2 := h.rows .second
    change s'.c1.placeStacks = _ at h1
    change s'.c2.placeStacks = _ at h2
    rw [h1, h2]
    exact hw.ids.sublist (((List.filter_sublist _).append (List.filter_sublist _)).map _)
  fresh := by
    intro o st hst
    rw [h.nextId]
    exact hw.fresh o st (h.mem_of_fil hst).1

theorem Filters.evolves_fil {s s' : Session} {keep : Operand → Stack → Bool}
    (h : Filters s s' keep) : Evolves s s' where
  placeLabels := h.placeLabels
  originalNum1 := h.originalNum1
  originalNum2 := h.originalNum2
  nextId := Nat.le_of_eq h.nextId.symm
  rows := by
    intro o st hst
    exact Or.inl ⟨st, (h.mem_of_fil hst).1, rfl, rfl⟩

/-! ## The updates of the page, one by one -/

theorem SameControl.refl_ctl (s : Session) : SameControl s s := ⟨rfl, rfl, rfl, rfl⟩

theorem SameControl.trans_ctl {a b c : Session} (h1 : SameControl a b) (h2 : SameControl b c) :
    SameControl a c :=
  ⟨h2.num1.trans h1.num1, h2.num2.trans h1.num2,
    h2.currentStepIndex.trans h1.currentStepIndex, h2.surface.trans h1.surface⟩

theorem sameControl_setContainer (s : Session) (o : Operand) (c : NumberContainer) :
    SameControl s (s.setContainer o c) := by
  cases o <;> exact ⟨rfl, rfl, rfl, rfl⟩

theorem Appends.mem_of_app {s s' : Session} {o : Operand} {b : Stack} (h : Appends s s' o b)
    {o' : Operand} {st : Stack} (hst : st ∈ (s'.container o').placeStacks) :
    (o' = o ∧ st = b) ∨ st ∈ (s.container o').placeStacks := by
  by_cases ho : o' = o
  · subst ho
    rw [h.here] at hst
    rcases List.mem_append.mp hst with h1 | h1
    · exact Or.inr h1
    · exact Or.inl ⟨rfl, List.mem_singleton.mp h1⟩
  · rw [h.other o' ho] at hst
    exact Or.inr hst

theorem Appends.wellFormed_app {s s' : Session} {o : Operand} {b : Stack} (h : Appends s s' o b)
    (hw : WellFormed s) {lab : PlaceLabel} (hl : b.label = some lab)
    (hlt : lab.index < s.placeLabels.length) (hb : ∀ v ∈ b.blocks, v = 10 ^ lab.index)
    (hnew : ∀ st ∈ (s.container o).placeStacks, st.label ≠ some lab) : WellFormed s' where
  table := by rw [h.placeLabels]; exact hw.table
  tableLen := by rw [h.placeLabels]; exact hw.tableLen
  inRange := by rw [h.placeLabels, h.originalNum1, h.originalNum2]; exact hw.inRange
  rows := by
    intro o' st hst
    rw [h.placeLabels]
    rcases h.mem_of_app hst with ⟨ho, hb'⟩ | hold
    · subst ho; subst hb'
      exact ⟨lab, hl, hlt, hb⟩
    · exact hw.rows o' st hold
  labels := by
    intro o'
    by_cases ho : o' = o
    · subst ho
      rw [h.here, List.map_append, List.map_singleton]
      refine List.Nodup.append (hw.labels o') (List.nodup_singleton _) ?_
      intro x hx1 hx2
      rw [List.mem_singleton] at hx2
      obtain ⟨st, hst, rfl⟩ := List.mem_map.mp hx1
      exact hnew st hst (hx2.trans hl)
    · rw [h.other o' ho]; exact hw.labels o'
  ids := by
    have hfresh : ∀ o', ∀ st ∈ (s.container o').placeStacks, st.id ≠ b.id := by
      intro o' st hst
      have := hw.fresh o' st hst
      rw [h.newId]
      omega
    have hids := hw.ids
    rw [List.map_append] at hids ⊢
    cases o
    · have h1 : s'.c1.placeStacks = s.c1.placeStacks ++ [b] := h.here
      have h2 : s'.c2.placeStacks = s.c2.placeStacks := h.other .second (by decide)
      rw [h1, h2, List.map_append, List.map_singleton]
      have hperm : List.Perm
          ((s.c1.placeStacks.map (fun st => st.id) ++ [b.id]) ++
            s.c2.placeStacks.map (fun st => st.id))
          (b.id :: (s.c1.placeStacks.map (fun st => st.id) ++
            s.c2.placeStacks.map (fun st => st.id))) := by
        rw [List.append_assoc]
        exact (List.perm_middle).trans (List.Perm.refl _)
      rw [hperm.nodup_iff, List.nodup_cons]
      refine ⟨?_, hids⟩
      intro hmem
      rcases List.mem_append.mp hmem with hm | hm
      · obtain ⟨st, hst, hid⟩ := List.mem_map.mp hm
        exact hfresh .first st hst hid
      · obtain ⟨st, hst, hid⟩ := List.mem_map.mp hm
        exact hfresh .second st hst hid
    · have h1 : s'.c2.placeStacks = s.c2.placeStacks ++ [b] := h.here
      have h2 : s'.c1.placeStacks = s.c1.placeStacks := h.other .first (by decide)
      rw [h1, h2, List.map_append, List.map_singleton, ← List.append_assoc]
      rw [List.nodup_append]
      refine ⟨hids, List.nodup_singleton _, ?_⟩
      intro x hx1 hx2
      rw [List.mem_singleton] at hx2
      subst hx2
      rcases List.mem_append.mp hx1 with hm | hm
      · obtain ⟨st, hst, hid⟩ := List.mem_map.mp hm
        exact hfresh .first st hst hid
      · obtain ⟨st, hst, hid⟩ := List.mem_map.mp hm
        exact hfresh .second st hst hid
  fresh := by
    intro o' st hst
    rw [h.nextId]
    rcases h.mem_of_app hst with ⟨ho, hb'⟩ | hold
    · subst ho; subst hb'
      rw [h.newId]
      exact Nat.lt_succ_self _
    · exact Nat.lt_succ_of_lt (hw.fresh o' st hold)

theorem Appends.evolves_app {s s' : Session} {o : Operand} {b : Stack} (h : Appends s s' o b) :
    Evolves s s' where
  placeLabels := h.placeLabels
  originalNum1 := h.originalNum1
  originalNum2 := h.originalNum2
  nextId := by rw [h.nextId]; exact Nat.le_succ _
  rows := by
    intro o' st hst
    rcases h.mem_of_app hst with ⟨ho, hb'⟩ | hold
    · subst ho; subst hb'
      exact Or.inr (Nat.le_of_eq h.newId.symm)
    · exact Or.inl ⟨st, hold, rfl, rfl⟩

theorem Appends.cnt_eq_app {s s' : Session} {o : Operand} {b : Stack} (h : Appends s s' o b)
    (o' : Operand) (p : Nat) :
    s'.cnt o' p = s.cnt o' p +
      (if o' = o ∧ b.label.map PlaceLabel.index = some p then b.blocks.length else 0) := by
  unfold Session.cnt
  by_cases ho : o' = o
  · subst ho
    rw [h.here, countAt_append, countAt_cons]
    simp only [true_and, countAt, Nat.add_zero]
  · rw [h.other o' ho]
    simp only [ho, false_and, if_false, Nat.add_zero]

/-! ### `modifyRow` -/

theorem modifyRow_replaces (s : Session) (o : Operand) (id : Nat) (f : List Nat → List Nat)
    (a : Stack) (hw : WellFormed s) (ha : a ∈ (s.container o).placeStacks) (haid : a.id = id)
    (hf : ∀ lab, a.label = some lab → ∀ v ∈ f a.blocks, v = 10 ^ lab.index) :
    Replaces s (modifyRow s o id f) o a { a with blocks := f a.blocks } where
  here := by
    unfold modifyRow
    rw [container_setContainer_same]
    exact map_id_eq_replace _ id (fun st => { st with blocks := f st.blocks }) a (hw.ids_of o) ha
      haid
  other := by
    intro o' ho
    unfold modifyRow
    rw [container_setContainer_other _ _ ho]
  nextId := (modifyRow_frame s o id f).1
  placeLabels := (sameCursor_modifyRow s o id f).1
  originalNum1 := (sameCursor_modifyRow s o id f).2.1
  originalNum2 := (sameCursor_modifyRow s o id f).2.2.1
  mem := ha
  sameId := rfl
  sameLabel := rfl
  blocks := hf

theorem sameControl_modifyRow (s : Session) (o : Operand) (id : Nat) (f : List Nat → List Nat) :
    SameControl s (modifyRow s o id f) := sameControl_setContainer _ _ _

/-! ### `removeBlocksFromPlace` -/

theorem removeBlocksFromPlace_absent (s : Session) (l : Option PlaceLabel) (n : Nat)
    (o : Operand) (h : ∀ st ∈ (s.container o).placeStacks, textEq st.label l = false) :
    removeBlocksFromPlace s l n o = s := by
  unfold removeBlocksFromPlace
  have : (s.container o).placeStacks.find? (fun st => textEq st.label l) = none := by
    rw [List.find?_eq_none]
    intro st hst
    rw [h st hst]
    exact Bool.false_ne_true
  simp only [this]

theorem removeBlocksFromPlace_replaces (s : Session) (lab : PlaceLabel) (n : Nat) (o : Operand)
    (a : Stack) (hw : WellFormed s) (ha : a ∈ (s.container o).placeStacks)
    (hl : a.label = some lab) :
    Replaces s (removeBlocksFromPlace s (some lab) n o) o a
      { a with blocks := a.blocks.take (a.blocks.length - min n a.blocks.length) } where
  here := by
    unfold removeBlocksFromPlace
    simp only [find_label_of_mem _ lab a (hw.labels o) ha hl]
    rw [container_setContainer_same]
    have hleg : ∀ (c : NumberContainer) (r : Nat),
        (updateLegendAfterBlockRemoval c (some lab) r).placeStacks = c.placeStacks := by
      intro c r
      unfold updateLegendAfterBlockRemoval
      split <;> rfl
    rw [hleg]
    show modifyFirst _ _ _ = _
    rw [modifyFirst_eq_replace _ lab _ a (hw.labels o) ha hl]
  other := by
    intro o' ho
    unfold removeBlocksFromPlace
    simp only [find_label_of_mem _ lab a (hw.labels o) ha hl]
    rw [container_setContainer_other _ _ ho]
  nextId := (removeBlocksFromPlace_frame s (some lab) n o).1
  placeLabels := (sameCursor_removeBlocksFromPlace s (some lab) n o).1
  originalNum1 := (sameCursor_removeBlocksFromPlace s (some lab) n o).2.1
  originalNum2 := (sameCursor_removeBlocksFromPlace s (some lab) n o).2.2.1
  mem := ha
  sameId := rfl
  sameLabel := rfl
  blocks := by
    intro lab' hl' v hv
    obtain ⟨lab2, h1, _, h3⟩ := hw.rows o a ha
    rw [h1] at hl'
    cases hl'
    exact h3 v (List.mem_of_mem_take hv)

theorem sameControl_removeBlocksFromPlace (s : Session) (l : Option PlaceLabel) (n : Nat)
    (o : Operand) : SameControl s (removeBlocksFromPlace s l n o) := by
  unfold removeBlocksFromPlace
  dsimp only
  split
  · exact SameControl.refl_ctl s
  · exact sameControl_setContainer _ _ _

/-! ### `createBlockInPlace` -/

theorem hasStack_iff (s : Session) (o : Operand) (lab : PlaceLabel) :
    hasStack s o (some lab) = true ↔ ∃ st ∈ (s.container o).placeStacks, st.label = some lab := by
  unfold hasStack
  rw [List.any_eq_true]
  constructor
  · rintro ⟨st, hst, ht⟩
    exact ⟨st, hst, (textEq_some_iff _ _).mp ht⟩
  · rintro ⟨st, hst, ht⟩
    exact ⟨st, hst, (textEq_some_iff _ _).mpr ht⟩

theorem appendBlock_replaces (s : Session) (o : Operand) (lab : PlaceLabel) (a : Stack)
    (hw : WellFormed s) (ha : a ∈ (s.container o).placeStacks) (hl : a.label = some lab) :
    Replaces s (appendBlock s o (some lab) (10 ^ lab.index)) o a
      { a with blocks := a.blocks ++ [10 ^ lab.index] } where
  here := by
    unfold appendBlock
    rw [container_setContainer_same]
    show modifyFirst _ _ _ = _
    rw [modifyFirst_eq_replace _ lab _ a (hw.labels o) ha hl]
  other := by
    intro o' ho
    unfold appendBlock
    rw [container_setContainer_other _ _ ho]
  nextId := by unfold appendBlock; cases o <;> rfl
  placeLabels := (sameCursor_appendBlock s o (some lab) _).1
  originalNum1 := (sameCursor_appendBlock s o (some lab) _).2.1
  originalNum2 := (sameCursor_appendBlock s o (some lab) _).2.2.1
  mem := ha
  sameId := rfl
  sameLabel := rfl
  blocks := by
    intro lab' hl' v hv
    obtain ⟨lab2, h1, _, h3⟩ := hw.rows o a ha
    rw [h1] at hl' hl
    cases hl'
    cases hl
    rcases List.mem_append.mp hv with h | h
    · exact h3 v h
    · exact List.mem_singleton.mp h

theorem sameControl_appendBlock (s : Session) (o : Operand) (l : Option PlaceLabel) (v : Nat) :
    SameControl s (appendBlock s o l v) := sameControl_setContainer _ _ _

theorem appendNewStack_appends (s : Session) (o : Operand) (l : Option PlaceLabel) (v : Nat) :
    Appends s (appendNewStack s o l v) o { id := s.nextId, label := l, blocks := [v] } where
  here := by unfold appendNewStack; cases o <;> rfl
  other := by
    intro o' ho
    unfold appendNewStack
    cases o <;> cases o' <;> first | rfl | exact absurd rfl ho
  nextId := by unfold appendNewStack; cases o <;> rfl
  placeLabels := (sameCursor_appendNewStack s o l v).1
  originalNum1 := (sameCursor_appendNewStack s o l v).2.1
  originalNum2 := (sameCursor_appendNewStack s o l v).2.2.1
  newId := rfl

theorem sameControl_appendNewStack (s : Session) (o : Operand) (l : Option PlaceLabel) (v : Nat) :
    SameControl s (appendNewStack s o l v) := by
  unfold appendNewStack
  cases o <;> exact ⟨rfl, rfl, rfl, rfl⟩

theorem foldl_related {α : Type} (R : Session → Session → Prop) (hrefl : ∀ s, R s s)
    (htrans : ∀ a b c, R a b → R b c → R a c) (f : Session → α → Session)
    (hf : ∀ s a, R s (f s a)) (l : List α) (s : Session) : R s (l.foldl f s) := by
  induction l generalizing s with
  | nil => exact hrefl s
  | cons a l ih => exact htrans _ _ _ (hf s a) (ih (f s a))

/-! ### `removeRow` -/

theorem removeRow_filters (s : Session) (o : Operand) (id : Nat) :
    Filters s (removeRow s o id)
      (fun o' st => if o' = o then !decide (st.id = id) else true) where
  rows := by
    intro o'
    unfold removeRow
    by_cases ho : o' = o
    · subst ho
      rw [container_setContainer_same]
      simp only [if_true]
    · rw [container_setContainer_other _ _ ho]
      simp only [ho, if_false, List.filter_true]
  nextId := by unfold removeRow; cases o <;> rfl
  placeLabels := (sameCursor_removeRow s o id).1
  originalNum1 := (sameCursor_removeRow s o id).2.1
  originalNum2 := (sameCursor_removeRow s o id).2.2.1

theorem sameControl_removeRow (s : Session) (o : Operand) (id : Nat) :
    SameControl s (removeRow s o id) := sameControl_setContainer _ _ _

theorem removeRow_cnt (s : Session) (o : Operand) (a : Stack) (hw : WellFormed s)
    (ha : a ∈ (s.container o).placeStacks) {lab : PlaceLabel} (hl : a.label = some lab) :
    (removeRow s o a.id).cnt o lab.index = 0 ∧
      (∀ p, p ≠ lab.index → ∀ o', (removeRow s o a.id).cnt o' p = s.cnt o' p) ∧
      ∀ o', o' ≠ o → ∀ p, (removeRow s o a.id).cnt o' p = s.cnt o' p := by
  have hstacks : ((removeRow s o a.id).container o).placeStacks =
      (s.container o).placeStacks.filter (fun st => !decide (st.id = a.id)) := by
    unfold removeRow
    rw [container_setContainer_same]
  have hother : ∀ o', o' ≠ o →
      ((removeRow s o a.id).container o').placeStacks = (s.container o').placeStacks := by
    intro o' ho
    unfold removeRow
    rw [container_setContainer_other _ _ ho]
  have hcount := fun p => countAt_filter_id p (s.container o).placeStacks a (hw.ids_of o) ha
  have hold := hw.cnt_of_mem ha hl
  refine ⟨?_, ?_, ?_⟩
  · have := hcount lab.index
    rw [if_pos (by rw [hl]; rfl), ← hstacks] at this
    unfold Session.cnt at hold ⊢
    omega
  · intro p hp o'
    by_cases ho : o' = o
    · subst ho
      have := hcount p
      have hne : ¬ a.label.map PlaceLabel.index = some p := by
        rw [hl]
        simp only [Option.map_some', Option.some.injEq]
        exact fun h => hp h.symm
      rw [if_neg hne, ← hstacks] at this
      unfold Session.cnt
      omega
    · unfold Session.cnt
      rw [hother o' ho]
  · intro o' ho p
    unfold Session.cnt
    rw [hother o' ho]

/-! ### `updateAllRowPlaceValues` -/

theorem updateAllRowPlaceValues_filters (s : Session) :
    Filters s (updateAllRowPlaceValues s) (fun _ st => !st.blocks.isEmpty) := by
  have h := foldl_related SameRows SameRows.refl_rows (fun _ _ _ h1 h2 => h1.trans_rows h2)
    (fun acc (row : Stack) =>
      if row.blocks.isEmpty then
        { acc with c1 := removeLegendItems row.label acc.c1, c2 := removeLegendItems row.label acc.c2 }
      else acc)
    (fun s a => by
      dsimp only
      split
      · exact ⟨rfl, rfl, rfl, rfl, rfl, rfl⟩
      · exact SameRows.refl_rows s) (s.c1.placeStacks ++ s.c2.placeStacks) s
  refine ⟨?_, h.nextId, h.placeLabels, h.originalNum1, h.originalNum2⟩
  intro o
  cases o
  · show List.filter _ _ = _
    rw [h.c1]
    rfl
  · show List.filter _ _ = _
    rw [h.c2]
    rfl

theorem sameControl_updateAllRowPlaceValues (s : Session) :
    SameControl s (updateAllRowPlaceValues s) := by
  have h := foldl_related SameControl SameControl.refl_ctl (fun _ _ _ h1 h2 => h1.trans_ctl h2)
    (fun acc (row : Stack) =>
      if row.blocks.isEmpty then
        { acc with c1 := removeLegendItems row.label acc.c1, c2 := removeLegendItems row.label acc.c2 }
      else acc)
    (fun s a => by
      dsimp only
      split
      · exact ⟨rfl, rfl, rfl, rfl⟩
      · exact SameControl.refl_ctl s) (s.c1.placeStacks ++ s.c2.placeStacks) s
  exact ⟨h.num1, h.num2, h.currentStepIndex, h.surface⟩

theorem updateAllRowPlaceValues_cnt (s : Session) (o : Operand) (p : Nat) :
    (updateAllRowPlaceValues s).cnt o p = s.cnt o p := by
  unfold Session.cnt
  rw [(updateAllRowPlaceValues_filters s).rows, countAt_filter_nonempty]

theorem updateAllRowPlaceValues_noEmptyRows (s : Session) :
    NoEmptyRows (updateAllRowPlaceValues s) := by
  intro o st hst
  have := ((updateAllRowPlaceValues_filters s).mem_of_fil hst).2
  intro hnil
  rw [hnil] at this
  simp at this

theorem updateAllRowPlaceValues_sameRows (s : Session) (hn : NoEmptyRows s) :
    SameRows s (updateAllRowPlaceValues s) := by
  have h := updateAllRowPlaceValues_filters s
  have hself : ∀ o, ((updateAllRowPlaceValues s).container o).placeStacks =
      (s.container o).placeStacks := by
    intro o
    rw [h.rows, List.filter_eq_self]
    intro st hst
    have := hn o st hst
    cases hb : st.blocks with
    | nil => exact absurd hb this
    | cons b bs => rfl
  exact ⟨hself .first, hself .second, h.nextId, h.placeLabels, h.originalNum1, h.originalNum2⟩

/-! ### Updates that leave the stacks alone -/

theorem sameRows_updateTempStateFromBlocks (s : Session) :
    SameRows s (updateTempStateFromBlocks s) := ⟨rfl, rfl, rfl, rfl, rfl, rfl⟩

theorem sameRows_trackStepDetails (s : Session) (step : Step) (a : InteractionType) :
    SameRows s (trackStepDetails s step a) := ⟨rfl, rfl, rfl, rfl, rfl, rfl⟩

theorem sameControl_trackStepDetails (s : Session) (step : Step) (a : InteractionType) :
    SameControl s (trackStepDetails s step a) := ⟨rfl, rfl, rfl, rfl⟩

theorem sameRows_trackDraggedBlock (s : Session) (v : Nat) :
    SameRows s (trackDraggedBlock s v) := ⟨rfl, rfl, rfl, rfl, rfl, rfl⟩

theorem sameControl_trackDraggedBlock (s : Session) (v : Nat) :
    SameControl s (trackDraggedBlock s v) := ⟨rfl, rfl, rfl, rfl⟩

theorem sameRows_trackCarriedBlocks (s : Session) (info : RegroupingDetails) (n : Nat) :
    SameRows s (trackCarriedBlocks s info n) := ⟨rfl, rfl, rfl, rfl, rfl, rfl⟩

theorem sameControl_trackCarriedBlocks (s : Session) (info : RegroupingDetails) (n : Nat) :
    SameControl s (trackCarriedBlocks s info n) := ⟨rfl, rfl, rfl, rfl⟩

theorem sameRows_setLegend (s : Session) (o : Operand) (legend : List (Option PlaceLabel)) :
    SameRows s (s.setContainer o { (s.container o) with legend := legend }) := by
  cases o <;> exact ⟨rfl, rfl, rfl, rfl, rfl, rfl⟩

theorem sameRows_updateHigherPlaceRow (s : Session) (o : Operand) (g : Bool) :
    SameRows s (updateHigherPlaceRow s o g) := by
  unfold updateHigherPlaceRow
  split
  · exact SameRows.refl_rows s
  · dsimp only
    split
    · exact sameRows_setLegend _ _ _
    · split
      · exact sameRows_updateTempStateFromBlocks s
      · exact SameRows.refl_rows s

/-- Function `updateHigherPlaceRow` leaves the live numbers alone or re-reads
them from the page. -/
theorem updateHigherPlaceRow_live (s : Session) (o : Operand) (g : Bool) :
    ((updateHigherPlaceRow s o g).num1 = s.num1 ∧ (updateHigherPlaceRow s o g).num2 = s.num2) ∨
      ((updateHigherPlaceRow s o g).num1 = calculateNumberFromBlocks s.c1 ∧
        (updateHigherPlaceRow s o g).num2 = calculateNumberFromBlocks s.c2) := by
  unfold updateHigherPlaceRow
  split
  · exact Or.inl ⟨rfl, rfl⟩
  · dsimp only
    split
    · left; cases o <;> exact ⟨rfl, rfl⟩
    · split
      · exact Or.inr ⟨rfl, rfl⟩
      · exact Or.inl ⟨rfl, rfl⟩

theorem updateHigherPlaceRow_control (s : Session) (o : Operand) (g : Bool) :
    (updateHigherPlaceRow s o g).currentStepIndex = s.currentStepIndex ∧
      (updateHigherPlaceRow s o g).surface = s.surface := by
  unfold updateHigherPlaceRow
  split
  · exact ⟨rfl, rfl⟩
  · dsimp only
    split
    · cases o <;> exact ⟨rfl, rfl⟩
    · split
      · exact ⟨rfl, rfl⟩
      · exact ⟨rfl, rfl⟩

/-! ### `createBlockInPlace` -/

theorem Replaces.mem_persist {s s' : Session} {o : Operand} {a b : Stack}
    (h : Replaces s s' o a b) {o' : Operand} {st : Stack}
    (hst : st ∈ (s.container o').placeStacks) (hne : st ≠ a) :
    st ∈ (s'.container o').placeStacks := by
  by_cases ho : o' = o
  · subst ho
    rw [h.here]
    exact List.mem_map.mpr ⟨st, hst, by rw [if_neg hne]⟩
  · rw [h.other o' ho]; exact hst

theorem Replaces.noEmptyRows_rep {s s' : Session} {o : Operand} {a b : Stack}
    (h : Replaces s s' o a b) (hn : NoEmptyRows s) (hb : b.blocks ≠ []) : NoEmptyRows s' := by
  intro o' st hst
  rcases h.mem_of_rep hst with ⟨_, hb'⟩ | hold
  · rw [hb']; exact hb
  · exact hn o' st hold

theorem appendBlock_adds (s : Session) (o : Operand) (lab : PlaceLabel) (a : Stack)
    (hw : WellFormed s) (ha : a ∈ (s.container o).placeStacks) (hl : a.label = some lab) :
    AddsBlock s (appendBlock s o (some lab) (10 ^ lab.index)) o lab := by
  have hr := appendBlock_replaces s o lab a hw ha hl
  refine ⟨hr.wellFormed_rep hw, hr.evolves_rep, sameControl_appendBlock _ _ _ _, ?_, ?_, ?_⟩
  · intro o' p
    by_cases ho : o' = o
    · subst ho
      by_cases hp : p = lab.index
      · subst hp
        have := hr.cnt_here hw hl
        rw [this.1, this.2, if_pos ⟨rfl, rfl⟩]
        simp
      · rw [hr.cnt_other_place hw hl o' hp, if_neg (fun h => hp h.2), Nat.add_zero]
    · rw [hr.cnt_other_operand ho p, if_neg (fun h => ho h.1), Nat.add_zero]
  · intro hn
    exact hr.noEmptyRows_rep hn (by simp)
  · intro o' st hst hne
    exact hr.mem_persist hst (fun heq => hne (heq ▸ hl))

theorem appendNewStack_adds (s : Session) (o : Operand) (lab : PlaceLabel)
    (hw : WellFormed s) (hlt : lab.index < s.placeLabels.length)
    (hnew : ∀ st ∈ (s.container o).placeStacks, st.label ≠ some lab) :
    AddsBlock s (appendNewStack s o (some lab) (10 ^ lab.index)) o lab := by
  have ha := appendNewStack_appends s o (some lab) (10 ^ lab.index)
  refine ⟨ha.wellFormed_app hw rfl hlt (by intro v hv; exact List.mem_singleton.mp hv) hnew,
    ha.evolves_app, sameControl_appendNewStack _ _ _ _, ?_, ?_, ?_⟩
  · intro o' p
    rw [ha.cnt_eq_app]
    congr 1
    by_cases h : o' = o ∧ p = lab.index
    · rw [if_pos h, if_pos ⟨h.1, by rw [h.2]; rfl⟩]; rfl
    · rw [if_neg h, if_neg]
      intro h2
      apply h
      refine ⟨h2.1, ?_⟩
      have := h2.2
      simp only [Option.map_some', Option.some.injEq] at this
      exact this.symm
  · intro hn o' st hst
    rcases ha.mem_of_app hst with ⟨_, hb⟩ | hold
    · rw [hb]; simp
    · exact hn o' st hold
  · intro o' st hst _
    by_cases ho : o' = o
    · subst ho
      rw [ha.here]
      exact List.mem_append_left _ hst
    · rw [ha.other o' ho]; exact hst

theorem hasStack_false (s : Session) (o : Operand) (lab : PlaceLabel)
    (h : ¬ hasStack s o (some lab) = true) :
    ∀ st ∈ (s.container o).placeStacks, st.label ≠ some lab := by
  intro st hst hl
  exact h ((hasStack_iff s o lab).mpr ⟨st, hst, hl⟩)

/-- Function `createBlockInPlace` adds one block of the place of the label to
the operand it returns. -/
theorem createBlockInPlace_adds (s : Session) (lab : PlaceLabel) (dropEvent : Option Operand)
    (hw : WellFormed s) (hlt : lab.index < s.placeLabels.length) :
    AddsBlock s (createBlockInPlace s (some lab) (10 ^ lab.index) dropEvent).1
        (createBlockInPlace s (some lab) (10 ^ lab.index) dropEvent).2 lab ∧
      ∀ o, dropEvent = some o →
        (createBlockInPlace s (some lab) (10 ^ lab.index) dropEvent).2 = o := by
  unfold createBlockInPlace
  cases dropEvent with
  | some o =>
    dsimp only
    split
    · next h =>
      obtain ⟨a, ha, hl⟩ := (hasStack_iff s o lab).mp h
      exact ⟨appendBlock_adds s o lab a hw ha hl, fun o' ho' => by cases ho'; rfl⟩
    · next h =>
      exact ⟨appendNewStack_adds s o lab hw hlt (hasStack_false s o lab h),
        fun o' ho' => by cases ho'; rfl⟩
  | none =>
    dsimp only
    refine ⟨?_, fun o ho => by cases ho⟩
    split
    · next h =>
      obtain ⟨a, ha, hl⟩ := (hasStack_iff s .first lab).mp h
      exact appendBlock_adds s .first lab a hw ha hl
    · next h =>
      split
      · next h2 =>
        obtain ⟨a, ha, hl⟩ := (hasStack_iff s .second lab).mp h2
        exact appendBlock_adds s .second lab a hw ha hl
      · exact appendNewStack_adds s .first lab hw hlt (hasStack_false s .first lab h)

/-! ### Regrouping a full stack -/

theorem placeSum_carry (f g : Nat → Nat) (j m : Nat)
    (h0 : ∀ p, p ≠ j → p ≠ j + 1 → g p = f p) (h1 : g j + 10 = f j)
    (h2 : g (j + 1) = f (j + 1) + 1) :
    placeSum g (j + 2 + m) = placeSum f (j + 2 + m) := by
  rw [placeSum_split g (j + 2) m, placeSum_split f (j + 2) m]
  have hhigh : placeSum (fun p => g (j + 2 + p)) m = placeSum (fun p => f (j + 2 + p)) m :=
    placeSum_congr m (fun p _ => h0 _ (by omega) (by omega))
  have hlow : placeSum g j = placeSum f j :=
    placeSum_congr j (fun p hp => h0 _ (by omega) (by omega))
  rw [hhigh]
  congr 1
  show placeSum g j + g j * 10 ^ j + g (j + 1) * 10 ^ (j + 1) =
    placeSum f j + f j * 10 ^ j + f (j + 1) * 10 ^ (j + 1)
  rw [hlow, h2, ← h1, Nat.pow_succ]
  ring

theorem sameRows_setContainer_of (s : Session) (o : Operand) (c : NumberContainer)
    (h : c.placeStacks = (s.container o).placeStacks) : SameRows s (s.setContainer o c) := by
  cases o
  · exact ⟨h, rfl, rfl, rfl, rfl, rfl⟩
  · exact ⟨rfl, h, rfl, rfl, rfl, rfl⟩

theorem updateLegendAfterBlockRemoval_placeStacks (c : NumberContainer) (l : Option PlaceLabel)
    (r : Nat) : (updateLegendAfterBlockRemoval c l r).placeStacks = c.placeStacks := by
  unfold updateLegendAfterBlockRemoval
  split <;> rfl

theorem calculateNumberFromBlocks_congr {c c' : NumberContainer}
    (h : c'.placeStacks = c.placeStacks) :
    calculateNumberFromBlocks c' = calculateNumberFromBlocks c := by
  unfold calculateNumberFromBlocks
  rw [h]

/-- Function `regroupRow` on the stack `a` of operand `o`: the stack leaves
the page, one block of the next place is added to some operand, and the live
numbers stay or are re-read from the page. -/
theorem regroupRow_spec (s : Session) (o : Operand) (a : Stack) (lab : PlaceLabel)
    (hw : WellFormed s) (ha : a ∈ (s.container o).placeStacks) (hl : a.label = some lab)
    (hlt : lab.index + 1 < s.placeLabels.length) :
    WellFormed (regroupRow s o a.id a.label lab.index) ∧
      Evolves s (regroupRow s o a.id a.label lab.index) ∧
      (regroupRow s o a.id a.label lab.index).currentStepIndex = s.currentStepIndex ∧
      (regroupRow s o a.id a.label lab.index).surface = s.surface ∧
      (NoEmptyRows s → NoEmptyRows (regroupRow s o a.id a.label lab.index)) ∧
      (∃ o2, ∀ o' q, (regroupRow s o a.id a.label lab.index).cnt o' q =
        (if o' = o ∧ q = lab.index then 0 else s.cnt o' q) +
          (if o' = o2 ∧ q = lab.index + 1 then 1 else 0)) ∧
      (((regroupRow s o a.id a.label lab.index).num1 = s.num1 ∧
          (regroupRow s o a.id a.label lab.index).num2 = s.num2) ∨
        ((regroupRow s o a.id a.label lab.index).num1 =
            calculateNumberFromBlocks (regroupRow s o a.id a.label lab.index).c1 ∧
          (regroupRow s o a.id a.label lab.index).num2 =
            calculateNumberFromBlocks (regroupRow s o a.id a.label lab.index).c2)) := by
  obtain ⟨lab2, hlab2, hidx2⟩ := hw.labelAt_some hlt
  have hpow : (10 : Nat) ^ (lab.index + 1) = 10 ^ lab2.index := by rw [hidx2]
  have hlt2 : lab2.index < s.placeLabels.length := by rw [hidx2]; exact hlt
  obtain ⟨hadd, _⟩ := createBlockInPlace_adds s lab2 none hw hlt2
  -- name the intermediate sessions
  have hdef : regroupRow s o a.id a.label lab.index =
      updateHigherPlaceRow
        (removeRow
          ((createBlockInPlace s (some lab2) (10 ^ lab2.index) none).1.setContainer o
            (updateLegendAfterBlockRemoval
              ((createBlockInPlace s (some lab2) (10 ^ lab2.index) none).1.container o)
              a.label 0))
          o a.id)
        (createBlockInPlace s (some lab2) (10 ^ lab2.index) none).2 true := by
    unfold regroupRow
    rw [hlab2, hpow]
  rw [hdef]
  generalize (createBlockInPlace s (some lab2) (10 ^ lab2.index) none).1 = s1 at hadd ⊢
  generalize (createBlockInPlace s (some lab2) (10 ^ lab2.index) none).2 = o2 at hadd ⊢
  have hne : a.label ≠ some lab2 := by
    rw [hl]
    intro h
    cases h
    omega
  have ha1 : a ∈ (s1.container o).placeStacks := hadd.persist o a ha hne
  have h12 : SameRows s1 (s1.setContainer o
      (updateLegendAfterBlockRemoval (s1.container o) a.label 0)) :=
    sameRows_setContainer_of _ _ _ (updateLegendAfterBlockRemoval_placeStacks _ _ _)
  have hc12 : SameControl s1 (s1.setContainer o
      (updateLegendAfterBlockRemoval (s1.container o) a.label 0)) :=
    sameControl_setContainer _ _ _
  generalize s1.setContainer o (updateLegendAfterBlockRemoval (s1.container o) a.label 0) = s2
    at h12 hc12 ⊢
  have hw2 : WellFormed s2 := h12.wellFormed_rows hadd.wf
  have ha2 : a ∈ (s2.container o).placeStacks := by rw [h12.container_eq]; exact ha1
  have h23 := removeRow_filters s2 o a.id
  have hc23 := sameControl_removeRow s2 o a.id
  have hcnt23 := removeRow_cnt s2 o a hw2 ha2 hl
  generalize removeRow s2 o a.id = s3 at h23 hc23 hcnt23 ⊢
  have hw3 : WellFormed s3 := h23.wellFormed_fil hw2
  have h34 := sameRows_updateHigherPlaceRow s3 o2 true
  have hlive := updateHigherPlaceRow_live s3 o2 true
  have hctl := updateHigherPlaceRow_control s3 o2 true
  generalize updateHigherPlaceRow s3 o2 true = s4 at h34 hlive hctl ⊢
  refine ⟨h34.wellFormed_rows hw3, ?_, ?_, ?_, ?_, ⟨o2, ?_⟩, ?_⟩
  · exact ((hadd.evolves.trans_ev h12.evolves_rows).trans_ev h23.evolves_fil).trans_ev h34.evolves_rows
  · rw [hctl.1, hc23.currentStepIndex, hc12.currentStepIndex, hadd.control.currentStepIndex]
  · rw [hctl.2, hc23.surface, hc12.surface, hadd.control.surface]
  · intro hn
    apply h34.noEmptyRows_rows
    intro o' st hst
    have hst2 := (h23.mem_of_fil hst).1
    rw [h12.container_eq] at hst2
    exact hadd.noEmpty hn o' st hst2
  · intro o' q
    rw [h34.cnt_same]
    by_cases hoq : o' = o ∧ q = lab.index
    · obtain ⟨rfl, rfl⟩ := hoq
      rw [hcnt23.1, if_pos ⟨rfl, rfl⟩, if_neg (fun h => by omega)]
    · rw [if_neg hoq]
      have h3 : s3.cnt o' q = s2.cnt o' q := by
        by_cases ho : o' = o
        · subst ho
          exact hcnt23.2.1 q (fun hq => hoq ⟨rfl, hq⟩) o'
        · exact hcnt23.2.2 o' ho q
      rw [h3, h12.cnt_same, hadd.cnt, hidx2]
  · rcases hlive with h | h
    · left
      rw [h.1, h.2, hc23.num1, hc23.num2, hc12.num1, hc12.num2, hadd.control.num1,
        hadd.control.num2]
      exact ⟨rfl, rfl⟩
    · right
      rw [h.1, h.2]
      exact ⟨(calculateNumberFromBlocks_congr h34.c1).symm,
        (calculateNumberFromBlocks_congr h34.c2).symm⟩

theorem groupRow_absent (s : Session) (id : Nat) (h : findStack s id = none) :
    groupRow s id = s := by
  unfold groupRow
  rw [h]

theorem groupRow_small (s : Session) (id : Nat) (o : Operand) (a : Stack)
    (h : findStack s id = some (o, a)) (hlen : a.blocks.length < 10) : groupRow s id = s := by
  unfold groupRow
  rw [h]
  dsimp only
  rw [if_neg (by omega)]

theorem groupRow_full (s : Session) (o : Operand) (a : Stack) (lab : PlaceLabel)
    (hw : WellFormed s) (ha : a ∈ (s.container o).placeStacks) (hl : a.label = some lab)
    (hlen : 10 ≤ a.blocks.length) (hlt : lab.index + 1 < s.placeLabels.length) :
    groupRow s a.id = regroupRow s o a.id a.label lab.index := by
  unfold groupRow
  rw [hw.findStack_of_mem ha]
  dsimp only
  rw [if_pos hlen, hl]
  have : indexOfText s.placeLabels (some lab) = some lab.index := by
    show indexOf s.placeLabels (some lab) = _
    exact hw.indexOf_eq lab (by omega)
  rw [this]
  dsimp only
  rw [if_pos hlt]

/-! ## The shape of the page under regrouping -/

theorem Evolves.original_eq {s s' : Session} (h : Evolves s s') (o : Operand) :
    s'.original o = s.original o := by
  cases o
  · exact h.originalNum1
  · exact h.originalNum2

theorem Evolves.digitSum_eq {s s' : Session} (h : Evolves s s') (p : Nat) :
    s'.digitSum p = s.digitSum p := by
  unfold Session.digitSum
  rw [h.originalNum1, h.originalNum2]

/-- Ten blocks at a place are worth one block of the next place, which the
place table then has. -/
theorem next_place_in_table {s : Session} (hw : WellFormed s)
    (hc : lowDom s s.placeLabels.length = s.originalNum1 + s.originalNum2) {j : Nat}
    (h : 10 ≤ s.total j) : j + 1 < s.placeLabels.length := by
  by_contra hge
  by_cases hj : j < s.placeLabels.length
  · have hterm := term_le_placeSum s.total s.placeLabels.length j hj
    have hr := hw.inRange
    have hL : s.placeLabels.length = j + 1 := by omega
    have h1 : 10 * 10 ^ j ≤ s.total j * 10 ^ j := Nat.mul_le_mul_right _ h
    unfold lowDom at hc
    rw [hL, Nat.pow_succ] at hr
    rw [hL] at hc hterm
    omega
  · have h1 := hw.cnt_beyond .first (Nat.le_of_not_lt hj)
    have h2 := hw.cnt_beyond .second (Nat.le_of_not_lt hj)
    unfold Session.total at h
    omega

theorem digitSum_le (s : Session) (p : Nat) : s.digitSum p ≤ 18 := by
  unfold Session.digitSum getDigit
  have h1 := Nat.mod_lt (s.originalNum1 / 10 ^ p) (by norm_num : 10 > 0)
  have h2 := Nat.mod_lt (s.originalNum2 / 10 ^ p) (by norm_num : 10 > 0)
  omega

theorem getDigit_le (n p : Nat) : getDigit n p ≤ 9 := by
  unfold getDigit
  have h1 := Nat.mod_lt (n / 10 ^ p) (by norm_num : 10 > 0)
  omega

/-- The shape of the page after the stack of ten blocks that operand `o` has at
place `j` was regrouped into one block of place `j + 1`. -/
theorem Shape.after_group {s s' : Session} {j : Nat} {o o2 : Operand} (hw : WellFormed s)
    (hsh : Shape s j) (he : Evolves s s')
    (hcnt : ∀ o' q, s'.cnt o' q =
      (if o' = o ∧ q = j then 0 else s.cnt o' q) + (if o' = o2 ∧ q = j + 1 then 1 else 0))
    (h10 : s.cnt o j = 10) (hfresh : s.total (j + 1) = s.digitSum (j + 1)) :
    Shape s' j ∧ (∀ o', s'.cnt o' j ≤ 9) ∧ s'.total (j + 1) = s'.digitSum (j + 1) + 1 := by
  have htot10 : 10 ≤ s.total j := by
    unfold Session.total
    cases o <;> omega
  have hL := next_place_in_table hw hsh.conserved htot10
  have cj : ∀ o', s'.cnt o' j = if o' = o then 0 else s.cnt o' j := by
    intro o'
    have h2 : ¬ (o' = o2 ∧ j = j + 1) := fun h => absurd h.2 (by omega)
    rw [hcnt, if_neg h2, Nat.add_zero]
    by_cases ho : o' = o
    · rw [if_pos (⟨ho, rfl⟩ : o' = o ∧ j = j), if_pos ho]
    · rw [if_neg (fun (h : o' = o ∧ j = j) => ho h.1), if_neg ho]
  have cj1 : ∀ o', s'.cnt o' (j + 1) = s.cnt o' (j + 1) + if o' = o2 then 1 else 0 := by
    intro o'
    have h1 : ¬ (o' = o ∧ j + 1 = j) := fun h => absurd h.2 (by omega)
    rw [hcnt, if_neg h1]
    by_cases ho : o' = o2
    · rw [if_pos (⟨ho, rfl⟩ : o' = o2 ∧ j + 1 = j + 1), if_pos ho]
    · rw [if_neg (fun (h : o' = o2 ∧ j + 1 = j + 1) => ho h.1), if_neg ho]
  have celse : ∀ o' q, q ≠ j → q ≠ j + 1 → s'.cnt o' q = s.cnt o' q := by
    intro o' q h1 h2
    rw [hcnt, if_neg (fun (h : o' = o ∧ q = j) => h1 h.2),
      if_neg (fun (h : o' = o2 ∧ q = j + 1) => h2 h.2), Nat.add_zero]
  have tj : s'.total j + 10 = s.total j := by
    unfold Session.total
    rw [cj .first, cj .second]
    cases o
    · rw [if_pos rfl, if_neg (by decide)]; omega
    · rw [if_neg (by decide), if_pos rfl]; omega
  have tj1 : s'.total (j + 1) = s.total (j + 1) + 1 := by
    unfold Session.total
    rw [cj1 .first, cj1 .second]
    cases o2
    · rw [if_pos rfl, if_neg (by decide)]; omega
    · rw [if_neg (by decide), if_pos rfl]; omega
  have telse : ∀ q, q ≠ j → q ≠ j + 1 → s'.total q = s.total q := by
    intro q h1 h2
    unfold Session.total
    rw [celse _ q h1 h2, celse _ q h1 h2]
  have hlowj : lowDom s' j = lowDom s j :=
    placeSum_congr j (fun p hp => telse p (by omega) (by omega))
  have hsettled : ∀ o', s'.cnt o' j ≤ 9 := by
    intro o'
    rw [cj]
    split
    · exact Nat.zero_le _
    · next hne =>
      have hb := hsh.hereBoth
      unfold Session.total at hb
      cases o <;> cases o' <;> first | exact absurd rfl hne | omega
  refine ⟨?_, hsettled, by rw [tj1, hfresh, he.digitSum_eq]⟩
  constructor
  · rw [he.placeLabels, he.originalNum1, he.originalNum2, ← hsh.conserved]
    obtain ⟨m, hm⟩ : ∃ m, s.placeLabels.length = j + 2 + m := ⟨s.placeLabels.length - (j + 2), by omega⟩
    unfold lowDom
    rw [hm]
    exact placeSum_carry s.total s'.total j m telse tj tj1
  · intro o' p hp
    rw [celse o' p (by omega) (by omega), he.original_eq]
    exact hsh.above o' p hp
  · intro o'
    rw [cj1, he.original_eq]
    exact le_trans (hsh.nextGe o') (Nat.le_add_right _ _)
  · rw [tj1, he.digitSum_eq, hfresh]
  · intro _
    refine ⟨?_, ?_, hsettled⟩
    · cases o
      · left; rw [cj, if_pos rfl]
      · right; rw [cj, if_pos rfl]
    · show placeSum s'.total (j + 1) < _
      rw [placeSum_succ]
      have hl : placeSum s'.total j < 10 ^ j := by
        have := hsh.hereLow ⟨o, h10⟩
        unfold lowDom at hlowj this
        rw [hlowj]
        exact this
      have ht : s'.total j ≤ 9 := by
        have := hsh.hereBoth
        omega
      have : s'.total j * 10 ^ j ≤ 9 * 10 ^ j := Nat.mul_le_mul_right _ ht
      rw [Nat.pow_succ]
      omega
  · intro _
    rw [hlowj]
    exact hsh.hereLow ⟨o, h10⟩
  · intro o' p hp
    rw [celse o' p (by omega) (by omega)]
    exact hsh.below o' p hp
  · intro o'
    exact le_trans (hsettled o') (by norm_num)
  · have := hsh.hereBoth
    omega
  · rintro ⟨o', ho'⟩
    have := hsettled o'
    omega

/-! ## `groupIfMoreThanTen` while a step is set up -/

theorem WellFormed.label_eq_labelAt {s : Session} (hw : WellFormed s) {o : Operand} {a : Stack}
    (ha : a ∈ (s.container o).placeStacks) {j : Nat} (h : a.label = labelAt s.placeLabels j) :
    ∃ lab, a.label = some lab ∧ lab.index = j ∧ j < s.placeLabels.length := by
  obtain ⟨lab, hl, hlt, _⟩ := hw.rows o a ha
  refine ⟨lab, hl, ?_⟩
  rw [hl] at h
  by_cases hj : j < s.placeLabels.length
  · rw [hw.labelAt_eq hj] at h
    exact ⟨refrenceValues_get_some h.symm, hj⟩
  · rw [WellFormed.labelAt_none (Nat.le_of_not_lt hj)] at h
    cases h

theorem WellFormed.labelAt_of_index {s : Session} (hw : WellFormed s) {o : Operand} {a : Stack}
    (ha : a ∈ (s.container o).placeStacks) {lab : PlaceLabel} (hl : a.label = some lab) :
    a.label = labelAt s.placeLabels lab.index := by
  obtain ⟨lab2, hl2, hlt, _⟩ := hw.rows o a ha
  rw [hl] at hl2
  cases hl2
  rw [hl, hw.labelAt_index lab hlt]

/-- A place whose stacks hold less than ten blocks each holds at most nine per
operand. -/
theorem cnt_le_nine_of_rows {s : Session} (hw : WellFormed s) (o : Operand) (j : Nat)
    (h : ∀ st ∈ (s.container o).placeStacks, st.label = labelAt s.placeLabels j →
      st.blocks.length < 10) : s.cnt o j ≤ 9 := by
  by_contra hgt
  have hpos : 0 < countAt j (s.container o).placeStacks := by
    unfold Session.cnt at hgt
    omega
  obtain ⟨st, hst, hp, _⟩ := countAt_pos_mem _ _ hpos
  obtain ⟨lab, hl, hlt, _⟩ := hw.rows o st hst
  have hidx : lab.index = j := by
    rw [hl] at hp
    simpa using hp
  have hcnt := hw.cnt_of_mem hst hl
  rw [hidx] at hcnt
  have := h st hst (by rw [← hidx]; exact hw.labelAt_of_index hst hl)
  omega

theorem Grouped.settled_of_phase {s0 s : Session} {j : Nat} (h : Grouped s0 s j)
    (hp : ¬ s.total (j + 1) = s.digitSum (j + 1)) : ∀ o, s.cnt o j ≤ 9 := by
  rcases h.phase with h1 | h1
  · exact absurd h1.1 hp
  · exact h1.1

/-- One round of `groupIfMoreThanTen` for a stack of place `j`. -/
theorem groupRow_grouped {s0 s : Session} {j : Nat} (hg : Grouped s0 s j) (id : Nat)
    (hlab : ∀ r, findStack s id = some r → r.2.label = labelAt s.placeLabels j) :
    Grouped s0 (groupRow s id) j ∧
      ((∃ o a, findStack s id = some (o, a) ∧ 10 ≤ a.blocks.length) →
        ∀ o, (groupRow s id).cnt o j ≤ 9) ∧
      ((¬ ∃ o a, findStack s id = some (o, a) ∧ 10 ≤ a.blocks.length) → groupRow s id = s) := by
  cases hf : findStack s id with
  | none =>
    rw [groupRow_absent s id hf]
    refine ⟨hg, ?_, fun _ => rfl⟩
    rintro ⟨o, a, h, _⟩
    cases h
  | some r =>
    obtain ⟨o, a⟩ := r
    by_cases hlen : a.blocks.length < 10
    · rw [groupRow_small s id o a hf hlen]
      refine ⟨hg, ?_, fun _ => rfl⟩
      rintro ⟨o', a', h, h10⟩
      cases h
      omega
    · have hmem := findStack_mem hf
      obtain ⟨lab, hl, hidx, hj⟩ := hg.wf.label_eq_labelAt hmem.1 (hlab _ hf)
      have hcnt := hg.wf.cnt_of_mem hmem.1 hl
      rw [hidx] at hcnt
      have h10 : s.cnt o j = 10 := by
        have := hg.shape.here o
        omega
      have hfresh : s.total (j + 1) = s.digitSum (j + 1) := by
        by_contra hne
        have := hg.settled_of_phase hne o
        omega
      have hlive : s.num1 = s0.num1 ∧ s.num2 = s0.num2 := by
        rcases hg.phase with h1 | h1
        · exact h1.2
        · have := h1.1 o
          omega
      have htot10 : 10 ≤ s.total j := by
        unfold Session.total
        cases o <;> omega
      have hL := next_place_in_table hg.wf hg.shape.conserved htot10
      have heq : groupRow s id = regroupRow s o a.id a.label lab.index := by
        rw [← hmem.2]
        exact groupRow_full s o a lab hg.wf hmem.1 hl (by omega) (by rw [hidx]; exact hL)
      obtain ⟨hw', hev, hcur, hsurf, hne, ⟨o2, hc⟩, hnum⟩ :=
        regroupRow_spec s o a lab hg.wf hmem.1 hl (by rw [hidx]; exact hL)
      rw [← heq] at hw' hev hcur hsurf hne hc hnum
      rw [hidx] at hc
      obtain ⟨hshape, hsettled, htot⟩ := Shape.after_group hg.wf hg.shape hev hc h10 hfresh
      refine ⟨⟨hw', hne hg.noEmpty, hshape, hg.evolves.trans_ev hev, hcur.trans hg.cursor,
        hsurf.trans hg.surface, Or.inr ⟨hsettled, ?_⟩⟩, fun _ => hsettled, ?_⟩
      · rcases hnum with h | h
        · exact Or.inl ⟨h.1.trans hlive.1, h.2.trans hlive.2⟩
        · exact Or.inr ⟨htot, h.1, h.2⟩
      · intro hno
        exact absurd ⟨o, a, rfl, by omega⟩ hno

/-- Function `groupIfMoreThanTen` for stacks of place `j`: the shape of the page
is kept, and when every stack of place `j` with ten blocks is in the list, the
stacks of place `j` hold at most nine blocks afterwards. -/
theorem groupIfMoreThanTen_grouped {s0 : Session} {j : Nat} (ids : List Nat) :
    ∀ s, Grouped s0 s j → (∀ id ∈ ids, id < s.nextId) →
      (∀ id ∈ ids, ∀ r, findStack s id = some r → r.2.label = labelAt s.placeLabels j) →
      Grouped s0 (groupIfMoreThanTen s ids) j ∧
        ((∀ o, ∀ st ∈ (s.container o).placeStacks, st.label = labelAt s.placeLabels j →
            10 ≤ st.blocks.length → st.id ∈ ids) →
          ∀ o, (groupIfMoreThanTen s ids).cnt o j ≤ 9) := by
  induction ids with
  | nil =>
    intro s hg _ _
    refine ⟨hg, ?_⟩
    intro hall o
    apply cnt_le_nine_of_rows hg.wf
    intro st hst hl
    by_contra hge
    exact absurd (hall o st hst hl (by omega)) (List.not_mem_nil _)
  | cons id ids ih =>
    intro s hg hlt hlab
    show Grouped s0 (groupIfMoreThanTen (groupRow s id) ids) j ∧ _
    obtain ⟨hg1, hfull, hnoop⟩ := groupRow_grouped hg id (hlab id (List.mem_cons_self _ _))
    have hlt1 : ∀ id' ∈ ids, id' < (groupRow s id).nextId := fun id' hid' =>
      lt_of_lt_of_le (hlt id' (List.mem_cons_of_mem _ hid')) (by
        by_cases hex : ∃ o a, findStack s id = some (o, a) ∧ 10 ≤ a.blocks.length
        · obtain ⟨o, a, hf, h10⟩ := hex
          have hmem := findStack_mem hf
          obtain ⟨lab, hl, hidx, hj⟩ := hg.wf.label_eq_labelAt hmem.1
            (hlab id (List.mem_cons_self _ _) _ hf)
          -- the session evolves
          have hcnt := hg.wf.cnt_of_mem hmem.1 hl
          rw [hidx] at hcnt
          have htot10 : 10 ≤ s.total j := by
            unfold Session.total
            cases o <;> omega
          have hL := next_place_in_table hg.wf hg.shape.conserved htot10
          have heq : groupRow s id = regroupRow s o a.id a.label lab.index := by
            rw [← hmem.2]
            exact groupRow_full s o a lab hg.wf hmem.1 hl h10 (by rw [hidx]; exact hL)
          rw [heq]
          exact (regroupRow_spec s o a lab hg.wf hmem.1 hl (by rw [hidx]; exact hL)).2.1.nextId
        · rw [hnoop hex])
    have hev1 : Evolves s (groupRow s id) := by
      by_cases hex : ∃ o a, findStack s id = some (o, a) ∧ 10 ≤ a.blocks.length
      · obtain ⟨o, a, hf, h10⟩ := hex
        have hmem := findStack_mem hf
        obtain ⟨lab, hl, hidx, hj⟩ := hg.wf.label_eq_labelAt hmem.1
          (hlab id (List.mem_cons_self _ _) _ hf)
        have hcnt := hg.wf.cnt_of_mem hmem.1 hl
        rw [hidx] at hcnt
        have htot10 : 10 ≤ s.total j := by
          unfold Session.total
          cases o <;> omega
        have hL := next_place_in_table hg.wf hg.shape.conserved htot10
        have heq : groupRow s id = regroupRow s o a.id a.label lab.index := by
          rw [← hmem.2]
          exact groupRow_full s o a lab hg.wf hmem.1 hl h10 (by rw [hidx]; exact hL)
        rw [heq]
        exact (regroupRow_spec s o a lab hg.wf hmem.1 hl (by rw [hidx]; exact hL)).2.1
      · rw [hnoop hex]; exact Evolves.refl_ev s
    have hlab1 : ∀ id' ∈ ids, ∀ r, findStack (groupRow s id) id' = some r →
        r.2.label = labelAt (groupRow s id).placeLabels j := by
      intro id' hid' r hr
      obtain ⟨st, hst, hl⟩ := hev1.findStack_of hg.wf (hlt id' (List.mem_cons_of_mem _ hid')) hr
      rw [hev1.placeLabels, ← hl]
      exact hlab id' (List.mem_cons_of_mem _ hid') _ hst
    obtain ⟨hg2, hrest⟩ := ih (groupRow s id) hg1 hlt1 hlab1
    refine ⟨hg2, ?_⟩
    intro hall
    apply hrest
    intro o st hst hl h10
    by_cases hex : ∃ o a, findStack s id = some (o, a) ∧ 10 ≤ a.blocks.length
    · -- after the regrouping no stack of place `j` holds ten blocks
      have hs := hfull hex o
      obtain ⟨lab, hl2, hidx, hj⟩ := hg1.wf.label_eq_labelAt hst hl
      have hcnt := hg1.wf.cnt_of_mem hst hl2
      rw [hidx] at hcnt
      omega
    · rw [hnoop hex] at hst hl
      have hin := hall o st hst hl h10
      rcases List.mem_cons.mp hin with h | h
      · exfalso
        apply hex
        refine ⟨o, st, ?_, h10⟩
        rw [← h]
        exact hg.wf.findStack_of_mem hst
      · exact h

/-! ## The live numbers and the step computed from them -/

theorem calculateCurrentStep_before (s : Session) (i : Nat) (step : Step)
    (h : calculateCurrentStep s i = some (some step)) :
    step.beforeNum1 = jsOr s.num1 s.originalNum1 ∧
      step.beforeNum2 = jsOr s.num2 s.originalNum2 := by
  unfold calculateCurrentStep at h
  dsimp only at h
  split at h
  · cases h
  · split at h
    · cases h
    · cases h
      exact ⟨rfl, rfl⟩

theorem sum_div_pow (n1 n2 q : Nat) :
    (n1 + n2) / 10 ^ q = n1 / 10 ^ q + n2 / 10 ^ q + carryInto n1 n2 q := by
  have hp : 0 < 10 ^ q := Nat.pow_pos (by norm_num)
  unfold carryInto
  have e1 := Nat.div_add_mod n1 (10 ^ q)
  have e2 := Nat.div_add_mod n2 (10 ^ q)
  have : n1 + n2 = (n1 % 10 ^ q + n2 % 10 ^ q) + 10 ^ q * (n1 / 10 ^ q + n2 / 10 ^ q) := by
    rw [Nat.mul_add]
    omega
  rw [this, Nat.add_mul_div_left _ _ hp]
  omega

theorem sum_div_of_low (x1 x2 q : Nat) (h : x1 % 10 ^ q + x2 % 10 ^ q < 10 ^ q) :
    (x1 + x2) / 10 ^ q = x1 / 10 ^ q + x2 / 10 ^ q := by
  rw [sum_div_pow]
  unfold carryInto
  rw [Nat.div_eq_of_lt h, Nat.add_zero]

theorem div_pow_succ (x q : Nat) : x / 10 ^ (q + 1) = x / 10 ^ q / 10 := by
  rw [Nat.pow_succ, Nat.div_div_eq_div_mul]

theorem jsOr_div (live orig q : Nat) (h : orig / 10 ^ q ≤ live / 10 ^ q) :
    jsOr live orig / 10 ^ q = live / 10 ^ q := by
  unfold jsOr
  split
  · next h0 =>
    rw [h0, Nat.zero_div] at h
    rw [h0, Nat.zero_div]
    exact Nat.le_zero.mp h
  · rfl

/-- From live numbers that are fit for step `j` the step is computed in
agreement with the paper trace. -/
theorem stepAgrees_of_liveReady {s : Session} {j : Nat} (hl : LiveReady s j)
    (hj : j < s.placeLabels.length) (hlab : labelAt s.placeLabels j ≠ none) :
    ∃ step, calculateCurrentStep s j = some (some step) ∧ StepAgrees s step j ∧
      step.digit1 = s.num1 / 10 ^ j % 10 ∧ step.digit2 = s.num2 / 10 ^ j % 10 ∧
      step.interactionType = (if step.digit1 + step.digit2 ≥ 10 then .dragDrop else .numpad) := by
  obtain ⟨step, hstep, hd1, hd2, hsum, hres, hcarry, htype, hsi, hpi, hpl⟩ :=
    calculateCurrentStep_eq s j hj hlab
  obtain ⟨hb1, hb2⟩ := calculateCurrentStep_before s j step hstep
  have hh1 := jsOr_div s.num1 s.originalNum1 j (hl.high .first)
  have hh2 := jsOr_div s.num2 s.originalNum2 j (hl.high .second)
  have hN := sum_div_of_low s.num1 s.num2 j hl.low
  rw [hl.sum] at hN
  have hpaper := sum_div_pow s.originalNum1 s.originalNum2 (j + 1)
  have hg1 : s.originalNum1 / 10 ^ j ≤ s.num1 / 10 ^ j := hl.high .first
  have hg2 : s.originalNum2 / 10 ^ j ≤ s.num2 / 10 ^ j := hl.high .second
  rw [hh1] at hd1
  rw [hh2] at hd2
  have hq : (s.originalNum1 + s.originalNum2) / 10 ^ (j + 1) =
      (s.num1 / 10 ^ j + s.num2 / 10 ^ j) / 10 := by
    rw [div_pow_succ, hN]
  have hc1 : jsOr s.num1 s.originalNum1 / 10 ^ (j + 1) = s.num1 / 10 ^ j / 10 := by
    rw [div_pow_succ, hh1]
  have hc2 : jsOr s.num2 s.originalNum2 / 10 ^ (j + 1) = s.num2 / 10 ^ j / 10 := by
    rw [div_pow_succ, hh2]
  have a1 : s.originalNum1 / 10 ^ (j + 1) ≤ s.num1 / 10 ^ j / 10 := by
    rw [div_pow_succ]; exact Nat.div_le_div_right hg1
  have a2 : s.originalNum2 / 10 ^ (j + 1) ≤ s.num2 / 10 ^ j / 10 := by
    rw [div_pow_succ]; exact Nat.div_le_div_right hg2
  have hid : step.carryOut + (s.num1 / 10 ^ j / 10 + s.num2 / 10 ^ j / 10) =
      carryInto s.originalNum1 s.originalNum2 (j + 1) +
        (s.originalNum1 / 10 ^ (j + 1) + s.originalNum2 / 10 ^ (j + 1)) := by
    rw [hcarry, hsum, hd1, hd2]
    omega
  refine ⟨step, hstep, ⟨hpi, hsi, hpl, hj, ?_, ?_, ?_, by rw [hcarry, hsum], by rw [hres, hsum],
    by rw [htype, hsum]⟩,
    hd1, hd2, by rw [htype, hsum]⟩
  · rw [hres, hsum, hd1, hd2, hN]
    omega
  · rw [hb1, hb2, hc1, hc2]
    exact hid
  · omega

theorem StepAgrees.transfer {s s' : Session} {step : Step} {j : Nat} (h : StepAgrees s step j)
    (hp : s'.placeLabels = s.placeLabels) (h1 : s'.originalNum1 = s.originalNum1)
    (h2 : s'.originalNum2 = s.originalNum2) : StepAgrees s' step j where
  placeIndex := h.placeIndex
  stepIndex := h.stepIndex
  placeLabel := by rw [hp]; exact h.placeLabel
  inTable := by rw [hp]; exact h.inTable
  result := by rw [h1, h2]; exact h.result
  carry := by rw [h1, h2]; exact h.carry
  carryLe := by rw [h1, h2]; exact h.carryLe
  carryOut_eq := h.carryOut_eq
  result_eq := h.result_eq
  kind := h.kind

/-- Live numbers that carry nothing below place `j` and whose digits at place
`j` add up to 9 at most carry nothing below place `j + 1`. -/
theorem low_succ_of_digits (x1 x2 j : Nat) (hlow : x1 % 10 ^ j + x2 % 10 ^ j < 10 ^ j)
    (hd : x1 / 10 ^ j % 10 + x2 / 10 ^ j % 10 ≤ 9) :
    x1 % 10 ^ (j + 1) + x2 % 10 ^ (j + 1) < 10 ^ (j + 1) := by
  rw [Nat.mod_pow_succ, Nat.mod_pow_succ, Nat.pow_succ]
  have : 10 ^ j * (x1 / 10 ^ j % 10) + 10 ^ j * (x2 / 10 ^ j % 10) ≤ 10 ^ j * 9 := by
    rw [← Nat.mul_add]
    exact Nat.mul_le_mul_left _ hd
  omega

theorem high_succ (n x j : Nat) (h : n / 10 ^ j ≤ x / 10 ^ j) :
    n / 10 ^ (j + 1) ≤ x / 10 ^ (j + 1) := by
  rw [div_pow_succ, div_pow_succ]
  exact Nat.div_le_div_right h

/-! ## Live numbers re-read from the page -/

theorem Session.original_le (s : Session) (o : Operand) :
    s.original o ≤ s.originalNum1 + s.originalNum2 := by
  cases o
  · exact Nat.le_add_right _ _
  · exact Nat.le_add_left _ _

/-- The value of an operand's blocks holds at least the original digits from
place `q` up when every place from `q` up holds at least the original digit. -/
theorem value_high {s : Session} (hw : WellFormed s) (o : Operand) (q : Nat)
    (hd : ∀ p, q ≤ p → getDigit (s.original o) p ≤ s.cnt o p) :
    s.original o / 10 ^ q ≤ calculateNumberFromBlocks (s.container o) / 10 ^ q := by
  rw [hw.value_eq o (Nat.le_add_left s.placeLabels.length q)]
  apply div_le_div_of_digits_le
  · exact lt_of_le_of_lt (s.original_le o)
      (lt_of_lt_of_le hw.inRange (Nat.pow_le_pow_right (by norm_num) (Nat.le_add_left _ _)))
  · exact hd

theorem value_low {s : Session} (hw : WellFormed s) (q : Nat) :
    calculateNumberFromBlocks s.c1 % 10 ^ q + calculateNumberFromBlocks s.c2 % 10 ^ q ≤
      lowDom s q := by
  have h1 := hw.value_eq .first (Nat.le_add_left s.placeLabels.length q)
  have h2 := hw.value_eq .second (Nat.le_add_left s.placeLabels.length q)
  change calculateNumberFromBlocks s.c1 = _ at h1
  change calculateNumberFromBlocks s.c2 = _ at h2
  rw [h1, h2, lowDom_eq]
  exact Nat.add_le_add (placeSum_mod_le _ _ _) (placeSum_mod_le _ _ _)

theorem Shape.digits_le {s : Session} {j : Nat} (h : Shape s j) (o : Operand) (p : Nat)
    (hp : j + 1 ≤ p) : getDigit (s.original o) p ≤ s.cnt o p := by
  by_cases h1 : p = j + 1
  · subst h1; exact h.nextGe o
  · rw [h.above o p (by omega)]

theorem Shape.value_sum_shape {s : Session} {j : Nat} (h : Shape s j) (hw : WellFormed s) :
    calculateNumberFromBlocks s.c1 + calculateNumberFromBlocks s.c2 =
      s.originalNum1 + s.originalNum2 := by
  rw [hw.value_sum, h.conserved]

/-! ## The rows `setUpDragDropRows` chooses -/

theorem filter_label_singleton (l : List Stack) (lab : PlaceLabel) (a : Stack)
    (hl : (l.map (fun x => x.label)).Nodup) (ha : a ∈ l) (halab : a.label = some lab) :
    l.filter (fun st => textEq st.label (some lab)) = [a] := by
  induction l with
  | nil => cases ha
  | cons x l ih =>
    rw [List.map_cons, List.nodup_cons] at hl
    rw [List.filter_cons]
    by_cases hx : x = a
    · subst hx
      rw [if_pos ((textEq_some_iff _ _).mpr halab)]
      congr 1
      rw [List.filter_eq_nil_iff]
      intro y hy ht
      have hyl := (textEq_some_iff _ _).mp ht
      exact hl.1 (by rw [halab, ← hyl]; exact List.mem_map_of_mem _ hy)
    · have ha' : a ∈ l := by
        rcases List.mem_cons.mp ha with h | h
        · exact absurd h.symm hx
        · exact h
      have hnx : ¬ textEq x.label (some lab) = true := by
        intro ht
        have hxl := (textEq_some_iff _ _).mp ht
        exact hl.1 (by rw [hxl, ← halab]; exact List.mem_map_of_mem _ ha')
      rw [if_neg hnx, ih hl.2 ha']

theorem filter_label_nil (l : List Stack) (lab : PlaceLabel)
    (h : ∀ st ∈ l, st.label ≠ some lab) :
    l.filter (fun st => textEq st.label (some lab)) = [] := by
  rw [List.filter_eq_nil_iff]
  intro st hst ht
  exact h st hst ((textEq_some_iff _ _).mp ht)

/-- On a well-formed page an operand has no row or one row with a given
label. -/
theorem rowsWithLabel_cases (s : Session) (hw : WellFormed s) (o : Operand) (lab : PlaceLabel) :
    (∃ a ∈ (s.container o).placeStacks, a.label = some lab ∧
        rowsWithLabel s o (some lab) = [(a.id, a.blocks.length)]) ∨
      ((∀ st ∈ (s.container o).placeStacks, st.label ≠ some lab) ∧
        rowsWithLabel s o (some lab) = []) := by
  by_cases h : ∃ a ∈ (s.container o).placeStacks, a.label = some lab
  · obtain ⟨a, ha, hl⟩ := h
    left
    refine ⟨a, ha, hl, ?_⟩
    unfold rowsWithLabel
    rw [filter_label_singleton _ lab a (hw.labels o) ha hl]
    rfl
  · right
    have hall : ∀ st ∈ (s.container o).placeStacks, st.label ≠ some lab :=
      fun st hst hl => h ⟨st, hst, hl⟩
    refine ⟨hall, ?_⟩
    unfold rowsWithLabel
    rw [filter_label_nil _ lab hall]
    rfl

/-- What `setUpDragDropRows` finds for a label on a well-formed page without
empty rows: the rows passed to `groupIfMoreThanTen` are the rows with that
label, and a drop target is only found when both operands have such a row,
the two rows being then the drag source and the drop target. -/
theorem dragDrop_rows (s : Session) (hw : WellFormed s) (hn : NoEmptyRows s) (lab : PlaceLabel) :
    (∀ o, ∀ st ∈ (s.container o).placeStacks, st.label = some lab →
        st.id ∈ (nextPlaceRows s (some lab)).map (fun r => r.1)) ∧
      (∀ id ∈ (nextPlaceRows s (some lab)).map (fun r => r.1),
        ∃ o, ∃ st ∈ (s.container o).placeStacks, st.label = some lab ∧ st.id = id) ∧
      (dropTargetRow s (some lab) = none ∨
        ∃ a ∈ s.c1.placeStacks, ∃ b ∈ s.c2.placeStacks, a.label = some lab ∧ b.label = some lab ∧
          ((dragSourceRow s (some lab) = some a.id ∧ dropTargetRow s (some lab) = some b.id) ∨
            (dragSourceRow s (some lab) = some b.id ∧
              dropTargetRow s (some lab) = some a.id))) := by
  have hpos : ∀ o, ∀ a ∈ (s.container o).placeStacks, decide (a.blocks.length > 0) = true := by
    intro o a ha
    have := hn o a ha
    have : 0 < a.blocks.length := List.length_pos.mpr this
    simpa using this
  rcases rowsWithLabel_cases s hw .first lab with ⟨a, ha, hla, hra⟩ | ⟨hna, hra⟩ <;>
    rcases rowsWithLabel_cases s hw .second lab with ⟨b, hb, hlb, hrb⟩ | ⟨hnb, hrb⟩
  · -- both operands have a row
    have hpa := hpos .first a ha
    have hpb := hpos .second b hb
    have hdd : dragDropContainers s (some lab) =
        if a.blocks.length ≤ b.blocks.length then (some .first, some .second)
        else (some .second, some .first) := by
      unfold dragDropContainers
      simp only [hra, hrb, List.filter_cons, hpa, hpb, if_true, List.filter_nil, List.map_cons,
        List.map_nil, List.cons_append, List.nil_append]
    by_cases hle : a.blocks.length ≤ b.blocks.length
    · rw [if_pos hle] at hdd
      have hnp : nextPlaceRows s (some lab) = [(a.id, a.blocks.length), (b.id, b.blocks.length)] := by
        unfold nextPlaceRows sourceRows targetRows
        rw [hdd]
        simp only [hra, hrb, List.cons_append, List.nil_append]
      have hsort : sortByBlockCount (nextPlaceRows s (some lab)) =
          [(a.id, a.blocks.length), (b.id, b.blocks.length)] := by
        rw [hnp]
        simp only [sortByBlockCount, List.foldr, insertByBlockCount, hle, if_true]
      refine ⟨?_, ?_, Or.inr ⟨a, ha, b, hb, hla, hlb, Or.inl ⟨?_, ?_⟩⟩⟩
      · intro o st hst hl
        rw [hnp]
        cases o
        · rw [eq_of_label_eq (hw.labels .first) hst ha (hl.trans hla.symm)]; simp
        · rw [eq_of_label_eq (hw.labels .second) hst hb (hl.trans hlb.symm)]; simp
      · intro id hid
        rw [hnp] at hid
        simp only [List.map_cons, List.map_nil, List.mem_cons, List.mem_singleton,
          List.not_mem_nil, or_false] at hid
        rcases hid with h | h
        · exact ⟨.first, a, ha, hla, h.symm⟩
        · exact ⟨.second, b, hb, hlb, h.symm⟩
      · unfold dragSourceRow
        rw [hsort, hnp]
        simp
      · unfold dropTargetRow
        rw [hsort, hnp]
        simp
    · rw [if_neg hle] at hdd
      have hnp : nextPlaceRows s (some lab) = [(b.id, b.blocks.length), (a.id, a.blocks.length)] := by
        unfold nextPlaceRows sourceRows targetRows
        rw [hdd]
        simp only [hra, hrb, List.cons_append, List.nil_append]
      have hle2 : b.blocks.length ≤ a.blocks.length := by omega
      have hsort : sortByBlockCount (nextPlaceRows s (some lab)) =
          [(b.id, b.blocks.length), (a.id, a.blocks.length)] := by
        rw [hnp]
        simp only [sortByBlockCount, List.foldr, insertByBlockCount, hle2, if_true]
      refine ⟨?_, ?_, Or.inr ⟨a, ha, b, hb, hla, hlb, Or.inr ⟨?_, ?_⟩⟩⟩
      · intro o st hst hl
        rw [hnp]
        cases o
        · rw [eq_of_label_eq (hw.labels .first) hst ha (hl.trans hla.symm)]; simp
        · rw [eq_of_label_eq (hw.labels .second) hst hb (hl.trans hlb.symm)]; simp
      · intro id hid
        rw [hnp] at hid
        simp only [List.map_cons, List.map_nil, List.mem_cons, List.mem_singleton,
          List.not_mem_nil, or_false] at hid
        rcases hid with h | h
        · exact ⟨.second, b, hb, hlb, h.symm⟩
        · exact ⟨.first, a, ha, hla, h.symm⟩
      · unfold dragSourceRow
        rw [hsort, hnp]
        simp
      · unfold dropTargetRow
        rw [hsort, hnp]
        simp
  · -- only the first operand has a row
    have hpa := hpos .first a ha
    have hdd : dragDropContainers s (some lab) = (some .first, none) := by
      unfold dragDropContainers
      simp only [hra, hrb, List.filter_cons, hpa, if_true, List.filter_nil, List.map_cons,
        List.map_nil, List.append_nil]
    have hnp : nextPlaceRows s (some lab) = [(a.id, a.blocks.length)] := by
      unfold nextPlaceRows sourceRows targetRows
      rw [hdd]
      simp only [hra, List.append_nil]
    refine ⟨?_, ?_, Or.inl ?_⟩
    · intro o st hst hl
      rw [hnp]
      cases o
      · rw [eq_of_label_eq (hw.labels .first) hst ha (hl.trans hla.symm)]; simp
      · exact absurd hl (hnb st hst)
    · intro id hid
      rw [hnp] at hid
      simp only [List.map_cons, List.map_nil, List.mem_singleton] at hid
      exact ⟨.first, a, ha, hla, hid.symm⟩
    · unfold dropTargetRow
      rw [hnp]
      unfold targetRows
      rw [hdd]
      simp
  · -- only the second operand has a row
    have hpb := hpos .second b hb
    have hdd : dragDropContainers s (some lab) = (some .second, none) := by
      unfold dragDropContainers
      simp only [hra, hrb, List.filter_cons, hpb, if_true, List.filter_nil, List.map_cons,
        List.map_nil, List.nil_append]
    have hnp : nextPlaceRows s (some lab) = [(b.id, b.blocks.length)] := by
      unfold nextPlaceRows sourceRows targetRows
      rw [hdd]
      simp only [hrb, List.append_nil]
    refine ⟨?_, ?_, Or.inl ?_⟩
    · intro o st hst hl
      rw [hnp]
      cases o
      · exact absurd hl (hna st hst)
      · rw [eq_of_label_eq (hw.labels .second) hst hb (hl.trans hlb.symm)]; simp
    · intro id hid
      rw [hnp] at hid
      simp only [List.map_cons, List.map_nil, List.mem_singleton] at hid
      exact ⟨.second, b, hb, hlb, hid.symm⟩
    · unfold dropTargetRow
      rw [hnp]
      unfold targetRows
      rw [hdd]
      simp
  · -- no operand has a row
    have hdd : dragDropContainers s (some lab) = (none, none) := by
      unfold dragDropContainers
      simp only [hra, hrb, List.filter_nil, List.map_nil, List.append_nil]
    have hnp : nextPlaceRows s (some lab) = [] := by
      unfold nextPlaceRows sourceRows targetRows
      rw [hdd]
      rfl
    refine ⟨?_, ?_, Or.inl ?_⟩
    · intro o st hst hl
      cases o
      · exact absurd hl (hna st hst)
      · exact absurd hl (hnb st hst)
    · intro id hid
      rw [hnp] at hid
      cases hid
    · unfold dropTargetRow
      rw [hnp]
      unfold targetRows
      rw [hdd]
      simp

/-! ## Setting up the step the cursor has reached -/

theorem Session.live_eq_value {s : Session}
    (h : s.num1 = calculateNumberFromBlocks s.c1 ∧ s.num2 = calculateNumberFromBlocks s.c2)
    (o : Operand) : s.live o = calculateNumberFromBlocks (s.container o) := by
  cases o
  · exact h.1
  · exact h.2

theorem Entering.grouped {s t : Session} {j : Nat} (he : Entering s j) (hr : SameRows s t) :
    Grouped t t j where
  wf := hr.wellFormed_rows he.wf
  noEmpty := hr.noEmptyRows_rows he.noEmpty
  shape := hr.shape he.shape
  evolves := Evolves.refl_ev t
  cursor := rfl
  surface := rfl
  phase := Or.inl ⟨by rw [hr.total_eq, hr.digitSum_same]; exact he.fresh, rfl, rfl⟩

/-- While the cursor enters place `j`, a stack with ten blocks is a stack of
place `j`. -/
theorem full_row_at_cursor {s : Session} {j : Nat} (hw : WellFormed s) (hsh : Shape s j)
    (hfresh : s.total (j + 1) = s.digitSum (j + 1)) {o : Operand} {st : Stack}
    (hst : st ∈ (s.container o).placeStacks) (h10 : 10 ≤ st.blocks.length) :
    st.label = labelAt s.placeLabels j := by
  obtain ⟨lab, hl, hlt, _⟩ := hw.rows o st hst
  have hcnt := hw.cnt_of_mem hst hl
  have hidx : lab.index = j := by
    by_contra hne
    rcases Nat.lt_or_gt_of_ne hne with h | h
    · have := hsh.below o lab.index h
      omega
    · by_cases h1 : lab.index = j + 1
      · rw [h1] at hcnt
        have hge1 := hsh.nextGe .first
        have hge2 := hsh.nextGe .second
        have hd1 := getDigit_le (s.original .first) (j + 1)
        have hd2 := getDigit_le (s.original .second) (j + 1)
        unfold Session.total Session.digitSum at hfresh
        change s.cnt .first (j + 1) + s.cnt .second (j + 1) =
          getDigit (s.original .first) (j + 1) + getDigit (s.original .second) (j + 1) at hfresh
        cases o <;> omega
      · have := hsh.above o lab.index (by omega)
        have hd := getDigit_le (s.original o) lab.index
        omega
  rw [← hidx]
  exact hw.labelAt_of_index hst hl

theorem mem_fullRows {s : Session} {id : Nat} (h : id ∈ fullRows s) :
    ∃ o, ∃ st ∈ (s.container o).placeStacks, 10 ≤ st.blocks.length ∧ st.id = id := by
  unfold fullRows at h
  obtain ⟨st, hst, hid⟩ := List.mem_map.mp h
  obtain ⟨hmem, hlen⟩ := List.mem_filter.mp hst
  have hlen' : 10 ≤ st.blocks.length := by simpa using hlen
  rcases List.mem_append.mp hmem with h1 | h2
  · exact ⟨.first, st, h1, hlen', hid⟩
  · exact ⟨.second, st, h2, hlen', hid⟩

theorem fullRows_mem {s : Session} {o : Operand} {st : Stack}
    (hst : st ∈ (s.container o).placeStacks) (h10 : 10 ≤ st.blocks.length) :
    st.id ∈ fullRows s := by
  unfold fullRows
  refine List.mem_map.mpr ⟨st, List.mem_filter.mpr ⟨?_, by simpa using h10⟩, rfl⟩
  cases o
  · exact List.mem_append_left _ hst
  · exact List.mem_append_right _ hst

theorem Grouped.sum {s0 s : Session} {j : Nat} (hg : Grouped s0 s j)
    (h0 : s0.num1 + s0.num2 = s0.originalNum1 + s0.originalNum2) :
    s.num1 + s.num2 = s.originalNum1 + s.originalNum2 := by
  rw [hg.evolves.originalNum1, hg.evolves.originalNum2]
  rcases hg.phase with h | ⟨_, h | h⟩
  · rw [h.2.1, h.2.2]; exact h0
  · rw [h.1, h.2]; exact h0
  · rw [h.2.1, h.2.2, hg.shape.value_sum_shape hg.wf, hg.evolves.originalNum1,
      hg.evolves.originalNum2]

theorem Grouped.high {s0 s : Session} {j : Nat} (hg : Grouped s0 s j)
    (h0 : ∀ o, s0.original o / 10 ^ j ≤ s0.live o / 10 ^ j) (o : Operand) :
    s.original o / 10 ^ (j + 1) ≤ s.live o / 10 ^ (j + 1) := by
  have hsame : s.num1 = s0.num1 ∧ s.num2 = s0.num2 →
      s.original o / 10 ^ (j + 1) ≤ s.live o / 10 ^ (j + 1) := by
    intro h
    rw [hg.evolves.original_eq]
    have : s.live o = s0.live o := by
      cases o
      · exact h.1
      · exact h.2
    rw [this]
    exact high_succ _ _ _ (h0 o)
  rcases hg.phase with h | ⟨_, h | h⟩
  · exact hsame h.2
  · exact hsame h
  · rw [Session.live_eq_value h.2]
    exact value_high hg.wf o (j + 1) (fun p hp => hg.shape.digits_le o p hp)

theorem Grouped.low {s0 s : Session} {j : Nat} (hg : Grouped s0 s j)
    (h0 : s0.num1 % 10 ^ j + s0.num2 % 10 ^ j < 10 ^ j)
    (hd : s0.num1 / 10 ^ j % 10 + s0.num2 / 10 ^ j % 10 ≤ 9) :
    s.num1 % 10 ^ (j + 1) + s.num2 % 10 ^ (j + 1) < 10 ^ (j + 1) := by
  rcases hg.phase with h | ⟨_, h | h⟩
  · rw [h.2.1, h.2.2]; exact low_succ_of_digits _ _ _ h0 hd
  · rw [h.1, h.2]; exact low_succ_of_digits _ _ _ h0 hd
  · rw [h.2.1, h.2.2]
    exact lt_of_le_of_lt (value_low hg.wf (j + 1)) (hg.shape.nextCarried h.1).2.1

theorem installDropHandler_none (s : Session) (step : Step) (d : Option Nat) :
    installDropHandler s step d none = s := by
  cases d <;> rfl

/-- Function `processNextCarryStep` on a session whose cursor has just reached
`j`: the step is computed in agreement with the paper trace and set up, and
the session is steady. -/
theorem processNextCarryStep_steady {s : Session} {j : Nat} (he : Entering s j) :
    Steady (processNextCarryStep s) j := by
  unfold processNextCarryStep resumeNextCarryStep
  have hcs : calculateCurrentStep s s.currentStepIndex = calculateCurrentStep s j := by
    rw [he.cursor]
  rw [hcs]
  by_cases hj : j < s.placeLabels.length
  · have hlab : labelAt s.placeLabels j ≠ none := by
      obtain ⟨lab, hlab, -⟩ := he.wf.labelAt_some hj
      rw [hlab]
      exact Option.some_ne_none _
    obtain ⟨step, hstep, hagree, hd1, hd2, htype⟩ := stepAgrees_of_liveReady he.live hj hlab
    rw [hstep]
    dsimp only
    by_cases hsum : step.digit1 + step.digit2 ≥ 10
    · -- a drag-drop step
      rw [if_pos hsum] at htype
      rw [htype]
      dsimp only
      unfold startDragDropStep
      have hrt := sameRows_trackStepDetails s step .dragDrop
      have hct := sameControl_trackStepDetails s step .dragDrop
      generalize trackStepDetails s step .dragDrop = t at hrt hct ⊢
      have hgt := he.grouped hrt
      obtain ⟨lab, hlab, hidx⟩ := he.wf.labelAt_some hj
      have hpl : step.placeLabel = some lab := hagree.placeLabel.trans hlab
      have hlabt : labelAt t.placeLabels j = some lab := by rw [hrt.placeLabels]; exact hlab
      rw [hpl]
      obtain ⟨hcomplete, hsound, hrows⟩ := dragDrop_rows t hgt.wf hgt.noEmpty lab
      have hfold := groupIfMoreThanTen_grouped ((nextPlaceRows t (some lab)).map (fun r => r.1)) t
        hgt
        (by
          intro id hid
          obtain ⟨o, st, hst, _, hid'⟩ := hsound id hid
          rw [← hid']
          exact hgt.wf.fresh o st hst)
        (by
          intro id hid r hr
          obtain ⟨o, st, hst, hl, hid'⟩ := hsound id hid
          have := hgt.wf.findStack_of_mem hst
          rw [hid', hr] at this
          cases this
          rw [hl, hlabt])
      obtain ⟨hg, hsettle⟩ := hfold
      have hsettled := hsettle (by
        intro o st hst hl _
        exact hcomplete o st hst (hl.trans hlabt))
      unfold setUpDragDropRows
      dsimp only
      generalize groupIfMoreThanTen t ((nextPlaceRows t (some lab)).map (fun r => r.1)) = g
        at hg hsettled ⊢
      have hru := updateAllRowPlaceValues_sameRows g hg.noEmpty
      have hcu := sameControl_updateAllRowPlaceValues g
      generalize updateAllRowPlaceValues g = u at hru hcu ⊢
      have hlive0 : t.num1 = s.num1 ∧ t.num2 = s.num2 := ⟨hct.num1, hct.num2⟩
      have hsum0 : t.num1 + t.num2 = t.originalNum1 + t.originalNum2 := by
        rw [hct.num1, hct.num2, hrt.originalNum1, hrt.originalNum2]; exact he.live.sum
      have hhigh0 : ∀ o, t.original o / 10 ^ j ≤ t.live o / 10 ^ j := by
        intro o
        rw [hrt.original_same]
        have : t.live o = s.live o := by
          cases o
          · exact hct.num1
          · exact hct.num2
        rw [this]
        exact he.live.high o
      have hcursor : g.currentStepIndex = j := by
        rw [hg.cursor, hct.currentStepIndex]; exact he.cursor
      have hliveu : ∀ o, u.live o = g.live o := by
        intro o
        cases o
        · exact hcu.num1
        · exact hcu.num2
      -- the steady session, whatever handler is installed
      have hsteady : ∀ surf, SurfaceOk { u with surface := surf } j surf →
          Steady { u with surface := surf } j := by
        intro surf hsurf
        have hrs : SameRows g { u with surface := surf } :=
          ⟨hru.c1, hru.c2, hru.nextId, hru.placeLabels, hru.originalNum1, hru.originalNum2⟩
        refine ⟨hcu.currentStepIndex.trans hcursor, hrs.wellFormed_rows hg.wf,
          hrs.noEmptyRows_rows hg.noEmpty, hrs.shape hg.shape, ?_, ?_, ?_, hsurf⟩
        · intro o; rw [hrs.cnt_same]; exact hsettled o
        · show u.num1 + u.num2 = u.originalNum1 + u.originalNum2
          rw [hcu.num1, hcu.num2, hru.originalNum1, hru.originalNum2]
          exact hg.sum hsum0
        · intro o
          show u.original o / 10 ^ (j + 1) ≤ u.live o / 10 ^ (j + 1)
          rw [hliveu, hru.original_same]
          exact hg.high hhigh0 o
      rcases hrows with hnone | ⟨a, ha, b, hb, hla, hlb, hdd⟩
      · rw [hnone, installDropHandler_none]
        have hsu : u.surface = s.surface := by
          rw [hcu.surface, hg.surface, hct.surface]
        have hold : SurfaceOk { u with surface := u.surface } j u.surface := by
          rw [hsu]
          cases hsf : s.surface with
          | idle => trivial
          | numpad st =>
            intro hc
            have := he.earlier st (by unfold Session.shownStep; rw [hsf])
            omega
          | dragDrop st d1 d2 =>
            intro hc
            have := he.earlier st (by unfold Session.shownStep; rw [hsf])
            omega
        exact hsteady u.surface hold
      · have hne : a.id ≠ b.id := hgt.wf.ids_disjoint ha hb
        have hfa := hgt.wf.findStack_of_mem (o := .first) ha
        have hfb := hgt.wf.findStack_of_mem (o := .second) hb
        have hlta := hgt.wf.fresh .first a ha
        have hltb := hgt.wf.fresh .second b hb
        have hevu : Evolves t u := hg.evolves.trans_ev hru.evolves_rows
        have hagree' : ∀ surf, StepAgrees { u with surface := surf } step j := fun surf =>
          hagree.transfer (hevu.placeLabels.trans hrt.placeLabels)
            (hevu.originalNum1.trans hrt.originalNum1)
            (hevu.originalNum2.trans hrt.originalNum2)
        have hfind : ∀ surf id, id = a.id ∨ id = b.id → ∀ r,
            findStack { u with surface := surf } id = some r →
              r.2.label = labelAt ({ u with surface := surf } : Session).placeLabels j := by
          intro surf id hid r hr
          obtain ⟨ro, rst⟩ := r
          have hr' : findStack u id = some (ro, rst) := hr
          show rst.label = labelAt u.placeLabels j
          rw [hevu.placeLabels, hlabt]
          rcases hid with rfl | rfl
          · obtain ⟨st, hst, hl⟩ := hevu.findStack_of hgt.wf hlta hr'
            rw [hfa] at hst
            have hl' : st.label = rst.label := hl
            cases hst
            rw [← hl', hla]
          · obtain ⟨st, hst, hl⟩ := hevu.findStack_of hgt.wf hltb hr'
            rw [hfb] at hst
            have hl' : st.label = rst.label := hl
            cases hst
            rw [← hl', hlb]
        have hnext : t.nextId ≤ u.nextId := hevu.nextId
        rcases hdd with ⟨hd, hdr⟩ | ⟨hd, hdr⟩
        · rw [hd, hdr]
          exact hsteady _ (fun _ => ⟨hagree' _, hne, lt_of_lt_of_le hlta hnext,
            lt_of_lt_of_le hltb hnext, fun id hid => hfind _ id hid⟩)
        · rw [hd, hdr]
          exact hsteady _ (fun _ => ⟨hagree' _, hne.symm, lt_of_lt_of_le hltb hnext,
            lt_of_lt_of_le hlta hnext, fun id hid => hfind _ id hid.symm⟩)
    · -- a numpad step
      rw [if_neg hsum] at htype
      rw [htype]
      dsimp only
      unfold startNumpadStep
      have hrt := sameRows_trackStepDetails s step .numpad
      have hct := sameControl_trackStepDetails s step .numpad
      generalize trackStepDetails s step .numpad = t at hrt hct ⊢
      have hgt := he.grouped hrt
      have hfresh : t.total (j + 1) = t.digitSum (j + 1) := by
        rw [hrt.total_eq, hrt.digitSum_same]; exact he.fresh
      have hfold := groupIfMoreThanTen_grouped (fullRows t) t hgt
        (by
          intro id hid
          obtain ⟨o, st, hst, _, hid'⟩ := mem_fullRows hid
          rw [← hid']
          exact hgt.wf.fresh o st hst)
        (by
          intro id hid r hr
          obtain ⟨o, st, hst, h10, hid'⟩ := mem_fullRows hid
          have := hgt.wf.findStack_of_mem hst
          rw [hid', hr] at this
          cases this
          exact full_row_at_cursor hgt.wf hgt.shape hfresh hst h10)
      obtain ⟨hg, hsettle⟩ := hfold
      have hsettled := hsettle (by
        intro o st hst _ h10
        exact fullRows_mem hst h10)
      generalize groupIfMoreThanTen t (fullRows t) = g at hg hsettled ⊢
      have hsum0 : t.num1 + t.num2 = t.originalNum1 + t.originalNum2 := by
        rw [hct.num1, hct.num2, hrt.originalNum1, hrt.originalNum2]; exact he.live.sum
      have hhigh0 : ∀ o, t.original o / 10 ^ j ≤ t.live o / 10 ^ j := by
        intro o
        rw [hrt.original_same]
        have : t.live o = s.live o := by
          cases o
          · exact hct.num1
          · exact hct.num2
        rw [this]
        exact he.live.high o
      have hrs : SameRows g { g with surface := .numpad step } := ⟨rfl, rfl, rfl, rfl, rfl, rfl⟩
      refine ⟨?_, hrs.wellFormed_rows hg.wf, hrs.noEmptyRows_rows hg.noEmpty, hrs.shape hg.shape, ?_, ?_,
        ?_, fun _ => ⟨?_, ?_⟩⟩
      · show g.currentStepIndex = j
        rw [hg.cursor, hct.currentStepIndex]; exact he.cursor
      · intro o; rw [hrs.cnt_same]; exact hsettled o
      · exact hg.sum hsum0
      · exact hg.high hhigh0
      · exact hagree.transfer (hg.evolves.placeLabels.trans hrt.placeLabels)
          (hg.evolves.originalNum1.trans hrt.originalNum1)
          (hg.evolves.originalNum2.trans hrt.originalNum2)
      · show g.num1 % 10 ^ (j + 1) + g.num2 % 10 ^ (j + 1) < 10 ^ (j + 1)
        apply hg.low
        · rw [hct.num1, hct.num2]; exact he.live.low
        · rw [hct.num1, hct.num2, ← hd1, ← hd2]
          omega
  · -- the cursor is past the table
    have hnone := (calculateCurrentStep_none s j).mpr (Nat.le_of_not_lt hj)
    rw [hnone]
    dsimp only
    have hrs : SameRows s { s with surface := .idle, completed := true } :=
      ⟨rfl, rfl, rfl, rfl, rfl, rfl⟩
    refine ⟨he.cursor, hrs.wellFormed_rows he.wf, hrs.noEmptyRows_rows he.noEmpty, hrs.shape he.shape, ?_,
      he.live.sum, ?_, trivial⟩
    · intro o
      rw [hrs.cnt_same, he.wf.cnt_beyond o (Nat.le_of_not_lt hj)]
      exact Nat.zero_le _
    · intro o
      exact high_succ _ _ _ (he.live.high o)

/-! ## The cursor moves on -/

theorem Shape.cnt_next_le {s : Session} {j : Nat} (h : Shape s j) (o : Operand) :
    s.cnt o (j + 1) ≤ getDigit (s.original o) (j + 1) + 1 := by
  have h1 := h.nextGe .first
  have h2 := h.nextGe .second
  have h3 := h.nextLe
  unfold Session.total Session.digitSum at h3
  change s.cnt .first (j + 1) + s.cnt .second (j + 1) ≤
    getDigit (s.original .first) (j + 1) + getDigit (s.original .second) (j + 1) + 1 at h3
  cases o <;> omega

theorem Shape.total_above {s : Session} {j : Nat} (h : Shape s j) (p : Nat) (hp : j + 2 ≤ p) :
    s.total p = s.digitSum p := by
  unfold Session.total Session.digitSum
  rw [h.above .first p hp, h.above .second p hp]
  rfl

/-- Once the stacks of place `j` hold at most nine blocks each, the page has
the shape for the step of place `j + 1`. -/
theorem Shape.advance {s : Session} {j : Nat} (h : Shape s j) (hs : ∀ o, s.cnt o j ≤ 9) :
    Shape s (j + 1) where
  conserved := h.conserved
  above := fun o p hp => h.above o p (by omega)
  nextGe := fun o => Nat.le_of_eq (h.above o (j + 2) (Nat.le_refl _)).symm
  nextLe := by
    have := h.total_above (j + 1 + 1) (Nat.le_refl _)
    omega
  nextCarried := by
    intro hc
    have := h.total_above (j + 1 + 1) (Nat.le_refl _)
    omega
  nextLow := by
    intro hc
    have := h.total_above (j + 1 + 1) (Nat.le_refl _)
    omega
  below := by
    intro o p hp
    by_cases hpj : p = j
    · subst hpj; exact hs o
    · exact h.below o p (by omega)
  here := by
    intro o
    have := h.cnt_next_le o
    have := getDigit_le (s.original o) (j + 1)
    omega
  hereBoth := by
    have := h.nextLe
    have := digitSum_le s (j + 1)
    omega
  hereLow := by
    rintro ⟨o, ho⟩
    have hle := h.cnt_next_le o
    have hd := getDigit_le (s.original o) (j + 1)
    have h1 := h.nextGe .first
    have h2 := h.nextGe .second
    have h3 := h.nextLe
    apply (h.nextCarried ?_).2.1
    unfold Session.total Session.digitSum at h3 ⊢
    change s.cnt .first (j + 1) + s.cnt .second (j + 1) ≤
      getDigit (s.original .first) (j + 1) + getDigit (s.original .second) (j + 1) + 1 at h3
    change s.cnt .first (j + 1) + s.cnt .second (j + 1) =
      getDigit (s.original .first) (j + 1) + getDigit (s.original .second) (j + 1) + 1
    cases o <;> omega

theorem SameRows.surfaceOk {s u : Session} (hr : SameRows s u) (hc : SameControl s u) {j : Nat}
    (h : SurfaceOk s j s.surface) : SurfaceOk u j u.surface := by
  rw [hc.surface]
  cases hsurf : s.surface with
  | idle => trivial
  | numpad step =>
    rw [hsurf] at h
    intro hcur
    have h := h hcur
    refine ⟨h.1.transfer hr.placeLabels hr.originalNum1 hr.originalNum2, ?_⟩
    rw [hc.num1, hc.num2]
    exact h.2
  | dragDrop step drag drop =>
    rw [hsurf] at h
    intro hcur
    obtain ⟨h1, h2, h3, h4, h5⟩ := h hcur
    refine ⟨h1.transfer hr.placeLabels hr.originalNum1 hr.originalNum2, h2, ?_, ?_, ?_⟩
    · rw [hr.nextId]; exact h3
    · rw [hr.nextId]; exact h4
    · intro id hid r hr'
      rw [hr.findStack_eq] at hr'
      rw [hr.placeLabels]
      exact h5 id hid r hr'

theorem Steady.transfer_steady {s u : Session} {j : Nat} (h : Steady s j) (hr : SameRows s u)
    (hc : SameControl s u) : Steady u j where
  cursor := hc.currentStepIndex.trans h.cursor
  wf := hr.wellFormed_rows h.wf
  noEmpty := hr.noEmptyRows_rows h.noEmpty
  shape := hr.shape h.shape
  settled := by intro o; rw [hr.cnt_same]; exact h.settled o
  sum := by rw [hc.num1, hc.num2, hr.originalNum1, hr.originalNum2]; exact h.sum
  high := by
    intro o
    rw [hr.original_same]
    have : u.live o = s.live o := by
      cases o
      · exact hc.num1
      · exact hc.num2
    rw [this]
    exact h.high o
  surface := hr.surfaceOk hc h.surface

theorem groupIfMoreThanTen_noop (s : Session) (ids : List Nat)
    (h : ∀ id ∈ ids, ∀ o a, findStack s id = some (o, a) → a.blocks.length < 10) :
    groupIfMoreThanTen s ids = s := by
  induction ids with
  | nil => rfl
  | cons id ids ih =>
    show groupIfMoreThanTen (groupRow s id) ids = s
    have hrow : groupRow s id = s := by
      cases hf : findStack s id with
      | none => exact groupRow_absent s id hf
      | some r =>
        obtain ⟨o, a⟩ := r
        exact groupRow_small s id o a hf (h id (List.mem_cons_self _ _) o a hf)
    rw [hrow]
    exact ih (fun id' hid' => h id' (List.mem_cons_of_mem _ hid'))

/-- The timer callback `setupSecondPhaseRegrouping` for the label of the place
the cursor is at finds the step set up already and changes no stack. -/
theorem setupSecondPhaseRegrouping_steady {s : Session} {j : Nat} (h : Steady s j)
    (lab : PlaceLabel) (hidx : lab.index = j) :
    Steady (setupSecondPhaseRegrouping s (some lab)) j := by
  unfold setupSecondPhaseRegrouping setUpDragDropRows
  dsimp only
  obtain ⟨_, hsound, _⟩ := dragDrop_rows s h.wf h.noEmpty lab
  rw [groupIfMoreThanTen_noop]
  · exact h.transfer_steady (updateAllRowPlaceValues_sameRows s h.noEmpty)
      (sameControl_updateAllRowPlaceValues s)
  · intro id hid o a hf
    obtain ⟨o', st, hst, hl, hid'⟩ := hsound id hid
    have := h.wf.findStack_of_mem hst
    rw [hid', hf] at this
    cases this
    have hcnt := h.wf.cnt_of_mem hst hl
    rw [hidx] at hcnt
    have := h.settled o
    omega

/-- A correct numpad entry moves the cursor to the next place. -/
theorem handleNumpadInput_entering {s : Session} {j : Nat} (h : Steady s j) (step : Step)
    (hsurf : s.surface = .numpad step) (hcur : step.stepIndex = j) :
    Entering (handleNumpadInput s step (step.digit1 + step.digit2)) (j + 1) := by
  unfold handleNumpadInput
  dsimp only
  rw [if_pos rfl]
  have hr := updateAllRowPlaceValues_sameRows s h.noEmpty
  have hc := sameControl_updateAllRowPlaceValues s
  generalize updateAllRowPlaceValues s = u at hr hc ⊢
  have hst := h.transfer_steady hr hc
  have hrs : SameRows u { u with currentStepIndex := u.currentStepIndex + 1 } :=
    ⟨rfl, rfl, rfl, rfl, rfl, rfl⟩
  have hok := h.surface
  rw [hsurf] at hok
  have hok := hok hcur
  refine ⟨?_, hrs.wellFormed_rows hst.wf, hrs.noEmptyRows_rows hst.noEmpty,
    hrs.shape (hst.shape.advance hst.settled), ?_, ⟨?_, ?_, ?_⟩, ?_⟩
  · show u.currentStepIndex + 1 = j + 1
    rw [hst.cursor]
  · rw [hrs.total_eq, hrs.digitSum_same]
    exact hst.shape.total_above (j + 2) (Nat.le_refl _)
  · exact hst.sum
  · show u.num1 % 10 ^ (j + 1) + u.num2 % 10 ^ (j + 1) < 10 ^ (j + 1)
    rw [hc.num1, hc.num2]
    exact hok.2
  · exact hst.high
  · intro st hst2
    have hsu : ({ u with currentStepIndex := u.currentStepIndex + 1 } : Session).surface =
        .numpad step := by
      show u.surface = _
      rw [hc.surface, hsurf]
    unfold Session.shownStep at hst2
    rw [hsu] at hst2
    cases hst2
    omega

/-! ## Counting blocks through a drop -/

/-- Moving one block of place `j` from the stack of one operand to the stack of
the other keeps the shape of the page when the stack that receives it had
less than nine blocks. -/
theorem Shape.after_move {s w : Session} {j : Nat} {source target : Operand}
    (hsh : Shape s j) (hset : ∀ o, s.cnt o j ≤ 9) (he : Evolves s w) (hne : source ≠ target)
    (hsrc : w.cnt source j + 1 = s.cnt source j)
    (htgt : w.cnt target j = s.cnt target j + 1)
    (hoth : ∀ o p, p ≠ j → w.cnt o p = s.cnt o p)
    (hpos : 1 ≤ s.cnt target j) (hlt : s.cnt target j < 9) :
    Shape w j ∧ ∀ o, w.cnt o j ≤ 9 := by
  have hsetS := hset source
  have htot : ∀ p, w.total p = s.total p := by
    intro p
    unfold Session.total
    by_cases hp : p = j
    · subst hp
      cases source <;> cases target <;> first | exact absurd rfl hne | omega
    · rw [hoth _ p hp, hoth _ p hp]
  have hlow : ∀ q, lowDom w q = lowDom s q := fun q => placeSum_congr q (fun p _ => htot p)
  have hsettled : ∀ o, w.cnt o j ≤ 9 := by
    intro o
    cases source <;> cases target <;> cases o <;> first | exact absurd rfl hne | omega
  refine ⟨?_, hsettled⟩
  constructor
  · rw [he.placeLabels, he.originalNum1, he.originalNum2, hlow]
    exact hsh.conserved
  · intro o p hp
    rw [hoth o p (by omega), he.original_eq]
    exact hsh.above o p hp
  · intro o
    rw [hoth o (j + 1) (by omega), he.original_eq]
    exact hsh.nextGe o
  · rw [htot, he.digitSum_eq]
    exact hsh.nextLe
  · intro hc
    rw [htot, he.digitSum_eq] at hc
    have h0 := (hsh.nextCarried hc).1
    exfalso
    cases source <;> cases target <;> first | exact absurd rfl hne | omega
  · intro hc
    rw [htot, he.digitSum_eq] at hc
    have h0 := (hsh.nextCarried hc).1
    exfalso
    cases source <;> cases target <;> first | exact absurd rfl hne | omega
  · intro o p hp
    rw [hoth o p (by omega)]
    exact hsh.below o p hp
  · intro o
    exact le_trans (hsettled o) (by decide)
  · rw [htot]
    exact hsh.hereBoth
  · rintro ⟨o, ho⟩
    have := hsettled o
    omega

/-- The shape of the page after a drop on a stack of nine blocks: the dragged
block and the nine leave place `j`, and the operand of the drop target gets
one block of place `j + 1`. -/
theorem Shape.after_carry {s r : Session} {j : Nat} {source target : Operand}
    (hw : WellFormed s) (hsh : Shape s j) (hset : ∀ o, s.cnt o j ≤ 9) (he : Evolves s r)
    (hne : source ≠ target)
    (hsrc : r.cnt source j + 1 = s.cnt source j)
    (htgt : r.cnt target j = 0) (h9 : s.cnt target j = 9)
    (hnt : r.cnt target (j + 1) = s.cnt target (j + 1) + 1)
    (hns : r.cnt source (j + 1) = s.cnt source (j + 1))
    (hoth : ∀ o p, p ≠ j → p ≠ j + 1 → r.cnt o p = s.cnt o p) :
    Shape r (j + 1) ∧ r.total (j + 1 + 1) = r.digitSum (j + 1 + 1) ∧
      lowDom r (j + 1) < 10 ^ (j + 1) ∧
      ∀ o, getDigit (r.original o) (j + 1) ≤ r.cnt o (j + 1) := by
  have hsetS := hset source
  have tj : r.total j + 10 = s.total j := by
    unfold Session.total
    cases source <;> cases target <;> first | exact absurd rfl hne | omega
  have tj1 : r.total (j + 1) = s.total (j + 1) + 1 := by
    unfold Session.total
    cases source <;> cases target <;> first | exact absurd rfl hne | omega
  have telse : ∀ q, q ≠ j → q ≠ j + 1 → r.total q = s.total q := by
    intro q h1 h2
    unfold Session.total
    rw [hoth _ q h1 h2, hoth _ q h1 h2]
  have hL := next_place_in_table hw hsh.conserved (by omega : 10 ≤ s.total j)
  have hnc : s.total (j + 1) ≤ s.digitSum (j + 1) := by
    have hle := hsh.nextLe
    by_contra hgt
    have h0 := (hsh.nextCarried (by omega)).1
    cases source <;> cases target <;> first | exact absurd rfl hne | omega
  have hdig : ∀ o, s.cnt o (j + 1) = getDigit (s.original o) (j + 1) := by
    intro o
    have h1 := hsh.nextGe .first
    have h2 := hsh.nextGe .second
    unfold Session.total Session.digitSum at hnc
    change s.cnt .first (j + 1) + s.cnt .second (j + 1) ≤
      getDigit (s.original .first) (j + 1) + getDigit (s.original .second) (j + 1) at hnc
    cases o <;> omega
  have hr1 : ∀ o, s.cnt o (j + 1) ≤ r.cnt o (j + 1) ∧ r.cnt o (j + 1) ≤ s.cnt o (j + 1) + 1 := by
    intro o
    cases source <;> cases target <;> cases o <;> first | exact absurd rfl hne | omega
  have hrj : ∀ o, r.cnt o j ≤ 8 := by
    intro o
    cases source <;> cases target <;> cases o <;> first | exact absurd rfl hne | omega
  have hfresh : r.total (j + 1 + 1) = r.digitSum (j + 1 + 1) := by
    rw [telse (j + 1 + 1) (by omega) (by omega), he.digitSum_eq]
    exact hsh.total_above (j + 1 + 1) (Nat.le_refl _)
  have hlow : lowDom r (j + 1) < 10 ^ (j + 1) := by
    show placeSum r.total (j + 1) < _
    rw [placeSum_succ]
    have h1 : placeSum r.total j = placeSum s.total j :=
      placeSum_congr j (fun p hp => telse p (by omega) (by omega))
    have h2 : placeSum s.total j < 2 * 10 ^ j := by
      apply placeSum_lt_of_le_eighteen
      intro p hp
      have a := hsh.below .first p hp
      have b := hsh.below .second p hp
      unfold Session.total
      omega
    have h3 : r.total j ≤ 8 := by
      unfold Session.total
      cases source <;> cases target <;> first | exact absurd rfl hne | omega
    have h4 : r.total j * 10 ^ j ≤ 8 * 10 ^ j := Nat.mul_le_mul_right _ h3
    rw [Nat.pow_succ]
    omega
  have hge : ∀ o, getDigit (r.original o) (j + 1) ≤ r.cnt o (j + 1) := by
    intro o
    rw [he.original_eq]
    exact le_trans (hsh.nextGe o) (hr1 o).1
  refine ⟨?_, hfresh, hlow, hge⟩
  constructor
  · rw [he.placeLabels, he.originalNum1, he.originalNum2, ← hsh.conserved]
    obtain ⟨m, hm⟩ : ∃ m, s.placeLabels.length = j + 2 + m :=
      ⟨s.placeLabels.length - (j + 2), by omega⟩
    unfold lowDom
    rw [hm]
    exact placeSum_carry s.total r.total j m telse tj tj1
  · intro o p hp
    rw [hoth o p (by omega) (by omega), he.original_eq]
    exact hsh.above o p (by omega)
  · intro o
    rw [hoth o (j + 1 + 1) (by omega) (by omega), he.original_eq]
    exact Nat.le_of_eq (hsh.above o (j + 1 + 1) (Nat.le_refl _)).symm
  · omega
  · intro hc
    omega
  · intro hc
    omega
  · intro o p hp
    by_cases hpj : p = j
    · subst hpj
      exact le_trans (hrj o) (by decide)
    · rw [hoth o p hpj (by omega)]
      exact hsh.below o p (by omega)
  · intro o
    have := (hr1 o).2
    have := hdig o
    have := getDigit_le (s.original o) (j + 1)
    omega
  · have := digitSum_le s (j + 1)
    omega
  · intro _
    exact hlow

theorem updateAllRowPlaceValues_value (s : Session) (o : Operand) :
    calculateNumberFromBlocks ((updateAllRowPlaceValues s).container o) =
      calculateNumberFromBlocks (s.container o) := by
  unfold calculateNumberFromBlocks
  rw [(updateAllRowPlaceValues_filters s).rows o]
  exact sum_filter_nonempty _

/-! ## The drop handler on a steady page -/

/-- What the drop handler finds on a steady page: the two rows are the stacks
of the step's place in the containers of the two operands. -/
theorem Steady.drop_rows {s : Session} {j : Nat} (h : Steady s j) {step : Step} {drag drop : Nat}
    (hsurf : s.surface = .dragDrop step drag drop) (hcur : step.stepIndex = j)
    {source target : Operand}
    {dragRow dropRow : Stack} (hdrag : findStack s drag = some (source, dragRow))
    (hdrop : findStack s drop = some (target, dropRow)) :
    ∃ lab, lab.index = j ∧ j < s.placeLabels.length ∧ labelAt s.placeLabels j = some lab ∧
      dragRow.label = some lab ∧ dropRow.label = some lab ∧
      source ≠ target ∧ dragRow ∈ (s.container source).placeStacks ∧
      dropRow ∈ (s.container target).placeStacks ∧ dragRow.id = drag ∧ dropRow.id = drop ∧
      StepAgrees s step j ∧ drag < s.nextId ∧ drop < s.nextId ∧ drag ≠ drop := by
  have hok := h.surface
  rw [hsurf] at hok
  obtain ⟨hagree, hne, hd1, hd2, hlab⟩ := hok hcur
  obtain ⟨hm1, hid1⟩ := findStack_mem hdrag
  obtain ⟨hm2, hid2⟩ := findStack_mem hdrop
  have hl1 := hlab drag (Or.inl rfl) _ hdrag
  have hl2 := hlab drop (Or.inr rfl) _ hdrop
  obtain ⟨lab, hlj, hidx⟩ := h.wf.labelAt_some hagree.inTable
  refine ⟨lab, hidx, hagree.inTable, hlj, hl1.trans hlj, hl2.trans hlj, ?_, hm1, hm2, hid1, hid2,
    hagree, hd1, hd2, hne⟩
  intro hst
  subst hst
  have := eq_of_label_eq (h.wf.labels source) hm1 hm2 (hl1.trans hl2.symm)
  apply hne
  rw [← hid1, ← hid2, this]

theorem Steady.block_values {s : Session} {j : Nat} (h : Steady s j) {o : Operand} {st : Stack}
    (hm : st ∈ (s.container o).placeStacks) {lab : PlaceLabel} (hl : st.label = some lab) :
    ∀ v ∈ st.blocks, v = 10 ^ lab.index := by
  obtain ⟨l, hl2, _, hb⟩ := h.wf.rows o st hm
  rw [hl] at hl2
  cases hl2
  exact hb

/-- A drop on a stack of less than nine blocks moves the dragged block and
leaves the page steady. -/
theorem moveBlock_steady {t : Session} {j : Nat} (h : Steady t j) {step : Step} {drag drop : Nat}
    (hsurf : t.surface = .dragDrop step drag drop) (hcur : step.stepIndex = j)
    {source target : Operand}
    {dragRow dropRow : Stack} (hdrag : findStack t drag = some (source, dragRow))
    (hdrop : findStack t drop = some (target, dropRow)) {k value : Nat}
    (hk : dragRow.blocks.get? k = some value) (hlt : dropRow.blocks.length < 9) :
    Steady (moveBlock t source drag k target drop value) j ∧
      (moveBlock t source drag k target drop value).surface = t.surface := by
  obtain ⟨lab, hidx, hj, hlj, hl1, hl2, hne, hm1, hm2, hid1, hid2, hagree, hd1, hd2, hdd⟩ :=
    h.drop_rows hsurf hcur hdrag hdrop
  have hvals := h.block_values hm1 hl1
  have hvalsD := h.block_values hm2 hl2
  have hkl : k < dragRow.blocks.length := by
    by_contra hge
    rw [List.get?_eq_none.mpr (Nat.le_of_not_lt hge)] at hk
    cases hk
  have hvalue : value = 10 ^ lab.index := hvals value (List.get?_mem hk)
  have hpos2 : dropRow.blocks ≠ [] := h.noEmpty target dropRow hm2
  have R1 := modifyRow_replaces t source drag (fun blocks => blocks.eraseIdx k) dragRow h.wf hm1 hid1
    (by
      intro lab' hl' v hv
      rw [hl1] at hl'
      cases hl'
      exact hvals v (List.mem_of_mem_eraseIdx hv))
  have C1 := sameControl_modifyRow t source drag (fun blocks => blocks.eraseIdx k)
  unfold moveBlock
  generalize modifyRow t source drag (fun blocks => blocks.eraseIdx k) = m1 at R1 C1 ⊢
  have wf1 := R1.wellFormed_rep h.wf
  have hm2a : dropRow ∈ (m1.container target).placeStacks := by
    rw [R1.other target (Ne.symm hne)]
    exact hm2
  have R2 := modifyRow_replaces m1 target drop (fun blocks => blocks ++ [value]) dropRow wf1 hm2a hid2
    (by
      intro lab' hl' v hv
      rw [hl2] at hl'
      cases hl'
      rcases List.mem_append.mp hv with hv | hv
      · exact hvalsD v hv
      · rw [List.mem_singleton.mp hv]
        exact hvalue)
  have C2 := sameControl_modifyRow m1 target drop (fun blocks => blocks ++ [value])
  generalize modifyRow m1 target drop (fun blocks => blocks ++ [value]) = m2 at R2 C2 ⊢
  have wf2 := R2.wellFormed_rep wf1
  have F := updateAllRowPlaceValues_filters m2
  have C3 := sameControl_updateAllRowPlaceValues m2
  have N3 := updateAllRowPlaceValues_noEmptyRows m2
  have hc3 := updateAllRowPlaceValues_cnt m2
  generalize updateAllRowPlaceValues m2 = u at F C3 N3 hc3 ⊢
  have wfu := F.wellFormed_fil wf2
  have SR := sameRows_updateTempStateFromBlocks u
  have wfw := SR.wellFormed_rows wfu
  have hE : Evolves t (updateTempStateFromBlocks u) :=
    R1.evolves_rep.trans_ev (R2.evolves_rep.trans_ev (F.evolves_fil.trans_ev SR.evolves_rows))
  have hcnt : ∀ o p, (updateTempStateFromBlocks u).cnt o p = m2.cnt o p := by
    intro o p
    rw [SR.cnt_same, hc3]
  have h1h := R1.cnt_here h.wf hl1
  have h2h := R2.cnt_here wf1 hl2
  rw [hidx] at h1h h2h
  have e1 : m1.cnt source j + 1 = t.cnt source j := by
    rw [h1h.1, h1h.2]
    show (dragRow.blocks.eraseIdx k).length + 1 = _
    rw [List.length_eraseIdx]
    simp only [hkl, if_true]
    omega
  have e2 : m2.cnt target j = m1.cnt target j + 1 := by
    rw [h2h.1, h2h.2]
    show (dropRow.blocks ++ [value]).length = _
    simp
  have e3 : m2.cnt source j = m1.cnt source j := R2.cnt_other_operand hne j
  have e4 : m1.cnt target j = t.cnt target j := R1.cnt_other_operand (Ne.symm hne) j
  have e5 : ∀ o p, p ≠ j → m2.cnt o p = t.cnt o p := by
    intro o p hp
    rw [R2.cnt_other_place wf1 hl2 o (by rw [hidx]; exact hp),
      R1.cnt_other_place h.wf hl1 o (by rw [hidx]; exact hp)]
  have htj : t.cnt target j = dropRow.blocks.length := by
    rw [← e4]
    exact h2h.2
  have hposl : 1 ≤ dropRow.blocks.length := by
    cases hb : dropRow.blocks with
    | nil => exact absurd hb hpos2
    | cons a l => simp
  obtain ⟨hshape, hsettled⟩ := h.shape.after_move h.settled hE hne
    (by rw [hcnt, e3]; exact e1) (by rw [hcnt, e2, e4]) (fun o p hp => by rw [hcnt, e5 o p hp])
    (by omega) (by omega)
  have hnext : (updateTempStateFromBlocks u).nextId = t.nextId := by
    rw [SR.nextId, F.nextId, R2.nextId, R1.nextId]
  have hsurf2 : (updateTempStateFromBlocks u).surface = t.surface := by
    show u.surface = _
    rw [C3.surface, C2.surface, C1.surface]
  refine ⟨⟨?_, wfw, SR.noEmptyRows_rows N3, hshape, hsettled, ?_, ?_, ?_⟩, hsurf2⟩
  · show u.currentStepIndex = j
    rw [C3.currentStepIndex, C2.currentStepIndex, C1.currentStepIndex]
    exact h.cursor
  · exact hshape.value_sum_shape wfw
  · intro o
    rw [Session.live_eq_value ⟨rfl, rfl⟩ o]
    exact value_high wfw o (j + 1) (fun p hp => hshape.digits_le o p hp)
  · rw [hsurf2, hsurf]
    intro _
    refine ⟨hagree.transfer hE.placeLabels hE.originalNum1 hE.originalNum2, hdd, ?_, ?_, ?_⟩
    · rw [hnext]; exact hd1
    · rw [hnext]; exact hd2
    · intro id hid r hr
      have hidlt : id < t.nextId := by
        rcases hid with hid | hid <;> rw [hid] <;> assumption
      obtain ⟨st, hst, hlab⟩ := hE.findStack_of h.wf hidlt hr
      rw [← hlab, hE.placeLabels]
      have hok := h.surface
      rw [hsurf] at hok
      exact (hok hcur).2.2.2.2 id hid _ hst

/-! ## The automatic regrouping on a steady page -/

theorem afterMove_steady {w : Session} {j : Nat} (h : Steady w j) {step : Step}
    (hagree : StepAgrees w step j) : afterMove w step = (w, .incomplete false) := by
  unfold afterMove
  rw [h.cursor]
  obtain ⟨lab, hlj, _⟩ := h.wf.labelAt_some hagree.inTable
  obtain ⟨step2, hc, _, _, _, _, _, _, hsi, _⟩ :=
    calculateCurrentStep_eq w j hagree.inTable (by rw [hlj]; exact Option.some_ne_none _)
  rw [hc]
  simp [hsi, hagree.stepIndex]

theorem updateHigherPlaceRow_cursor (s : Session) (o : Operand) (g : Bool) :
    (updateHigherPlaceRow s o g).currentStepIndex = s.currentStepIndex := by
  unfold updateHigherPlaceRow
  split
  · rfl
  · dsimp only
    split
    · cases o <;> rfl
    · split <;> rfl

theorem sameRows_moveToNextStep (s : Session) : SameRows s (moveToNextStep s) :=
  ⟨rfl, rfl, rfl, rfl, rfl, rfl⟩

/-- A drop on a stack of nine blocks: the ten blocks are regrouped into one
block of the next place, and the page is ready for the step of that place. -/
theorem regroupDrop_entering {t : Session} {j : Nat} (h : Steady t j) {step : Step}
    {drag drop : Nat} (hsurf : t.surface = .dragDrop step drag drop) (hcur : step.stepIndex = j)
    {source target : Operand}
    {dragRow dropRow : Stack} (hdrag : findStack t drag = some (source, dragRow))
    (hdrop : findStack t drop = some (target, dropRow)) {k value : Nat}
    (hk : dragRow.blocks.get? k = some value) (h9 : 9 ≤ dropRow.blocks.length) :
    (∃ lab2, nextPlaceOf t step = some lab2 ∧ lab2.index = j + 1) ∧
      Entering (regroupDrop t step source drag k target) (j + 1) ∧
      ((regroupDrop t step source drag k target).cnt source j + 1 = t.cnt source j ∧
        (regroupDrop t step source drag k target).cnt target j = 0 ∧
        t.cnt target j = 9 ∧
        (regroupDrop t step source drag k target).cnt target (j + 1) =
          t.cnt target (j + 1) + 1 ∧
        (regroupDrop t step source drag k target).cnt source (j + 1) = t.cnt source (j + 1) ∧
        ∀ o p, p ≠ j → p ≠ j + 1 →
          (regroupDrop t step source drag k target).cnt o p = t.cnt o p) ∧
      ∀ o, (regroupDrop t step source drag k target).live o =
        calculateNumberFromBlocks ((regroupDrop t step source drag k target).container o) := by
  obtain ⟨lab, hidx, hj, hlj, hl1, hl2, hne, hm1, hm2, hid1, hid2, hagree, hd1, hd2, hdd⟩ :=
    h.drop_rows hsurf hcur hdrag hdrop
  have hvals := h.block_values hm1 hl1
  have hkl : k < dragRow.blocks.length := by
    by_contra hge
    rw [List.get?_eq_none.mpr (Nat.le_of_not_lt hge)] at hk
    cases hk
  have htj : t.cnt target j = dropRow.blocks.length := by
    rw [← hidx]
    exact h.wf.cnt_of_mem hm2 hl2
  have hsj : t.cnt source j = dragRow.blocks.length := by
    rw [← hidx]
    exact h.wf.cnt_of_mem hm1 hl1
  have hlen9 : dropRow.blocks.length = 9 := by
    have := h.settled target
    omega
  have htot : 10 ≤ t.total j := by
    unfold Session.total
    cases source <;> cases target <;> first | exact absurd rfl hne | omega
  have hL := next_place_in_table h.wf h.shape.conserved htot
  obtain ⟨lab2, hlab2, hidx2⟩ := h.wf.labelAt_some hL
  have hpl : step.placeLabel = some lab := hagree.placeLabel.trans hlj
  have hio : indexPlusOne (indexOf t.placeLabels step.placeLabel) = j + 1 := by
    rw [hpl, h.wf.indexOf_eq lab (by rw [hidx]; exact hj), hidx]
    rfl
  have hnext : nextPlaceOf t step = some lab2 := by
    unfold nextPlaceOf
    rw [hio]
    exact hlab2
  refine ⟨⟨lab2, hnext, hidx2⟩, ?_⟩
  have R1 := modifyRow_replaces t source drag (fun blocks => blocks.eraseIdx k) dragRow h.wf hm1 hid1
    (by
      intro lab' hl' v hv
      rw [hl1] at hl'
      cases hl'
      exact hvals v (List.mem_of_mem_eraseIdx hv))
  have C1 := sameControl_modifyRow t source drag (fun blocks => blocks.eraseIdx k)
  unfold regroupDrop performAutomaticRegrouping
  dsimp only
  have hpow : 10 ^ indexPlusOne (indexOf t.placeLabels step.placeLabel) = 10 ^ lab2.index := by
    rw [hio, hidx2]
  rw [hnext, hpow, hpl]
  simp only [Option.isSome_some, if_true]
  generalize modifyRow t source drag (fun blocks => blocks.eraseIdx k) = s1 at R1 C1 ⊢
  have wf1 := R1.wellFormed_rep h.wf
  have SR2 := sameRows_trackCarriedBlocks s1
    { blocksRemoved := 10, blocksAdded := 1, fromPlace := some lab, toPlace := some lab2 } 1
  have C2 := sameControl_trackCarriedBlocks s1
    { blocksRemoved := 10, blocksAdded := 1, fromPlace := some lab, toPlace := some lab2 } 1
  generalize trackCarriedBlocks s1
    { blocksRemoved := 10, blocksAdded := 1, fromPlace := some lab, toPlace := some lab2 } 1 = s2
    at SR2 C2 ⊢
  have wf2 := SR2.wellFormed_rows wf1
  have hm2b : dropRow ∈ (s2.container target).placeStacks := by
    rw [SR2.container_eq, R1.other target (Ne.symm hne)]
    exact hm2
  have R3 := removeBlocksFromPlace_replaces s2 lab 10 target dropRow wf2 hm2b hl2
  have C3 := sameControl_removeBlocksFromPlace s2 (some lab) 10 target
  generalize removeBlocksFromPlace s2 (some lab) 10 target = s3 at R3 C3 ⊢
  have wf3 := R3.wellFormed_rep wf2
  have hpl3 : s3.placeLabels = t.placeLabels := by
    rw [R3.placeLabels, SR2.placeLabels, R1.placeLabels]
  obtain ⟨A1, A2⟩ := createBlockInPlace_adds s3 lab2 (some target) wf3
    (by rw [hpl3, hidx2]; exact hL)
  rw [A2 target rfl] at A1
  generalize (createBlockInPlace s3 (some lab2) (10 ^ lab2.index) (some target)).1 = s4 at A1 ⊢
  have SR5 := sameRows_updateHigherPlaceRow s4 target false
  have K5 := updateHigherPlaceRow_cursor s4 target false
  have U5 := (updateHigherPlaceRow_control s4 target false).2
  generalize updateHigherPlaceRow s4 target false = s5 at SR5 K5 U5 ⊢
  have SR6 := sameRows_updateTempStateFromBlocks s5
  have V6 : (updateTempStateFromBlocks s5).num1 = calculateNumberFromBlocks s5.c1 ∧
      (updateTempStateFromBlocks s5).num2 = calculateNumberFromBlocks s5.c2 := ⟨rfl, rfl⟩
  have K6 : (updateTempStateFromBlocks s5).currentStepIndex = s5.currentStepIndex := rfl
  have U6 : (updateTempStateFromBlocks s5).surface = s5.surface := rfl
  generalize updateTempStateFromBlocks s5 = s6 at SR6 V6 K6 U6 ⊢
  have F7 := updateAllRowPlaceValues_filters s6
  have C7 := sameControl_updateAllRowPlaceValues s6
  have N7 := updateAllRowPlaceValues_noEmptyRows s6
  have hc7 := updateAllRowPlaceValues_cnt s6
  have hv7 := updateAllRowPlaceValues_value s6
  generalize updateAllRowPlaceValues s6 = s7 at F7 C7 N7 hc7 hv7 ⊢
  have SR8 := sameRows_moveToNextStep s7
  have K8 : (moveToNextStep s7).currentStepIndex = s7.currentStepIndex + 1 := rfl
  have V8 : (moveToNextStep s7).num1 = s7.num1 ∧ (moveToNextStep s7).num2 = s7.num2 := ⟨rfl, rfl⟩
  have U8 : (moveToNextStep s7).surface = s7.surface := rfl
  generalize moveToNextStep s7 = r at SR8 K8 V8 U8 ⊢
  have hsurfR : r.surface = t.surface := by
    rw [U8, C7.surface, U6, U5, A1.control.surface, C3.surface, C2.surface, C1.surface]
  have wf4 := A1.wf
  have wf5 := SR5.wellFormed_rows wf4
  have wf6 := SR6.wellFormed_rows wf5
  have wf7 := F7.wellFormed_fil wf6
  have wfr := SR8.wellFormed_rows wf7
  have hE : Evolves t r :=
    R1.evolves_rep.trans_ev (SR2.evolves_rows.trans_ev (R3.evolves_rep.trans_ev
      (A1.evolves.trans_ev (SR5.evolves_rows.trans_ev (SR6.evolves_rows.trans_ev
        (F7.evolves_fil.trans_ev SR8.evolves_rows))))))
  have hcr : ∀ o p, r.cnt o p = s3.cnt o p + (if o = target ∧ p = lab2.index then 1 else 0) := by
    intro o p
    rw [SR8.cnt_same, hc7, SR6.cnt_same, SR5.cnt_same, A1.cnt]
  have h1h := R1.cnt_here h.wf hl1
  have h3h := R3.cnt_here wf2 hl2
  rw [hidx] at h1h h3h
  have e1 : s1.cnt source j + 1 = t.cnt source j := by
    rw [h1h.1, h1h.2]
    show (dragRow.blocks.eraseIdx k).length + 1 = _
    rw [List.length_eraseIdx]
    simp only [hkl, if_true]
    omega
  have e3 : s3.cnt target j = 0 := by
    rw [h3h.1]
    show (dropRow.blocks.take (dropRow.blocks.length - min 10 dropRow.blocks.length)).length = 0
    rw [hlen9]
    simp
  have e3s : s3.cnt source j = s1.cnt source j := by
    rw [R3.cnt_other_operand hne j, SR2.cnt_same]
  have e3o : ∀ o p, p ≠ j → s3.cnt o p = t.cnt o p := by
    intro o p hp
    rw [R3.cnt_other_place wf2 hl2 o (by rw [hidx]; exact hp), SR2.cnt_same,
      R1.cnt_other_place h.wf hl1 o (by rw [hidx]; exact hp)]
  have f1 : r.cnt source j + 1 = t.cnt source j := by
    rw [hcr, if_neg (by rw [hidx2]; intro hc; omega), Nat.add_zero, e3s]
    exact e1
  have f2 : r.cnt target j = 0 := by
    rw [hcr, if_neg (by rw [hidx2]; intro hc; omega), Nat.add_zero]
    exact e3
  have f3 : t.cnt target j = 9 := by rw [htj]; exact hlen9
  have f4 : r.cnt target (j + 1) = t.cnt target (j + 1) + 1 := by
    rw [hcr, if_pos ⟨rfl, hidx2.symm⟩, e3o target (j + 1) (by omega)]
  have f5 : r.cnt source (j + 1) = t.cnt source (j + 1) := by
    rw [hcr, if_neg (fun hc => hne hc.1), Nat.add_zero, e3o source (j + 1) (by omega)]
  have f6 : ∀ o p, p ≠ j → p ≠ j + 1 → r.cnt o p = t.cnt o p := by
    intro o p hp1 hp2
    rw [hcr, if_neg (by rw [hidx2]; intro hc; exact hp2 hc.2), Nat.add_zero, e3o o p hp1]
  obtain ⟨hshape, hfresh, hlow, hge⟩ := h.shape.after_carry h.wf h.settled hE hne f1 f2 f3 f4 f5 f6
  have hvr : ∀ o, r.live o = calculateNumberFromBlocks (r.container o) := by
    intro o
    have e : calculateNumberFromBlocks (r.container o) = calculateNumberFromBlocks (s5.container o) := by
      rw [calculateNumberFromBlocks_congr (SR8.container_eq o), hv7,
        calculateNumberFromBlocks_congr (SR6.container_eq o)]
    rw [e]
    cases o
    · show r.num1 = _
      rw [V8.1, C7.num1, V6.1]
      rfl
    · show r.num2 = _
      rw [V8.2, C7.num2, V6.2]
      rfl
  have hsum := hshape.value_sum_shape wfr
  refine ⟨⟨?_, wfr, SR8.noEmptyRows_rows N7, hshape, hfresh, ⟨?_, ?_, ?_⟩, ?_⟩,
    ⟨f1, f2, f3, f4, f5, f6⟩, hvr⟩
  rotate_right
  · intro st hst
    unfold Session.shownStep at hst
    rw [hsurfR, hsurf] at hst
    cases hst
    omega
  · rw [K8, C7.currentStepIndex, K6, K5, A1.control.currentStepIndex, C3.currentStepIndex,
      C2.currentStepIndex, C1.currentStepIndex, h.cursor]
  · have a := hvr .first
    have b := hvr .second
    change r.num1 = calculateNumberFromBlocks r.c1 at a
    change r.num2 = calculateNumberFromBlocks r.c2 at b
    rw [a, b]
    exact hsum
  · have a := hvr .first
    have b := hvr .second
    change r.num1 = calculateNumberFromBlocks r.c1 at a
    change r.num2 = calculateNumberFromBlocks r.c2 at b
    rw [a, b]
    exact lt_of_le_of_lt (value_low wfr (j + 1)) hlow
  · intro o
    rw [hvr o]
    exact value_high wfr o (j + 1) (fun p hp => by
      rcases Nat.eq_or_lt_of_le hp with hp1 | hp1
      · rw [← hp1]
        exact hge o
      · exact hshape.digits_le o p hp1)

/-! ## Learner actions on a steady page -/

/-- The drop handler on a steady page: either the page stays steady at the
same place, or ten blocks were regrouped, the table has a next place and the
page is ready for the step of that place. -/
theorem handleInteractiveRegroupingComplete_steady {s : Session} {j : Nat} (h : Steady s j)
    {step : Step} {drag drop : Nat} (hsurf : s.surface = .dragDrop step drag drop)
    (hcur : step.stepIndex = j) (k : Nat) :
    (Steady (handleInteractiveRegroupingComplete s step drag drop k).1 j ∧
        (handleInteractiveRegroupingComplete s step drag drop k).2 = .incomplete false) ∨
      (Entering (handleInteractiveRegroupingComplete s step drag drop k).1 (j + 1) ∧
        ∃ lab2, (handleInteractiveRegroupingComplete s step drag drop k).2 =
            .regrouped (some lab2) ∧
          lab2.index = j + 1 ∧ nextPlaceOf s step = some lab2) := by
  unfold handleInteractiveRegroupingComplete
  cases hdrag : findStack s drag with
  | none => exact Or.inl ⟨h, rfl⟩
  | some r1 =>
    obtain ⟨source, dragRow⟩ := r1
    cases hdrop : findStack s drop with
    | none => exact Or.inl ⟨h, rfl⟩
    | some r2 =>
      obtain ⟨target, dropRow⟩ := r2
      dsimp only
      cases hk : dragRow.blocks.get? k with
      | none => exact Or.inl ⟨h, rfl⟩
      | some value =>
        dsimp only
        unfold dropOn
        have hrt := sameRows_trackDraggedBlock s value
        have hct := sameControl_trackDraggedBlock s value
        have ht := h.transfer_steady hrt hct
        have hsurft : (trackDraggedBlock s value).surface = .dragDrop step drag drop :=
          hct.surface.trans hsurf
        have hdragt : findStack (trackDraggedBlock s value) drag = some (source, dragRow) := by
          rw [hrt.findStack_eq]; exact hdrag
        have hdropt : findStack (trackDraggedBlock s value) drop = some (target, dropRow) := by
          rw [hrt.findStack_eq]; exact hdrop
        by_cases h9 : dropRow.blocks.length ≥ 9
        · rw [if_pos h9]
          obtain ⟨⟨lab2, hnext, hidx2⟩, hent, -, -⟩ :=
            regroupDrop_entering ht hsurft hcur hdragt hdropt hk h9
          have hnext2 : nextPlaceOf s step = some lab2 := hnext
          exact Or.inr ⟨hent, lab2, by rw [hnext2], hidx2, hnext2⟩
        · rw [if_neg h9]
          obtain ⟨hst, hsf⟩ := moveBlock_steady ht hsurft hcur hdragt hdropt hk
            (Nat.lt_of_not_le h9)
          have hok := hst.surface
          rw [hsf, hsurft] at hok
          rw [afterMove_steady hst (hok hcur).1]
          exact Or.inl ⟨hst, rfl⟩

theorem showsCursorStep_dragDrop {s : Session} {j : Nat} (hc : s.currentStepIndex = j)
    (h : s.showsCursorStep = true) {step : Step} {drag drop : Nat}
    (hsurf : s.surface = .dragDrop step drag drop) : step.stepIndex = j := by
  unfold Session.showsCursorStep at h
  rw [hsurf] at h
  rw [← hc]
  exact of_decide_eq_true h

theorem showsCursorStep_numpad {s : Session} {j : Nat} (hc : s.currentStepIndex = j)
    (h : s.showsCursorStep = true) {step : Step}
    (hsurf : s.surface = .numpad step) : step.stepIndex = j := by
  unfold Session.showsCursorStep at h
  rw [hsurf] at h
  rw [← hc]
  exact of_decide_eq_true h

theorem dropBlock_steady {s : Session} {j : Nat} (h : Steady s j)
    (hcur : s.showsCursorStep = true) (k : Nat) :
    Steady (dropBlock s k) j ∨ Steady (dropBlock s k) (j + 1) := by
  unfold dropBlock
  cases hsurf : s.surface with
  | idle => exact Or.inl h
  | numpad step => exact Or.inl h
  | dragDrop step drag drop =>
    dsimp only
    rcases handleInteractiveRegroupingComplete_steady h hsurf
        (showsCursorStep_dragDrop h.cursor hcur hsurf) k with
      ⟨hst, ho⟩ | ⟨hent, lab2, ho, hidx, _⟩
    · rw [ho]
      exact Or.inl hst
    · rw [ho]
      exact Or.inr (setupSecondPhaseRegrouping_steady (processNextCarryStep_steady hent) lab2 hidx)

theorem pressNumpad_steady {s : Session} {j : Nat} (h : Steady s j)
    (hcur : s.showsCursorStep = true) (inputValue : Nat) :
    Steady (pressNumpad s inputValue) j ∨ Steady (pressNumpad s inputValue) (j + 1) := by
  unfold pressNumpad
  cases hsurf : s.surface with
  | idle => exact Or.inl h
  | dragDrop step drag drop => exact Or.inl h
  | numpad step =>
    dsimp only
    by_cases hv : inputValue = step.digit1 + step.digit2
    · rw [if_pos hv, hv]
      exact Or.inr (processNextCarryStep_steady (handleNumpadInput_entering h step hsurf
        (showsCursorStep_numpad h.cursor hcur hsurf)))
    · rw [if_neg hv]
      unfold handleNumpadInput
      dsimp only
      rw [if_neg hv]
      exact Or.inl h

theorem act_steady {s : Session} {j : Nat} (h : Steady s j) (hcur : s.showsCursorStep = true)
    (a : Action) (ha : a.fromSourceRow = true) :
    Steady (act s a) j ∨ Steady (act s a) (j + 1) := by
  cases a with
  | numpad inputValue => exact pressNumpad_steady h hcur inputValue
  | drop k => exact dropBlock_steady h hcur k
  | redrop k => cases ha

/-- The invariant holds after every action of a learner who follows the
page. -/
theorem playFrom_steady (actions : List Action) {s : Session} {j : Nat} (h : Steady s j)
    (hf : followsPage s actions = true) :
    ∃ i, j ≤ i ∧ Steady (playFrom s actions) i := by
  induction actions generalizing s j with
  | nil => exact ⟨j, Nat.le_refl _, h⟩
  | cons a rest ih =>
    show ∃ i, j ≤ i ∧ Steady (playFrom (act s a) rest) i
    have hf' : (s.showsCursorStep && a.fromSourceRow && followsPage (act s a) rest) = true := hf
    simp only [Bool.and_eq_true] at hf'
    obtain ⟨⟨hcur, ha⟩, hrest⟩ := hf'
    rcases act_steady h hcur a ha with h1 | h1
    · exact ih h1 hrest
    · obtain ⟨i, hi, hs⟩ := ih h1 hrest
      exact ⟨i, by omega, hs⟩

/-- A step with a carry has a next place in the table. -/
theorem StepAgrees.next_place {s : Session} {step : Step} {j : Nat} (h : StepAgrees s step j)
    (hw : WellFormed s) (hsum : step.digit1 + step.digit2 ≥ 10) :
    ∃ lab, labelAt s.placeLabels (j + 1) = some lab ∧ lab.index = j + 1 ∧
      nextPlaceOf s step = some lab := by
  have hc : 1 ≤ step.carryOut := by
    rw [h.carryOut_eq]
    omega
  have hci := le_trans hc h.carryLe
  unfold carryInto at hci
  have hpos : 0 < 10 ^ (j + 1) := Nat.pow_pos (by decide)
  have hge : 10 ^ (j + 1) ≤ s.originalNum1 % 10 ^ (j + 1) + s.originalNum2 % 10 ^ (j + 1) := by
    by_contra hlt
    rw [Nat.div_eq_of_lt (Nat.lt_of_not_le hlt)] at hci
    omega
  have hm1 := Nat.mod_le s.originalNum1 (10 ^ (j + 1))
  have hm2 := Nat.mod_le s.originalNum2 (10 ^ (j + 1))
  have hL : j + 1 < s.placeLabels.length := by
    by_contra hge2
    have : 10 ^ s.placeLabels.length ≤ 10 ^ (j + 1) :=
      Nat.pow_le_pow_right (by decide) (Nat.le_of_not_lt hge2)
    have := hw.inRange
    omega
  obtain ⟨lab2, hlab2, hidx2⟩ := hw.labelAt_some hL
  obtain ⟨lab, hlab, hidx⟩ := hw.labelAt_some h.inTable
  refine ⟨lab2, hlab2, hidx2, ?_⟩
  unfold nextPlaceOf
  rw [h.placeLabel, hlab, hw.indexOf_eq lab (by rw [hidx]; exact h.inTable), hidx]
  exact hlab2

/-! ## Rendering the blocks of a number -/

theorem placeSum_eq_sum (f : Nat → Nat) (n : Nat) :
    placeSum f n = ∑ p in Finset.range n, f p * 10 ^ p := by
  induction n with
  | zero => rfl
  | succ n ih => rw [placeSum_succ, Finset.sum_range_succ, ih]

theorem getDigit_eq_zero_of_lt {num k i : Nat} (h : num < 10 ^ k) (hi : k ≤ i) :
    getDigit num i = 0 := by
  unfold getDigit
  have : num < 10 ^ i := lt_of_lt_of_le h (Nat.pow_le_pow_right (by decide) hi)
  rw [Nat.div_eq_of_lt this]

theorem lt_of_getDigit_ne_zero {num k i : Nat} (h : num < 10 ^ k) (hd : getDigit num i ≠ 0) :
    i < k := by
  by_contra hge
  exact hd (getDigit_eq_zero_of_lt h (Nat.le_of_not_lt hge))

/-- The entries of the place table `render` builds, below the number of digits
of the larger operand. -/
theorem renderPlaceTable_low (n1 n2 : Nat) (h : max n1 n2 < 10 ^ 7) (i : Nat)
    (hi : i < numLength (max n1 n2)) :
    labelAt (renderPlaceTable n1 n2).1 i = refrenceValues.get? i ∧
      (renderPlaceTable n1 n2).2.getD i 0 = 10 ^ i := by
  have hlen : numLength (max n1 n2) ≤ 7 := (numLength_le_iff _ 7 (by norm_num)).mpr h
  unfold renderPlaceTable createPlaceValues labelAt
  simp only [ite_gt_eq_max, filter_lt_range _ hlen]
  by_cases hgt : numLength (n1 + n2) > numLength (max n1 n2)
  · simp only [hgt, decide_True, List.length_map, List.length_range]
    constructor
    · rw [List.get?_eq_getElem?, List.getElem?_append_left (by simpa using hi),
        List.getElem?_map, List.getElem?_range hi]
      rfl
    · rw [List.getD_eq_getElem?_getD, List.getElem?_append_left (by simpa using hi),
        List.getElem?_map, List.getElem?_range hi]
      rfl
  · simp only [hgt, decide_False]
    constructor
    · rw [List.get?_eq_getElem?, List.getElem?_map, List.getElem?_range hi]
      rfl
    · rw [List.getD_eq_getElem?_getD, List.getElem?_map, List.getElem?_range hi]
      rfl

theorem refrenceValues_isSome {i : Nat} (hi : i < 7) : ∃ l, refrenceValues.get? i = some l := by
  have : i < refrenceValues.length := hi
  exact ⟨_, List.get?_eq_get this⟩

/-- Function `renderBlockStack` on a table that has the labels and values of the
used places with a non-zero digit. -/
theorem renderBlockStack_eq (placeLabels : List (Option PlaceLabel)) (placeValues : List Nat)
    (num idBase : Nat) (usedPlaces : List Nat)
    (htab : ∀ i ∈ usedPlaces, getDigit num i ≠ 0 →
      (∃ l, refrenceValues.get? i = some l) ∧ labelAt placeLabels i = refrenceValues.get? i ∧
        placeValues.getD i 0 = 10 ^ i) :
    ∃ c, renderBlockStack placeLabels placeValues num idBase usedPlaces = some c ∧
      c.placeStacks = renderedStacks num idBase usedPlaces := by
  induction usedPlaces with
  | nil => exact ⟨_, rfl, rfl⟩
  | cons i rest ih =>
    obtain ⟨c, hc, hcs⟩ := ih (fun k hk => htab k (List.mem_cons_of_mem _ hk))
    unfold renderBlockStack
    dsimp only
    by_cases hd : getDigit num i = 0
    · rw [if_pos hd]
      refine ⟨c, hc, ?_⟩
      rw [hcs]
      unfold renderedStacks
      rw [List.filter_cons_of_neg (by simpa using hd)]
    · rw [if_neg hd]
      obtain ⟨⟨l, hl⟩, hlab, hval⟩ := htab i (List.mem_cons_self _ _) hd
      rw [hlab, hl, hc]
      refine ⟨_, rfl, ?_⟩
      show _ :: c.placeStacks = _
      rw [hcs]
      unfold renderedStacks
      rw [List.filter_cons_of_pos (by simpa using hd), List.map_cons]
      unfold renderedStack
      rw [hval, hl]

/-- The blocks of the rendered stacks of the places of a number add up to the
number. -/
theorem renderedStacks_sum (num idBase k : Nat) (usedPlaces : List Nat) (hk : num < 10 ^ k)
    (hnd : usedPlaces.Nodup) (hcover : ∀ i, getDigit num i ≠ 0 → i ∈ usedPlaces) :
    ((renderedStacks num idBase usedPlaces).map (fun stack => stack.blocks.sum)).sum = num := by
  unfold renderedStacks
  rw [List.map_map]
  have hfun : ((fun stack : Stack => stack.blocks.sum) ∘ renderedStack num idBase) =
      fun i => getDigit num i * 10 ^ i := by
    funext i
    simp [renderedStack, List.sum_replicate]
  rw [hfun, ← List.sum_toFinset _ (hnd.filter _)]
  have hnum : num = ∑ p in Finset.range k, getDigit num p * 10 ^ p := by
    rw [← placeSum_eq_sum]
    have := placeSum_digits num k
    rw [Nat.mod_eq_of_lt hk] at this
    exact this.symm
  conv_rhs => rw [hnum]
  apply Finset.sum_subset
  · intro i hi
    rw [List.mem_toFinset, List.mem_filter] at hi
    rw [Finset.mem_range]
    exact lt_of_getDigit_ne_zero hk (by simpa using hi.2)
  · intro i _ hi
    rw [List.mem_toFinset, List.mem_filter] at hi
    by_cases hd : getDigit num i = 0
    · rw [hd, Nat.zero_mul]
    · exact absurd ⟨hcover i hd, by simpa using hd⟩ hi

/-! ## The page `generateProblem` renders -/

theorem mem_renderedStacks {num idBase : Nat} {usedPlaces : List Nat} {st : Stack} :
    st ∈ renderedStacks num idBase usedPlaces ↔
      ∃ i, i ∈ usedPlaces ∧ getDigit num i ≠ 0 ∧ st = renderedStack num idBase i := by
  unfold renderedStacks
  rw [List.mem_map]
  constructor
  · rintro ⟨i, hi, rfl⟩
    rw [List.mem_filter] at hi
    exact ⟨i, hi.1, by simpa using hi.2, rfl⟩
  · rintro ⟨i, hi, hd, rfl⟩
    exact ⟨i, List.mem_filter.mpr ⟨hi, by simpa using hd⟩, rfl⟩

theorem renderedStack_place (num idBase : Nat) {i : Nat} (hi : i < 7) :
    ∃ l, (renderedStack num idBase i).label = some l ∧ l.index = i := by
  obtain ⟨l, hl⟩ := refrenceValues_isSome hi
  exact ⟨l, hl, refrenceValues_get_some hl⟩

theorem renderedStacks_labels_nodup (num idBase : Nat) (usedPlaces : List Nat)
    (hnd : usedPlaces.Nodup) (h7 : ∀ i ∈ usedPlaces, i < 7) :
    ((renderedStacks num idBase usedPlaces).map (fun st => st.label)).Nodup := by
  unfold renderedStacks
  rw [List.map_map]
  apply List.Nodup.map_on _ (hnd.filter _)
  intro a ha b hb hab
  have ha7 := h7 a (List.mem_filter.mp ha).1
  have hb7 := h7 b (List.mem_filter.mp hb).1
  obtain ⟨la, hla, hia⟩ := renderedStack_place num idBase ha7
  obtain ⟨lb, hlb, hib⟩ := renderedStack_place num idBase hb7
  have hab2 : (renderedStack num idBase a).label = (renderedStack num idBase b).label := hab
  rw [hla, hlb] at hab2
  cases hab2
  rw [← hia, ← hib]

theorem renderedStacks_ids (num idBase : Nat) (usedPlaces : List Nat) (hnd : usedPlaces.Nodup) :
    ((renderedStacks num idBase usedPlaces).map (fun st => st.id)).Nodup := by
  unfold renderedStacks
  rw [List.map_map]
  apply List.Nodup.map_on _ (hnd.filter _)
  intro a _ b _ hab
  have hab2 : idBase + a = idBase + b := hab
  omega

/-- The rendered stacks of a number hold its digit at every place. -/
theorem countAt_renderedStacks (num idBase m p : Nat) (hm : m ≤ 7) (hnum : num < 10 ^ m) :
    countAt p (renderedStacks num idBase (List.range m)) = getDigit num p := by
  have h7 : ∀ i ∈ List.range m, i < 7 := by
    intro i hi
    rw [List.mem_range] at hi
    omega
  by_cases hd : getDigit num p = 0
  · rw [hd]
    apply countAt_eq_zero
    intro st hst hp
    obtain ⟨i, hi, hdi, rfl⟩ := mem_renderedStacks.mp hst
    obtain ⟨l, hl, hidx⟩ := renderedStack_place num idBase (h7 i hi)
    rw [hl] at hp
    have : l.index = p := by simpa using hp
    rw [← this, hidx] at hd
    exact hdi hd
  · have hpm : p < m := lt_of_getDigit_ne_zero hnum hd
    have hmem : renderedStack num idBase p ∈ renderedStacks num idBase (List.range m) :=
      mem_renderedStacks.mpr ⟨p, List.mem_range.mpr hpm, hd, rfl⟩
    obtain ⟨l, hl, hidx⟩ := renderedStack_place num idBase (by omega : p < 7)
    rw [countAt_of_mem p _ _ (renderedStacks_labels_nodup num idBase _ (List.nodup_range m) h7)
      hmem (by rw [hl, ← hidx]; rfl)]
    show (List.replicate (getDigit num p) (10 ^ p)).length = _
    rw [List.length_replicate]

theorem usedPlaces_eq (n1 n2 m : Nat) :
    (List.range m).filter
        (fun i => decide (getDigit n1 i ≥ 0) || decide (getDigit n2 i ≥ 0)) = List.range m := by
  rw [List.filter_eq_self]
  intro a _
  simp

theorem max_numLength (n1 n2 : Nat) :
    max (numLength n1) (numLength n2) = numLength (max n1 n2) := by
  rcases le_total n1 n2 with h | h
  · rw [max_eq_right h, max_eq_right (numLength_mono h)]
  · rw [max_eq_left h, max_eq_left (numLength_mono h)]

/-- The session `generateProblem` sets up for operands of at most 7 digits. -/
theorem generateProblem_eq (n1 n2 : Nat) (h : max n1 n2 < 10 ^ 7) :
    ∃ g, generateProblem n1 n2 = some g ∧
      g.c1.placeStacks = renderedStacks n1 0 (List.range (numLength (max n1 n2))) ∧
      g.c2.placeStacks =
        renderedStacks n2 (numLength (max n1 n2)) (List.range (numLength (max n1 n2))) ∧
      g.placeLabels = (renderPlaceTable n1 n2).1 ∧ g.nextId = 2 * numLength (max n1 n2) ∧
      g.originalNum1 = n1 ∧ g.originalNum2 = n2 ∧ g.num1 = n1 ∧ g.num2 = n2 := by
  have hlen : numLength (max n1 n2) ≤ 7 := (numLength_le_iff _ 7 (by norm_num)).mpr h
  have hl1 : n1 < 10 ^ numLength (max n1 n2) :=
    lt_of_le_of_lt (le_max_left n1 n2) (numLength_spec _).2.1
  have hl2 : n2 < 10 ^ numLength (max n1 n2) :=
    lt_of_le_of_lt (le_max_right n1 n2) (numLength_spec _).2.1
  have htab : ∀ num, num < 10 ^ numLength (max n1 n2) →
      ∀ i ∈ List.range (numLength (max n1 n2)), getDigit num i ≠ 0 →
      (∃ l, refrenceValues.get? i = some l) ∧
        labelAt (renderPlaceTable n1 n2).1 i = refrenceValues.get? i ∧
        (renderPlaceTable n1 n2).2.getD i 0 = 10 ^ i := by
    intro num _ i hi _
    rw [List.mem_range] at hi
    exact ⟨refrenceValues_isSome (by omega), renderPlaceTable_low n1 n2 h i hi⟩
  obtain ⟨c1, hc1, hs1⟩ := renderBlockStack_eq (renderPlaceTable n1 n2).1 (renderPlaceTable n1 n2).2
    n1 0 _ (htab n1 hl1)
  obtain ⟨c2, hc2, hs2⟩ := renderBlockStack_eq (renderPlaceTable n1 n2).1 (renderPlaceTable n1 n2).2
    n2 (numLength (max n1 n2)) _ (htab n2 hl2)
  unfold generateProblem
  simp only [usedPlaces_eq, max_numLength]
  rw [hc1, hc2]
  exact ⟨_, rfl, hs1, hs2, rfl, rfl, rfl, rfl, rfl, rfl⟩

/-! ## The first step -/

/-- A page whose stacks hold the digits of the original numbers has the shape
for the step of the ones. -/
theorem Shape.of_digits {s : Session} (hw : WellFormed s)
    (hc : ∀ o p, s.cnt o p = getDigit (s.original o) p) : Shape s 0 := by
  have htot : ∀ p, s.total p = s.digitSum p := by
    intro p
    unfold Session.total Session.digitSum
    rw [hc, hc]
    rfl
  have hin := hw.inRange
  constructor
  · rw [lowDom_eq, placeSum_congr _ (fun p _ => hc .first p),
      placeSum_congr _ (fun p _ => hc .second p)]
    have h1 := placeSum_digits s.originalNum1 s.placeLabels.length
    have h2 := placeSum_digits s.originalNum2 s.placeLabels.length
    rw [Nat.mod_eq_of_lt (by omega)] at h1 h2
    exact congrArg₂ (· + ·) h1 h2
  · intro o p _
    exact hc o p
  · intro o
    exact Nat.le_of_eq (hc o 1).symm
  · rw [htot]
    exact Nat.le_add_right _ _
  · intro hcar
    rw [htot] at hcar
    omega
  · intro hcar
    rw [htot] at hcar
    omega
  · intro o p hp
    exact absurd hp (Nat.not_lt_zero _)
  · intro o
    rw [hc]
    exact le_trans (getDigit_le _ _) (by decide)
  · rw [htot]
    exact le_trans (digitSum_le s 0) (by decide)
  · rintro ⟨o, ho⟩
    rw [hc] at ho
    have := getDigit_le (s.original o) 0
    omega

/-- The session `startInteractiveCarryOver` starts from, for operands whose sum
has at most 7 digits: the invariant holds with the cursor at the ones. -/
theorem startProblem_steady (n1 n2 : Nat) (h : n1 + n2 < 10 ^ 7) :
    ∃ s, startProblem n1 n2 = some s ∧ Steady s 0 ∧
      s.placeLabels.length = tableLength n1 n2 := by
  have hmax : max n1 n2 < 10 ^ 7 :=
    lt_of_le_of_lt (max_le (Nat.le_add_right _ _) (Nat.le_add_left _ _)) h
  obtain ⟨g, hg, hs1, hs2, hpl, hid, ho1, ho2, hn1, hn2⟩ := generateProblem_eq n1 n2 hmax
  have hb := tableLength_bounds n1 n2 h
  have hlen0 : g.placeLabels.length = tableLength n1 n2 := by
    rw [hpl, renderPlaceTable_inRange n1 n2 h]
    simp
  refine ⟨startInteractiveCarryOver g, by unfold startProblem; rw [hg]; rfl, ?_, ?_⟩
  swap
  · unfold startInteractiveCarryOver
    rw [(sameCursor_processNextCarryStep _).1]
    exact hlen0
  unfold startInteractiveCarryOver
  apply processNextCarryStep_steady
  have hm7 : numLength (max n1 n2) ≤ 7 := le_trans hb.2.2.2 hb.2.1
  have hl1 : n1 < 10 ^ numLength (max n1 n2) :=
    lt_of_le_of_lt (le_max_left n1 n2) (numLength_spec _).2.1
  have hl2 : n2 < 10 ^ numLength (max n1 n2) :=
    lt_of_le_of_lt (le_max_right n1 n2) (numLength_spec _).2.1
  have hlen : g.placeLabels.length = tableLength n1 n2 := by
    rw [hpl, renderPlaceTable_inRange n1 n2 h]
    simp
  have hstacks : ∀ o, (g.container o).placeStacks =
      renderedStacks (g.original o) (match o with | .first => 0 | .second => numLength (max n1 n2))
        (List.range (numLength (max n1 n2))) := by
    intro o
    cases o
    · show g.c1.placeStacks = renderedStacks g.originalNum1 0 _
      rw [ho1]; exact hs1
    · show g.c2.placeStacks = renderedStacks g.originalNum2 _ _
      rw [ho2]; exact hs2
  have horig : ∀ o, g.original o < 10 ^ numLength (max n1 n2) := by
    intro o
    cases o
    · show g.originalNum1 < _
      rw [ho1]; exact hl1
    · show g.originalNum2 < _
      rw [ho2]; exact hl2
  have h7 : ∀ i ∈ List.range (numLength (max n1 n2)), i < 7 := by
    intro i hi
    rw [List.mem_range] at hi
    omega
  have hrs : SameRows g
      { g with
        num1 := g.originalNum1
        num2 := g.originalNum2
        currentStepIndex := 0
        stepDetails := [] } := ⟨rfl, rfl, rfl, rfl, rfl, rfl⟩
  have hwf : WellFormed g := by
    constructor
    · rw [hlen, hpl, renderPlaceTable_inRange n1 n2 h]
    · rw [hlen]; exact hb.2.1
    · rw [hlen, ho1, ho2]; exact hb.2.2.1
    · intro o st hst
      rw [hstacks o] at hst
      obtain ⟨i, hi, hd, rfl⟩ := mem_renderedStacks.mp hst
      obtain ⟨l, hl, hidx⟩ := renderedStack_place (g.original o)
        (match o with | .first => 0 | .second => numLength (max n1 n2)) (h7 i hi)
      refine ⟨l, hl, ?_, ?_⟩
      · rw [hidx, hlen]
        rw [List.mem_range] at hi
        omega
      · intro b hb2
        rw [hidx]
        exact List.eq_of_mem_replicate hb2
    · intro o
      rw [hstacks o]
      exact renderedStacks_labels_nodup _ _ _ (List.nodup_range _) h7
    · rw [List.map_append]
      apply List.Nodup.append
      · rw [hs1]; exact renderedStacks_ids _ _ _ (List.nodup_range _)
      · rw [hs2]; exact renderedStacks_ids _ _ _ (List.nodup_range _)
      · intro x hx1 hx2
        rw [hs1] at hx1
        rw [hs2] at hx2
        obtain ⟨a, ha, rfl⟩ := List.mem_map.mp hx1
        obtain ⟨b, hb2, hab⟩ := List.mem_map.mp hx2
        obtain ⟨i, hi, _, rfl⟩ := mem_renderedStacks.mp ha
        obtain ⟨k, _, _, rfl⟩ := mem_renderedStacks.mp hb2
        rw [List.mem_range] at hi
        have : numLength (max n1 n2) + k = 0 + i := hab
        omega
    · intro o st hst
      rw [hstacks o] at hst
      obtain ⟨i, hi, _, rfl⟩ := mem_renderedStacks.mp hst
      rw [List.mem_range] at hi
      rw [hid]
      cases o
      · show 0 + i < _
        omega
      · show numLength (max n1 n2) + i < _
        omega
  have hne : NoEmptyRows g := by
    intro o st hst
    rw [hstacks o] at hst
    obtain ⟨i, _, hd, rfl⟩ := mem_renderedStacks.mp hst
    intro hnil
    have hlen0 := congrArg List.length hnil
    have : (List.replicate (getDigit (g.original o) i) (10 ^ i)).length = 0 := hlen0
    rw [List.length_replicate] at this
    exact hd this
  have hcnt : ∀ o p, g.cnt o p = getDigit (g.original o) p := by
    intro o p
    unfold Session.cnt
    rw [hstacks o]
    exact countAt_renderedStacks _ _ _ p hm7 (horig o)
  have hshape := Shape.of_digits hwf hcnt
  refine ⟨rfl, hrs.wellFormed_rows hwf, hrs.noEmptyRows_rows hne, hrs.shape hshape, ?_, ⟨rfl, ?_, ?_⟩,
    ?_⟩
  · rw [hrs.total_eq, hrs.digitSum_same]
    unfold Session.total Session.digitSum
    rw [hcnt, hcnt]
    rfl
  · show g.originalNum1 % 10 ^ 0 + g.originalNum2 % 10 ^ 0 < 10 ^ 0
    simp [Nat.mod_one]
  · intro o
    cases o <;> exact Nat.le_refl _
  · intro st hst
    have hsf : ({ g with
        num1 := g.originalNum1
        num2 := g.originalNum2
        currentStepIndex := 0
        stepDetails := [] } : Session).surface = .idle := generateProblem_surface n1 n2 g hg
    unfold Session.shownStep at hst
    rw [hsf] at hst
    cases hst

/-! ## Sessions on problems the place table covers -/

/-- For operands whose sum has at most 7 digits the session starts, and the
invariant holds after every list of actions of a learner who follows the
page. -/
theorem playOn_steady (n1 n2 : Nat) (h : n1 + n2 < 10 ^ 7) :
    ∃ s0, startProblem n1 n2 = some s0 ∧
      ∀ actions, followsPage s0 actions = true →
        ∃ j, Steady (playFrom s0 actions) j ∧ (playFrom s0 actions).originalNum1 = n1 ∧
          (playFrom s0 actions).originalNum2 = n2 ∧
          (calculateAdditionSteps (playFrom s0 actions).placeLabels n1 n2).length =
            (playFrom s0 actions).placeLabels.length := by
  obtain ⟨s0, hs0, hst0, hlen0⟩ := startProblem_steady n1 n2 h
  refine ⟨s0, hs0, ?_⟩
  intro actions hf
  obtain ⟨j, _, hst⟩ := playFrom_steady actions hst0 hf
  have hp : playOn n1 n2 actions = some (playFrom s0 actions) := by
    unfold playOn
    rw [hs0]
    rfl
  obtain ⟨ho1, ho2⟩ := playOn_originals n1 n2 actions _ hp
  refine ⟨j, hst, ho1, ho2, ?_⟩
  rw [table_length_eq_trace_length, playFrom_placeLabels, hlen0]

/-- The step of the cursor on the page of a steady session agrees with the
paper trace. -/
theorem Steady.shown_step {s : Session} {j : Nat} (h : Steady s j) {step : Step}
    (hs : s.shownStep = some step) (hcur : s.showsCursorStep = true) : StepAgrees s step j := by
  have hok := h.surface
  unfold Session.shownStep at hs
  cases hsurf : s.surface with
  | idle => rw [hsurf] at hs; cases hs
  | numpad st =>
    rw [hsurf] at hs hok
    cases hs
    exact (hok (showsCursorStep_numpad h.cursor hcur hsurf)).1
  | dragDrop st drag drop =>
    rw [hsurf] at hs hok
    cases hs
    exact (hok (showsCursorStep_dragDrop h.cursor hcur hsurf)).1

theorem trace_get_newCarry (placeLabels : List (Option PlaceLabel)) (n1 n2 i : Nat)
    (e : PaperStep) (h : (calculateAdditionSteps placeLabels n1 n2).get? i = some e) :
    e.newCarry = carryInto n1 n2 (i + 1) := by
  have hlen : i < (calculateAdditionSteps placeLabels n1 n2).length := by
    rw [List.get?_eq_getElem?] at h
    exact (List.getElem?_eq_some.mp h).1
  rw [trace_length] at hlen
  by_cases hi : i < max (numLength n1) (numLength n2)
  · rw [trace_get_column placeLabels n1 n2 i hi] at h
    cases h
    rfl
  · have hc : carryInto n1 n2 (max (numLength n1) (numLength n2)) > 0 := by
      by_contra hc
      simp only [hc, if_false] at hlen
      omega
    simp only [hc, if_true] at hlen
    have hi2 : i = max (numLength n1) (numLength n2) := by omega
    subst hi2
    rw [trace_get_carry, if_pos hc] at h
    cases h
    show 0 = _
    have hlt := operands_lt_maxLength n1 n2
    have hp : 0 < 10 ^ max (numLength n1) (numLength n2) := Nat.pow_pos (by norm_num)
    unfold carryInto
    have hpow : 10 ^ (max (numLength n1) (numLength n2) + 1) =
        10 * 10 ^ max (numLength n1) (numLength n2) := by rw [Nat.pow_succ, Nat.mul_comm]
    rw [Nat.mod_eq_of_lt (by omega), Nat.mod_eq_of_lt (by omega), Nat.div_eq_of_lt (by omega)]

/-- The paper trace of a session the table covers has an entry for every place
of the table. -/
theorem trace_entry_exists {s : Session} {n1 n2 i : Nat} (hi : i < s.placeLabels.length)
    (hlen : (calculateAdditionSteps s.placeLabels n1 n2).length = s.placeLabels.length) :
    ∃ e, (calculateAdditionSteps s.placeLabels n1 n2).get? i = some e :=
  ⟨_, List.get?_eq_get (by rw [hlen]; exact hi)⟩

theorem placeSum_shift (f g : Nat → Nat) (j m a b : Nat)
    (h0 : ∀ p, p ≠ j → p ≠ j + 1 → g p = f p) (h1 : g j + a = f j)
    (h2 : g (j + 1) = f (j + 1) + b) :
    placeSum g (j + 2 + m) + a * 10 ^ j = placeSum f (j + 2 + m) + b * 10 ^ (j + 1) := by
  rw [placeSum_split g (j + 2) m, placeSum_split f (j + 2) m]
  have hhigh : placeSum (fun p => g (j + 2 + p)) m = placeSum (fun p => f (j + 2 + p)) m :=
    placeSum_congr m (fun p _ => h0 _ (by omega) (by omega))
  have hlow : placeSum g j = placeSum f j :=
    placeSum_congr j (fun p hp => h0 _ (by omega) (by omega))
  rw [hhigh]
  have key : placeSum g (j + 2) + a * 10 ^ j = placeSum f (j + 2) + b * 10 ^ (j + 1) := by
    show placeSum g j + g j * 10 ^ j + g (j + 1) * 10 ^ (j + 1) + a * 10 ^ j =
      placeSum f j + f j * 10 ^ j + f (j + 1) * 10 ^ (j + 1) + b * 10 ^ (j + 1)
    rw [hlow, h2, ← h1]
    ring
  omega

/-! ## The page when callbacks run in any order -/

theorem StepAgrees.fits {s : Session} {step : Step} {j : Nat} (h : StepAgrees s step j) :
    StepFits s step j :=
  ⟨h.placeIndex, h.stepIndex, h.placeLabel, h.inTable, h.carry, h.carryLe, h.carryOut_eq,
    h.result_eq, h.kind, fun _ => h.result⟩

theorem StepFits.transfer_fits {s s' : Session} {step : Step} {j : Nat} (h : StepFits s step j)
    (hp : s'.placeLabels = s.placeLabels) (h1 : s'.originalNum1 = s.originalNum1)
    (h2 : s'.originalNum2 = s.originalNum2) : StepFits s' step j where
  placeIndex := h.placeIndex
  stepIndex := h.stepIndex
  placeLabel := by rw [hp]; exact h.placeLabel
  inTable := by rw [hp]; exact h.inTable
  carry := by rw [h1, h2]; exact h.carry
  carryLe := by rw [h1, h2]; exact h.carryLe
  carryOut_eq := h.carryOut_eq
  result_eq := h.result_eq
  kind := h.kind
  result := by rw [h1, h2]; exact h.result

theorem LiveReady.transfer_ready {s s' : Session} {j : Nat} (h : LiveReady s j)
    (h1 : s'.num1 = s.num1) (h2 : s'.num2 = s.num2) (ho1 : s'.originalNum1 = s.originalNum1)
    (ho2 : s'.originalNum2 = s.originalNum2) : LiveReady s' j where
  sum := by rw [h1, h2, ho1, ho2]; exact h.sum
  low := by rw [h1, h2]; exact h.low
  high := by
    intro o
    cases o
    · show s'.originalNum1 / 10 ^ j ≤ s'.num1 / 10 ^ j
      rw [ho1, h1]
      exact h.high .first
    · show s'.originalNum2 / 10 ^ j ≤ s'.num2 / 10 ^ j
      rw [ho2, h2]
      exact h.high .second

theorem SameRows.symm_rows {s s' : Session} (h : SameRows s s') : SameRows s' s :=
  ⟨h.c1.symm, h.c2.symm, h.nextId.symm, h.placeLabels.symm, h.originalNum1.symm,
    h.originalNum2.symm⟩

theorem Grouped.transfer_grouped {s0 s s0' s' : Session} {j : Nat} (hg : Grouped s0 s j)
    (h0 : SameRows s0 s0') (hl0 : s0'.num1 = s0.num1 ∧ s0'.num2 = s0.num2)
    (hs : SameRows s s') (hl : s'.num1 = s.num1 ∧ s'.num2 = s.num2)
    (hc : s'.currentStepIndex = s0'.currentStepIndex) (hsf : s'.surface = s0'.surface) :
    Grouped s0' s' j where
  wf := hs.wellFormed_rows hg.wf
  noEmpty := hs.noEmptyRows_rows hg.noEmpty
  shape := hs.shape hg.shape
  evolves := h0.symm_rows.evolves_rows.trans_ev (hg.evolves.trans_ev hs.evolves_rows)
  cursor := hc
  surface := hsf
  phase := by
    rcases hg.phase with h | ⟨hset, h | h⟩
    · left
      refine ⟨by rw [hs.total_eq, hs.digitSum_same]; exact h.1, ?_, ?_⟩
      · rw [hl.1, hl0.1]; exact h.2.1
      · rw [hl.2, hl0.2]; exact h.2.2
    · right
      refine ⟨fun o => by rw [hs.cnt_same]; exact hset o, Or.inl ⟨?_, ?_⟩⟩
      · rw [hl.1, hl0.1]; exact h.1
      · rw [hl.2, hl0.2]; exact h.2
    · right
      refine ⟨fun o => by rw [hs.cnt_same]; exact hset o, Or.inr ⟨?_, ?_, ?_⟩⟩
      · rw [hs.total_eq, hs.digitSum_same]; exact h.1
      · rw [hl.1, h.2.1, calculateNumberFromBlocks_congr hs.c1]
      · rw [hl.2, h.2.2, calculateNumberFromBlocks_congr hs.c2]

theorem Entering.entered {s : Session} {c : Nat} (he : Entering s c) : Entered s c :=
  ⟨s, he.cursor, he.live, he.earlier, he.grouped (SameRows.refl_rows s)⟩

/-- The timer callback `setupSecondPhaseRegrouping` that runs before the
continuation of `processNextCarryStep`: the stacks of the place the cursor
has reached are regrouped before the step is computed. -/
theorem setupSecondPhaseRegrouping_entered {r : Session} {c : Nat} (he : Entering r c)
    (lab : PlaceLabel) (hidx : lab.index = c) :
    Entered (setupSecondPhaseRegrouping r (some lab)) c := by
  unfold setupSecondPhaseRegrouping setUpDragDropRows
  dsimp only
  have hgt := he.grouped (SameRows.refl_rows r)
  obtain ⟨_, hsound, _⟩ := dragDrop_rows r he.wf he.noEmpty lab
  obtain ⟨hg, -⟩ := groupIfMoreThanTen_grouped ((nextPlaceRows r (some lab)).map (fun x => x.1)) r
    hgt
    (by
      intro id hid
      obtain ⟨o, st, hst, _, hid'⟩ := hsound id hid
      rw [← hid']
      exact he.wf.fresh o st hst)
    (by
      intro id hid x hx
      obtain ⟨o, st, hst, hl, hid'⟩ := hsound id hid
      have := he.wf.findStack_of_mem hst
      rw [hid', hx] at this
      cases this
      rw [← hidx]
      exact he.wf.labelAt_of_index hst hl)
  generalize groupIfMoreThanTen r ((nextPlaceRows r (some lab)).map (fun x => x.1)) = g at hg ⊢
  have hru := updateAllRowPlaceValues_sameRows g hg.noEmpty
  have hcu := sameControl_updateAllRowPlaceValues g
  exact ⟨r, he.cursor, he.live, he.earlier,
    hg.transfer_grouped (SameRows.refl_rows r) ⟨rfl, rfl⟩ hru ⟨hcu.num1, hcu.num2⟩
      (hcu.currentStepIndex.trans hg.cursor) (hcu.surface.trans hg.surface)⟩

theorem entering_of_fresh {r s : Session} {c : Nat} (hrc : r.currentStepIndex = c)
    (hlr : LiveReady r c) (hearly : ∀ step, r.shownStep = some step → step.stepIndex < c)
    (hg : Grouped r s c) (hf : s.total (c + 1) = s.digitSum (c + 1))
    (hl : s.num1 = r.num1 ∧ s.num2 = r.num2) : Entering s c where
  cursor := hg.cursor.trans hrc
  wf := hg.wf
  noEmpty := hg.noEmpty
  shape := hg.shape
  fresh := hf
  live := hlr.transfer_ready hl.1 hl.2 hg.evolves.originalNum1 hg.evolves.originalNum2
  earlier := by
    intro step hs
    apply hearly
    unfold Session.shownStep at hs ⊢
    rw [← hg.surface]
    exact hs

/-- The step computed from live numbers that were re-read from the page after
the stacks of place `c` were regrouped: when its digits add up to 9 at most,
its carry agrees with the paper trace as the identity of the carries states,
and the live numbers carry nothing below place `c + 1`. -/
theorem stepFits_of_reread {s : Session} {c : Nat} (hw : WellFormed s) (hsh : Shape s c)
    (hcar : s.total (c + 1) = s.digitSum (c + 1) + 1)
    (hv : s.num1 = calculateNumberFromBlocks s.c1 ∧ s.num2 = calculateNumberFromBlocks s.c2)
    (hhigh : ∀ o, s.original o / 10 ^ (c + 1) ≤ s.live o / 10 ^ (c + 1))
    (step : Step) (hstep : calculateCurrentStep s c = some (some step))
    (hnum : step.digit1 + step.digit2 ≤ 9) :
    StepFits s step c ∧ s.num1 % 10 ^ (c + 1) + s.num2 % 10 ^ (c + 1) < 10 ^ (c + 1) := by
  obtain ⟨hj, hlab⟩ := calculateCurrentStep_some s c step hstep
  obtain ⟨step', hstep', hd1, hd2, hsum, hres, hcarry, htype, hsi, hpi, hpl⟩ :=
    calculateCurrentStep_eq s c hj hlab
  rw [hstep] at hstep'
  cases hstep'
  obtain ⟨hb1, hb2⟩ := calculateCurrentStep_before s c step hstep
  have hlow : s.num1 % 10 ^ (c + 1) + s.num2 % 10 ^ (c + 1) < 10 ^ (c + 1) := by
    rw [hv.1, hv.2]
    exact lt_of_le_of_lt (value_low hw (c + 1)) (hsh.nextCarried hcar).2.1
  have hsumv : s.num1 + s.num2 = s.originalNum1 + s.originalNum2 := by
    rw [hv.1, hv.2]
    exact hsh.value_sum_shape hw
  have hN := sum_div_of_low s.num1 s.num2 (c + 1) hlow
  rw [hsumv] at hN
  have hpaper := sum_div_pow s.originalNum1 s.originalNum2 (c + 1)
  have hc1 := jsOr_div s.num1 s.originalNum1 (c + 1) (hhigh .first)
  have hc2 := jsOr_div s.num2 s.originalNum2 (c + 1) (hhigh .second)
  have hco : step.carryOut = 0 := by
    rw [hcarry, hsum]
    omega
  refine ⟨⟨hpi, hsi, hpl, hj, ?_, ?_, by rw [hcarry, hsum], by rw [hres, hsum],
    by rw [htype, hsum], ?_⟩, hlow⟩
  · rw [hb1, hb2, hc1, hc2, hco]
    omega
  · rw [hco]
    exact Nat.zero_le _
  · intro hbs
    rw [hb1, hb2] at hbs
    have hlowc : s.num1 % 10 ^ c + s.num2 % 10 ^ c < 10 ^ c := by
      rw [hv.1, hv.2]
      exact lt_of_le_of_lt (value_low hw c) (hsh.nextLow hcar)
    have hB : jsOr s.num1 s.originalNum1 = s.num1 ∧ jsOr s.num2 s.originalNum2 = s.num2 := by
      unfold jsOr at hbs ⊢
      by_cases h1 : s.num1 = 0
      · by_cases h2 : s.num2 = 0
        · rw [if_pos h1, if_pos h2] at hbs ⊢
          constructor <;> omega
        · rw [if_pos h1, if_neg h2] at hbs ⊢
          constructor <;> omega
      · by_cases h2 : s.num2 = 0
        · rw [if_neg h1, if_pos h2] at hbs ⊢
          constructor <;> omega
        · rw [if_neg h1, if_neg h2]
          exact ⟨rfl, rfl⟩
    have hNc := sum_div_of_low s.num1 s.num2 c hlowc
    rw [hsumv] at hNc
    rw [hres, hsum, hd1, hd2, hB.1, hB.2, hNc]
    omega

/-- The continuation of `processNextCarryStep` on a page whose stacks of place
`c` were regrouped already: a drag-drop step is set up without regrouping, and
the set-up of a numpad step regroups the stacks of place `c + 1` that hold
ten blocks. -/
theorem resumeNextCarryStep_settled {r s : Session} {c : Nat} (hrc : r.currentStepIndex = c)
    (hlr : LiveReady r c) (hearly : ∀ step, r.shownStep = some step → step.stepIndex < c)
    (hg : Grouped r s c) (hset : ∀ o, s.cnt o c ≤ 9) (hj : c < s.placeLabels.length)
    (hph : (s.num1 = r.num1 ∧ s.num2 = r.num2) ∨
      (s.total (c + 1) = s.digitSum (c + 1) + 1 ∧
        s.num1 = calculateNumberFromBlocks s.c1 ∧ s.num2 = calculateNumberFromBlocks s.c2)) :
    Steady (resumeNextCarryStep s c) c ∨ Ahead (resumeNextCarryStep s c) c := by
  have hcur : s.currentStepIndex = c := hg.cursor.trans hrc
  obtain ⟨lab, hlabc, hidx⟩ := hg.wf.labelAt_some hj
  have hlab : labelAt s.placeLabels c ≠ none := by rw [hlabc]; exact Option.some_ne_none _
  have hsum : s.num1 + s.num2 = s.originalNum1 + s.originalNum2 := hg.sum hlr.sum
  have hhigh : ∀ o, s.original o / 10 ^ (c + 1) ≤ s.live o / 10 ^ (c + 1) := hg.high hlr.high
  obtain ⟨step, hstep, hd1, hd2, hsm, hres, hcarry, htype, hsi, hpi, hpl⟩ :=
    calculateCurrentStep_eq s c hj hlab
  have hK1 : step.digit1 + step.digit2 ≤ 9 →
      StepFits s step c ∧ s.num1 % 10 ^ (c + 1) + s.num2 % 10 ^ (c + 1) < 10 ^ (c + 1) := by
    intro hnum
    rcases hph with hl | hv
    · have hls : LiveReady s c :=
        hlr.transfer_ready hl.1 hl.2 hg.evolves.originalNum1 hg.evolves.originalNum2
      obtain ⟨step', hstep', hagree, hd1', hd2', _⟩ := stepAgrees_of_liveReady hls hj hlab
      rw [hstep] at hstep'
      cases hstep'
      refine ⟨hagree.fits, low_succ_of_digits _ _ _ hls.low ?_⟩
      rw [← hd1', ← hd2']
      exact hnum
    · exact stepFits_of_reread hg.wf hg.shape hv.1 hv.2 hhigh step hstep hnum
  have hK2 : (∃ a ∈ s.c1.placeStacks, ∃ b ∈ s.c2.placeStacks,
      a.label = some lab ∧ b.label = some lab) → StepAgrees s step c := by
    rintro ⟨a, ha, b, hb, hla, hlb⟩
    rcases hph with hl | hv
    · have hls : LiveReady s c :=
        hlr.transfer_ready hl.1 hl.2 hg.evolves.originalNum1 hg.evolves.originalNum2
      obtain ⟨step', hstep', hagree, -⟩ := stepAgrees_of_liveReady hls hj hlab
      rw [hstep] at hstep'
      cases hstep'
      exact hagree
    · exfalso
      have h0 := (hg.shape.nextCarried hv.1).1
      have ca := hg.wf.cnt_of_mem (o := .first) ha hla
      have cb := hg.wf.cnt_of_mem (o := .second) hb hlb
      rw [hidx] at ca cb
      have na := List.length_pos.mpr (hg.noEmpty .first a ha)
      have nb := List.length_pos.mpr (hg.noEmpty .second b hb)
      omega
  unfold resumeNextCarryStep
  rw [hstep]
  dsimp only
  rw [hsm] at htype
  by_cases hs10 : step.digit1 + step.digit2 ≥ 10
  · -- a drag-drop step: no stack is regrouped
    rw [if_pos hs10] at htype
    rw [htype]
    dsimp only
    unfold startDragDropStep
    have hrt := sameRows_trackStepDetails s step .dragDrop
    have hct := sameControl_trackStepDetails s step .dragDrop
    generalize trackStepDetails s step .dragDrop = t at hrt hct ⊢
    have hwt := hrt.wellFormed_rows hg.wf
    have hnt := hrt.noEmptyRows_rows hg.noEmpty
    have hpl' : step.placeLabel = some lab := hpl.trans hlabc
    rw [hpl']
    obtain ⟨_, hsound, hrows⟩ := dragDrop_rows t hwt hnt lab
    unfold setUpDragDropRows
    dsimp only
    rw [groupIfMoreThanTen_noop t _ (by
      intro id hid o a hf
      obtain ⟨o', st, hst, hl, hid'⟩ := hsound id hid
      have := hwt.findStack_of_mem hst
      rw [hid', hf] at this
      cases this
      have hcnt := hwt.cnt_of_mem hst hl
      rw [hidx, hrt.cnt_same] at hcnt
      have := hset o
      omega)]
    have hru := updateAllRowPlaceValues_sameRows t hnt
    have hcu := sameControl_updateAllRowPlaceValues t
    generalize updateAllRowPlaceValues t = u at hru hcu ⊢
    have hsu : SameRows s u := hrt.trans_rows hru
    have hsteady : ∀ surf, SurfaceOk { u with surface := surf } c surf →
        Steady { u with surface := surf } c := by
      intro surf hsurf
      have hrs : SameRows s { u with surface := surf } :=
        ⟨hsu.c1, hsu.c2, hsu.nextId, hsu.placeLabels, hsu.originalNum1, hsu.originalNum2⟩
      refine ⟨?_, hrs.wellFormed_rows hg.wf, hrs.noEmptyRows_rows hg.noEmpty,
        hrs.shape hg.shape, ?_, ?_, ?_, hsurf⟩
      · show u.currentStepIndex = c
        rw [hcu.currentStepIndex, hct.currentStepIndex]
        exact hcur
      · intro o
        rw [hrs.cnt_same]
        exact hset o
      · show u.num1 + u.num2 = u.originalNum1 + u.originalNum2
        rw [hcu.num1, hcu.num2, hct.num1, hct.num2, hsu.originalNum1, hsu.originalNum2]
        exact hsum
      · intro o
        show u.original o / 10 ^ (c + 1) ≤ u.live o / 10 ^ (c + 1)
        have hlo : u.live o = s.live o := by
          cases o
          · exact hcu.num1.trans hct.num1
          · exact hcu.num2.trans hct.num2
        rw [hlo, hsu.original_same]
        exact hhigh o
    left
    rcases hrows with hnone | ⟨a, ha, b, hb, hla, hlb, hdd⟩
    · rw [hnone, installDropHandler_none]
      have hsurfu : u.surface = r.surface := by
        rw [hcu.surface, hct.surface, hg.surface]
      have hold : SurfaceOk { u with surface := u.surface } c u.surface := by
        rw [hsurfu]
        cases hsf : r.surface with
        | idle => trivial
        | numpad st =>
          intro hc
          have := hearly st (by unfold Session.shownStep; rw [hsf])
          omega
        | dragDrop st d1 d2 =>
          intro hc
          have := hearly st (by unfold Session.shownStep; rw [hsf])
          omega
      exact hsteady u.surface hold
    · have hne : a.id ≠ b.id := hwt.ids_disjoint ha hb
      have hfa := hwt.findStack_of_mem (o := .first) ha
      have hfb := hwt.findStack_of_mem (o := .second) hb
      have hlta := hwt.fresh .first a ha
      have hltb := hwt.fresh .second b hb
      have hagree : StepAgrees s step c :=
        hK2 ⟨a, by rw [← hrt.c1]; exact ha, b, by rw [← hrt.c2]; exact hb, hla, hlb⟩
      have hagree' : ∀ surf, StepAgrees { u with surface := surf } step c := fun surf =>
        hagree.transfer hsu.placeLabels hsu.originalNum1 hsu.originalNum2
      have hfind : ∀ surf id, id = a.id ∨ id = b.id → ∀ x,
          findStack { u with surface := surf } id = some x →
            x.2.label = labelAt ({ u with surface := surf } : Session).placeLabels c := by
        intro surf id hid x hx
        have hx' : findStack t id = some x := by
          rw [← hru.findStack_eq]
          exact hx
        show x.2.label = labelAt u.placeLabels c
        rw [hsu.placeLabels, hlabc]
        rcases hid with rfl | rfl
        · rw [hfa] at hx'
          cases hx'
          exact hla
        · rw [hfb] at hx'
          cases hx'
          exact hlb
      have hnext : t.nextId = u.nextId := hru.nextId.symm
      rcases hdd with ⟨hd, hdr⟩ | ⟨hd, hdr⟩
      · rw [hd, hdr]
        exact hsteady _ (fun _ => ⟨hagree' _, hne, by rw [← hnext]; exact hlta,
          by rw [← hnext]; exact hltb, fun id hid => hfind _ id hid⟩)
      · rw [hd, hdr]
        exact hsteady _ (fun _ => ⟨hagree' _, hne.symm, by rw [← hnext]; exact hltb,
          by rw [← hnext]; exact hlta, fun id hid => hfind _ id hid.symm⟩)
  · -- a numpad step: the stacks of place `c + 1` with ten blocks are regrouped
    rw [if_neg hs10] at htype
    rw [htype]
    dsimp only
    obtain ⟨hfit, hlow⟩ := hK1 (by omega)
    unfold startNumpadStep
    have hrt := sameRows_trackStepDetails s step .numpad
    have hct := sameControl_trackStepDetails s step .numpad
    generalize trackStepDetails s step .numpad = t at hrt hct ⊢
    have hwt := hrt.wellFormed_rows hg.wf
    have hnt := hrt.noEmptyRows_rows hg.noEmpty
    have hsht : Shape t c := hrt.shape hg.shape
    have hsett : ∀ o, t.cnt o c ≤ 9 := by
      intro o
      rw [hrt.cnt_same]
      exact hset o
    have hfresh2 : t.total (c + 1 + 1) = t.digitSum (c + 1 + 1) :=
      hsht.total_above (c + 1 + 1) (Nat.le_refl _)
    have hgt1 : Grouped t t (c + 1) :=
      ⟨hwt, hnt, hsht.advance hsett, Evolves.refl_ev t, rfl, rfl, Or.inl ⟨hfresh2, rfl, rfl⟩⟩
    obtain ⟨hg1, -⟩ := groupIfMoreThanTen_grouped (fullRows t) t hgt1
      (by
        intro id hid
        obtain ⟨o, st, hst, _, hid'⟩ := mem_fullRows hid
        rw [← hid']
        exact hwt.fresh o st hst)
      (by
        intro id hid x hx
        obtain ⟨o, st, hst, h10, hid'⟩ := mem_fullRows hid
        have := hwt.findStack_of_mem hst
        rw [hid', hx] at this
        cases this
        exact full_row_at_cursor hwt hgt1.shape hfresh2 hst h10)
    generalize groupIfMoreThanTen t (fullRows t) = g at hg1 ⊢
    right
    refine ⟨?_, ⟨step, rfl, ?_⟩, ⟨{ t with surface := .numpad step }, ?_, ?_⟩⟩
    · show g.currentStepIndex = c
      rw [hg1.cursor, hct.currentStepIndex]
      exact hcur
    · exact hfit.transfer_fits (hg1.evolves.placeLabels.trans hrt.placeLabels)
        (hg1.evolves.originalNum1.trans hrt.originalNum1)
        (hg1.evolves.originalNum2.trans hrt.originalNum2)
    · refine ⟨?_, ?_, ?_⟩
      · show t.num1 + t.num2 = t.originalNum1 + t.originalNum2
        rw [hct.num1, hct.num2, hrt.originalNum1, hrt.originalNum2]
        exact hsum
      · show t.num1 % 10 ^ (c + 1) + t.num2 % 10 ^ (c + 1) < 10 ^ (c + 1)
        rw [hct.num1, hct.num2]
        exact hlow
      · intro o
        show t.original o / 10 ^ (c + 1) ≤ t.live o / 10 ^ (c + 1)
        have hlo : t.live o = s.live o := by
          cases o
          · exact hct.num1
          · exact hct.num2
        rw [hlo, hrt.original_same]
        exact hhigh o
    · exact hg1.transfer_grouped ⟨rfl, rfl, rfl, rfl, rfl, rfl⟩ ⟨rfl, rfl⟩ ⟨rfl, rfl, rfl, rfl, rfl, rfl⟩
        ⟨rfl, rfl⟩ hg1.cursor rfl

/-- The continuation of `processNextCarryStep` for the index `c`, whether or
not the timer callback has run before it: the step is set up, and the shape
of the page is that of the cursor's place or, after the set-up of a numpad
step on a page regrouped by the timer callback, that of the next place. -/
theorem resumeNextCarryStep_entered {s : Session} {c : Nat} (he : Entered s c) :
    Steady (resumeNextCarryStep s c) c ∨ Ahead (resumeNextCarryStep s c) c := by
  obtain ⟨r, hrc, hlr, hearly, hg⟩ := he
  by_cases hj : c < s.placeLabels.length
  · rcases hg.phase with h | ⟨hset, h⟩
    · left
      have hent := entering_of_fresh hrc hlr hearly hg h.1 h.2
      have hst := processNextCarryStep_steady hent
      unfold processNextCarryStep at hst
      rw [hent.cursor] at hst
      exact hst
    · exact resumeNextCarryStep_settled hrc hlr hearly hg hset hj h
  · left
    unfold resumeNextCarryStep
    rw [(calculateCurrentStep_none s c).mpr (Nat.le_of_not_lt hj)]
    dsimp only
    have hrs : SameRows s { s with surface := .idle, completed := true } :=
      ⟨rfl, rfl, rfl, rfl, rfl, rfl⟩
    refine ⟨hg.cursor.trans hrc, hrs.wellFormed_rows hg.wf, hrs.noEmptyRows_rows hg.noEmpty,
      hrs.shape hg.shape, ?_, hg.sum hlr.sum, hg.high hlr.high, trivial⟩
    intro o
    rw [hrs.cnt_same, hg.wf.cnt_beyond o (Nat.le_of_not_lt hj)]
    exact Nat.zero_le _

/-- A correct numpad entry on a page that is one place ahead moves the cursor
to that place. -/
theorem handleNumpadInput_ahead {s : Session} {c : Nat} (h : Ahead s c) (step : Step) :
    Entered (handleNumpadInput s step (step.digit1 + step.digit2)) (c + 1) := by
  obtain ⟨r, hlr, hg⟩ := h.base
  obtain ⟨st, hst, hfit⟩ := h.shown
  unfold handleNumpadInput
  dsimp only
  rw [if_pos rfl]
  have hr := updateAllRowPlaceValues_sameRows s hg.noEmpty
  have hc := sameControl_updateAllRowPlaceValues s
  generalize updateAllRowPlaceValues s = u at hr hc ⊢
  refine ⟨{ r with currentStepIndex := c + 1, surface := s.surface }, rfl,
    hlr.transfer_ready rfl rfl rfl rfl, ?_, ?_⟩
  · intro step' hs'
    have hs2 : s.shownStep = some step' := hs'
    unfold Session.shownStep at hs2
    rw [hst] at hs2
    cases hs2
    rw [hfit.stepIndex]
    exact Nat.lt_succ_self c
  · exact hg.transfer_grouped ⟨rfl, rfl, rfl, rfl, rfl, rfl⟩ ⟨rfl, rfl⟩
      ⟨hr.c1, hr.c2, hr.nextId, hr.placeLabels, hr.originalNum1, hr.originalNum2⟩
      ⟨hc.num1, hc.num2⟩
      (by
        show u.currentStepIndex + 1 = c + 1
        rw [hc.currentStepIndex, h.cursor])
      (by
        show u.surface = s.surface
        exact hc.surface)

/-- Every event that follows the page keeps the invariant of the page. -/
theorem World.step_ok {w : World} (h : WorldOk w) (e : Event) (ha : w.accepts e = true) :
    WorldOk (w.step e) := by
  cases h with
  | idle s j hs =>
    cases e with
    | press v =>
      have hcur : s.showsCursorStep = true := by
        simpa [World.accepts] using ha
      unfold World.step
      dsimp only
      cases hsurf : s.surface with
      | numpad step =>
        dsimp only
        by_cases hv : v = step.digit1 + step.digit2
        · subst hv
          rw [if_pos rfl]
          have hidx : (handleNumpadInput s step (step.digit1 + step.digit2)).currentStepIndex =
              j + 1 := by
            rw [handleNumpadInput_correct_index]
            rcases hs with h | h
            · rw [h.cursor]
            · rw [h.cursor]
          show WorldOk { session := _, pending := [.continuation _] }
          rw [hidx]
          apply WorldOk.resuming
          rcases hs with h | h
          · exact (handleNumpadInput_entering h step hsurf
              (showsCursorStep_numpad h.cursor hcur hsurf)).entered
          · exact handleNumpadInput_ahead h step
        · rw [if_neg hv]
          show WorldOk { session := handleNumpadInput s step v, pending := [] }
          rw [handleNumpadInput_wrong s step v hv]
          exact WorldOk.idle s j hs
      | dragDrop step drag drop => exact WorldOk.idle s j hs
      | idle => exact WorldOk.idle s j hs
    | drop k =>
      have hcur : s.showsCursorStep = true := by
        simpa [World.accepts] using ha
      unfold World.step
      dsimp only
      cases hsurf : s.surface with
      | numpad step => exact WorldOk.idle s j hs
      | idle => exact WorldOk.idle s j hs
      | dragDrop step drag drop =>
        dsimp only
        rcases hs with h | h
        · unfold World.dropFrom
          dsimp only
          rcases handleInteractiveRegroupingComplete_steady h hsurf
              (showsCursorStep_dragDrop h.cursor hcur hsurf) k with
            ⟨hst, ho⟩ | ⟨hent, lab2, ho, hidx, _⟩
          · rw [ho]
            exact WorldOk.idle _ j (Or.inl hst)
          · rw [ho]
            show WorldOk { session := _, pending := [.timer (some lab2), .continuation _] }
            rw [hent.cursor]
            exact WorldOk.regrouped _ (j + 1) lab2 hent hidx
        · obtain ⟨st, hst, _⟩ := h.shown
          rw [hsurf] at hst
          cases hst
    | redrop k => cases ha
    | resume n => exact WorldOk.idle s j hs
  | resuming s i he =>
    cases e with
    | press v => simp [World.accepts] at ha
    | drop k => simp [World.accepts] at ha
    | redrop k => cases ha
    | resume n =>
      cases n with
      | zero => exact WorldOk.idle _ i (resumeNextCarryStep_entered he)
      | succ n => exact WorldOk.resuming s i he
  | regrouped s i lab he hidx =>
    cases e with
    | press v => simp [World.accepts] at ha
    | drop k => simp [World.accepts] at ha
    | redrop k => cases ha
    | resume n =>
      cases n with
      | zero => exact WorldOk.resuming _ i (setupSecondPhaseRegrouping_entered he lab hidx)
      | succ n =>
        cases n with
        | zero =>
          have hst := processNextCarryStep_steady he
          unfold processNextCarryStep at hst
          rw [he.cursor] at hst
          exact WorldOk.timed _ i lab hst hidx
        | succ n => exact WorldOk.regrouped s i lab he hidx
  | timed s j lab hst hidx =>
    cases e with
    | press v => simp [World.accepts] at ha
    | drop k => simp [World.accepts] at ha
    | redrop k => cases ha
    | resume n =>
      cases n with
      | zero => exact WorldOk.idle _ j (Or.inl (setupSecondPhaseRegrouping_steady hst lab hidx))
      | succ n => exact WorldOk.timed s j lab hst hidx

theorem World.run_ok (events : List Event) {w : World} (h : WorldOk w)
    (hf : w.followsPage events = true) : WorldOk (w.run events) := by
  induction events generalizing w with
  | nil => exact h
  | cons e rest ih =>
    have hf' : (w.accepts e && World.followsPage (w.step e) rest) = true := hf
    simp only [Bool.and_eq_true] at hf'
    exact ih (World.step_ok h e hf'.1) hf'.2

/-- No event changes the place table or the original numbers. -/
theorem World.step_frame (w : World) (e : Event) :
    (w.step e).session.placeLabels = w.session.placeLabels ∧
      (w.step e).session.originalNum1 = w.session.originalNum1 ∧
      (w.step e).session.originalNum2 = w.session.originalNum2 := by
  cases e with
  | press v =>
    unfold World.step
    dsimp only
    split
    · next step _ =>
      have hp := handleNumpadInput_placeLabels w.session step v
      have ho : (handleNumpadInput w.session step v).originalNum1 = w.session.originalNum1 ∧
          (handleNumpadInput w.session step v).originalNum2 = w.session.originalNum2 := by
        unfold handleNumpadInput
        dsimp only
        split
        · exact ⟨(sameCursor_updateAllRowPlaceValues w.session).2.1,
            (sameCursor_updateAllRowPlaceValues w.session).2.2.1⟩
        · exact ⟨rfl, rfl⟩
      split
      · exact ⟨hp, ho⟩
      · exact ⟨hp, ho⟩
    · exact ⟨rfl, rfl, rfl⟩
  | drop k =>
    unfold World.step
    dsimp only
    split
    · next step drag drop _ =>
      exact ⟨(handleInteractiveRegroupingComplete_cursor w.session step drag drop k).1,
        handleInteractiveRegroupingComplete_originals w.session step drag drop k⟩
    · exact ⟨rfl, rfl, rfl⟩
  | redrop k =>
    unfold World.step
    dsimp only
    split
    · next step drag drop _ =>
      exact ⟨(handleInteractiveRegroupingComplete_cursor w.session step drop drop k).1,
        handleInteractiveRegroupingComplete_originals w.session step drop drop k⟩
    · exact ⟨rfl, rfl, rfl⟩
  | resume n =>
    unfold World.step
    dsimp only
    split
    · next callback _ =>
      cases callback with
      | continuation i =>
        have h := sameCursor_resumeNextCarryStep w.session i
        exact ⟨h.1, h.2.1, h.2.2.1⟩
      | timer nextPlace =>
        have h := sameCursor_setupSecondPhaseRegrouping w.session nextPlace
        exact ⟨h.1, h.2.1, h.2.2.1⟩
    · exact ⟨rfl, rfl, rfl⟩

theorem World.run_frame (events : List Event) (w : World) :
    (w.run events).session.placeLabels = w.session.placeLabels ∧
      (w.run events).session.originalNum1 = w.session.originalNum1 ∧
      (w.run events).session.originalNum2 = w.session.originalNum2 := by
  induction events generalizing w with
  | nil => exact ⟨rfl, rfl, rfl⟩
  | cons e rest ih =>
    obtain ⟨h1, h2, h3⟩ := ih (w.step e)
    obtain ⟨g1, g2, g3⟩ := World.step_frame w e
    exact ⟨h1.trans g1, h2.trans g2, h3.trans g3⟩

/-- On a page that keeps the invariant the live numbers add up to the original
sum. -/
theorem WorldOk.live_sum {w : World} (h : WorldOk w) :
    w.session.num1 + w.session.num2 = w.session.originalNum1 + w.session.originalNum2 := by
  cases h with
  | idle s j hs =>
    rcases hs with h | h
    · exact h.sum
    · obtain ⟨r, hlr, hg⟩ := h.base
      exact hg.sum hlr.sum
  | resuming s i he =>
    obtain ⟨r, _, hlr, _, hg⟩ := he
    exact hg.sum hlr.sum
  | regrouped s i lab he _ => exact he.live.sum
  | timed s j lab hst _ => exact hst.sum

theorem WorldOk.wellFormed {w : World} (h : WorldOk w) : WellFormed w.session := by
  cases h with
  | idle s j hs =>
    rcases hs with h | h
    · exact h.wf
    · obtain ⟨r, _, hg⟩ := h.base
      exact hg.wf
  | resuming s i he =>
    obtain ⟨r, _, _, _, hg⟩ := he
    exact hg.wf
  | regrouped s i lab he _ => exact he.wf
  | timed s j lab hst _ => exact hst.wf

theorem not_showsCursorStep_of_earlier {s : Session} {c : Nat} (hc : s.currentStepIndex = c)
    (he : ∀ step, s.shownStep = some step → step.stepIndex < c) {step : Step}
    (hs : s.shownStep = some step) : s.showsCursorStep = false := by
  have hlt := he step hs
  unfold Session.shownStep at hs
  unfold Session.showsCursorStep
  cases hsurf : s.surface with
  | idle => rw [hsurf] at hs; cases hs
  | numpad st =>
    rw [hsurf] at hs
    cases hs
    exact decide_eq_false (by omega)
  | dragDrop st d1 d2 =>
    rw [hsurf] at hs
    cases hs
    exact decide_eq_false (by omega)

/-- On a page that keeps the invariant, the step shown for the cursor's index
fits the paper trace. -/
theorem WorldOk.shown_fits {w : World} (h : WorldOk w) {step : Step}
    (hs : w.session.shownStep = some step) (hcur : w.session.showsCursorStep = true) :
    StepFits w.session step w.session.currentStepIndex := by
  cases h with
  | idle s j hs' =>
    rcases hs' with h | h
    · rw [h.cursor]
      exact (h.shown_step hs hcur).fits
    · obtain ⟨st, hst, hfit⟩ := h.shown
      have hs2 : s.shownStep = some step := hs
      unfold Session.shownStep at hs2
      rw [hst] at hs2
      cases hs2
      rw [h.cursor]
      exact hfit
  | resuming s i he =>
    obtain ⟨r, hrc, _, hearly, hg⟩ := he
    have hf := not_showsCursorStep_of_earlier (s := s) (hg.cursor.trans hrc)
      (by
        intro st hst
        apply hearly
        unfold Session.shownStep at hst ⊢
        rw [← hg.surface]
        exact hst) hs
    have hcur' : s.showsCursorStep = true := hcur
    rw [hf] at hcur'
    cases hcur'
  | regrouped s i lab he _ =>
    have hf := not_showsCursorStep_of_earlier (s := s) he.cursor he.earlier hs
    have hcur' : s.showsCursorStep = true := hcur
    rw [hf] at hcur'
    cases hcur'
  | timed s j lab hst _ =>
    rw [hst.cursor]
    exact (hst.shown_step hs hcur).fits

/-- On a page that keeps the invariant and shows a drag-drop step for the
cursor's index, the session is steady. -/
theorem WorldOk.steady_of_dragDrop {w : World} (h : WorldOk w) {step : Step} {drag drop : Nat}
    (hsurf : w.session.surface = .dragDrop step drag drop)
    (hcur : w.session.showsCursorStep = true) : Steady w.session w.session.currentStepIndex := by
  have hshown : w.session.shownStep = some step := by
    unfold Session.shownStep
    rw [hsurf]
  cases h with
  | idle s j hs =>
    rcases hs with h | h
    · rw [h.cursor]
      exact h
    · obtain ⟨st, hst, _⟩ := h.shown
      have hsurf' : s.surface = .dragDrop step drag drop := hsurf
      rw [hsurf'] at hst
      cases hst
  | resuming s i he =>
    obtain ⟨r, hrc, _, hearly, hg⟩ := he
    have hf := not_showsCursorStep_of_earlier (s := s) (hg.cursor.trans hrc)
      (by
        intro st hst
        apply hearly
        unfold Session.shownStep at hst ⊢
        rw [← hg.surface]
        exact hst) hshown
    have hcur' : s.showsCursorStep = true := hcur
    rw [hf] at hcur'
    cases hcur'
  | regrouped s i lab he _ =>
    have hf := not_showsCursorStep_of_earlier (s := s) he.cursor he.earlier hshown
    have hcur' : s.showsCursorStep = true := hcur
    rw [hf] at hcur'
    cases hcur'
  | timed s j lab hst _ =>
    rw [hst.cursor]
    exact hst

/-- A step with a carry has a next place in the table. -/
theorem StepFits.next_label {s : Session} {step : Step} {j : Nat} (h : StepFits s step j)
    (hw : WellFormed s) (hsum : step.digit1 + step.digit2 ≥ 10) :
    ∃ lab, labelAt s.placeLabels (j + 1) = some lab ∧ lab.index = j + 1 ∧
      nextPlaceOf s step = some lab := by
  have hc : 1 ≤ step.carryOut := by
    rw [h.carryOut_eq]
    omega
  have hci := le_trans hc h.carryLe
  unfold carryInto at hci
  have hpos : 0 < 10 ^ (j + 1) := Nat.pow_pos (by decide)
  have hge : 10 ^ (j + 1) ≤ s.originalNum1 % 10 ^ (j + 1) + s.originalNum2 % 10 ^ (j + 1) := by
    by_contra hlt
    rw [Nat.div_eq_of_lt (Nat.lt_of_not_le hlt)] at hci
    omega
  have hm1 := Nat.mod_le s.originalNum1 (10 ^ (j + 1))
  have hm2 := Nat.mod_le s.originalNum2 (10 ^ (j + 1))
  have hL : j + 1 < s.placeLabels.length := by
    by_contra hge2
    have : 10 ^ s.placeLabels.length ≤ 10 ^ (j + 1) :=
      Nat.pow_le_pow_right (by decide) (Nat.le_of_not_lt hge2)
    have := hw.inRange
    omega
  obtain ⟨lab2, hlab2, hidx2⟩ := hw.labelAt_some hL
  obtain ⟨lab, hlab, hidx⟩ := hw.labelAt_some h.inTable
  refine ⟨lab2, hlab2, hidx2, ?_⟩
  unfold nextPlaceOf
  rw [h.placeLabel, hlab, hw.indexOf_eq lab (by rw [hidx]; exact h.inTable), hidx]
  exact hlab2

/-- A drop that is regrouped hands the `nextPlace` of the step to the timer. -/
theorem handler_regrouped (s : Session) (step : Step) (dragged drop k : Nat)
    (x : Option PlaceLabel)
    (h : (handleInteractiveRegroupingComplete s step dragged drop k).2 = .regrouped x) :
    x = nextPlaceOf s step := by
  unfold handleInteractiveRegroupingComplete at h
  split at h
  · split at h
    · cases h
    · unfold dropOn at h
      split at h
      · cases h
        rfl
      · unfold afterMove at h
        split at h
        · cases h
        · cases h
        · split at h
          · cases h
          · cases h
  · cases h

/-- The page on which the session of a problem the table covers starts keeps
the invariant. -/
theorem startWorld_ok (n1 n2 : Nat) (h : n1 + n2 < 10 ^ 7) :
    ∃ w0, startWorld n1 n2 = some w0 ∧ WorldOk w0 ∧ w0.session.originalNum1 = n1 ∧
      w0.session.originalNum2 = n2 ∧ w0.session.placeLabels.length = tableLength n1 n2 := by
  obtain ⟨s0, hs0, hst0, hlen0⟩ := startProblem_steady n1 n2 h
  obtain ⟨ho1, ho2⟩ := startProblem_originals n1 n2 s0 hs0
  refine ⟨{ session := s0, pending := [] }, ?_, WorldOk.idle s0 0 (Or.inl hst0), ho1, ho2, hlen0⟩
  unfold startWorld
  rw [hs0]
  rfl

/-! ## The step history when callbacks run in any order -/

theorem handleNumpadInput_awaiting {s : Session} (h : Logged s) {step : Step}
    (hsurf : s.surface = .numpad step) :
    Awaiting (handleNumpadInput s step (step.digit1 + step.digit2)) := by
  constructor
  · unfold handleNumpadInput
    dsimp only
    rw [if_pos rfl]
    show ∀ k d, (updateAllRowPlaceValues s).stepDetails.get? k = some d →
      d.stepIndex = k ∧ d.placeLabel = labelAt (updateAllRowPlaceValues s).placeLabels k
    rw [(sameLog_updateAllRowPlaceValues s).stepDetails,
      (sameCursor_updateAllRowPlaceValues s).1]
    exact h.indexed
  · unfold handleNumpadInput
    dsimp only
    rw [if_pos rfl]
    show (updateAllRowPlaceValues s).stepDetails.length =
      (updateAllRowPlaceValues s).currentStepIndex + 1
    rw [(sameLog_updateAllRowPlaceValues s).stepDetails,
      (sameCursor_updateAllRowPlaceValues s).2.2.2]
    apply h.shown
    unfold Session.shownStep
    rw [hsurf]
    rfl

theorem dropFrom_worldLogged (s : Session) (step : Step) (dragged drop k : Nat) (h : Logged s)
    (hshown : s.stepDetails.length = s.currentStepIndex + 1) :
    WorldLogged (World.dropFrom { session := s, pending := [] } step dragged drop k) := by
  obtain ⟨hext, hlen⟩ := handleInteractiveRegroupingComplete_extends s step dragged drop k
  have hpl := (handleInteractiveRegroupingComplete_cursor s step dragged drop k).1
  have hidx := extends_indexed hext hlen h.indexed
  rw [← hpl] at hidx
  unfold World.dropFrom
  dsimp only
  rcases handler_cursor_of_outcome s step dragged drop k with ⟨ho, hc⟩ | ⟨ho, hc⟩
  · rw [ho]
    exact WorldLogged.idle _ ⟨hidx, by rw [hlen, hc]; exact h.lower,
      by rw [hlen, hc]; exact h.upper, fun _ => by rw [hlen, hc]; exact hshown⟩
  · have haw : Awaiting (handleInteractiveRegroupingComplete s step dragged drop k).1 :=
      ⟨hidx, by rw [hlen, hc]; exact hshown⟩
    cases ho2 : (handleInteractiveRegroupingComplete s step dragged drop k).2 with
    | incomplete advanced =>
      cases advanced with
      | false => exact absurd ho2 ho
      | true => exact WorldLogged.resuming _ haw
    | regrouped nextPlace =>
      cases nextPlace with
      | none => exact WorldLogged.resuming _ haw
      | some l => exact WorldLogged.regrouped _ (some l) haw

theorem Awaiting.resumed {s : Session} (h : Awaiting s)
    (hdef : ∀ i, i < s.placeLabels.length → labelAt s.placeLabels i ≠ none) :
    Logged (resumeNextCarryStep s s.currentStepIndex) :=
  processNextCarryStep_logged s hdef h.indexed h.length

theorem Awaiting.timed {s : Session} (h : Awaiting s) (l : Option PlaceLabel) :
    Awaiting (setupSecondPhaseRegrouping s l) where
  indexed := by
    rw [(sameLog_setupSecondPhaseRegrouping s l).stepDetails,
      (sameCursor_setupSecondPhaseRegrouping s l).1]
    exact h.indexed
  length := by
    rw [(sameLog_setupSecondPhaseRegrouping s l).stepDetails,
      (sameCursor_setupSecondPhaseRegrouping s l).2.2.2]
    exact h.length

theorem World.step_logged {w : World} (h : WorldLogged w)
    (hdef : ∀ i, i < w.session.placeLabels.length → labelAt w.session.placeLabels i ≠ none)
    (e : Event) (ha : w.waitsFor e = true) : WorldLogged (w.step e) := by
  cases h with
  | idle s hl =>
    cases e with
    | press v =>
      unfold World.step
      dsimp only
      cases hsurf : s.surface with
      | numpad step =>
        dsimp only
        by_cases hv : v = step.digit1 + step.digit2
        · subst hv
          rw [if_pos rfl]
          exact WorldLogged.resuming _ (handleNumpadInput_awaiting hl hsurf)
        · rw [if_neg hv]
          show WorldLogged { session := handleNumpadInput s step v, pending := [] }
          rw [handleNumpadInput_wrong s step v hv]
          exact WorldLogged.idle s hl
      | dragDrop step drag drop => exact WorldLogged.idle s hl
      | idle => exact WorldLogged.idle s hl
    | drop k =>
      unfold World.step
      dsimp only
      cases hsurf : s.surface with
      | numpad step => exact WorldLogged.idle s hl
      | idle => exact WorldLogged.idle s hl
      | dragDrop step drag drop =>
        exact dropFrom_worldLogged s step drag drop k hl
          (hl.shown (by unfold Session.shownStep; rw [hsurf]; rfl))
    | redrop k =>
      unfold World.step
      dsimp only
      cases hsurf : s.surface with
      | numpad step => exact WorldLogged.idle s hl
      | idle => exact WorldLogged.idle s hl
      | dragDrop step drag drop =>
        exact dropFrom_worldLogged s step drop drop k hl
          (hl.shown (by unfold Session.shownStep; rw [hsurf]; rfl))
    | resume n => exact WorldLogged.idle s hl
  | resuming s haw =>
    cases e with
    | press v => cases ha
    | drop k => cases ha
    | redrop k => cases ha
    | resume n =>
      cases n with
      | zero => exact WorldLogged.idle _ (haw.resumed hdef)
      | succ m => exact WorldLogged.resuming s haw
  | regrouped s l haw =>
    cases e with
    | press v => cases ha
    | drop k => cases ha
    | redrop k => cases ha
    | resume n =>
      cases n with
      | zero =>
        show WorldLogged ⟨setupSecondPhaseRegrouping s l, [.continuation s.currentStepIndex]⟩
        rw [← (sameCursor_setupSecondPhaseRegrouping s l).2.2.2]
        exact WorldLogged.resuming _ (haw.timed l)
      | succ m =>
        cases m with
        | zero => exact WorldLogged.timed _ l (haw.resumed hdef)
        | succ m2 => exact WorldLogged.regrouped s l haw
  | timed s l hl =>
    cases e with
    | press v => cases ha
    | drop k => cases ha
    | redrop k => cases ha
    | resume n =>
      cases n with
      | zero =>
        exact WorldLogged.idle _ (logged_of_sameLog hl (sameLog_setupSecondPhaseRegrouping s l)
          (sameCursor_setupSecondPhaseRegrouping s l))
      | succ m => exact WorldLogged.timed s l hl

theorem World.run_logged (events : List Event) {w : World} (h : WorldLogged w)
    (hdef : ∀ i, i < w.session.placeLabels.length → labelAt w.session.placeLabels i ≠ none)
    (hf : w.waits events = true) : WorldLogged (w.run events) := by
  induction events generalizing w with
  | nil => exact h
  | cons e rest ih =>
    have hf2 : (w.waitsFor e && World.waits (w.step e) rest) = true := hf
    rw [Bool.and_eq_true] at hf2
    exact ih (World.step_logged h hdef e hf2.1)
      (by rw [(World.step_frame w e).1]; exact hdef) hf2.2

theorem WorldLogged.ordered {w : World} (h : WorldLogged w) :
    (∀ k d, w.session.stepDetails.get? k = some d →
        d.stepIndex = k ∧ d.placeLabel = labelAt w.session.placeLabels k) ∧
      w.session.currentStepIndex ≤ w.session.stepDetails.length ∧
      w.session.stepDetails.length ≤ w.session.currentStepIndex + 1 ∧
      (w.pending = [] → Logged w.session) := by
  cases h with
  | idle s hl => exact ⟨hl.indexed, hl.lower, hl.upper, fun _ => hl⟩
  | resuming s haw =>
    exact ⟨haw.indexed, Nat.le_of_eq haw.length.symm,
      by rw [haw.length]; exact Nat.le_succ _, fun hp => by cases hp⟩
  | regrouped s l haw =>
    exact ⟨haw.indexed, Nat.le_of_eq haw.length.symm,
      by rw [haw.length]; exact Nat.le_succ _, fun hp => by cases hp⟩
  | timed s l hl => exact ⟨hl.indexed, hl.lower, hl.upper, fun hp => by cases hp⟩

/-! ## The engine on problems the place table covers -/

/-- C1 (amended): on every problem whose sum `originalNum1 + originalNum2` is
below `10 ^ 7` the session starts, and the live numbers add up to the original
sum, `num1 + num2 = originalNum1 + originalNum2`, after
every list of events that follow the page: the learner makes an input (a right or
wrong numpad entry, a partial drop, a drop that triggers the automatic
regrouping) only while nothing is scheduled and the page shows the step of
the cursor, and drops only blocks of the drag source row; the scheduled
callbacks (the continuation of `processNextCarryStep`, the timer callback of
`performAutomaticRegrouping`) run in any order. -/
theorem conservation_in_range (n1 n2 : Nat) (h : n1 + n2 < 10 ^ 7) :
    ∃ w0, startWorld n1 n2 = some w0 ∧
      ∀ events, w0.followsPage events = true →
        (w0.run events).session.originalNum1 = n1 ∧
          (w0.run events).session.originalNum2 = n2 ∧
          (w0.run events).session.num1 + (w0.run events).session.num2 = n1 + n2 := by
  obtain ⟨w0, hw0, hok, ho1, ho2, _⟩ := startWorld_ok n1 n2 h
  refine ⟨w0, hw0, ?_⟩
  intro events hf
  obtain ⟨_, g1, g2⟩ := World.run_frame events w0
  have hs := (World.run_ok events hok hf).live_sum
  rw [g1, g2, ho1, ho2] at hs
  exact ⟨g1.trans ho1, g2.trans ho2, hs⟩

/-- Witness of C1 (amended) on `15 + 95`: the five drops of the ones, then the
timer callback, then the continuation. -/
theorem conservation_in_range_witness :
    15 + 95 < 10 ^ 7 ∧ startWorld 15 95 = some world15 ∧
      world15.followsPage (fiveDrops ++ [.resume 0, .resume 0]) = true ∧
      ((world15.run (fiveDrops ++ [.resume 0, .resume 0])).session.num1,
        (world15.run (fiveDrops ++ [.resume 0, .resume 0])).session.num2) = (110, 0) ∧
      (world15.run (fiveDrops ++ [.resume 0, .resume 0])).session.num1 +
        (world15.run (fiveDrops ++ [.resume 0, .resume 0])).session.num2 = 15 + 95 := by
  refine ⟨by decide, by decide, by decide, by decide, ?_⟩
  obtain ⟨w0, hw0, hall⟩ := conservation_in_range 15 95 (by decide)
  have e : w0 = world15 := Option.some.inj (hw0.symm.trans (by decide))
  subst e
  exact (hall _ (by decide)).2.2

/-- When the continuation of `processNextCarryStep` runs before the timer
callback after every input, the result digit of a step the page shows for the
cursor's index is the one of the paper trace, also when `calculateCurrentStep`
took an original number for a live number `0`: on every problem whose sum is
below `10 ^ 7`, after every list of actions taken while the page shows the
step of the cursor, with blocks of the drag source row. -/
theorem result_digit_agrees_in_order (n1 n2 : Nat) (h : n1 + n2 < 10 ^ 7) :
    ∃ s0, startProblem n1 n2 = some s0 ∧
      ∀ actions, followsPage s0 actions = true →
        ∀ step, (playFrom s0 actions).shownStep = some step →
          (playFrom s0 actions).showsCursorStep = true →
          step.stepIndex = (playFrom s0 actions).currentStepIndex ∧
            step.stepIndex < (playFrom s0 actions).placeLabels.length ∧
            step.result = (step.digit1 + step.digit2) % 10 ∧
            ∃ e, (calculateAdditionSteps (playFrom s0 actions).placeLabels n1 n2).get?
                step.stepIndex = some e ∧
              step.result = e.resultDigit := by
  obtain ⟨s0, hs0, hall⟩ := playOn_steady n1 n2 h
  refine ⟨s0, hs0, ?_⟩
  intro actions hf step hshown hcur
  obtain ⟨j, hst, ho1, ho2, hlen⟩ := hall actions hf
  have ha := hst.shown_step hshown hcur
  refine ⟨ha.stepIndex.trans hst.cursor.symm, by rw [ha.stepIndex]; exact ha.inTable,
    ha.result_eq, ?_⟩
  rw [ha.stepIndex]
  obtain ⟨e, he⟩ := trace_entry_exists ha.inTable hlen
  refine ⟨e, he, ?_⟩
  rw [ha.result, ho1, ho2, (trace_get_resultDigit _ _ _ _ _ he).1]

/-- C2 (amended): on every problem whose sum is below `10 ^ 7`, after every list
of events that follow the page (the learner makes an input only while nothing
is scheduled and the page shows the step of the cursor, and drops only blocks
of the drag source row; the continuation of `processNextCarryStep` and the
timer callback of `performAutomaticRegrouping` run in any order), a step the
page shows for the cursor's index `i` is a step of a place of the table and
its `result` is `(digit1 + digit2) mod 10` on the digits it was computed from;
when it was computed from the live numbers, which is when `beforeNum1` and
`beforeNum2` add up to the original sum (`calculateCurrentStep` did not take
an original number for a live number `0`), its `result` equals `resultDigit`
of entry `i` of `calculateAdditionSteps(originalNum1, originalNum2)`. -/
theorem result_digit_agrees_in_range (n1 n2 : Nat) (h : n1 + n2 < 10 ^ 7) :
    ∃ w0, startWorld n1 n2 = some w0 ∧
      ∀ events, w0.followsPage events = true →
        ∀ step, (w0.run events).session.shownStep = some step →
          (w0.run events).session.showsCursorStep = true →
          step.stepIndex = (w0.run events).session.currentStepIndex ∧
            step.stepIndex < (w0.run events).session.placeLabels.length ∧
            step.result = (step.digit1 + step.digit2) % 10 ∧
            ∃ e, (calculateAdditionSteps (w0.run events).session.placeLabels n1 n2).get?
                step.stepIndex = some e ∧
              (step.beforeNum1 + step.beforeNum2 = n1 + n2 → step.result = e.resultDigit) := by
  obtain ⟨w0, hw0, hok, ho1, ho2, hlen0⟩ := startWorld_ok n1 n2 h
  refine ⟨w0, hw0, ?_⟩
  intro events hf step hshown hcur
  obtain ⟨g0, g1, g2⟩ := World.run_frame events w0
  have ha := (World.run_ok events hok hf).shown_fits hshown hcur
  have hlen : (calculateAdditionSteps (w0.run events).session.placeLabels n1 n2).length =
      (w0.run events).session.placeLabels.length := by
    rw [table_length_eq_trace_length, g0, hlen0]
  refine ⟨ha.stepIndex, by rw [ha.stepIndex]; exact ha.inTable, ha.result_eq, ?_⟩
  rw [ha.stepIndex]
  obtain ⟨e, he⟩ := trace_entry_exists ha.inTable hlen
  refine ⟨e, he, ?_⟩
  intro hbs
  have hr := ha.result
  rw [g1, g2, ho1, ho2] at hr
  rw [hr hbs, (trace_get_resultDigit _ _ _ _ _ he).1]

/-- Witness of C2 (amended) on `47 + 18` after the two drops of the ones, the
timer callback and the continuation: the page shows the tens step `4 + 2`,
computed from 45 and 20, with the result 6 of the paper trace. -/
theorem result_digit_agrees_in_range_witness :
    47 + 18 < 10 ^ 7 ∧ startWorld 47 18 = some world47 ∧
      world47.followsPage [.drop 0, .drop 0, .resume 0, .resume 0] = true ∧
      (world47.run [.drop 0, .drop 0, .resume 0, .resume 0]).session.showsCursorStep = true ∧
      (world47.run [.drop 0, .drop 0, .resume 0, .resume 0]).session.shownStep.map
        (fun step => (step.stepIndex, step.digit1, step.digit2, step.result, step.beforeNum1,
          step.beforeNum2)) = some (1, 4, 2, 6, 45, 20) ∧
      ∀ step, (world47.run [.drop 0, .drop 0, .resume 0, .resume 0]).session.shownStep =
          some step →
        ∃ e, (calculateAdditionSteps
            (world47.run [.drop 0, .drop 0, .resume 0, .resume 0]).session.placeLabels
            47 18).get? step.stepIndex = some e ∧
          step.result = e.resultDigit := by
  refine ⟨by decide, by decide, by decide, by decide, by decide, ?_⟩
  obtain ⟨w0, hw0, hall⟩ := result_digit_agrees_in_range 47 18 (by decide)
  have e : w0 = world47 := Option.some.inj (hw0.symm.trans (by decide))
  subst e
  intro step hstep
  obtain ⟨e, he, hres⟩ := (hall _ (by decide) step hstep (by decide)).2.2.2
  refine ⟨e, he, hres ?_⟩
  have hb : (world47.run [.drop 0, .drop 0, .resume 0, .resume 0]).session.shownStep.map
      (fun st => st.beforeNum1 + st.beforeNum2) = some (47 + 18) := by decide
  rw [hstep] at hb
  exact Option.some.inj hb

/-- C3 (amended): on every problem whose sum is below `10 ^ 7`, after
every list of events that follow the page: the learner makes an input (a right or
wrong numpad entry, a partial drop, a drop that triggers the automatic
regrouping) only while nothing is scheduled and the page shows the step of
the cursor, and drops only blocks of the drag source row; the scheduled
callbacks (the continuation of `processNextCarryStep`, the timer callback of
`performAutomaticRegrouping`) run in any order,
the `carryOut` of a step the page shows for the cursor's index `i` and the
`newCarry` of entry `i` of the paper trace of the original numbers differ by
what regrouping has already moved above place `i`:
`carryOut + floor(beforeNum1 / 10^(i+1)) + floor(beforeNum2 / 10^(i+1)) =
newCarry + floor(originalNum1 / 10^(i+1)) + floor(originalNum2 / 10^(i+1))`,
`beforeNum1` and `beforeNum2` being the numbers the step was computed from; so
`carryOut` is at most `newCarry`. -/
theorem carry_out_agrees_in_range (n1 n2 : Nat) (h : n1 + n2 < 10 ^ 7) :
    ∃ w0, startWorld n1 n2 = some w0 ∧
      ∀ events, w0.followsPage events = true →
        ∀ step, (w0.run events).session.shownStep = some step →
          (w0.run events).session.showsCursorStep = true →
          step.carryOut = (step.digit1 + step.digit2) / 10 ∧
            ∃ e, (calculateAdditionSteps (w0.run events).session.placeLabels n1 n2).get?
                step.stepIndex = some e ∧
              step.carryOut + (step.beforeNum1 / 10 ^ (step.stepIndex + 1) +
                  step.beforeNum2 / 10 ^ (step.stepIndex + 1)) =
                e.newCarry + (n1 / 10 ^ (step.stepIndex + 1) + n2 / 10 ^ (step.stepIndex + 1)) ∧
              step.carryOut ≤ e.newCarry := by
  obtain ⟨w0, hw0, hok, ho1, ho2, hlen0⟩ := startWorld_ok n1 n2 h
  refine ⟨w0, hw0, ?_⟩
  intro events hf step hshown hcur
  obtain ⟨g0, g1, g2⟩ := World.run_frame events w0
  have ha := (World.run_ok events hok hf).shown_fits hshown hcur
  have hlen : (calculateAdditionSteps (w0.run events).session.placeLabels n1 n2).length =
      (w0.run events).session.placeLabels.length := by
    rw [table_length_eq_trace_length, g0, hlen0]
  refine ⟨ha.carryOut_eq, ?_⟩
  rw [ha.stepIndex]
  obtain ⟨e, he⟩ := trace_entry_exists ha.inTable hlen
  have hc := trace_get_newCarry _ _ _ _ _ he
  have h1 := ha.carry
  have h2 := ha.carryLe
  rw [g1, g2, ho1, ho2] at h1 h2
  exact ⟨e, he, by rw [hc]; exact h1, by rw [hc]; exact h2⟩

/-- Witness of C3 (amended) on `5 + 95` after the five drops of the ones, the
timer callback and the continuation: the page shows the tens step `0 + 9`
with `carryOut` 0, computed from 100 and 95. -/
theorem carry_out_agrees_in_range_witness :
    5 + 95 < 10 ^ 7 ∧ startWorld 5 95 = some world5 ∧
      world5.followsPage (fiveDrops ++ [.resume 0, .resume 0]) = true ∧
      (world5.run (fiveDrops ++ [.resume 0, .resume 0])).session.showsCursorStep = true ∧
      (world5.run (fiveDrops ++ [.resume 0, .resume 0])).session.shownStep.map
        (fun step => (step.stepIndex, step.digit1, step.digit2, step.carryOut, step.beforeNum1,
          step.beforeNum2)) = some (1, 0, 9, 0, 100, 95) ∧
      ∀ step, (world5.run (fiveDrops ++ [.resume 0, .resume 0])).session.shownStep = some step →
        ∃ e, (calculateAdditionSteps
            (world5.run (fiveDrops ++ [.resume 0, .resume 0])).session.placeLabels
            5 95).get? step.stepIndex = some e ∧
          step.carryOut + (step.beforeNum1 / 10 ^ (step.stepIndex + 1) +
              step.beforeNum2 / 10 ^ (step.stepIndex + 1)) =
            e.newCarry + (5 / 10 ^ (step.stepIndex + 1) + 95 / 10 ^ (step.stepIndex + 1)) ∧
          step.carryOut ≤ e.newCarry := by
  refine ⟨by decide, by decide, by decide, by decide, by decide, ?_⟩
  obtain ⟨w0, hw0, hall⟩ := carry_out_agrees_in_range 5 95 (by decide)
  have e : w0 = world5 := Option.some.inj (hw0.symm.trans (by decide))
  subst e
  intro step hstep
  exact (hall _ (by decide) step hstep (by decide)).2

/-- C24 (amended): the step history is a log.  Every event - a learner input or
a scheduled callback, in any order - keeps the records at their positions:
records are only appended, only the record at the cursor's position is filled
in further (every other record is untouched), and in it `stepIndex`,
`placeLabel`, `beforeNumbers` and `actionType` never change.  A drop that
advances the cursor writes the live numbers it leaves into the `afterNumbers`
of the record at the cursor's position.  On a problem whose sum is below
`10 ^ 7`, when the learner makes every input (a numpad entry, the drop of any
block, also on a page that still shows an earlier step) while nothing is
scheduled, the callbacks running in any order, the history is in step order
after every event: record `k` has `stepIndex` `k` and the label of place `k`,
and there is a record for every completed step and at most one more; when
nothing is scheduled and the page shows a step, the last record is the one of
the cursor. -/
theorem step_history_is_a_log (n1 n2 : Nat) (h : n1 + n2 < 10 ^ 7) :
    (∀ (w : World) (e : Event),
        Extends w.session.currentStepIndex w.session.stepDetails
          (w.step e).session.stepDetails) ∧
      (∀ (s : Session) (step : Step) (drag drop k : Nat) (d : StepDetail),
        s.stepDetails.get? s.currentStepIndex = some d →
        (handleInteractiveRegroupingComplete s step drag drop k).1.currentStepIndex =
          s.currentStepIndex + 1 →
        ((handleInteractiveRegroupingComplete s step drag drop k).1.stepDetails.get?
            s.currentStepIndex).map (fun r => r.afterNumbers) =
          some (some ((handleInteractiveRegroupingComplete s step drag drop k).1.num1,
            (handleInteractiveRegroupingComplete s step drag drop k).1.num2))) ∧
      ∃ w0, startWorld n1 n2 = some w0 ∧
        ∀ events, w0.waits events = true →
          (∀ k d, (w0.run events).session.stepDetails.get? k = some d →
            d.stepIndex = k ∧ d.placeLabel = labelAt (w0.run events).session.placeLabels k) ∧
          (w0.run events).session.currentStepIndex ≤ (w0.run events).session.stepDetails.length ∧
          (w0.run events).session.stepDetails.length ≤
            (w0.run events).session.currentStepIndex + 1 ∧
          ((w0.run events).pending = [] → Logged (w0.run events).session) := by
  obtain ⟨s0, hs0, hst0, -⟩ := startProblem_steady n1 n2 h
  have hdef : ∀ i, i < s0.placeLabels.length → labelAt s0.placeLabels i ≠ none := by
    intro i hi hc
    obtain ⟨lab, hl, -⟩ := hst0.wf.labelAt_some hi
    rw [hl] at hc
    cases hc
  have hlog : Logged s0 := by
    unfold startProblem at hs0
    cases hg : generateProblem n1 n2 with
    | none => rw [hg] at hs0; cases hs0
    | some g =>
      rw [hg] at hs0
      have e : startInteractiveCarryOver g = s0 := Option.some.inj hs0
      subst e
      apply startInteractiveCarryOver_logged
      have hp : (startInteractiveCarryOver g).placeLabels = g.placeLabels :=
        (sameCursor_processNextCarryStep _).1
      rw [hp] at hdef
      exact hdef
  refine ⟨World.step_extends, handler_afterNumbers, ⟨s0, []⟩, ?_, ?_⟩
  · unfold startWorld
    rw [hs0]
    rfl
  · intro events hf
    exact (World.run_logged events (WorldLogged.idle s0 hlog) hdef hf).ordered

/-- Witness of C24 (amended) on `47 + 18`: two drops on the ones step, the timer
callback, the continuation, the entry 6 on the tens step and its
continuation. -/
theorem step_history_is_a_log_witness :
    47 + 18 < 10 ^ 7 ∧ startWorld 47 18 = some world47 ∧
      world47.waits [.drop 0, .drop 0, .resume 0, .resume 0, .press 6, .resume 0] = true ∧
      (world47.run [.drop 0, .drop 0, .resume 0, .resume 0, .press 6, .resume 0]).pending = [] ∧
      (world47.run [.drop 0, .drop 0, .resume 0, .resume 0, .press 6,
          .resume 0]).session.stepDetails.map (fun d => (d.stepIndex, d.placeLabel)) =
        [(0, some .Ones), (1, some .Tens)] ∧
      Logged (world47.run [.drop 0, .drop 0, .resume 0, .resume 0, .press 6, .resume 0]).session := by
  refine ⟨by decide, by decide, by decide, by decide, by decide, ?_⟩
  obtain ⟨w0, hw0, hall⟩ := (step_history_is_a_log 47 18 (by decide)).2.2
  have e : w0 = world47 := Option.some.inj (hw0.symm.trans (by decide))
  subst e
  exact (hall _ (by decide)).2.2.2 (by decide)

/-- C28: on every problem whose sum is below `10 ^ 7`, after
every list of events that follow the page: the learner makes an input (a right or
wrong numpad entry, a partial drop, a drop that triggers the automatic
regrouping) only while nothing is scheduled and the page shows the step of
the cursor, and drops only blocks of the drag source row; the scheduled
callbacks (the continuation of `processNextCarryStep`, the timer callback of
`performAutomaticRegrouping`) run in any order,
a step the page shows for the cursor's index `i` whose digits add up to 10 or
more has a defined label at index `i + 1` of the place table, which is the
`nextPlace` of `performAutomaticRegrouping`; and no call of the drop handler
for that step, whatever row the dropped block comes from, ends in the branch
without a next place. -/
theorem regroup_step_has_next_place (n1 n2 : Nat) (h : n1 + n2 < 10 ^ 7) :
    ∃ w0, startWorld n1 n2 = some w0 ∧
      ∀ events, w0.followsPage events = true →
        ∀ step, (w0.run events).session.shownStep = some step →
          (w0.run events).session.showsCursorStep = true →
          step.digit1 + step.digit2 ≥ 10 →
          (∃ lab, labelAt (w0.run events).session.placeLabels (step.placeIndex + 1) = some lab ∧
            nextPlaceOf (w0.run events).session step = some lab) ∧
          ∀ dragged drop k,
            (handleInteractiveRegroupingComplete (w0.run events).session step dragged drop k).2 ≠
              .regrouped none := by
  obtain ⟨w0, hw0, hok, _⟩ := startWorld_ok n1 n2 h
  refine ⟨w0, hw0, ?_⟩
  intro events hf step hshown hcur hsum
  have hrun := World.run_ok events hok hf
  have ha := hrun.shown_fits hshown hcur
  obtain ⟨lab, hlab, _, hnext⟩ := ha.next_label hrun.wellFormed hsum
  refine ⟨⟨lab, by rw [ha.placeIndex]; exact hlab, hnext⟩, ?_⟩
  intro dragged drop k hc
  have := handler_regrouped _ step dragged drop k none hc
  rw [hnext] at this
  cases this

/-- Witness of C28 on `15 + 95` after two drops of the ones step `5 + 5`. -/
theorem regroup_step_has_next_place_witness :
    15 + 95 < 10 ^ 7 ∧ startWorld 15 95 = some world15 ∧
      world15.followsPage [.drop 0, .drop 0] = true ∧
      (world15.run [.drop 0, .drop 0]).session.showsCursorStep = true ∧
      (world15.run [.drop 0, .drop 0]).session.shownStep.map
        (fun step => (step.placeIndex, step.digit1, step.digit2)) = some (0, 5, 5) ∧
      ∀ step, (world15.run [.drop 0, .drop 0]).session.shownStep = some step →
        (∃ lab, labelAt (world15.run [.drop 0, .drop 0]).session.placeLabels
            (step.placeIndex + 1) = some lab ∧
          nextPlaceOf (world15.run [.drop 0, .drop 0]).session step = some lab) ∧
        ∀ dragged drop k,
          (handleInteractiveRegroupingComplete (world15.run [.drop 0, .drop 0]).session step
            dragged drop k).2 ≠ .regrouped none := by
  refine ⟨by decide, by decide, by decide, by decide, by decide, ?_⟩
  obtain ⟨w0, hw0, hall⟩ := regroup_step_has_next_place 15 95 (by decide)
  have e : w0 = world15 := Option.some.inj (hw0.symm.trans (by decide))
  subst e
  intro step hstep
  have hd : step.digit1 + step.digit2 ≥ 10 := by
    have h1 : (world15.run [.drop 0, .drop 0]).session.shownStep.map
        (fun step => (step.digit1, step.digit2)) = some (5, 5) := by decide
    rw [hstep] at h1
    simp only [Option.map_some', Option.some.injEq, Prod.mk.injEq] at h1
    omega
  exact hall _ (by decide) step hstep (by decide) hd

/-! ## The automatic regrouping, on problems the place table covers -/

theorem handleInteractiveRegroupingComplete_regroup (s : Session) (step : Step)
    (drag drop k value : Nat) (source target : Operand) (dragRow dropRow : Stack)
    (hdrag : findStack s drag = some (source, dragRow))
    (hdrop : findStack s drop = some (target, dropRow))
    (hk : dragRow.blocks.get? k = some value) (h9 : 9 ≤ dropRow.blocks.length) :
    handleInteractiveRegroupingComplete s step drag drop k =
      (regroupDrop (trackDraggedBlock s value) step source drag k target,
        .regrouped (nextPlaceOf s step)) := by
  unfold handleInteractiveRegroupingComplete
  rw [hdrag, hdrop]
  dsimp only
  rw [hk]
  dsimp only
  unfold dropOn
  rw [if_pos h9]

/-- C8 (amended): on a problem whose sum is below `10 ^ 7`, let `s` be the
session after
every list of events that follow the page: the learner makes an input (a right or
wrong numpad entry, a partial drop, a drop that triggers the automatic
regrouping) only while nothing is scheduled and the page shows the step of
the cursor, and drops only blocks of the drag source row; the scheduled
callbacks (the continuation of `processNextCarryStep`, the timer callback of
`performAutomaticRegrouping`) run in any order,
and let the page show the drag-drop step of the cursor, at place index `i`.
A drop of block `k` of the drag source row that finds 9 or more blocks in the
target stack performs the automatic regrouping.  The target stack held
exactly 9 blocks; the dragged block (of value `10 ^ i`) and these nine leave
place `i`, the operand of the drop target gets exactly one block at place
`i + 1`, a place of the table, and no other place changes; the live numbers
are read from the page, so the operand of the drop target loses `9 * 10 ^ i`
and gains `10 ^ (i + 1)`, the other one loses `10 ^ i`, and their sum is
unchanged; the cursor advances by exactly 1. -/
theorem automatic_regrouping_in_range (n1 n2 : Nat) (h : n1 + n2 < 10 ^ 7)
    (w0 : World) (hw0 : startWorld n1 n2 = some w0) (events : List Event)
    (hf : w0.followsPage events = true) (s : Session) (hs : s = (w0.run events).session)
    (hcur : s.showsCursorStep = true) (step : Step)
    (drag drop k value : Nat) (source target : Operand) (dragRow dropRow : Stack)
    (hsurf : s.surface = .dragDrop step drag drop)
    (hdrag : findStack s drag = some (source, dragRow))
    (hdrop : findStack s drop = some (target, dropRow))
    (hk : dragRow.blocks.get? k = some value) (h9 : 9 ≤ dropRow.blocks.length) :
    ∃ r lab, handleInteractiveRegroupingComplete s step drag drop k =
        (r, .regrouped (some lab)) ∧
      labelAt s.placeLabels (step.placeIndex + 1) = some lab ∧
      step.placeIndex = s.currentStepIndex ∧
      r.currentStepIndex = s.currentStepIndex + 1 ∧
      value = 10 ^ step.placeIndex ∧ dropRow.blocks.length = 9 ∧
      s.cnt target step.placeIndex = 9 ∧ r.cnt target step.placeIndex = 0 ∧
      r.cnt source step.placeIndex + 1 = s.cnt source step.placeIndex ∧
      r.cnt target (step.placeIndex + 1) = s.cnt target (step.placeIndex + 1) + 1 ∧
      r.cnt source (step.placeIndex + 1) = s.cnt source (step.placeIndex + 1) ∧
      (∀ o p, p ≠ step.placeIndex → p ≠ step.placeIndex + 1 → r.cnt o p = s.cnt o p) ∧
      (∀ o, r.live o = calculateNumberFromBlocks (r.container o)) ∧
      calculateNumberFromBlocks (r.container target) + 9 * 10 ^ step.placeIndex =
        calculateNumberFromBlocks (s.container target) + 10 ^ (step.placeIndex + 1) ∧
      calculateNumberFromBlocks (r.container source) + 10 ^ step.placeIndex =
        calculateNumberFromBlocks (s.container source) ∧
      r.num1 + r.num2 = s.num1 + s.num2 := by
  obtain ⟨w1, hw1, hok, _⟩ := startWorld_ok n1 n2 h
  rw [hw0] at hw1
  cases hw1
  have hst0 := (World.run_ok events hok hf).steady_of_dragDrop (by rw [← hs]; exact hsurf)
    (by rw [← hs]; exact hcur)
  rw [← hs] at hst0
  obtain ⟨j, hjc⟩ : ∃ j, s.currentStepIndex = j := ⟨_, rfl⟩
  have hst : Steady s j := by rw [← hjc]; exact hst0
  have hcj := showsCursorStep_dragDrop hst.cursor hcur hsurf
  obtain ⟨lab, hidx, hj, hlj, hl1, hl2, hne, hm1, hm2, hid1, hid2, hagree, hd1, hd2, hdd⟩ :=
    hst.drop_rows hsurf hcj hdrag hdrop
  have hvalue : value = 10 ^ lab.index := hst.block_values hm1 hl1 value (List.get?_mem hk)
  have hrt := sameRows_trackDraggedBlock s value
  have hct := sameControl_trackDraggedBlock s value
  have ht := hst.transfer_steady hrt hct
  have hsurft : (trackDraggedBlock s value).surface = .dragDrop step drag drop :=
    hct.surface.trans hsurf
  have hdragt : findStack (trackDraggedBlock s value) drag = some (source, dragRow) := by
    rw [hrt.findStack_eq]; exact hdrag
  have hdropt : findStack (trackDraggedBlock s value) drop = some (target, dropRow) := by
    rw [hrt.findStack_eq]; exact hdrop
  obtain ⟨⟨lab2, hnext, hidx2⟩, hent, ⟨f1, f2, f3, f4, f5, f6⟩, hlive⟩ :=
    regroupDrop_entering ht hsurft hcj hdragt hdropt hk h9
  have hnext2 : nextPlaceOf s step = some lab2 := hnext
  have hio : nextPlaceOf s step = labelAt s.placeLabels (j + 1) := by
    unfold nextPlaceOf
    rw [hagree.placeLabel, hlj, hst.wf.indexOf_eq lab (by rw [hidx]; exact hj), hidx]
    rfl
  have heq := handleInteractiveRegroupingComplete_regroup s step drag drop k value source target
    dragRow dropRow hdrag hdrop hk h9
  rw [hnext2] at heq
  have hrpl : (regroupDrop (trackDraggedBlock s value) step source drag k target).placeLabels =
      s.placeLabels := regroupDrop_placeLabels _ _ _ _ _ _
  have hro : (regroupDrop (trackDraggedBlock s value) step source drag k target).originalNum1 =
        s.originalNum1 ∧
      (regroupDrop (trackDraggedBlock s value) step source drag k target).originalNum2 =
        s.originalNum2 := regroupDrop_originals _ _ _ _ _ _
  generalize regroupDrop (trackDraggedBlock s value) step source drag k target = r
    at heq hent f1 f2 f4 f5 f6 hlive hrpl hro
  simp only [hrt.cnt_same] at f1 f3 f4 f5 f6
  have hpi := hagree.placeIndex
  have hL : j + 1 < s.placeLabels.length := by
    by_contra hge
    rw [WellFormed.labelAt_none (Nat.le_of_not_lt hge)] at hio
    rw [hio] at hnext2
    cases hnext2
  obtain ⟨m, hm⟩ : ∃ m, s.placeLabels.length = j + 2 + m :=
    ⟨s.placeLabels.length - (j + 2), by omega⟩
  have hvs : ∀ o, calculateNumberFromBlocks (s.container o) = placeSum (s.cnt o) (j + 2 + m) :=
    fun o => hst.wf.value_eq o (Nat.le_of_eq hm)
  have hvr : ∀ o, calculateNumberFromBlocks (r.container o) = placeSum (r.cnt o) (j + 2 + m) :=
    fun o => hent.wf.value_eq o (by rw [hrpl]; exact Nat.le_of_eq hm)
  have hlen9 : dropRow.blocks.length = 9 := by
    rw [← f3, ← hidx]
    exact (hst.wf.cnt_of_mem hm2 hl2).symm
  have hsum : r.num1 + r.num2 = s.num1 + s.num2 := by
    rw [hent.live.sum, hst.sum, hro.1, hro.2]
  rw [hpi]
  refine ⟨r, lab2, heq, by rw [← hio]; exact hnext2, hst.cursor.symm, ?_, by rw [hvalue, hidx],
    hlen9, f3, f2, f1, f4, f5, f6, hlive, ?_, ?_, hsum⟩
  · rw [hent.cursor, hst.cursor]
  · rw [hvr, hvs]
    have := placeSum_shift (s.cnt target) (r.cnt target) j m 9 1 (fun p h1 h2 => f6 target p h1 h2)
      (by rw [f2, f3]) f4
    omega
  · rw [hvr, hvs]
    have := placeSum_shift (s.cnt source) (r.cnt source) j m 1 0 (fun p h1 h2 => f6 source p h1 h2)
      f1 (by omega)
    omega

/-- Witness of C8 (amended) on `47 + 18`: after one drop the target stack of
the ones holds 9 blocks, and the next drop is regrouped. -/
theorem automatic_regrouping_in_range_witness :
    47 + 18 < 10 ^ 7 ∧ startWorld 47 18 = some world47 ∧
      world47.followsPage [.drop 0] = true ∧
      (world47.run [.drop 0]).session.showsCursorStep = true ∧
      (world47.run [.drop 0]).session.surface =
        .dragDrop ((calculateCurrentStep session47 0).join.get rfl) 0 2 ∧
      findStack (world47.run [.drop 0]).session 0 =
        some (.first, { id := 0, label := some .Ones, blocks := [1, 1, 1, 1, 1, 1] }) ∧
      findStack (world47.run [.drop 0]).session 2 =
        some (.second, { id := 2, label := some .Ones, blocks := [1, 1, 1, 1, 1, 1, 1, 1, 1] }) ∧
      ∃ r lab, handleInteractiveRegroupingComplete (world47.run [.drop 0]).session
          ((calculateCurrentStep session47 0).join.get rfl) 0 2 0 = (r, .regrouped (some lab)) ∧
        labelAt (world47.run [.drop 0]).session.placeLabels
          (((calculateCurrentStep session47 0).join.get rfl).placeIndex + 1) = some lab ∧
        ((calculateCurrentStep session47 0).join.get rfl).placeIndex =
          (world47.run [.drop 0]).session.currentStepIndex ∧
        r.currentStepIndex = (world47.run [.drop 0]).session.currentStepIndex + 1 ∧
        1 = 10 ^ ((calculateCurrentStep session47 0).join.get rfl).placeIndex ∧
        ({ id := 2, label := some .Ones, blocks := [1, 1, 1, 1, 1, 1, 1, 1, 1] } : Stack).blocks.length
          = 9 ∧
        (world47.run [.drop 0]).session.cnt .second
          ((calculateCurrentStep session47 0).join.get rfl).placeIndex = 9 ∧
        r.cnt .second ((calculateCurrentStep session47 0).join.get rfl).placeIndex = 0 ∧
        r.cnt .first ((calculateCurrentStep session47 0).join.get rfl).placeIndex + 1 =
          (world47.run [.drop 0]).session.cnt .first
            ((calculateCurrentStep session47 0).join.get rfl).placeIndex ∧
        r.cnt .second (((calculateCurrentStep session47 0).join.get rfl).placeIndex + 1) =
          (world47.run [.drop 0]).session.cnt .second
            (((calculateCurrentStep session47 0).join.get rfl).placeIndex + 1) + 1 ∧
        r.cnt .first (((calculateCurrentStep session47 0).join.get rfl).placeIndex + 1) =
          (world47.run [.drop 0]).session.cnt .first
            (((calculateCurrentStep session47 0).join.get rfl).placeIndex + 1) ∧
        (∀ o p, p ≠ ((calculateCurrentStep session47 0).join.get rfl).placeIndex →
          p ≠ ((calculateCurrentStep session47 0).join.get rfl).placeIndex + 1 →
          r.cnt o p = (world47.run [.drop 0]).session.cnt o p) ∧
        (∀ o, r.live o = calculateNumberFromBlocks (r.container o)) ∧
        calculateNumberFromBlocks (r.container .second) +
            9 * 10 ^ ((calculateCurrentStep session47 0).join.get rfl).placeIndex =
          calculateNumberFromBlocks ((world47.run [.drop 0]).session.container .second) +
            10 ^ (((calculateCurrentStep session47 0).join.get rfl).placeIndex + 1) ∧
        calculateNumberFromBlocks (r.container .first) +
            10 ^ ((calculateCurrentStep session47 0).join.get rfl).placeIndex =
          calculateNumberFromBlocks ((world47.run [.drop 0]).session.container .first) ∧
        r.num1 + r.num2 =
          (world47.run [.drop 0]).session.num1 + (world47.run [.drop 0]).session.num2 :=
  ⟨by decide, by decide, by decide, by decide, by decide, by decide, by decide,
    automatic_regrouping_in_range 47 18 (by decide) world47 (by decide) [.drop 0] (by decide)
      (world47.run [.drop 0]).session rfl (by decide)
      ((calculateCurrentStep session47 0).join.get rfl) 0 2 0 1 .first .second
      { id := 0, label := some .Ones, blocks := [1, 1, 1, 1, 1, 1] }
      { id := 2, label := some .Ones, blocks := [1, 1, 1, 1, 1, 1, 1, 1, 1] }
      (by decide) (by decide) (by decide) (by decide) (by decide)⟩

/-- C29: block rendering round-trips.  With the place table of a problem whose
operands have at most 7 digits, `renderBlockStack` renders every number `num`
up to the larger operand for every list of used places that has each place
once and covers the non-zero digits of `num`: it creates, for each used place
`i` with a non-zero digit and no other, one stack of `getDigit(num, i)` blocks
of value `10 ^ i`, and `calculateNumberFromBlocks` reads `num` back from
them.  So `generateProblem` renders both operands, and the live numbers
`updateTempStateFromBlocks` reads from the fresh page are the original
numbers. -/
theorem renderBlockStack_round_trip (n1 n2 : Nat) (h1 : n1 < 10 ^ 7) (h2 : n2 < 10 ^ 7) :
    (∀ num idBase usedPlaces, num ≤ max n1 n2 → usedPlaces.Nodup →
      (∀ i, getDigit num i ≠ 0 → i ∈ usedPlaces) →
      ∃ c, renderBlockStack (renderPlaceTable n1 n2).1 (renderPlaceTable n1 n2).2 num idBase
          usedPlaces = some c ∧
        c.placeStacks = renderedStacks num idBase usedPlaces ∧
        calculateNumberFromBlocks c = num) ∧
      ∃ g, generateProblem n1 n2 = some g ∧
        calculateNumberFromBlocks g.c1 = n1 ∧ calculateNumberFromBlocks g.c2 = n2 ∧
        (updateTempStateFromBlocks g).num1 = g.originalNum1 ∧
        (updateTempStateFromBlocks g).num2 = g.originalNum2 := by
  have hmax : max n1 n2 < 10 ^ 7 := max_lt h1 h2
  have hlen : numLength (max n1 n2) ≤ 7 := (numLength_le_iff _ 7 (by norm_num)).mpr hmax
  constructor
  · intro num idBase usedPlaces hle hnd hcover
    have hnum := (numLength_spec num).2.1
    obtain ⟨c, hc, hcs⟩ := renderBlockStack_eq (renderPlaceTable n1 n2).1
      (renderPlaceTable n1 n2).2 num idBase usedPlaces (by
        intro i _ hd
        have hi : i < numLength num := lt_of_getDigit_ne_zero hnum hd
        have hi2 : i < numLength (max n1 n2) := lt_of_lt_of_le hi (numLength_mono hle)
        exact ⟨refrenceValues_isSome (by omega), renderPlaceTable_low n1 n2 hmax i hi2⟩)
    refine ⟨c, hc, hcs, ?_⟩
    unfold calculateNumberFromBlocks
    rw [hcs]
    exact renderedStacks_sum num idBase _ usedPlaces hnum hnd hcover
  · obtain ⟨g, hg, hs1, hs2, _, _, ho1, ho2, _, _⟩ := generateProblem_eq n1 n2 hmax
    have hl1 : n1 < 10 ^ numLength (max n1 n2) :=
      lt_of_le_of_lt (le_max_left n1 n2) (numLength_spec _).2.1
    have hl2 : n2 < 10 ^ numLength (max n1 n2) :=
      lt_of_le_of_lt (le_max_right n1 n2) (numLength_spec _).2.1
    have hv1 : calculateNumberFromBlocks g.c1 = n1 := by
      unfold calculateNumberFromBlocks
      rw [hs1]
      exact renderedStacks_sum n1 0 _ _ hl1 (List.nodup_range _)
        (fun i hd => List.mem_range.mpr (lt_of_getDigit_ne_zero hl1 hd))
    have hv2 : calculateNumberFromBlocks g.c2 = n2 := by
      unfold calculateNumberFromBlocks
      rw [hs2]
      exact renderedStacks_sum n2 _ _ _ hl2 (List.nodup_range _)
        (fun i hd => List.mem_range.mpr (lt_of_getDigit_ne_zero hl2 hd))
    refine ⟨g, hg, hv1, hv2, ?_, ?_⟩
    · show calculateNumberFromBlocks g.c1 = g.originalNum1
      rw [hv1, ho1]
    · show calculateNumberFromBlocks g.c2 = g.originalNum2
      rw [hv2, ho2]

/-- Witness of C29 on `19923 + 145`. -/
theorem renderBlockStack_round_trip_witness :
    19923 < 10 ^ 7 ∧ 145 < 10 ^ 7 ∧
      (∀ num idBase usedPlaces, num ≤ max 19923 145 → usedPlaces.Nodup →
        (∀ i, getDigit num i ≠ 0 → i ∈ usedPlaces) →
        ∃ c, renderBlockStack (renderPlaceTable 19923 145).1 (renderPlaceTable 19923 145).2 num
            idBase usedPlaces = some c ∧
          c.placeStacks = renderedStacks num idBase usedPlaces ∧
          calculateNumberFromBlocks c = num) ∧
      ∃ g, generateProblem 19923 145 = some g ∧
        calculateNumberFromBlocks g.c1 = 19923 ∧ calculateNumberFromBlocks g.c2 = 145 ∧
        (updateTempStateFromBlocks g).num1 = g.originalNum1 ∧
        (updateTempStateFromBlocks g).num2 = g.originalNum2 :=
  ⟨by decide, by decide, renderBlockStack_round_trip 19923 145 (by decide) (by decide)⟩

end BlockCounting

namespace SkipCounting

theorem range_succ_map (skipCount k : Nat) :
    (List.range (k + 1)).map (fun i => skipCount * (i + 1)) =
      (List.range k).map (fun i => skipCount * (i + 1)) ++ [skipCount * (k + 1)] := by
  rw [List.range_succ, List.map_append]
  rfl

theorem handleHit_capture {g : Game} {skipCount k w : Nat} (h : Counted g skipCount k w)
    (car : Car) (hc : car.isCorrect = true ∧ car.number = g.expectedNumber) :
    Counted (handleHit g car) skipCount (k + 1) w := by
  obtain ⟨h1, h2, h3, h4, h5⟩ := h
  unfold handleHit
  rw [if_pos hc]
  refine ⟨h1, ?_, ?_, ?_, h5⟩
  · show g.capturedNumbers ++ [car.number] = _
    rw [range_succ_map, h2, hc.2, h3]
  · show g.expectedNumber + g.skipCount = _
    rw [h3, h1]
    ring
  · show g.score + 10 = _
    rw [h4]
    ring

theorem handleHit_miss {g : Game} {skipCount k w : Nat} (h : Counted g skipCount k w)
    (car : Car) (hc : ¬ (car.isCorrect = true ∧ car.number = g.expectedNumber)) :
    Counted (handleHit g car) skipCount k (w + 1) := by
  obtain ⟨h1, h2, h3, h4, h5⟩ := h
  unfold handleHit
  rw [if_neg hc]
  exact ⟨h1, h2, h3, h4, by show g.wrongHits + 1 = w + 1; rw [h5]⟩

theorem handleHit_other (g : Game) (car : Car)
    (hc : ¬ (car.isCorrect = true ∧ car.number = g.expectedNumber)) :
    (handleHit g car).capturedNumbers = g.capturedNumbers ∧
      (handleHit g car).expectedNumber = g.expectedNumber ∧
      (handleHit g car).score = g.score ∧ (handleHit g car).wrongHits = g.wrongHits + 1 := by
  unfold handleHit
  rw [if_neg hc]
  exact ⟨rfl, rfl, rfl, rfl⟩

theorem checkCarCollisions_counted (frame : List (Car × Bool)) {g : Game}
    {skipCount k w : Nat} (h : Counted g skipCount k w) :
    Counted (checkCarCollisions g frame).1 skipCount (k + capturesInFrame g frame)
      (w + missesInFrame g frame) := by
  induction frame generalizing g k w with
  | nil => exact h
  | cons x rest ih =>
    obtain ⟨car, colliding⟩ := x
    show Counted (checkCarCollisions (checkCar g car colliding).1 rest).1 skipCount
      (k + ((if (!car.hit && colliding) = true ∧ car.isCorrect = true ∧
          car.number = g.expectedNumber then 1 else 0) +
        capturesInFrame (checkCar g car colliding).1 rest))
      (w + ((if (!car.hit && colliding) = true ∧
          ¬ (car.isCorrect = true ∧ car.number = g.expectedNumber) then 1 else 0) +
        missesInFrame (checkCar g car colliding).1 rest))
    by_cases hhit : (!car.hit && colliding) = true
    · have hck : (checkCar g car colliding).1 = handleHit g car := by
        unfold checkCar
        rw [if_pos hhit]
      by_cases hc : car.isCorrect = true ∧ car.number = g.expectedNumber
      · have := ih (hck ▸ handleHit_capture h car hc)
        rw [if_pos ⟨hhit, hc⟩, if_neg (fun hn => hn.2 hc)]
        rw [← Nat.add_assoc, Nat.add_zero]
        rw [Nat.zero_add]
        exact this
      · have := ih (hck ▸ handleHit_miss h car hc)
        rw [if_neg (fun hn => hc hn.2), if_pos ⟨hhit, hc⟩]
        rw [Nat.zero_add, ← Nat.add_assoc]
        exact this
    · have hck : (checkCar g car colliding).1 = g := by
        unfold checkCar
        rw [if_neg hhit]
      have := ih (hck ▸ h)
      rw [if_neg (fun hn => hhit hn.1), if_neg (fun hn => hhit hn.1)]
      rw [Nat.zero_add, Nat.zero_add]
      exact this

theorem runFrames_counted (frames : List (List (Car × Bool))) {g : Game}
    {skipCount k w : Nat} (h : Counted g skipCount k w) :
    Counted (runFrames g frames) skipCount (k + captures g frames) (w + misses g frames) := by
  induction frames generalizing g k w with
  | nil => exact h
  | cons frame rest ih =>
    show Counted (runFrames (checkCarCollisions g frame).1 rest) skipCount
      (k + (capturesInFrame g frame + captures (checkCarCollisions g frame).1 rest))
      (w + (missesInFrame g frame + misses (checkCarCollisions g frame).1 rest))
    rw [← Nat.add_assoc, ← Nat.add_assoc]
    exact ih (checkCarCollisions_counted frame h)

theorem newGame_counted (skipCount : Nat) : Counted (newGame skipCount) skipCount 0 0 :=
  ⟨rfl, rfl, by show skipCount = skipCount * (0 + 1); omega, rfl, rfl⟩

/-- C30: starting from `expectedNumber = skipCount`, score 0 and no captured
numbers, after any sequence of frames of `checkCarCollisions` the captured
numbers are `skipCount * 1, ..., skipCount * k` in that order,
`expectedNumber = skipCount * (k + 1)` and `score = 10 * k`, where `k` counts
the hits on a correct car carrying the expected number; `wrongHits` counts
the other hits, each of which leaves the three unchanged and adds exactly 1
to `wrongHits`. -/
theorem skip_counting_invariant (skipCount : Nat) (frames : List (List (Car × Bool))) :
    (runFrames (newGame skipCount) frames).capturedNumbers =
        (List.range (captures (newGame skipCount) frames)).map
          (fun i => skipCount * (i + 1)) ∧
      (runFrames (newGame skipCount) frames).expectedNumber =
        skipCount * (captures (newGame skipCount) frames + 1) ∧
      (runFrames (newGame skipCount) frames).score =
        10 * captures (newGame skipCount) frames ∧
      (runFrames (newGame skipCount) frames).wrongHits = misses (newGame skipCount) frames ∧
      ∀ (g : Game) (car : Car),
        ¬ (car.isCorrect = true ∧ car.number = g.expectedNumber) →
          (handleHit g car).capturedNumbers = g.capturedNumbers ∧
          (handleHit g car).expectedNumber = g.expectedNumber ∧
          (handleHit g car).score = g.score ∧
          (handleHit g car).wrongHits = g.wrongHits + 1 := by
  have h := runFrames_counted frames (newGame_counted skipCount)
  rw [Nat.zero_add, Nat.zero_add] at h
  exact ⟨h.2.1, h.2.2.1, h.2.2.2.1, h.2.2.2.2, handleHit_other⟩

end SkipCounting
